import Mathlib

/-!
# Utilities: arena allocator and thread group

A verification development for `jai_langauge_concepts_in_cpp/dev/modules`:
`Basic/module.hpp`, `Basic/Temp_Allocator.hpp`, `Threads/Primitives.hpp` and
`Threads/Thread_Group.hpp`.

Conventions of the embedding:

* pointers are integers, the null pointer is `0`;
* `s64` values are mathematical integers (signed overflow is undefined behaviour in the
  source and is not given a meaning here); the bitwise operators of `align_pow2` act on the
  64-bit two's complement representation;
* memory obtained from `mmap` is described by the list of live mappings, by the footer
  records stored in it and by its bytes; `mmap` never fails and returns the address chosen by
  the placement policy `mmap_address` of the virtual memory;
* threads are interleaved: a run is a sequence of actions, each either a call of the
  producer (`thread_group_start`, `thread_group_add_work`,
  `thread_group_get_completed_work`, `thread_group_shutdown`) or one step of the OS thread of
  a worker; a step of a worker runs up to its next access to shared state, and every critical
  section protected by a mutex is executed inside one step;
* a call that blocks forever in the current state, or that faults, has no result (`none`).
-/

namespace Utilities

/-! ## Basic/module.hpp -/

/-- The 64-bit pattern of an `s64`. -/
def to_u64 (x : Int) : Nat := (x % 18446744073709551616).toNat

/-- The `s64` with a given 64-bit pattern. -/
def to_s64 (n : Nat) : Int :=
  if n % 18446744073709551616 < 9223372036854775808 then ((n % 18446744073709551616 : Nat) : Int)
  else ((n % 18446744073709551616 : Nat) : Int) - 18446744073709551616

/-- The operator `&` on `s64`. -/
def s64_and (a b : Int) : Int := to_s64 (Nat.land (to_u64 a) (to_u64 b))

/-- The operator `~` on `s64`. -/
def s64_not (a : Int) : Int := to_s64 (Nat.xor (to_u64 a) 18446744073709551615)

/-- Source `align_pow2(n, align)`: `((s64)n + align - 1) & ~(align - 1)`. A pure function: it
returns the rounded value and leaves its argument alone. -/
def align_pow2 (n align : Int) : Int := s64_and (n + align - 1) (s64_not (align - 1))

/-- Source `max(a, b)`: `a >= b ? a : b`. -/
def max (a b : Int) : Int := if a ≥ b then a else b

inductive Allocator_Mode where
  | ALLOCATE
  | REALLOCATE
  | DEALLOCATE
deriving DecidableEq

structure Next_Pool_Footer where
  next_memory_base : Int := 0
  next_memory_limit : Int := 0
deriving DecidableEq

structure Temp_Allocator where
  alignment : Int := 8
  high_water_mark : Int := 0
  current_point : Int := 0
  current_memory_base : Int := 0
  current_memory_limit : Int := 0
  original_memory_base : Int := 0
  original_memory_limit : Int := 0
deriving DecidableEq

/-- Source `sizeof(Temp_Allocator::Next_Pool_Footer)`: two pointers. -/
def sizeof_Next_Pool_Footer : Int := 16

/-! ## Virtual memory -/

structure Mapping where
  base : Int
  length : Int
deriving DecidableEq

/-- The address space of the process, as far as the arena sees it: the live mappings, the
footer records and the bytes stored in them, and the placement policy of `mmap`. -/
structure Virtual_Memory where
  mmap_address : List Mapping → Int → Int
  mapped : List Mapping := []
  footers : Int → Next_Pool_Footer := fun _ => {}
  bytes : Int → Nat := fun _ => 0

/-- Source `mmap(nullptr, length, PROT_READ | PROT_WRITE, MAP_PRIVATE | MAP_ANONYMOUS, 0, 0)`:
a new zero-filled mapping at the address the placement policy chooses. -/
def mmap (vm : Virtual_Memory) (length : Int) : Int × Virtual_Memory :=
  let base := vm.mmap_address vm.mapped length
  (base,
    { vm with
      mapped := { base := base, length := length } :: vm.mapped
      footers := fun a => if base ≤ a ∧ a < base + length then {} else vm.footers a
      bytes := fun a => if base ≤ a ∧ a < base + length then 0 else vm.bytes a })

/-- Source `munmap(addr, length)`. The source only passes the base of a region it mapped, with the
region's length less the footer, which the kernel rounds up to the whole mapping. -/
def munmap (vm : Virtual_Memory) (addr : Int) (_length : Int) : Virtual_Memory :=
  { vm with mapped := vm.mapped.filter (fun m => decide (m.base ≠ addr)) }

/-- Source `memcpy(dst, src, n)` on the bytes of the address space. -/
def memcpy (vm : Virtual_Memory) (dst src n : Int) : Virtual_Memory :=
  { vm with bytes := fun a => if dst ≤ a ∧ a < dst + n then vm.bytes (src + (a - dst)) else vm.bytes a }

/-! ## Basic/Temp_Allocator.hpp -/

def DEFAULT_TEMP_ALLOCATOR_VIRTUAL_MEMORY_RESERVE : Int := 256 * 1024 * 1024

def TEMP_ALLOCATOR_PAGE_SIZE : Int := 4096

/-- A `Temp_Allocator` together with the address space it lives in. `grow_events` counts the
calls of `grow_temp`; it is not a field of the source. -/
structure Arena where
  t : Temp_Allocator := {}
  vm : Virtual_Memory
  grow_events : Nat := 0

/-- Source `init(temp, reserve)`. -/
def init (a : Arena) (reserve : Int := DEFAULT_TEMP_ALLOCATOR_VIRTUAL_MEMORY_RESERVE) : Arena :=
  let reserve := align_pow2 reserve TEMP_ALLOCATOR_PAGE_SIZE
  let (base, vm) := mmap a.vm reserve
  { a with
    vm := vm
    t := { a.t with
      original_memory_base := base
      original_memory_limit := base + reserve - sizeof_Next_Pool_Footer
      current_memory_base := base
      current_memory_limit := base + reserve - sizeof_Next_Pool_Footer
      current_point := base } }

/-- Whether a live mapping starts at `addr`. -/
def mapped_at (vm : Virtual_Memory) (addr : Int) : Bool :=
  vm.mapped.any (fun m => decide (m.base = addr))

/-- The loop of `deinit(temp)`. Reading the footer of a region that is not mapped is a fault
(`none`); every turn unmaps a live mapping, so the number of live mappings bounds the number
of turns. -/
def deinit_loop : Nat → Arena → Option Arena
  | fuel, a =>
    if a.t.original_memory_base = 0 then some a
    else
      match fuel with
      | 0 => none
      | fuel + 1 =>
        if mapped_at a.vm a.t.original_memory_base then
          let footer := a.vm.footers a.t.original_memory_limit
          let next_memory_base := footer.next_memory_base
          let next_memory_limit := footer.next_memory_limit
          let vm := munmap a.vm a.t.original_memory_base
            (a.t.original_memory_limit - a.t.original_memory_base)
          deinit_loop fuel
            { a with
              vm := vm
              t := { a.t with
                original_memory_base := next_memory_base
                original_memory_limit := next_memory_limit } }
        else none

/-- Source `deinit(temp)`. -/
def deinit (a : Arena) : Option Arena := deinit_loop a.vm.mapped.length a

/-- Source `grow_temp(temp, nbytes)`. The footer written is the one at `original_memory_limit`. -/
def grow_temp (a : Arena) (nbytes : Int) : Arena :=
  let footer_address := a.t.original_memory_limit
  let reserve := align_pow2
    ((a.t.current_memory_limit - a.t.current_memory_base + sizeof_Next_Pool_Footer) * 2)
    TEMP_ALLOCATOR_PAGE_SIZE
  let reserve := max reserve (align_pow2 nbytes TEMP_ALLOCATOR_PAGE_SIZE)
  let (base, vm) := mmap a.vm reserve
  let current_memory_base := base
  let current_memory_limit := base + reserve - sizeof_Next_Pool_Footer
  { a with
    grow_events := a.grow_events + 1
    vm := { vm with
      footers := fun p =>
        if p = footer_address then
          { next_memory_base := current_memory_base, next_memory_limit := current_memory_limit }
        else vm.footers p }
    t := { a.t with
      current_memory_base := current_memory_base
      current_memory_limit := current_memory_limit
      current_point := current_memory_base } }

/-- Source `get_unaligned(temp, nbytes)`: the pointer returned and the arena afterwards. -/
def get_unaligned (a : Arena) (nbytes : Int) : Int × Arena :=
  let a := if a.t.original_memory_base = 0 then
      init a (max (nbytes + sizeof_Next_Pool_Footer) DEFAULT_TEMP_ALLOCATOR_VIRTUAL_MEMORY_RESERVE)
    else a
  let result := a.t.current_point
  let end_point := result + nbytes
  if end_point > a.t.current_memory_limit then
    let a := grow_temp a nbytes
    let result := a.t.current_point
    let end_point := result + nbytes
    (result, { a with t := { a.t with
      current_point := end_point, high_water_mark := a.t.high_water_mark + nbytes } })
  else
    (result, { a with t := { a.t with
      current_point := end_point, high_water_mark := a.t.high_water_mark + nbytes } })

/-- Source `get(temp, nbytes)`: the pointer returned and the arena afterwards. The two statements
`align_pow2(t.current_point, t.alignment);` compute a value that the source drops. -/
def get (a : Arena) (nbytes : Int) : Int × Arena :=
  let a := if a.t.original_memory_base = 0 then
      init a (max (nbytes + sizeof_Next_Pool_Footer) DEFAULT_TEMP_ALLOCATOR_VIRTUAL_MEMORY_RESERVE)
    else a
  let _dropped := align_pow2 a.t.current_point a.t.alignment
  let result := a.t.current_point
  let end_point := result + nbytes
  if end_point > a.t.current_memory_limit then
    let a := grow_temp a nbytes
    let _dropped := align_pow2 a.t.current_point a.t.alignment
    let result := a.t.current_point
    let end_point := result + nbytes
    (result, { a with t := { a.t with
      current_point := end_point, high_water_mark := a.t.high_water_mark + nbytes } })
  else
    (result, { a with t := { a.t with
      current_point := end_point, high_water_mark := a.t.high_water_mark + nbytes } })

/-- Source `reset_temp_allocator()` on the arena of the calling thread; `none` when `deinit`
faults. -/
def reset_temp_allocator (a : Arena) : Option Arena :=
  if a.t.original_memory_base = 0 then some a
  else
    let recombined :=
      if a.t.current_memory_base ≠ a.t.original_memory_base then
        (deinit a).map (fun a => init a a.t.high_water_mark)
      else some a
    recombined.map (fun a => { a with t := { a.t with
      high_water_mark := 0, current_point := a.t.current_memory_base } })

/-- Source `temp_allocator_proc(mode, requested_size, old_size, old_memory, _)` on the arena of the
calling thread: the pointer returned and the arena afterwards. -/
def temp_allocator_proc (a : Arena) (mode : Allocator_Mode)
    (requested_size old_size old_memory : Int) : Int × Arena :=
  match mode with
  | Allocator_Mode.REALLOCATE =>
    if requested_size ≤ old_size then (old_memory, a)
    else
      let prev_data := a.t.current_point - old_size
      let remainder := requested_size - old_size
      let pool_left := a.t.current_memory_limit - a.t.current_point
      if prev_data = old_memory ∧ remainder ≤ pool_left then
        (old_memory, (get_unaligned a remainder).2)
      else
        let (result, a) := get a requested_size
        if old_memory ≠ 0 then (result, { a with vm := memcpy a.vm result old_memory old_size })
        else (result, a)
  | Allocator_Mode.ALLOCATE => get a requested_size
  | Allocator_Mode.DEALLOCATE => (0, a)

/-- The regions met by following the footers from `(base, limit)`, as `deinit` does. -/
def region_chain (vm : Virtual_Memory) : Nat → Int → Int → List Mapping
  | 0, _, _ => []
  | fuel + 1, base, limit =>
    if base = 0 then []
    else
      { base := base, length := limit - base } ::
        region_chain vm fuel (vm.footers limit).next_memory_base (vm.footers limit).next_memory_limit

/-- A sequence of `get` calls: the pointers returned, in call order, and the arena
afterwards. -/
def get_each : Arena → List Int → List Int × Arena
  | a, [] => ([], a)
  | a, n :: ns => ((get a n).1 :: (get_each (get a n).2 ns).1, (get_each (get a n).2 ns).2)

/-- The addresses `p, p + n₀, p + n₀ + n₁, ...` of blocks of sizes `n₀, n₁, ...` laid out one
after the other from `p`. -/
def consecutive : Int → List Int → List Int
  | _, [] => []
  | p, n :: ns => p :: consecutive (p + n) ns

/-- A placement policy for examples: each new mapping starts where the highest live mapping
ends, the first one at `65536`. -/
def bump_mmap_address (mapped : List Mapping) (_length : Int) : Int :=
  mapped.foldl (fun top m => max top (m.base + m.length)) 65536

/-- An arena that was never initialised, in an otherwise empty address space. -/
def fresh_arena : Arena := { vm := { mmap_address := bump_mmap_address } }

/-! ## Threads/Primitives.hpp -/

/-- A `pthread_mutex_t`: whether it is held, and whether it has been destroyed. -/
structure Mutex where
  locked : Bool := false
  destroyed : Bool := false
deriving DecidableEq

/-- A `sem_t`: its count, and whether it has been destroyed. -/
structure Semaphore where
  value : Nat := 0
  destroyed : Bool := false
deriving DecidableEq

/-- Source `init(Mutex*)`. -/
def Mutex.init (_m : Mutex) : Mutex := {}

/-- Source `destroy(Mutex*)`. -/
def Mutex.destroy (m : Mutex) : Mutex := { m with destroyed := true }

/-- Source `lock(Mutex*)`. -/
def lock (m : Mutex) : Mutex := { m with locked := true }

/-- Source `unlock(Mutex*)`. -/
def unlock (m : Mutex) : Mutex := { m with locked := false }

/-- Source `init(Semaphore*, initial_value)`. -/
def Semaphore.init (_s : Semaphore) (initial_value : Nat := 0) : Semaphore :=
  { value := initial_value }

/-- Source `destroy(Semaphore*)`. -/
def Semaphore.destroy (s : Semaphore) : Semaphore := { s with destroyed := true }

/-- Source `signal(Semaphore*)`. -/
def signal (s : Semaphore) : Semaphore := { s with value := s.value + 1 }

inductive Wait_For_Result where
  | SUCCESS
  | TIMEOUT
  | ERROR
deriving DecidableEq

/-- Source `wait_for(Semaphore*, milliseconds)` in a state where no other thread runs: it takes a
unit of the count when there is one, times out when the wait is bounded, and does not return
(`none`) when the wait is unbounded. -/
def wait_for (s : Semaphore) (milliseconds : Int := -1) : Option (Wait_For_Result × Semaphore) :=
  if 0 < s.value then some (Wait_For_Result.SUCCESS, { s with value := s.value - 1 })
  else if milliseconds < 0 then none
  else some (Wait_For_Result.TIMEOUT, s)

inductive Thread_Continue_Status where
  | STOP
  | CONTINUE
deriving DecidableEq

/-- Where the OS thread of a worker stands in `thread_entry_proc` and `thread_group_run`.
Each point names the next access to shared state. -/
inductive Program_Point where
  /-- Source `wait_for(&t.suspended_semaphore)` in `thread_entry_proc`. -/
  | suspended
  /-- Source `while (!group.should_exit)`. -/
  | loop_test
  /-- Source `wait_for(&info.available.semaphore)` of the branch `if (!entry)`. -/
  | wait_available
  /-- Source `if (group.should_exit) break;` after the wait. -/
  | woken
  /-- Source `entry = get_work(&info.available)` of the branch `if (!entry)`. -/
  | get_own
  /-- The branch `if (entry)` up to the return of `group.proc`. -/
  | run_proc
  /-- Source `add_work(&info.completed, entry)` and the test for `STOP`. -/
  | add_completed (should_continue : Thread_Continue_Status)
  /-- Source `if (t.worker_info->work_steal_indices.count)` and the exit test inside it. -/
  | steal_test
  /-- Source `entry = get_work(&info.available)` of the stealing branch. -/
  | steal_get_own
  /-- Source `wait_for(&info.available.semaphore)` of the stealing branch. -/
  | steal_wait
  /-- The loop over `work_steal_indices`, with the indices still to visit. -/
  | steal_from (rest : List Int)
  /-- Source `t.is_done = true; signal(&t.is_alive_semaphore)` in `thread_entry_proc`. -/
  | finished
  /-- The thread has returned. -/
  | exited
deriving DecidableEq

structure Thread where
  index : Int := -1
  thread_handle : Nat := 0
  is_alive_semaphore : Semaphore := {}
  suspended_semaphore : Semaphore := {}
  is_done : Bool := false
  /-- The program point of the OS thread (not a field of the source). -/
  point : Program_Point := Program_Point.suspended
  /-- The local variable `entry` of `thread_group_run`. -/
  entry : Nat := 0
  /-- The thread's `context.temp`, with the mappings the thread made. -/
  temp : Arena

/-- Source `thread_init(thread, proc)`, with `pthread_create` succeeding; `index` is the value of
`next_thread_index++`. -/
def thread_init (t : Thread) (index : Int) : Thread :=
  { t with
    is_alive_semaphore := Semaphore.init t.is_alive_semaphore
    suspended_semaphore := Semaphore.init t.suspended_semaphore
    thread_handle := 1
    index := index }

/-- Source `thread_deinit(thread)`. `pthread_join` does not return (`none`) while the thread has
not returned. -/
def thread_deinit (t : Thread) : Option Thread :=
  if t.thread_handle ≠ 0 ∧ t.point ≠ Program_Point.exited then none
  else some
    { t with
      thread_handle := 0
      is_alive_semaphore := Semaphore.destroy t.is_alive_semaphore
      suspended_semaphore := Semaphore.destroy t.suspended_semaphore
      index := -1 }

/-- Source `thread_start(thread)`. -/
def thread_start (t : Thread) : Thread :=
  { t with suspended_semaphore := signal t.suspended_semaphore }

/-- Source `thread_is_done(thread, milliseconds)`: the result and the thread afterwards. -/
def thread_is_done (t : Thread) (milliseconds : Int := 0) : Option (Bool × Thread) :=
  if t.is_done then some (true, t)
  else
    match wait_for t.is_alive_semaphore milliseconds with
    | none => none
    | some (result, s) =>
      if result ≠ Wait_For_Result.SUCCESS then some (false, { t with is_alive_semaphore := s })
      else some (true, { t with is_alive_semaphore := signal s })

/-! ## Threads/Thread_Group.hpp -/

/-- A `Work_Entry`, without `logging_name` and `issue_time`, which no function touches. -/
structure Work_Entry where
  next : Nat := 0
  work : Nat := 0
  thread_index : Int := 0
  work_list_index : Int := -1
deriving DecidableEq

structure Work_List where
  semaphore : Semaphore := {}
  mutex : Mutex := {}
  first : Nat := 0
  last : Nat := 0
  count : Int := 0
deriving DecidableEq

/-- The memory holding the `Work_Entry` objects, by address. -/
abbrev Entry_Memory := Nat → Work_Entry

/-- Writing the entry at address `p`. -/
def store (m : Entry_Memory) (p : Nat) (e : Work_Entry) : Entry_Memory :=
  fun q => if q = p then e else m q

/-- Source `init_work_list(list)`. -/
def init_work_list (l : Work_List) : Work_List :=
  { l with semaphore := Semaphore.init l.semaphore, mutex := Mutex.init l.mutex }

/-- Source `deinit_work_list(list)`. -/
def deinit_work_list (l : Work_List) : Work_List :=
  { l with semaphore := Semaphore.destroy l.semaphore, mutex := Mutex.destroy l.mutex }

/-- Source `add_work(list, entry)`: the memory and the list afterwards. -/
def add_work (m : Entry_Memory) (l : Work_List) (entry : Nat) : Entry_Memory × Work_List :=
  let l := { l with mutex := lock l.mutex }
  let m := if l.last ≠ 0 then store m l.last { m l.last with next := entry } else m
  let l := if l.last ≠ 0 then l else { l with first := entry }
  let l := { l with last := entry }
  let l := { l with count := l.count + 1 }
  let l := { l with mutex := unlock l.mutex }
  (m, { l with semaphore := signal l.semaphore })

/-- Source `get_work(list)`: the entry returned (null when the list is empty) and the list
afterwards. -/
def get_work (m : Entry_Memory) (l : Work_List) : Nat × Work_List :=
  let l := { l with mutex := lock l.mutex }
  if l.first = 0 then (0, { l with mutex := unlock l.mutex })
  else
    let result := l.first
    let l := { l with first := (m result).next }
    let l := if l.first = 0 then { l with last := 0 } else l
    let l := { l with count := l.count - 1 }
    (result, { l with mutex := unlock l.mutex })

/-- A `Worker_Info`, without the pointer to the group. `work_steal_indices_released` records
`dealloc(wi.work_steal_indices.data)`. -/
structure Worker_Info where
  thread : Thread
  available : Work_List := {}
  completed : Work_List := {}
  worker_index : Int := -1
  work_steal_indices : List Int := []
  work_steal_indices_released : Bool := false

/-- The callback `group.proc(&group, thread, e.work)`: from the index of the thread, the
payload and the thread's arena to the status returned and the arena afterwards. -/
abbrev Thread_Group_Proc := Int → Nat → Arena → Thread_Continue_Status × Arena

/-- A `Thread_Group`. `worker_info_released` records `dealloc(g.worker_info_data_to_free)`. -/
structure Thread_Group where
  proc : Option Thread_Group_Proc := none
  worker_info : List Worker_Info := []
  worker_info_released : Bool := false
  next_worker_index : Int := 0
  initted : Bool := false
  started : Bool := false
  should_exit : Bool := false

/-- The state of the process: the group, the memory of the work entries with the blocks the
group's allocator has handed out and not yet taken back, the choice the allocator makes for a
new block given the live ones, the placement policy of `mmap`, and `next_thread_index`. -/
structure World where
  group : Thread_Group := {}
  memory : Entry_Memory := fun _ => {}
  live : List Nat := []
  new_address : List Nat → Nat
  mmap_address : List Mapping → Int → Int
  next_thread_index : Int := 1

/-- The worker `group.worker_info[i]`, when `i` is inside the array. -/
def worker_at (g : Thread_Group) (i : Int) : Option Worker_Info :=
  if 0 ≤ i then g.worker_info[i.toNat]? else none

/-- Writing `group.worker_info[i]`. -/
def put_worker (w : World) (i : Nat) (wi : Worker_Info) : World :=
  { w with group := { w.group with worker_info := w.group.worker_info.set i wi } }

/-- The loop filling `indices` in `thread_group_init`: `turns` entries from `cursor`. -/
def steal_ring : Nat → Int → Int → List Int
  | 0, _, _ => []
  | turns + 1, cursor, num_threads =>
    cursor :: steal_ring turns ((cursor + 1) % num_threads) num_threads

/-- The body of the loop over `g.worker_info` in `thread_group_init`, for the worker at
`current_worker_index`. -/
def worker_init (w : World) (num_threads : Int) (enable_work_stealing : Bool)
    (current_worker_index : Nat) : Worker_Info :=
  { thread := thread_init { temp := { vm := { mmap_address := w.mmap_address } } }
      (w.next_thread_index + current_worker_index)
    available := init_work_list {}
    completed := init_work_list {}
    worker_index := current_worker_index
    work_steal_indices :=
      if enable_work_stealing ∧ num_threads > 1 then
        steal_ring (num_threads - 1).toNat ((current_worker_index + 1) % num_threads) num_threads
      else [] }

/-- Source `thread_group_init(group, num_threads, group_proc, enable_work_stealing)`. -/
def thread_group_init (w : World) (num_threads : Int) (group_proc : Option Thread_Group_Proc)
    (enable_work_stealing : Bool := false) : World :=
  { w with
    next_thread_index := w.next_thread_index + num_threads.toNat
    group := { w.group with
      worker_info :=
        (List.range num_threads.toNat).map (worker_init w num_threads enable_work_stealing)
      worker_info_released := false
      proc := group_proc
      initted := true } }

/-- Source `thread_group_start(group)`. -/
def thread_group_start (w : World) : World :=
  { w with group := { w.group with
      worker_info := w.group.worker_info.map
        (fun wi => { wi with thread := thread_start wi.thread })
      started := true } }

/-- Source `New<Work_Entry>()` under the group's allocator: a default-constructed entry in a block
the allocator chooses. -/
def New_Work_Entry (w : World) : Nat × World :=
  let entry := w.new_address w.live
  (entry, { w with memory := store w.memory entry {}, live := entry :: w.live })

/-- Source `thread_group_add_work(group, work)`. Indexing outside `worker_info` is undefined in the
source; here the entry is then not queued. -/
def thread_group_add_work (w : World) (work : Nat) : World :=
  let (entry, w) := New_Work_Entry w
  let w := { w with memory := store w.memory entry { w.memory entry with work := work } }
  let thread_index := w.group.next_worker_index
  let next_worker_index := thread_index + 1
  let next_worker_index :=
    if next_worker_index ≥ w.group.worker_info.length then 0 else next_worker_index
  let w := { w with group := { w.group with next_worker_index := next_worker_index } }
  let w := { w with
    memory := store w.memory entry { w.memory entry with work_list_index := thread_index } }
  match worker_at w.group thread_index with
  | none => w
  | some wi =>
    let (m, list) := add_work w.memory wi.available entry
    put_worker { w with memory := m } thread_index.toNat { wi with available := list }

/-- The loop `while(completed)` of `thread_group_get_completed_work`. Releasing a block that
is not live is a fault (`none`); every turn releases a live block, so the number of live
blocks bounds the number of turns. -/
def collect_completed : Nat → World → Nat → List Nat → Option (List Nat × World)
  | fuel, w, completed, results =>
    if completed = 0 then some (results, w)
    else
      match fuel with
      | 0 => none
      | fuel + 1 =>
        if completed ∈ w.live then
          let results := results ++ [(w.memory completed).work]
          let next := (w.memory completed).next
          collect_completed fuel { w with live := w.live.erase completed } next results
        else none

/-- The body of the loop over `g.worker_info` in `thread_group_get_completed_work`, for the
worker at index `i`. Here `results` is the list of the items passed to `array_add`; the
array in the arena is in `get_completed_work_of_in_arena`. -/
def get_completed_work_of (w : World) (results : List Nat) (i : Nat) :
    Option (List Nat × World) :=
  match w.group.worker_info[i]? with
  | none => some (results, w)
  | some wi =>
    let list := { wi.completed with mutex := lock wi.completed.mutex }
    let completed := list.first
    let list := if list.first ≠ 0 then { list with first := 0, last := 0, count := 0 } else list
    let list := { list with mutex := unlock list.mutex }
    let w := put_worker w i { wi with completed := list }
    if completed = 0 then some (results, w)
    else collect_completed w.live.length w completed results

/-- The loop over `g.worker_info` in `thread_group_get_completed_work`, for the workers at
the given indices. -/
def get_completed_work_loop : List Nat → World → List Nat → Option (List Nat × World)
  | [], w, results => some (results, w)
  | i :: rest, w, results =>
    match get_completed_work_of w results i with
    | none => none
    | some (results, w) => get_completed_work_loop rest w results

/-- The traversal of source `thread_group_get_completed_work(group)`: the payloads of the
entries it takes off the completed lists, in the order in which it passes them to `array_add`,
and the state afterwards. The array the source builds from them in the arena of the calling
thread and returns is `thread_group_get_completed_work_in_arena`. -/
def thread_group_get_completed_work (w : World) : Option (List Nat × World) :=
  get_completed_work_loop (List.range w.group.worker_info.length) w []

/-- The loop of `thread_group_shutdown` that calls `thread_is_done` on every worker, for the
workers at the given indices: `all_done` and the state afterwards. `elapsed` is the reading
of the clock, in milliseconds since `start`, at each worker. -/
def shutdown_join_loop (timeout_milliseconds : Int) (elapsed : Nat → Int) :
    List Nat → World → Int → Bool → Option (Bool × World)
  | [], w, _, all_done => some (all_done, w)
  | i :: rest, w, remaining_timeout_ms, all_done =>
    match w.group.worker_info[i]? with
    | none => shutdown_join_loop timeout_milliseconds elapsed rest w remaining_timeout_ms all_done
    | some wi =>
      let remaining_timeout_ms :=
        if remaining_timeout_ms > 0 then
          if timeout_milliseconds - elapsed i < 0 then 0 else timeout_milliseconds - elapsed i
        else remaining_timeout_ms
      match thread_is_done wi.thread remaining_timeout_ms with
      | none => none
      | some (is_done, t) =>
        shutdown_join_loop timeout_milliseconds elapsed rest
          (put_worker w i { wi with thread := t }) remaining_timeout_ms
          (if is_done then all_done else false)

/-- The loop of `thread_group_shutdown` that releases the workers, for the workers at the
given indices. `deinit_work_list` is called on `info.available` both times. -/
def shutdown_release_loop : List Nat → World → Option World
  | [], w => some w
  | i :: rest, w =>
    match w.group.worker_info[i]? with
    | none => shutdown_release_loop rest w
    | some wi =>
      match thread_deinit wi.thread with
      | none => none
      | some t =>
        let wi := { wi with thread := t }
        let wi := { wi with available := deinit_work_list wi.available }
        let wi := { wi with available := deinit_work_list wi.available }
        let wi := { wi with work_steal_indices_released := true }
        shutdown_release_loop rest (put_worker w i wi)

/-- Source `thread_group_shutdown(group, timeout_milliseconds)`: the result and the state
afterwards, `none` when the call does not return. No statement of the function assigns
`should_exit`. -/
def thread_group_shutdown (w : World) (timeout_milliseconds : Int := -1)
    (elapsed : Nat → Int := fun _ => 0) : Option (Bool × World) :=
  let indices := List.range w.group.worker_info.length
  let joined :=
    if w.group.started then
      let w := { w with group := { w.group with
        worker_info := w.group.worker_info.map (fun wi =>
          { wi with available := { wi.available with semaphore := signal wi.available.semaphore } }) } }
      shutdown_join_loop timeout_milliseconds elapsed indices w timeout_milliseconds true
    else some (true, w)
  match joined with
  | none => none
  | some (all_done, w) =>
    if ¬ all_done then some (false, w)
    else
      match shutdown_release_loop indices w with
      | none => none
      | some w => some (true, { w with group := { w.group with worker_info_released := true } })

/-- The `defer { reset_temp_allocator(); }` of a pass through the loop of
`thread_group_run`. -/
def end_of_pass (t : Thread) : Option Thread :=
  (reset_temp_allocator t.temp).map (fun a => { t with temp := a })

/-- One step of the OS thread of the worker at index `i`, through `thread_entry_proc` and
`thread_group_run`: `none` when the thread is blocked, has returned, or faults. -/
def thread_step (w : World) (i : Nat) : Option World :=
  match w.group.worker_info[i]? with
  | none => none
  | some wi =>
    let t := wi.thread
    match t.point with
    | Program_Point.suspended =>
      (wait_for t.suspended_semaphore).map (fun r =>
        put_worker w i { wi with thread := { t with
          suspended_semaphore := r.2, point := Program_Point.loop_test, entry := 0 } })
    | Program_Point.loop_test =>
      if w.group.should_exit then
        some (put_worker w i { wi with thread := { t with point := Program_Point.finished } })
      else if t.entry = 0 then
        some (put_worker w i { wi with thread := { t with point := Program_Point.wait_available } })
      else
        some (put_worker w i { wi with thread := { t with point := Program_Point.run_proc } })
    | Program_Point.wait_available =>
      (wait_for wi.available.semaphore).map (fun r =>
        put_worker w i { wi with
          available := { wi.available with semaphore := r.2 }
          thread := { t with point := Program_Point.woken } })
    | Program_Point.woken =>
      if w.group.should_exit then
        (end_of_pass t).map (fun t =>
          put_worker w i { wi with thread := { t with point := Program_Point.finished } })
      else
        some (put_worker w i { wi with thread := { t with point := Program_Point.get_own } })
    | Program_Point.get_own =>
      let (entry, list) := get_work w.memory wi.available
      some (put_worker w i { wi with
        available := list
        thread := { t with
          entry := entry
          point := if entry ≠ 0 then Program_Point.run_proc else Program_Point.steal_test } })
    | Program_Point.run_proc =>
      let m := store w.memory t.entry { w.memory t.entry with thread_index := t.index }
      let m := store m t.entry { m t.entry with next := 0 }
      let (should_continue, temp) :=
        match w.group.proc with
        | some proc => proc t.index (m t.entry).work t.temp
        | none => (Thread_Continue_Status.CONTINUE, t.temp)
      some (put_worker { w with memory := m } i { wi with thread := { t with
        temp := temp, point := Program_Point.add_completed should_continue } })
    | Program_Point.add_completed should_continue =>
      let (m, list) := add_work w.memory wi.completed t.entry
      if should_continue = Thread_Continue_Status.STOP then
        (end_of_pass t).map (fun t =>
          put_worker { w with memory := m } i { wi with
            completed := list, thread := { t with point := Program_Point.finished } })
      else
        some (put_worker { w with memory := m } i { wi with
          completed := list, thread := { t with point := Program_Point.steal_test } })
    | Program_Point.steal_test =>
      if wi.work_steal_indices.length ≠ 0 then
        if w.group.should_exit then
          (end_of_pass t).map (fun t =>
            put_worker w i { wi with thread := { t with point := Program_Point.finished } })
        else
          some (put_worker w i { wi with thread := { t with point := Program_Point.steal_get_own } })
      else
        (end_of_pass t).map (fun t =>
          put_worker w i { wi with thread := { t with
            entry := 0, point := Program_Point.loop_test } })
    | Program_Point.steal_get_own =>
      let (entry, list) := get_work w.memory wi.available
      some (put_worker w i { wi with
        available := list
        thread := { t with
          entry := entry
          point := if entry ≠ 0 then Program_Point.steal_wait
            else Program_Point.steal_from wi.work_steal_indices } })
    | Program_Point.steal_wait =>
      match wait_for wi.available.semaphore, end_of_pass t with
      | some r, some t =>
        some (put_worker w i { wi with
          available := { wi.available with semaphore := r.2 }
          thread := { t with point := Program_Point.loop_test } })
      | _, _ => none
    | Program_Point.steal_from [] =>
      (end_of_pass t).map (fun t =>
        put_worker w i { wi with thread := { t with point := Program_Point.loop_test } })
    | Program_Point.steal_from (j :: rest) =>
      match worker_at w.group j with
      | none => none
      | some peer =>
        let (entry, list) := get_work w.memory peer.available
        let w := put_worker w j.toNat { peer with available := list }
        match w.group.worker_info[i]? with
        | none => none
        | some wi =>
          if entry ≠ 0 then
            (end_of_pass wi.thread).map (fun t =>
              put_worker w i { wi with thread := { t with
                entry := entry, point := Program_Point.loop_test } })
          else
            some (put_worker w i { wi with thread := { wi.thread with
              entry := entry, point := Program_Point.steal_from rest } })
    | Program_Point.finished =>
      some (put_worker w i { wi with thread := { t with
        is_done := true
        is_alive_semaphore := signal t.is_alive_semaphore
        point := Program_Point.exited } })
    | Program_Point.exited => none

/-! ## Basic/Array.hpp, for arrays of pointers in the arena of the calling thread -/

/-- A `Resizable_Array<void*>` whose allocator is `context.temp_allocator`. -/
structure Resizable_Array where
  count : Int := 0
  data : Int := 0
  allocated : Int := 0
deriving DecidableEq

/-- Writing a pointer (eight bytes, least significant first) at `address`. The write is not
checked against the live mappings. -/
def store_pointer (vm : Virtual_Memory) (address : Int) (value : Nat) : Virtual_Memory :=
  { vm with bytes := fun a =>
      if address ≤ a ∧ a < address + 8 then value / 256 ^ (a - address).toNat % 256
      else vm.bytes a }

/-- Reading the pointer (eight bytes, least significant first) at `address`. -/
def load_pointer (vm : Virtual_Memory) (address : Int) : Nat :=
  (List.range 8).foldr (fun k rest => vm.bytes (address + k) + 256 * rest) 0

/-- Source `array_reserve_nonpoly(arr, desired_items, size)` under the temp allocator: the request
is `realloc(a.data, desired_items + size, a.allocated + size)`. -/
def array_reserve_nonpoly (a : Arena) (arr : Resizable_Array) (desired_items size : Int) :
    Resizable_Array × Arena :=
  if desired_items ≤ arr.allocated then (arr, a)
  else
    let (data, a) := temp_allocator_proc a Allocator_Mode.REALLOCATE
      (desired_items + size) (arr.allocated + size) arr.data
    ({ arr with data := data, allocated := desired_items }, a)

/-- Source `array_reserve(arr, desired_items)` for an array of pointers. -/
def array_reserve (a : Arena) (arr : Resizable_Array) (desired_items : Int) :
    Resizable_Array × Arena :=
  array_reserve_nonpoly a arr desired_items 8

/-- Source `maybe_grow(arr)` for an array of pointers. -/
def maybe_grow (a : Arena) (arr : Resizable_Array) : Resizable_Array × Arena :=
  if arr.count ≥ arr.allocated then
    let reserve := arr.allocated * 2
    let reserve := if reserve < 8 then 8 else reserve
    array_reserve_nonpoly a arr reserve 8
  else (arr, a)

/-- Source `array_add(arr, item)` for an array of pointers. -/
def array_add (a : Arena) (arr : Resizable_Array) (item : Nat) : Resizable_Array × Arena :=
  let (arr, a) := maybe_grow a arr
  ({ arr with count := arr.count + 1 },
    { a with vm := store_pointer a.vm (arr.data + 8 * arr.count) item })

/-- The elements of an `Array_View<void*>` with the given `count` and `data`. -/
def array_elements (vm : Virtual_Memory) (count data : Int) : List Nat :=
  (List.range count.toNat).map (fun k => load_pointer vm (data + 8 * k))

/-- The loop `while(completed)` of `thread_group_get_completed_work`, with the array of the
results in the arena of the calling thread. -/
def collect_completed_in_arena :
    Nat → World → Arena → Resizable_Array → Nat → Option (Resizable_Array × Arena × World)
  | fuel, w, temp, results, completed =>
    if completed = 0 then some (results, temp, w)
    else
      match fuel with
      | 0 => none
      | fuel + 1 =>
        if completed ∈ w.live then
          let (results, temp) := array_add temp results (w.memory completed).work
          let next := (w.memory completed).next
          collect_completed_in_arena fuel { w with live := w.live.erase completed } temp results
            next
        else none

/-- The body of the loop over `g.worker_info` in `thread_group_get_completed_work`, for the
worker at index `i`, with the array of the results in the arena of the calling thread. -/
def get_completed_work_of_in_arena (w : World) (temp : Arena) (results : Resizable_Array)
    (i : Nat) : Option (Resizable_Array × Arena × World) :=
  match w.group.worker_info[i]? with
  | none => some (results, temp, w)
  | some wi =>
    let list := { wi.completed with mutex := lock wi.completed.mutex }
    let count := list.count
    let completed := list.first
    let list := if list.first ≠ 0 then { list with first := 0, last := 0, count := 0 } else list
    let list := { list with mutex := unlock list.mutex }
    let w := put_worker w i { wi with completed := list }
    if completed = 0 then some (results, temp, w)
    else
      let (results, temp) := array_reserve temp results (results.count + count)
      collect_completed_in_arena w.live.length w temp results completed

/-- The loop over `g.worker_info` in `thread_group_get_completed_work`, for the workers at
the given indices, with the array of the results in the arena of the calling thread. -/
def get_completed_work_loop_in_arena :
    List Nat → World → Arena → Resizable_Array → Option (Resizable_Array × Arena × World)
  | [], w, temp, results => some (results, temp, w)
  | i :: rest, w, temp, results =>
    match get_completed_work_of_in_arena w temp results i with
    | none => none
    | some (results, temp, w) => get_completed_work_loop_in_arena rest w temp results

/-- Source `thread_group_get_completed_work(group)` with the array of the results in `temp`,
the arena of the calling thread: the array returned, the arena and the state afterwards. -/
def thread_group_get_completed_work_in_arena (w : World) (temp : Arena) :
    Option (Resizable_Array × Arena × World) :=
  get_completed_work_loop_in_arena (List.range w.group.worker_info.length) w temp {}


/-! ## Runs of the producer and the workers -/

/-- What can happen next: a call of the producer, or a step of a worker's thread. -/
inductive Action where
  | start
  | add_work (work : Nat)
  | get_completed_work
  | shutdown (timeout_milliseconds : Int)
  | worker (i : Nat)
deriving DecidableEq

/-- A state of the process with the temp arena of the calling thread, in which
`thread_group_get_completed_work` builds the array it returns, and the history of the
producer's calls, each in call order: the payloads passed to `thread_group_add_work`
(`submitted`), the elements of the arrays returned by `thread_group_get_completed_work`, read
when each call returns (`returned`), the payloads of the entries these calls took off the
completed lists, which are the items they passed to `array_add` (`taken`), and the results of
`thread_group_shutdown`. -/
structure Run where
  world : World
  temp : Arena := fresh_arena
  submitted : List Nat := []
  returned : List Nat := []
  taken : List Nat := []
  shutdowns : List Bool := []

/-- One action on a run; `none` when the action cannot complete in the current state. A call
of the producer is one action: the workers see its effect on a list only through the critical
section of that list. `thread_group_get_completed_work` builds the array it returns in the
temp arena of the calling thread. -/
def act (r : Run) : Action → Option Run
  | Action.start => some { r with world := thread_group_start r.world }
  | Action.add_work work =>
    some { r with world := thread_group_add_work r.world work, submitted := r.submitted ++ [work] }
  | Action.get_completed_work =>
    (thread_group_get_completed_work_in_arena r.world r.temp).map (fun res =>
      { r with
        world := res.2.2
        temp := res.2.1
        returned := r.returned ++ array_elements res.2.1.vm res.1.count res.1.data
        taken := r.taken ++ ((thread_group_get_completed_work r.world).map Prod.fst).getD [] })
  | Action.shutdown timeout_milliseconds =>
    (thread_group_shutdown r.world timeout_milliseconds).map (fun res =>
      { r with world := res.2, shutdowns := r.shutdowns ++ [res.1] })
  | Action.worker i => (thread_step r.world i).map (fun w => { r with world := w })

/-- A sequence of actions on a run, in order. -/
def run : Run → List Action → Option Run
  | r, [] => some r
  | r, a :: rest =>
    match act r a with
    | none => none
    | some r => run r rest

/-- The entries met from `p` by following `next`, at most `fuel` of them. -/
def entries_from (m : Entry_Memory) : Nat → Nat → List Nat
  | 0, _ => []
  | fuel + 1, p => if p = 0 then [] else p :: entries_from m fuel (m p).next

/-- The entries of a list, from `first`. -/
def entries (m : Entry_Memory) (l : Work_List) : List Nat := entries_from m l.count.toNat l.first

/-- The payloads of a list, from `first`. -/
def payloads (m : Entry_Memory) (l : Work_List) : List Nat := (entries m l).map (fun p => (m p).work)

/-- An allocator for examples: the block after the highest live one. -/
def bump_new_address (live : List Nat) : Nat := live.foldl Nat.max 0 + 1

/-- A process in which no group has been initialised. -/
def fresh_world : World := { new_address := bump_new_address, mmap_address := bump_mmap_address }

/-- Following `next` from `p` meets exactly the entries `xs`, none of them null, and then
null. -/
def Chain (m : Entry_Memory) : Nat → List Nat → Prop
  | p, [] => p = 0
  | p, x :: xs => p = x ∧ x ≠ 0 ∧ Chain m (m x).next xs

/-- The last element of a sequence of entries, null for the empty sequence. -/
def last_or_null : List Nat → Nat
  | [] => 0
  | [x] => x
  | _ :: y :: ys => last_or_null (y :: ys)

/-- The list holds exactly the entries `xs`: they are chained from `first`, `last` is the last
of them, and `count` is their number. -/
def Holds (m : Entry_Memory) (l : Work_List) (xs : List Nat) : Prop :=
  Chain m l.first xs ∧ l.last = last_or_null xs ∧ l.count = xs.length

/-- A sequence of `add_work` calls on one list, in order. -/
def add_each : Entry_Memory × Work_List → List Nat → Entry_Memory × Work_List
  | s, [] => s
  | s, e :: es => add_each (add_work s.1 s.2 e) es

/-- A number of `get_work` calls on one list: the entries returned, in call order, and the
list afterwards. -/
def get_work_times (m : Entry_Memory) : Nat → Work_List → List Nat × Work_List
  | 0, l => ([], l)
  | n + 1, l =>
    ((get_work m l).1 :: (get_work_times m n (get_work m l).2).1,
      (get_work_times m n (get_work m l).2).2)

/-- Whether the thread, at this point, holds in `entry` an entry it has fetched and not yet
added to its completed list. -/
def holds_entry : Program_Point → Bool
  | Program_Point.loop_test => true
  | Program_Point.run_proc => true
  | Program_Point.add_completed _ => true
  | Program_Point.steal_wait => true
  | _ => false

/-- The entry a thread holds, if any. -/
def in_hand (t : Thread) : List Nat :=
  if holds_entry t.point = true ∧ t.entry ≠ 0 then [t.entry] else []

/-- The entries of one worker: those of its available list, those of its completed list, and
the one its thread holds. -/
structure Owned where
  available : List Nat := []
  completed : List Nat := []
  in_hand : List Nat := []

/-- All entries of one worker. -/
def Owned.all (o : Owned) : List Nat := o.available ++ o.completed ++ o.in_hand

/-- All entries of all workers. -/
def all_owned (A : List Owned) : List Nat := A.flatMap Owned.all

/-- The local variable `entry` fits the program point: not null where it is dereferenced,
unlinked where it is about to be added to the completed list, null inside the loop over
`work_steal_indices`. -/
def Point_Ok (m : Entry_Memory) (t : Thread) : Prop :=
  ((t.point = Program_Point.run_proc ∨ ∃ s, t.point = Program_Point.add_completed s) →
    t.entry ≠ 0) ∧
  ((∃ s, t.point = Program_Point.add_completed s) → (m t.entry).next = 0) ∧
  ((∃ rest, t.point = Program_Point.steal_from rest) → t.entry = 0)

/-- The worker's two lists hold the entries `o` says, and its thread holds the one `o`
says. -/
def Worker_Rep (m : Entry_Memory) (wi : Worker_Info) (o : Owned) : Prop :=
  Holds m wi.available o.available ∧ Holds m wi.completed o.completed ∧
    in_hand wi.thread = o.in_hand ∧ Point_Ok m wi.thread

/-- Every worker owns the entries `A` gives it. -/
def Rep (m : Entry_Memory) (ws : List Worker_Info) (A : List Owned) : Prop :=
  ws.length = A.length ∧
    ∀ (i : Nat) (wi : Worker_Info) (o : Owned), ws[i]? = some wi → A[i]? = some o → Worker_Rep m wi o

/-- The invariant of the group: the workers own the entries `A`, the producer holds the
entries `F` (taken off a list and not yet released, or allocated and not yet queued), no
entry is owned twice, every owned entry is a live block and not null, the allocator never hands
out a live block or null, and the dispatch cursor is inside the worker array. -/
structure Inv (w : World) (A : List Owned) (F : List Nat) : Prop where
  rep : Rep w.memory w.group.worker_info A
  nodup : (F ++ all_owned A).Nodup
  live : ∀ p ∈ F ++ all_owned A, p ∈ w.live ∧ p ≠ 0
  alloc : ∀ live : List Nat, w.new_address live ∉ live ∧ w.new_address live ≠ 0
  cursor : 0 ≤ w.group.next_worker_index ∧
    w.group.next_worker_index < w.group.worker_info.length

/-- The payloads of the entries held by the producer and owned by the workers. -/
def ledger (m : Entry_Memory) (A : List Owned) (F : List Nat) : List Nat :=
  (F ++ all_owned A).map (fun p => (m p).work)

/-- The entries in the lists and in the hands of the workers, worker by worker. -/
def pending (w : World) : List Nat :=
  w.group.worker_info.flatMap (fun wi =>
    entries w.memory wi.available ++ entries w.memory wi.completed ++ in_hand wi.thread)

/-- The payloads of the pending entries. -/
def pending_payloads (w : World) : List Nat := (pending w).map (fun p => (w.memory p).work)

/-- A sequence of `thread_group_add_work` calls, in order. -/
def add_work_each (w : World) (works : List Nat) : World := works.foldl thread_group_add_work w

/-- The payloads among `works` whose position, counted from `k`, is `i` modulo `W`, in
order. -/
def dealt_to (W i : Nat) : Nat → List Nat → List Nat
  | _, [] => []
  | k, work :: works =>
    if k % W = i then work :: dealt_to W i (k + 1) works else dealt_to W i (k + 1) works

/-- A callback for examples: it does nothing and returns `STOP`. -/
def stop_proc : Thread_Group_Proc := fun _ _ temp => (Thread_Continue_Status.STOP, temp)

/-- A callback for examples: it does nothing and returns `CONTINUE`. -/
def continue_proc : Thread_Group_Proc := fun _ _ temp => (Thread_Continue_Status.CONTINUE, temp)

/-- What a run shows of a worker: the program point of its thread, its `is_done` flag, the
count of the semaphore of its available list, and the payloads of its two lists. -/
structure Worker_View where
  point : Program_Point
  is_done : Bool
  signals : Nat
  available : List Nat
  completed : List Nat
deriving DecidableEq

/-- The view of a worker. -/
def worker_view (m : Entry_Memory) (wi : Worker_Info) : Worker_View :=
  { point := wi.thread.point
    is_done := wi.thread.is_done
    signals := wi.available.semaphore.value
    available := payloads m wi.available
    completed := payloads m wi.completed }


/-! ## Blocks and mappings -/

/-- The placement policy of `mmap` never puts a new mapping over a live one. -/
def Fresh_Placement (mmap_address : List Mapping → Int → Int) : Prop :=
  ∀ (mapped : List Mapping) (length : Int) (m : Mapping), m ∈ mapped →
    ∀ x : Int, m.base ≤ x → x < m.base + m.length →
      ¬ (mmap_address mapped length ≤ x ∧ x < mmap_address mapped length + length)

/-- The block of `n` bytes at `p` is one the arena handed out and still holds: it lies in a
live mapping, outside the unused part of the current region, and clear of the footer of the
original region, which `grow_temp` writes. -/
def Handed_Out (a : Arena) (p n : Int) : Prop :=
  (∃ m ∈ a.vm.mapped, m.base ≤ p ∧ p + n ≤ m.base + m.length) ∧
  (p + n ≤ a.t.current_point ∨ a.t.current_memory_limit ≤ p) ∧
  (p + n ≤ a.t.original_memory_limit ∨
    a.t.original_memory_limit + sizeof_Next_Pool_Footer ≤ p)


/-! ## Release state, drained lists and consecutive steps of a worker -/

/-- What `thread_group_shutdown` is to release of a worker: the handle of its thread, and
whether the semaphores of the thread, the semaphore and the mutex of each of its two lists, and
its steal list have been released. -/
structure Release_View where
  thread_handle : Nat
  thread_semaphores_destroyed : Bool
  available_semaphore_destroyed : Bool
  available_mutex_destroyed : Bool
  completed_semaphore_destroyed : Bool
  completed_mutex_destroyed : Bool
  work_steal_indices_released : Bool
deriving DecidableEq

/-- The release state of a worker. -/
def release_view (wi : Worker_Info) : Release_View :=
  { thread_handle := wi.thread.thread_handle
    thread_semaphores_destroyed :=
      wi.thread.is_alive_semaphore.destroyed && wi.thread.suspended_semaphore.destroyed
    available_semaphore_destroyed := wi.available.semaphore.destroyed
    available_mutex_destroyed := wi.available.mutex.destroyed
    completed_semaphore_destroyed := wi.completed.semaphore.destroyed
    completed_mutex_destroyed := wi.completed.mutex.destroyed
    work_steal_indices_released := wi.work_steal_indices_released }


/-- A list after the critical section of `thread_group_get_completed_work` has taken its
entries: empty, its semaphore as it was, its mutex released. -/
def drained (l : Work_List) : Work_List :=
  { l with mutex := unlock (lock l.mutex), first := 0, last := 0, count := 0 }


/-- Consecutive steps of the thread of the worker at index `i`, no other thread running in
between: `none` as soon as one of them is `none`. -/
def thread_steps (i : Nat) : Nat → World → Option World
  | 0, w => some w
  | n + 1, w =>
    match thread_step w i with
    | none => none
    | some w => thread_steps i n w

/-- An example state: three workers with stealing, started; the payloads 7, 8 and 9 went to
the workers 0, 1 and 2; worker 0 has processed 7 and stands at the stealing step with its
available list empty; worker 1 has taken 8 off its list and is about to process it; worker 2
has not run, and 9 is in its list. -/
def steal_example : World :=
  ((run { world := thread_group_init fresh_world 3 (some continue_proc) true }
    [Action.start, Action.add_work 7, Action.add_work 8, Action.add_work 9,
      Action.worker 0, Action.worker 0, Action.worker 0, Action.worker 0,
      Action.worker 0, Action.worker 0, Action.worker 0, Action.worker 0,
      Action.worker 1, Action.worker 1, Action.worker 1, Action.worker 1,
      Action.worker 1]).map (fun r => r.world)).getD fresh_world

/-- A worker that was never initialised, in an otherwise empty address space. -/
def idle_worker : Worker_Info := { thread := { temp := fresh_arena } }


/-! ## Work lists: the invariant, the swap-out, sequences of pushes and pops -/

/-- The invariant of a `Work_List`: some sequence of entries is chained from `first` by `next`
up to null, `count` is the length of that sequence and `last` is its last entry (null when
there is none). -/
def Work_List_Invariant (m : Entry_Memory) (l : Work_List) : Prop := ∃ xs : List Nat, Holds m l xs

/-- The critical section of `thread_group_get_completed_work` on one completed list: the values
read into `count` and `completed`, and the list afterwards. -/
def swap_out (l : Work_List) : Int × Nat × Work_List :=
  let list := { l with mutex := lock l.mutex }
  let count := list.count
  let completed := list.first
  let list := if list.first ≠ 0 then { list with first := 0, last := 0, count := 0 } else list
  (count, completed, { list with mutex := unlock list.mutex })

/-- A call on a `Work_List`: `add_work(list, entry)` or `get_work(list)`. -/
inductive List_Op where
  | push (entry : Nat)
  | pop
deriving DecidableEq

/-- One call on a list: the memory and the list afterwards. -/
def apply_op (s : Entry_Memory × Work_List) : List_Op → Entry_Memory × Work_List
  | List_Op.push entry => add_work s.1 s.2 entry
  | List_Op.pop => (s.1, (get_work s.1 s.2).2)

/-- A sequence of calls on one list, in order. -/
def apply_ops (s : Entry_Memory × Work_List) (ops : List List_Op) : Entry_Memory × Work_List :=
  ops.foldl apply_op s

/-- The number of `add_work` calls in a sequence. -/
def pushes : List List_Op → Nat
  | [] => 0
  | List_Op.push _ :: ops => pushes ops + 1
  | List_Op.pop :: ops => pushes ops

/-- An entry memory for examples: the entry at address 1 is followed by the entry at address 2. -/
def two_entries : Entry_Memory := store (fun _ => {}) 1 { next := 2, work := 70001 }

/-- A list of the two entries of `two_entries`. -/
def two_entry_list : Work_List := { first := 1, last := 2, count := 2 }


/-! ## Basic/module.hpp: the context and `push_allocator` -/

/-- An `Allocator`: the address of its procedure and its data pointer. -/
structure Allocator where
  proc : Nat := 0
  data : Nat := 0
deriving DecidableEq

/-- The address of `default_allocator_proc`, for examples. -/
def default_allocator_proc_address : Nat := 1

/-- The address of `temp_allocator_proc`, for examples. -/
def temp_allocator_proc_address : Nat := 2

/-- Source `Context::default_allocator`. -/
def default_allocator : Allocator := { proc := default_allocator_proc_address, data := 0 }

/-- Source `Context::temp_allocator`. -/
def temp_allocator : Allocator := { proc := temp_allocator_proc_address, data := 0 }

/-- The thread-local `context`. -/
structure Context where
  allocator : Allocator := default_allocator
  temp : Temp_Allocator := {}
  thread_index : Int := 0
deriving DecidableEq

/-- How control leaves a block: by reaching its end, by a jump out of it (`return`, `break`,
`continue`, `goto`), or by an exception passing through it. -/
inductive Exit_Path where
  | end_of_block
  | jump
  | exception
deriving DecidableEq

/-- A `Defer<Code>` object: the code it holds. -/
structure Defer where
  code : Context → Context

/-- Source `~Defer() { code(); }`, which runs when the object goes out of scope. -/
def Defer.destroy (d : Defer) (context : Context) : Context := d.code context

/-- A block of statements run on the calling thread: from the context at its start to the way
control leaves it and the context then; `none` when control never leaves it. -/
abbrev Block := Context → Option (Exit_Path × Context)

/-- Source `push_allocator(new_allocator, ...)`: the block the macro expands to, for a body
that does not name the block's local `old_allocator`. The object made by `defer` is the last
one declared in the block, so it is destroyed when control leaves the block, on every
path. -/
def push_allocator (new_allocator : Allocator) (body : Block) : Block := fun context =>
  let old_allocator := context.allocator
  let context := { context with allocator := new_allocator }
  let _defer_ : Defer := { code := fun context => { context with allocator := old_allocator } }
  match body context with
  | none => none
  | some (exit_path, context) => some (exit_path, _defer_.destroy context)

/-- A body for examples: it sets `context.allocator` to the default allocator, bumps the
arena's cursor and returns from the enclosing function. -/
def reassigning_body : Block := fun context =>
  some (Exit_Path.jump, { context with
    allocator := default_allocator
    temp := { context.temp with current_point := context.temp.current_point + 8 } })

/-- The invariant of the dispatch cursor: `0 <= next_worker_index < worker_info.count`. -/
def Cursor_In_Range (g : Thread_Group) : Prop :=
  0 ≤ g.next_worker_index ∧ g.next_worker_index < g.worker_info.length

/-- A thread for examples: it has returned from its procedure and signalled
`is_alive_semaphore`. -/
def returned_thread : Thread :=
  { temp := fresh_arena, is_done := true, is_alive_semaphore := { value := 1 }, point := Program_Point.exited }


/-! ## The arena of a worker along the passes of its loop -/

/-- The state `reset_temp_allocator` leaves an arena in: nothing is counted as used and the
cursor is at the base of the current region. -/
def Arena_Reset (a : Arena) : Prop :=
  a.t.high_water_mark = 0 ∧ a.t.current_point = a.t.current_memory_base

/-- An arena that has no region has handed out nothing. -/
def Uninit_Ok (a : Arena) : Prop := a.t.original_memory_base = 0 → Arena_Reset a

/-- Whether the point lies in the body of the loop of `thread_group_run` behind the call of
the callback: from there the pass ends with the deferred `reset_temp_allocator`. -/
def after_proc : Program_Point → Bool
  | Program_Point.add_completed _ => true
  | Program_Point.steal_test => true
  | Program_Point.steal_get_own => true
  | Program_Point.steal_wait => true
  | Program_Point.steal_from _ => true
  | _ => false

/-- Whether the point lies inside the body of the loop of `thread_group_run`. -/
def in_loop_body : Program_Point → Bool
  | Program_Point.suspended => false
  | Program_Point.loop_test => false
  | Program_Point.finished => false
  | Program_Point.exited => false
  | _ => true

/-- What the passes of the loop keep true of a thread at a given program point with a given
arena, in a process whose `mmap` places mappings by `placement`: the arena lives in that
address space, an arena without region has handed out nothing, and before the callback is
called in a pass the arena is reset. -/
def Pass_Ok (placement : List Mapping → Int → Int) (s : Program_Point × Arena) : Prop :=
  s.2.vm.mmap_address = placement ∧ Uninit_Ok s.2 ∧ (after_proc s.1 = false → Arena_Reset s.2)

/-- A callback for examples, after `thread_group_do_leaky_things`: it allocates 5000 bytes and
then 268435456 bytes from the arena of its thread, never frees them, and returns
`CONTINUE`. -/
def leaky_proc : Thread_Group_Proc :=
  fun _ _ temp => (Thread_Continue_Status.CONTINUE, (get (get temp 5000).2 268435456).2)

/-- What a run shows of the arena of a thread: the program point of the thread, the
`high_water_mark`, the distance of the cursor from the base of the current region, the
capacity of the current region, the number of live mappings and the number of growths. -/
structure Arena_View where
  point : Program_Point
  high_water_mark : Int
  used : Int
  capacity : Int
  regions : Nat
  grow_events : Nat
deriving DecidableEq

/-- The view of the arena of a thread. -/
def arena_view (t : Thread) : Arena_View :=
  { point := t.point
    high_water_mark := t.temp.t.high_water_mark
    used := t.temp.t.current_point - t.temp.t.current_memory_base
    capacity := t.temp.t.current_memory_limit - t.temp.t.current_memory_base
    regions := t.temp.vm.mapped.length
    grow_events := t.temp.grow_events }

/-- An example run: one worker with the callback `leaky_proc`, started; the payloads 7 and 8
are submitted and the worker takes the given number of steps. -/
def leaky_run (steps : Nat) : Option Run :=
  run { world := thread_group_init fresh_world 1 (some leaky_proc) }
    ([Action.start, Action.add_work 7, Action.add_work 8] ++
      List.replicate steps (Action.worker 0))

/-- The thread has returned from its procedure, as far as `thread_is_done` can tell:
`is_done` is set or `is_alive_semaphore` has a unit. -/
def Done_Signalled (s : Bool × Nat) : Prop := s.1 = true ∨ 0 < s.2


/-! ## The call of the callback -/

/-- Source `auto should_continue = CONTINUE; if (group.proc) should_continue = group.proc(&group,
thread, e.work);` in `thread_group_run`: the status and the arena of the thread afterwards. -/
def call_proc (proc : Option Thread_Group_Proc) (index : Int) (work : Nat) (temp : Arena) :
    Thread_Continue_Status × Arena :=
  match proc with
  | some proc => proc index work temp
  | none => (Thread_Continue_Status.CONTINUE, temp)

/-- The entry memory after `e.thread_index = thread->index; e.next = {};` on the entry at
`entry`. -/
def stamp_entry (m : Entry_Memory) (entry : Nat) (index : Int) : Entry_Memory :=
  store (store m entry { m entry with thread_index := index }) entry
    { (store m entry { m entry with thread_index := index }) entry with next := 0 }

/-- The state `w'` in which the worker at index `i`, which in `w` held the entry
`wi.thread.entry` outside its completed list `xs`, has processed and published it: the callback
was called on the arena `temp`, the completed list holds `xs` followed by the entry, the entry
has `next` null and the `thread_index` of the thread, the other workers are as they were, and
the thread stands behind `add_work(&info.completed, entry)`, its arena reset to `after_reset`
if the callback returned `STOP`. -/
def Published (w : World) (i : Nat) (wi : Worker_Info) (xs : List Nat) (temp after_reset : Arena)
    (w' : World) : Prop :=
  ∃ wi' : Worker_Info,
    w'.group.worker_info[i]? = some wi' ∧
    (∀ k : Nat, k ≠ i → w'.group.worker_info[k]? = w.group.worker_info[k]?) ∧
    Holds w'.memory wi'.completed (xs ++ [wi.thread.entry]) ∧
    w'.memory wi.thread.entry =
      { w.memory wi.thread.entry with thread_index := wi.thread.index, next := 0 } ∧
    wi'.thread.temp =
      (if (call_proc w.group.proc wi.thread.index (w.memory wi.thread.entry).work temp).1
          = Thread_Continue_Status.STOP then after_reset
      else (call_proc w.group.proc wi.thread.index (w.memory wi.thread.entry).work temp).2) ∧
    wi'.thread.point =
      (if (call_proc w.group.proc wi.thread.index (w.memory wi.thread.entry).work temp).1
          = Thread_Continue_Status.STOP then Program_Point.finished
      else Program_Point.steal_test)

/-- The actions of the example `stolen_run`. -/
def stolen_actions : List Action :=
  [Action.start, Action.add_work 7, Action.add_work 8, Action.add_work 9,
    Action.worker 0, Action.worker 0, Action.worker 0, Action.worker 0,
    Action.worker 0, Action.worker 0, Action.worker 0, Action.worker 0,
    Action.worker 1, Action.worker 1, Action.worker 1, Action.worker 1,
    Action.worker 1, Action.worker 0, Action.worker 0, Action.worker 0]

/-- An example run: three workers with stealing, started; the payloads 7, 8 and 9 went to the
workers 0, 1 and 2; worker 0 has processed 7, found its list empty, stolen the entry with the
payload 9 from worker 2 and ended its pass holding it; worker 1 has taken 8 off its list. -/
def stolen_run : Run :=
  (run { world := thread_group_init fresh_world 3 (some continue_proc) true }
    stolen_actions).getD { world := fresh_world }

/-- The worker 0 of `stolen_run`. -/
def stolen_worker : Worker_Info := (stolen_run.world.group.worker_info[0]?).getD idle_worker


/-! ## Requests to the temp allocator, in sequence -/

/-- A request to the temp allocator of the calling thread, or `reset_temp_allocator()`. -/
inductive Arena_Op where
  | allocate (requested_size : Int)
  | reallocate (requested_size old_size old_memory : Int)
  | reset
deriving DecidableEq

/-- The bytes a request hands out, in the arena it is made in: an ALLOCATE its size; a
REALLOCATE nothing when it asks for no more than the old size, the extra bytes when it is
served in place (the test of `temp_allocator_proc`), and the new size when a new block is
handed out. -/
def bytes_handed_out (a : Arena) : Arena_Op → Int
  | Arena_Op.allocate requested_size => requested_size
  | Arena_Op.reallocate requested_size old_size old_memory =>
    if requested_size ≤ old_size then 0
    else if a.t.current_point - old_size = old_memory ∧
        requested_size - old_size ≤ a.t.current_memory_limit - a.t.current_point then
      requested_size - old_size
    else requested_size
  | Arena_Op.reset => 0

/-- One request or reset: the arena afterwards, `none` when `deinit` faults. -/
def apply_arena_op (a : Arena) : Arena_Op → Option Arena
  | Arena_Op.allocate requested_size =>
    some (temp_allocator_proc a Allocator_Mode.ALLOCATE requested_size 0 0).2
  | Arena_Op.reallocate requested_size old_size old_memory =>
    some (temp_allocator_proc a Allocator_Mode.REALLOCATE requested_size old_size old_memory).2
  | Arena_Op.reset => reset_temp_allocator a

/-- A sequence of requests and resets, together with the count of the bytes handed out since
the last reset: the count and the arena afterwards. -/
def handed_out_since_reset : Int × Arena → List Arena_Op → Option (Int × Arena)
  | s, [] => some s
  | s, op :: ops =>
    match apply_arena_op s.2 op with
    | none => none
    | some a =>
      handed_out_since_reset
        (if op = Arena_Op.reset then 0 else s.1 + bytes_handed_out s.2 op, a) ops

/-- The state of an arena that allocations and resets keep: `mmap` never returns null in its
address space, and while it has no region its high-water mark is zero. -/
def Counted (a : Arena) : Prop :=
  (∀ (mapped : List Mapping) (length : Int), a.vm.mmap_address mapped length ≠ 0) ∧
  (a.t.original_memory_base = 0 → a.t.high_water_mark = 0)

/-- An example sequence: an allocation that fills the first region, one that makes the arena
grow, the extension in place of that block from 100 to 300 bytes, a reset, an allocation of 8
bytes and a REALLOCATE of another block, which hands out a new block of 500 bytes. -/
def example_requests : List Arena_Op :=
  [Arena_Op.allocate 268435440, Arena_Op.allocate 100, Arena_Op.reallocate 300 100 268500992,
    Arena_Op.reset, Arena_Op.allocate 8, Arena_Op.reallocate 500 8 0]


/-! ## An array of three pointers in a fresh arena -/

/-- An example: the pointers 7, 8 and 9 added to an empty array in an arena that was never
initialised: the array and the arena afterwards. -/
def three_pointers : Resizable_Array × Arena :=
  let s := array_add fresh_arena {} 7
  let s := array_add s.2 s.1 8
  array_add s.2 s.1 9


/-! ## The calls on mutexes and semaphores, in order -/

/-- A work list of the group: the available or the completed list of the worker at an index. -/
inductive List_Id where
  | available (worker : Nat)
  | completed (worker : Nat)
deriving DecidableEq

/-- A call a thread makes on the mutex of a work list or on a semaphore, or its call of the
callback of the group. -/
inductive Sync_Event where
  | lock (list : List_Id)
  | unlock (list : List_Id)
  | signal
  | wait
  | call_proc
deriving DecidableEq

/-- Source `add_work(list, entry)` with the calls it makes, in order: the memory and the list
afterwards, and the calls. The deferred `unlock` runs at the end of the inner block, before
`signal`. -/
def add_work_traced (m : Entry_Memory) (l : Work_List) (entry : Nat) (list : List_Id) :
    (Entry_Memory × Work_List) × List Sync_Event :=
  let l := { l with mutex := lock l.mutex }
  let events := [Sync_Event.lock list]
  let m := if l.last ≠ 0 then store m l.last { m l.last with next := entry } else m
  let l := if l.last ≠ 0 then l else { l with first := entry }
  let l := { l with last := entry }
  let l := { l with count := l.count + 1 }
  let l := { l with mutex := unlock l.mutex }
  let events := events ++ [Sync_Event.unlock list]
  ((m, { l with semaphore := signal l.semaphore }), events ++ [Sync_Event.signal])

/-- Source `get_work(list)` with the calls it makes, in order. The deferred `unlock` runs on
both returns. -/
def get_work_traced (m : Entry_Memory) (l : Work_List) (list : List_Id) :
    (Nat × Work_List) × List Sync_Event :=
  let l := { l with mutex := lock l.mutex }
  let events := [Sync_Event.lock list]
  if l.first = 0 then ((0, { l with mutex := unlock l.mutex }), events ++ [Sync_Event.unlock list])
  else
    let result := l.first
    let l := { l with first := (m result).next }
    let l := if l.first = 0 then { l with last := 0 } else l
    let l := { l with count := l.count - 1 }
    ((result, { l with mutex := unlock l.mutex }), events ++ [Sync_Event.unlock list])

/-- The critical section of `thread_group_get_completed_work` on one completed list, with the
calls it makes, in order. -/
def swap_out_traced (l : Work_List) (list : List_Id) :
    (Int × Nat × Work_List) × List Sync_Event :=
  let l := { l with mutex := lock l.mutex }
  let events := [Sync_Event.lock list]
  let count := l.count
  let completed := l.first
  let l := if l.first ≠ 0 then { l with first := 0, last := 0, count := 0 } else l
  ((count, completed, { l with mutex := unlock l.mutex }), events ++ [Sync_Event.unlock list])

/-- The loop over `work_steal_indices` in `thread_group_run`, from the peers still to visit:
the calls it makes, in order. It stops at the first peer whose list gives an entry. -/
def steal_loop_events (w : World) : List Int → List Sync_Event
  | [] => []
  | j :: rest =>
    match worker_at w.group j with
    | none => []
    | some peer =>
      let r := get_work_traced w.memory peer.available (List_Id.available j.toNat)
      if r.1.1 ≠ 0 then r.2
      else r.2 ++ steal_loop_events (put_worker w j.toNat { peer with available := r.1.2 }) rest

/-- The calls made in the step `thread_step w i`, in order. -/
def thread_step_events (w : World) (i : Nat) : List Sync_Event :=
  match w.group.worker_info[i]? with
  | none => []
  | some wi =>
    match wi.thread.point with
    | Program_Point.suspended => [Sync_Event.wait]
    | Program_Point.loop_test => []
    | Program_Point.wait_available => [Sync_Event.wait]
    | Program_Point.woken => []
    | Program_Point.get_own => (get_work_traced w.memory wi.available (List_Id.available i)).2
    | Program_Point.run_proc =>
      match w.group.proc with
      | some _ => [Sync_Event.call_proc]
      | none => []
    | Program_Point.add_completed _ =>
      (add_work_traced w.memory wi.completed wi.thread.entry (List_Id.completed i)).2
    | Program_Point.steal_test => []
    | Program_Point.steal_get_own =>
      (get_work_traced w.memory wi.available (List_Id.available i)).2
    | Program_Point.steal_wait => [Sync_Event.wait]
    | Program_Point.steal_from [] => []
    | Program_Point.steal_from (j :: _) =>
      match worker_at w.group j with
      | none => []
      | some peer => (get_work_traced w.memory peer.available (List_Id.available j.toNat)).2
    | Program_Point.finished => [Sync_Event.signal]
    | Program_Point.exited => []

/-- The calls of `thread_is_done(thread, milliseconds)`, in order. -/
def thread_is_done_events (t : Thread) : List Sync_Event :=
  if t.is_done then []
  else if 0 < t.is_alive_semaphore.value then [Sync_Event.wait, Sync_Event.signal]
  else [Sync_Event.wait]

/-- The calls made in an action of a run, in order. -/
def act_events (r : Run) : Action → List Sync_Event
  | Action.start => r.world.group.worker_info.map (fun _ => Sync_Event.signal)
  | Action.add_work _ =>
    match worker_at r.world.group r.world.group.next_worker_index with
    | none => []
    | some wi =>
      (add_work_traced r.world.memory wi.available (r.world.new_address r.world.live)
        (List_Id.available r.world.group.next_worker_index.toNat)).2
  | Action.get_completed_work =>
    (List.range r.world.group.worker_info.length).flatMap (fun k =>
      match r.world.group.worker_info[k]? with
      | none => []
      | some wi => (swap_out_traced wi.completed (List_Id.completed k)).2)
  | Action.shutdown _ =>
    if r.world.group.started then
      r.world.group.worker_info.map (fun _ => Sync_Event.signal) ++
        r.world.group.worker_info.flatMap (fun wi => thread_is_done_events wi.thread)
    else []
  | Action.worker i => thread_step_events r.world i

/-- The calls made in a run, in order. -/
def run_events : Run → List Action → List Sync_Event
  | _, [] => []
  | r, a :: rest =>
    match act r a with
    | none => []
    | some r' => act_events r a ++ run_events r' rest

/-- The mutexes held after one more call, `none` when the call breaks the discipline: a lock
taken while one is held, an unlock of a mutex that is not the one held, a signal or a call of
the callback while a mutex is held. -/
def sync_step (held : List List_Id) : Sync_Event → Option (List List_Id)
  | Sync_Event.lock list => if held = [] then some [list] else none
  | Sync_Event.unlock list => if held = [list] then some [] else none
  | Sync_Event.signal => if held = [] then some held else none
  | Sync_Event.call_proc => if held = [] then some held else none
  | Sync_Event.wait => some held

/-- The mutexes held after a sequence of calls, `none` when a call breaks the discipline. -/
def held_after : List List_Id → List Sync_Event → Option (List List_Id)
  | held, [] => some held
  | held, e :: es =>
    match sync_step held e with
    | none => none
    | some held => held_after held es

/-- A sequence of calls that starts and ends with no mutex held and keeps the discipline. -/
def Disciplined (events : List Sync_Event) : Prop := held_after [] events = some []


/-! ## Hashes -/

/-- Source `HASH_INIT`. -/
def HASH_INIT : Nat := 5381

/-- Source `knuth_hash(x)`: the product with the constant of the source, in 64 bits. -/
def knuth_hash (x : Nat) : Nat := (1140071481932319485 * x) % 18446744073709551616

/-- Source `get_hash(x, h)` for a key of an integral type, the key given as its 64-bit
pattern: the high 32 bits of `knuth_hash((u64)x ^ h)`. -/
def get_hash (x : Nat) (h : Nat := HASH_INIT) : Nat :=
  (knuth_hash (Nat.xor (x % 18446744073709551616) h) / 4294967296) % 4294967296

/-! ## The hash table -/

/-- Source `NEVER_OCCUPIED_HASH`. -/
def NEVER_OCCUPIED_HASH : Nat := 0

/-- Source `REMOVED_HASH`. -/
def REMOVED_HASH : Nat := 1

/-- Source `FIRST_VALID_HASH`. -/
def FIRST_VALID_HASH : Nat := 2

/-- Source `Hash_Table::Entry`, for keys of type `u64` and values of type `s64`. -/
structure Table_Entry where
  hash : Nat := 0
  key : Nat := 0
  value : Int := 0
deriving DecidableEq, Repr

/-- Source `Hash_Table<u64, s64>`, with the slots of `entries` as a list; the allocator is
left out. -/
structure Hash_Table where
  count : Int := 0
  allocated : Int := 0
  slots_filled : Int := 0
  entries : List Table_Entry := []
deriving DecidableEq, Repr

/-- Source `Hash_Table::LOAD_FACTOR_PERCENT`, at its default. -/
def LOAD_FACTOR_PERCENT : Int := 70

/-- Source `Hash_Table::SIZE_MIN`. -/
def SIZE_MIN : Int := 32

/-- The loop `while (x > p) p += p;` of `next_pow2`, for at most the given number of
doublings. -/
def next_pow2_loop (x : Int) : Nat → Int → Int
  | 0, p => p
  | fuel + 1, p => if x > p then next_pow2_loop x fuel (p + p) else p

/-- Source `next_pow2(n)` for `n` up to `2^62`, where `p` does not overflow. -/
def next_pow2 (n : Int) : Int := next_pow2_loop n 62 1

/-- Source `table_resize(table, slots_to_allocate)`. The source leaves the keys and values of
the new slots as the allocator gave them; they are shown as 0. -/
def table_resize (t : Hash_Table) (slots_to_allocate : Int := 0) : Hash_Table :=
  let slots_to_allocate := if slots_to_allocate ≤ 0 then SIZE_MIN else slots_to_allocate
  let n := next_pow2 slots_to_allocate
  { t with allocated := n, entries := List.replicate n.toNat { hash := NEVER_OCCUPIED_HASH } }

/-- Source `table_init(table, slots_to_allocate)`. -/
def table_init (t : Hash_Table) (slots_to_allocate : Int := 0) : Hash_Table :=
  table_resize t slots_to_allocate

/-- The `mask` of `Walk_Table`: `(u32)(t.allocated - 1)`. -/
def walk_mask (t : Hash_Table) : Nat := ((t.allocated - 1) % 4294967296).toNat

/-- The `hash` of `Walk_Table`: `get_hash(key)`, moved up by `FIRST_VALID_HASH` when it is
below it. -/
def walk_hash (key : Nat) : Nat :=
  if get_hash key < FIRST_VALID_HASH then (get_hash key + FIRST_VALID_HASH) % 4294967296
  else get_hash key

/-- The step of `Walk_Table` to the next slot: `(index + probe_increment) & mask`. -/
def walk_next (mask index probe_increment : Nat) : Nat :=
  Nat.land ((index + probe_increment) % 4294967296) mask

/-- The loop of `Walk_Table` in `table_add`, from the slot at `index`: the slot where it
stops and `slots_filled` afterwards. The result is `none` when a slot read lies past the end
of `entries`, or when the given number of probes finds no slot to stop at. -/
def table_add_walk (t : Hash_Table) (mask : Nat) : Nat → Nat → Nat → Option (Nat × Int)
  | 0, _, _ => none
  | fuel + 1, index, probe_increment =>
    match t.entries[index]? with
    | none => none
    | some entry =>
      if entry.hash = 0 then some (index, t.slots_filled)
      else if entry.hash = REMOVED_HASH then some (index, t.slots_filled - 1)
      else table_add_walk t mask fuel (walk_next mask index probe_increment)
        ((probe_increment + 1) % 4294967296)

/-- The loop over `old_entries` in `table_expand`, with the `table_add` it calls. -/
def table_expand_loop (add : Hash_Table → Nat → Int → Option (Nat × Hash_Table)) :
    List Table_Entry → Hash_Table → Option Hash_Table
  | [], t => some t
  | entry :: rest, t =>
    if entry.hash ≥ FIRST_VALID_HASH then
      match add t entry.key entry.value with
      | none => none
      | some r => table_expand_loop add rest r.2
    else table_expand_loop add rest t

/-- Source `table_expand(table)`, with the `table_add` it calls. -/
def table_expand (add : Hash_Table → Nat → Int → Option (Nat × Hash_Table))
    (t : Hash_Table) : Option Hash_Table :=
  let old_entries := t.entries
  let new_allocated :=
    if (t.count * 2 + 1) * 100 < t.allocated * LOAD_FACTOR_PERCENT then t.allocated
    else t.allocated * 2
  let new_allocated := if new_allocated < SIZE_MIN then SIZE_MIN else new_allocated
  let t := table_resize t new_allocated
  let t := { t with count := 0, slots_filled := 0 }
  table_expand_loop add old_entries t

/-- Source `table_add(table, key, value)` with a bound on the depth of the calls between
`table_add` and `table_expand`: the index of the slot whose value the result points to, and
the table afterwards. A walk gets one probe for each slot and one more. -/
def table_add_within : Nat → Hash_Table → Nat → Int → Option (Nat × Hash_Table)
  | 0, _, _, _ => none
  | depth + 1, t, key, value =>
    let expanded :=
      if (t.slots_filled + 1) * 100 > t.allocated * LOAD_FACTOR_PERCENT then
        table_expand (table_add_within depth) t
      else some t
    match expanded with
    | none => none
    | some t =>
      match table_add_walk t (walk_mask t) (t.entries.length + 1)
          (Nat.land (walk_hash key) (walk_mask t)) 1 with
      | none => none
      | some (index, slots_filled) =>
        let t := { t with slots_filled := slots_filled }
        let t := { t with count := t.count + 1 }
        let t := { t with slots_filled := t.slots_filled + 1 }
        some (index, { t with
          entries := t.entries.set index { hash := walk_hash key, key := key, value := value } })

/-- Source `table_add(table, key, value)`. -/
def table_add (t : Hash_Table) (key : Nat) (value : Int) : Option (Nat × Hash_Table) :=
  table_add_within 3 t key value

/-- What `table_find_pointer` comes to: the null pointer, a pointer to the value of the slot
at an index, or a read of a slot at an index past the end of `entries`. -/
inductive Lookup where
  | null
  | value_of (index : Nat)
  | out_of_bounds (index : Nat)
deriving DecidableEq, Repr

/-- The loop of `Walk_Table` in `table_find_pointer`, from the slot at `index`: what the
lookup comes to and the indices of the slots read so far, in order. The body of the loop
takes its entry at `t.entries[hash]`. -/
def table_find_pointer_walk (t : Hash_Table) (key hash mask : Nat) :
    Nat → Nat → Nat → List Nat → Option (Lookup × List Nat)
  | 0, _, _, _ => none
  | fuel + 1, index, probe_increment, reads =>
    match t.entries[index]? with
    | none => some (Lookup.out_of_bounds index, reads ++ [index])
    | some slot =>
      if slot.hash = 0 then some (Lookup.null, reads ++ [index])
      else
        match t.entries[hash]? with
        | none => some (Lookup.out_of_bounds hash, reads ++ [index, hash])
        | some entry =>
          if entry.hash = hash ∧ entry.key = key then
            some (Lookup.value_of hash, reads ++ [index, hash])
          else
            table_find_pointer_walk t key hash mask fuel (walk_next mask index probe_increment)
              ((probe_increment + 1) % 4294967296) (reads ++ [index, hash])

/-- Source `table_find_pointer(table, key)`: what the lookup comes to and the indices of the
slots it reads, in order; `none` when one probe for each slot and one more do not end the
walk. -/
def table_find_pointer (t : Hash_Table) (key : Nat) : Option (Lookup × List Nat) :=
  if t.allocated = 0 then some (Lookup.null, [])
  else
    table_find_pointer_walk t key (walk_hash key) (walk_mask t) (t.entries.length + 1)
      (Nat.land (walk_hash key) (walk_mask t)) 1 []

/-- Source `table_contains(table, key)`: `none` when the lookup reads past the end of
`entries` or does not end. -/
def table_contains (t : Hash_Table) (key : Nat) : Option Bool :=
  match table_find_pointer t key with
  | some (Lookup.null, _) => some false
  | some (Lookup.value_of _, _) => some true
  | _ => none

/-- The loop of `Walk_Table` in `table_find_multiple`, from the slot at `index`: the values
added to `results` so far, in order. The body of the loop takes its entry at
`t.entries[index]`. -/
def table_find_multiple_walk (t : Hash_Table) (key hash mask : Nat) :
    Nat → Nat → Nat → List Int → Option (List Int)
  | 0, _, _, _ => none
  | fuel + 1, index, probe_increment, results =>
    match t.entries[index]? with
    | none => none
    | some entry =>
      if entry.hash = 0 then some results
      else
        table_find_multiple_walk t key hash mask fuel (walk_next mask index probe_increment)
          ((probe_increment + 1) % 4294967296)
          (if entry.hash = hash ∧ entry.key = key then results ++ [entry.value] else results)

/-- Source `table_find_multiple(table, key)`: the values of the view it returns, in order;
`none` when a slot read lies past the end of `entries` or the walk does not end. -/
def table_find_multiple (t : Hash_Table) (key : Nat) : Option (List Int) :=
  if t.allocated = 0 then some []
  else
    table_find_multiple_walk t key (walk_hash key) (walk_mask t) (t.entries.length + 1)
      (Nat.land (walk_hash key) (walk_mask t)) 1 []

/-- An example: the table after `table_init` and `table_add(&t, 1, 10)`. -/
def one_key_table : Hash_Table :=
  ((table_add (table_init {}) 1 10).map (fun r => r.2)).getD {}

/-! ## The time allowed to each worker by `thread_group_shutdown` -/

theorem get_of_fits (a : Arena) (n : Int) (hinit : a.t.original_memory_base ≠ 0)
    (hfit : a.t.current_point + n ≤ a.t.current_memory_limit) :
    get a n = (a.t.current_point, { a with t := { a.t with
      current_point := a.t.current_point + n, high_water_mark := a.t.high_water_mark + n } }) := by
  have hnot : ¬ (a.t.current_point + n > a.t.current_memory_limit) := not_lt.mpr hfit
  simp [get, hinit, hnot]

theorem get_each_of_fits (sizes : List Int) :
    ∀ a : Arena, a.t.original_memory_base ≠ 0 → (∀ n ∈ sizes, 0 ≤ n) →
      a.t.current_point + sizes.sum ≤ a.t.current_memory_limit →
      get_each a sizes = (consecutive a.t.current_point sizes, { a with t := { a.t with
        current_point := a.t.current_point + sizes.sum,
        high_water_mark := a.t.high_water_mark + sizes.sum } }) := by
  induction sizes with
  | nil => intro a _ _ _; simp [get_each, consecutive]
  | cons n ns ih =>
    intro a hinit hpos hsum
    have hn : 0 ≤ n := hpos n (List.mem_cons_self n ns)
    have hns : ∀ m ∈ ns, 0 ≤ m := fun m hm => hpos m (List.mem_cons_of_mem n hm)
    have hnsum : 0 ≤ ns.sum := List.sum_nonneg hns
    rw [List.sum_cons] at hsum
    have hfit : a.t.current_point + n ≤ a.t.current_memory_limit := by omega
    have hget := get_of_fits a n hinit hfit
    have ih2 := ih (get a n).2 (by rw [hget]; exact hinit) hns (by rw [hget]; simp; omega)
    rw [get_each, ih2, hget]
    simp [consecutive, List.sum_cons, add_assoc]

theorem consecutive_length (sizes : List Int) : ∀ p, (consecutive p sizes).length = sizes.length := by
  induction sizes with
  | nil => intro p; rfl
  | cons n ns ih => intro p; simp [consecutive, ih]

theorem consecutive_bounds (sizes : List Int) :
    ∀ (p : Int) (i : Nat) (q m : Int), (∀ n ∈ sizes, 0 ≤ n) →
      (consecutive p sizes)[i]? = some q → sizes[i]? = some m →
      p ≤ q ∧ q + m ≤ p + sizes.sum := by
  induction sizes with
  | nil => intro p i q m _ hq; simp [consecutive] at hq
  | cons n ns ih =>
    intro p i q m hpos hq hm
    have hn : 0 ≤ n := hpos n (List.mem_cons_self n ns)
    have hns : ∀ k ∈ ns, 0 ≤ k := fun k hk => hpos k (List.mem_cons_of_mem n hk)
    have hnsum : 0 ≤ ns.sum := List.sum_nonneg hns
    rw [List.sum_cons]
    cases i with
    | zero =>
      simp [consecutive] at hq hm
      omega
    | succ i =>
      simp [consecutive] at hq hm
      have := ih (p + n) i q m hns hq hm
      omega

theorem consecutive_ordered (sizes : List Int) :
    ∀ (p : Int) (i j : Nat) (q m r : Int), (∀ n ∈ sizes, 0 ≤ n) → i < j →
      (consecutive p sizes)[i]? = some q → sizes[i]? = some m →
      (consecutive p sizes)[j]? = some r → q + m ≤ r := by
  induction sizes with
  | nil => intro p i j q m r _ _ hq; simp [consecutive] at hq
  | cons n ns ih =>
    intro p i j q m r hpos hij hq hm hr
    have hns : ∀ k ∈ ns, 0 ≤ k := fun k hk => hpos k (List.mem_cons_of_mem n hk)
    cases j with
    | zero => omega
    | succ j =>
      simp [consecutive] at hr
      cases i with
      | zero =>
        simp [consecutive] at hq hm
        have hlen : j < ns.length := by
          have := (List.getElem?_eq_some.mp hr).1
          rw [consecutive_length] at this
          exact this
        obtain ⟨k, hk⟩ : ∃ k, ns[j]? = some k := ⟨ns[j], List.getElem?_eq_getElem hlen⟩
        have := consecutive_bounds ns (p + n) j r k hns hr hk
        omega
      | succ i =>
        simp [consecutive] at hq hm
        exact ih (p + n) i j q m r hns (by omega) hq hm hr

/-- C5: on an initialised arena whose cursor stands at the base of the current region (as
after `init` or `reset_temp_allocator`, in particular on an arena with a single region), a
sequence of `get` calls with non-negative sizes whose sum is less than
`current_memory_limit - current_memory_base` triggers no growth and maps nothing, leaves the
region bounds as they were, and returns one pointer per size such that every range
`[p, p + size)` lies inside `[current_memory_base, current_memory_limit)` and no address
belongs to two of the ranges. -/
theorem get_each_within_region (a : Arena) (sizes : List Int)
    (hinit : a.t.original_memory_base ≠ 0)
    (hstart : a.t.current_point = a.t.current_memory_base)
    (hsizes : ∀ n ∈ sizes, 0 ≤ n)
    (hsum : sizes.sum < a.t.current_memory_limit - a.t.current_memory_base) :
    (get_each a sizes).2.grow_events = a.grow_events ∧
    (get_each a sizes).2.vm.mapped = a.vm.mapped ∧
    (get_each a sizes).2.t.current_memory_base = a.t.current_memory_base ∧
    (get_each a sizes).2.t.current_memory_limit = a.t.current_memory_limit ∧
    (get_each a sizes).1.length = sizes.length ∧
    (∀ (i : Nat) (p n : Int), (get_each a sizes).1[i]? = some p → sizes[i]? = some n →
      a.t.current_memory_base ≤ p ∧ p + n ≤ a.t.current_memory_limit) ∧
    (∀ (i j : Nat) (p n q k : Int), i < j →
      (get_each a sizes).1[i]? = some p → sizes[i]? = some n →
      (get_each a sizes).1[j]? = some q → sizes[j]? = some k →
      ∀ x : Int, ¬ (p ≤ x ∧ x < p + n ∧ q ≤ x ∧ x < q + k)) := by
  have hfit : a.t.current_point + sizes.sum ≤ a.t.current_memory_limit := by omega
  rw [get_each_of_fits sizes a hinit hsizes hfit]
  refine ⟨rfl, rfl, rfl, rfl, consecutive_length sizes _, ?_, ?_⟩
  · intro i p n hp hn
    have := consecutive_bounds sizes a.t.current_point i p n hsizes hp hn
    simp only at hp
    omega
  · intro i j p n q k hij hp hn hq _ x hx
    have := consecutive_ordered sizes a.t.current_point i j p n q hsizes hij hp hn hq
    omega

/-- C5, at a region of 4080 usable bytes and the sizes 100, 200 and 300. -/
theorem get_each_within_region_witness :
    (init fresh_arena 4096).t.original_memory_base ≠ 0 ∧
    (get_each (init fresh_arena 4096) [100, 200, 300]).1 = [65536, 65636, 65836] ∧
    (get_each (init fresh_arena 4096) [100, 200, 300]).2.grow_events = 0 ∧
    (get_each (init fresh_arena 4096) [100, 200, 300]).2.vm.mapped
      = (init fresh_arena 4096).vm.mapped :=
  ⟨by decide, by decide,
    (get_each_within_region (init fresh_arena 4096) [100, 200, 300]
      (by decide) (by decide) (by decide) (by decide)).1,
    (get_each_within_region (init fresh_arena 4096) [100, 200, 300]
      (by decide) (by decide) (by decide) (by decide)).2.1⟩

/-- C4: on a never-initialised arena with the default alignment 8, `get` of 3 bytes followed
by `get` of 8 bytes returns the base of the region plus 3 for the second request, which is
not a multiple of 8: the value of `align_pow2(t.current_point, t.alignment)` is dropped. -/
theorem get_second_pointer_not_aligned :
    (get fresh_arena 3).2.t.alignment = 8 ∧
    (get fresh_arena 3).1 = 65536 ∧
    (get (get fresh_arena 3).2 8).1 = 65539 ∧
    (get (get fresh_arena 3).2 8).1 % (get fresh_arena 3).2.t.alignment = 3 ∧
    align_pow2 65539 8 = 65544 := by
  decide

/-- C6: after `get` of 8 bytes on a never-initialised arena, `get` of 1073741824 bytes does
not fit, performs one `grow_temp`, and the region it maps has 1073741808 usable bytes, 16
fewer than requested: the returned range ends past `current_memory_limit`, and the space
gained is less than the request. -/
theorem get_grows_short_of_request :
    (get fresh_arena 8).2.t.current_point + 1073741824
      > (get fresh_arena 8).2.t.current_memory_limit ∧
    (get (get fresh_arena 8).2 1073741824).2.grow_events
      = (get fresh_arena 8).2.grow_events + 1 ∧
    (get (get fresh_arena 8).2 1073741824).2.t.current_memory_limit
      - (get (get fresh_arena 8).2 1073741824).2.t.current_memory_base = 1073741808 ∧
    (get (get fresh_arena 8).2 1073741824).1
      = (get (get fresh_arena 8).2 1073741824).2.t.current_memory_base ∧
    (get (get fresh_arena 8).2 1073741824).1 + 1073741824
      > (get (get fresh_arena 8).2 1073741824).2.t.current_memory_limit := by
  decide

/-- C7: after `get` of 268435440 bytes and `get` of 268435472 bytes on a never-initialised
arena the second region is current and the high-water mark is 536870912;
`reset_temp_allocator` then leaves one region, current and original, of 536870896 usable
bytes, 16 fewer than the high-water mark. -/
theorem reset_region_short_of_high_water_mark :
    (get (get fresh_arena 268435440).2 268435472).2.t.current_memory_base
      ≠ (get (get fresh_arena 268435440).2 268435472).2.t.original_memory_base ∧
    (get (get fresh_arena 268435440).2 268435472).2.t.high_water_mark = 536870912 ∧
    (reset_temp_allocator (get (get fresh_arena 268435440).2 268435472).2).map
      (fun a => (a.t.current_memory_base - a.t.original_memory_base,
        a.vm.mapped.length,
        a.t.current_memory_limit - a.t.current_memory_base))
      = some (0, 1, 536870896) := by
  decide

/-- C8: on a never-initialised arena an ALLOCATE request of 8 bytes leaves
`current_memory_base <= current_point <= current_memory_limit`, and a following ALLOCATE
request of 1073741824 bytes, which triggers growth, leaves `current_point` 16 bytes past
`current_memory_limit`. -/
theorem allocate_with_growth_breaks_bounds :
    (temp_allocator_proc fresh_arena Allocator_Mode.ALLOCATE 8 0 0).2.t.current_memory_base
      ≤ (temp_allocator_proc fresh_arena Allocator_Mode.ALLOCATE 8 0 0).2.t.current_point ∧
    (temp_allocator_proc fresh_arena Allocator_Mode.ALLOCATE 8 0 0).2.t.current_point
      ≤ (temp_allocator_proc fresh_arena Allocator_Mode.ALLOCATE 8 0 0).2.t.current_memory_limit ∧
    (temp_allocator_proc (temp_allocator_proc fresh_arena Allocator_Mode.ALLOCATE 8 0 0).2
        Allocator_Mode.ALLOCATE 1073741824 0 0).2.t.current_point
      = (temp_allocator_proc (temp_allocator_proc fresh_arena Allocator_Mode.ALLOCATE 8 0 0).2
        Allocator_Mode.ALLOCATE 1073741824 0 0).2.t.current_memory_limit + 16 := by
  decide

/-- C9: after three `get` calls of 8, 268435456 and 536870912 bytes on a never-initialised
arena, two growth events have happened and three regions are mapped, but the footers from the
original region lead to two regions only, the original and the current one; `deinit` ends
with the region of the first growth still mapped. -/
theorem second_growth_drops_region_from_chain :
    (get (get (get fresh_arena 8).2 268435456).2 536870912).2.grow_events = 2 ∧
    (get (get (get fresh_arena 8).2 268435456).2 536870912).2.vm.mapped.map (fun m => m.base)
      = [805371904, 268500992, 65536] ∧
    (region_chain (get (get (get fresh_arena 8).2 268435456).2 536870912).2.vm 3
        (get (get (get fresh_arena 8).2 268435456).2 536870912).2.t.original_memory_base
        (get (get (get fresh_arena 8).2 268435456).2 536870912).2.t.original_memory_limit).map
      (fun m => m.base) = [65536, 805371904] ∧
    (get (get (get fresh_arena 8).2 268435456).2 536870912).2.t.current_memory_base
      = 805371904 ∧
    (deinit (get (get (get fresh_arena 8).2 268435456).2 536870912).2).map
      (fun a => a.vm.mapped.map (fun m => m.base)) = some [268500992] := by
  decide

theorem chain_congr (m m' : Entry_Memory) (xs : List Nat) :
    ∀ p, Chain m p xs → (∀ q ∈ xs, m' q = m q) → Chain m' p xs := by
  induction xs with
  | nil => intro p h _; exact h
  | cons x xs ih =>
    intro p h hagree
    obtain ⟨hp, hx, hrest⟩ := h
    refine ⟨hp, hx, ?_⟩
    rw [hagree x (List.mem_cons_self x xs)]
    exact ih _ hrest (fun q hq => hagree q (List.mem_cons_of_mem x hq))

theorem chain_not_null (m : Entry_Memory) (xs : List Nat) :
    ∀ p, Chain m p xs → ∀ q ∈ xs, q ≠ 0 := by
  induction xs with
  | nil => intro p _ q hq; simp at hq
  | cons x xs ih =>
    intro p h q hq
    obtain ⟨_, hx, hrest⟩ := h
    rcases List.mem_cons.mp hq with rfl | hq
    · exact hx
    · exact ih _ hrest q hq

theorem last_or_null_mem (xs : List Nat) (h : xs ≠ []) : last_or_null xs ∈ xs := by
  induction xs with
  | nil => exact absurd rfl h
  | cons x xs ih =>
    cases xs with
    | nil => simp [last_or_null]
    | cons y ys =>
      have := ih (List.cons_ne_nil y ys)
      simp only [last_or_null]
      exact List.mem_cons_of_mem x this

theorem last_or_null_append (xs : List Nat) (e : Nat) : last_or_null (xs ++ [e]) = e := by
  induction xs with
  | nil => rfl
  | cons x xs ih =>
    cases xs with
    | nil => rfl
    | cons y ys => simpa [last_or_null] using ih

theorem chain_first (m : Entry_Memory) (p : Nat) (xs : List Nat) (h : Chain m p xs) :
    p = xs.headD 0 := by
  cases xs with
  | nil => exact h
  | cons x xs => exact h.1

/-- Linking a new entry behind the last entry of a chain. -/
theorem chain_append (m : Entry_Memory) (e : Nat) (he : e ≠ 0) (hnext : (m e).next = 0)
    (xs : List Nat) :
    ∀ p, xs ≠ [] → Chain m p xs → xs.Nodup → e ∉ xs →
      Chain (store m (last_or_null xs) { m (last_or_null xs) with next := e }) p (xs ++ [e]) := by
  induction xs with
  | nil => intro p h; exact absurd rfl h
  | cons x xs ih =>
    intro p _ hchain hnodup hmem
    obtain ⟨hp, hx, hrest⟩ := hchain
    have hex : e ≠ x := fun h => hmem (h ▸ List.mem_cons_self x xs)
    cases xs with
    | nil =>
      have hn : (m x).next = 0 := hrest
      refine ⟨hp, hx, ?_⟩
      simp [last_or_null, store, Chain, he, hex, hnext]
    | cons y ys =>
      have hlast : last_or_null (y :: ys) ≠ x := by
        intro h
        have := last_or_null_mem (y :: ys) (List.cons_ne_nil y ys)
        rw [h] at this
        exact (List.nodup_cons.mp hnodup).1 this
      have hx' : ¬ (x = last_or_null (y :: ys)) := fun h => hlast h.symm
      refine ⟨hp, hx, ?_⟩
      have := ih (m x).next (List.cons_ne_nil y ys) hrest (List.nodup_cons.mp hnodup).2
        (fun h => hmem (List.mem_cons_of_mem x h))
      simpa [last_or_null, store, hx'] using this

theorem add_work_first (m : Entry_Memory) (l : Work_List) (e : Nat) :
    (add_work m l e).2.first = if l.last ≠ 0 then l.first else e := by
  by_cases hl : l.last = 0 <;> simp [add_work, lock, unlock, hl]

theorem add_work_last (m : Entry_Memory) (l : Work_List) (e : Nat) :
    (add_work m l e).2.last = e := by
  by_cases hl : l.last = 0 <;> simp [add_work, lock, unlock, hl]

theorem add_work_count (m : Entry_Memory) (l : Work_List) (e : Nat) :
    (add_work m l e).2.count = l.count + 1 := by
  by_cases hl : l.last = 0 <;> simp [add_work, lock, unlock, hl]

theorem add_work_semaphore (m : Entry_Memory) (l : Work_List) (e : Nat) :
    (add_work m l e).2.semaphore = signal l.semaphore := by
  by_cases hl : l.last = 0 <;> simp [add_work, lock, unlock, hl]

/-- What `add_work` writes: only the `next` field of the old last entry. -/
theorem add_work_memory (m : Entry_Memory) (l : Work_List) (e q : Nat) :
    (add_work m l e).1 q =
      if q = l.last ∧ l.last ≠ 0 then { m q with next := e } else m q := by
  by_cases hl : l.last = 0
  · simp [add_work, lock, hl]
  · by_cases hq : q = l.last
    · simp [add_work, lock, hl, store, hq]
    · simp [add_work, lock, hl, store, hq]

theorem add_work_memory_of_last (m : Entry_Memory) (l : Work_List) (e : Nat) (hl : l.last ≠ 0) :
    (add_work m l e).1 = store m l.last { m l.last with next := e } := by
  simp [add_work, lock, hl]

theorem add_work_memory_of_null (m : Entry_Memory) (l : Work_List) (e : Nat) (hl : l.last = 0) :
    (add_work m l e).1 = m := by
  simp [add_work, lock, hl]

theorem get_work_of_null (m : Entry_Memory) (l : Work_List) (hf : l.first = 0) :
    (get_work m l).1 = 0 ∧ (get_work m l).2.first = l.first ∧ (get_work m l).2.last = l.last ∧
      (get_work m l).2.count = l.count ∧ (get_work m l).2.semaphore = l.semaphore := by
  simp [get_work, lock, unlock, hf]

theorem get_work_of_first (m : Entry_Memory) (l : Work_List) (hf : l.first ≠ 0) :
    (get_work m l).1 = l.first ∧ (get_work m l).2.first = (m l.first).next ∧
      (get_work m l).2.last = (if (m l.first).next = 0 then 0 else l.last) ∧
      (get_work m l).2.count = l.count - 1 ∧ (get_work m l).2.semaphore = l.semaphore := by
  by_cases hn : (m l.first).next = 0 <;> simp [get_work, lock, unlock, hf, hn]

theorem holds_add_work (m : Entry_Memory) (l : Work_List) (xs : List Nat) (e : Nat)
    (h : Holds m l xs) (hnodup : xs.Nodup) (he : e ≠ 0) (hmem : e ∉ xs)
    (hnext : (m e).next = 0) :
    Holds (add_work m l e).1 (add_work m l e).2 (xs ++ [e]) := by
  obtain ⟨hchain, hlast, hcount⟩ := h
  refine ⟨?_, ?_, ?_⟩
  · rw [add_work_first]
    cases xs with
    | nil =>
      have hl : l.last = 0 := hlast
      rw [add_work_memory_of_null m l e hl]
      simp [hl, Chain, he, hnext]
    | cons x xs =>
      have hne : l.last ≠ 0 := by
        rw [hlast]
        exact chain_not_null m _ _ hchain _ (last_or_null_mem _ (List.cons_ne_nil x xs))
      rw [add_work_memory_of_last m l e hne, if_pos hne, hlast]
      exact chain_append m e he hnext (x :: xs) l.first (List.cons_ne_nil x xs) hchain hnodup hmem
  · rw [add_work_last, last_or_null_append]
  · rw [add_work_count, hcount]
    simp

theorem holds_get_work_nil (m : Entry_Memory) (l : Work_List) (h : Holds m l []) :
    (get_work m l).1 = 0 ∧ Holds m (get_work m l).2 [] := by
  obtain ⟨hchain, hlast, hcount⟩ := h
  have hf : l.first = 0 := hchain
  obtain ⟨h1, h2, h3, h4, _⟩ := get_work_of_null m l hf
  refine ⟨h1, ?_, ?_, ?_⟩
  · rw [h2]; exact hchain
  · rw [h3]; exact hlast
  · rw [h4]; exact hcount

theorem holds_get_work_cons (m : Entry_Memory) (l : Work_List) (x : Nat) (xs : List Nat)
    (h : Holds m l (x :: xs)) :
    (get_work m l).1 = x ∧ Holds m (get_work m l).2 xs := by
  obtain ⟨⟨hp, hx, hrest⟩, hlast, hcount⟩ := h
  have hf : l.first ≠ 0 := by rw [hp]; exact hx
  obtain ⟨h1, h2, h3, h4, _⟩ := get_work_of_first m l hf
  rw [hp] at h1 h2 h3
  refine ⟨h1, ?_, ?_, ?_⟩
  · rw [h2]; exact hrest
  · rw [h3]
    cases xs with
    | nil =>
      have hn : (m x).next = 0 := hrest
      simp [hn, last_or_null]
    | cons y ys =>
      have hn : (m x).next ≠ 0 := by rw [hrest.1]; exact hrest.2.1
      simpa [hn, last_or_null] using hlast
  · rw [h4, hcount]
    simp

theorem entries_from_of_chain (m : Entry_Memory) (xs : List Nat) :
    ∀ p, Chain m p xs → entries_from m xs.length p = xs := by
  induction xs with
  | nil => intro p _; rfl
  | cons x xs ih =>
    intro p h
    obtain ⟨hp, hx, hrest⟩ := h
    simp [entries_from, hp, hx, ih _ hrest]

theorem entries_of_holds (m : Entry_Memory) (l : Work_List) (xs : List Nat) (h : Holds m l xs) :
    entries m l = xs := by
  obtain ⟨hchain, _, hcount⟩ := h
  simp [entries, hcount, entries_from_of_chain m xs _ hchain]

theorem add_each_holds (es : List Nat) :
    ∀ (m : Entry_Memory) (l : Work_List) (xs : List Nat), Holds m l xs → (xs ++ es).Nodup →
      (∀ e ∈ es, e ≠ 0) → (∀ e ∈ es, (m e).next = 0) →
      Holds (add_each (m, l) es).1 (add_each (m, l) es).2 (xs ++ es) := by
  induction es with
  | nil => intro m l xs h _ _ _; simpa [add_each] using h
  | cons e es ih =>
    intro m l xs h hnodup hne hnext
    have hnodup' : ((xs ++ [e]) ++ es).Nodup := by simpa using hnodup
    have hxs : xs.Nodup := (List.nodup_append.mp hnodup).1
    have hexs : e ∉ xs := fun hmem =>
      (List.nodup_append.mp hnodup).2.2 hmem (List.mem_cons_self e es)
    have hees : e ∉ es := (List.nodup_cons.mp (List.nodup_append.mp hnodup).2.1).1
    have hstep := holds_add_work m l xs e h hxs (hne e (List.mem_cons_self e es)) hexs
      (hnext e (List.mem_cons_self e es))
    have hlast : l.last ∈ xs ∨ l.last = 0 := by
      rw [h.2.1]
      cases xs with
      | nil => right; rfl
      | cons x xs => left; exact last_or_null_mem _ (List.cons_ne_nil x xs)
    have := ih (add_work m l e).1 (add_work m l e).2 (xs ++ [e]) hstep hnodup'
      (fun e' he' => hne e' (List.mem_cons_of_mem e he'))
      (fun e' he' => by
        rw [add_work_memory]
        have hne' : ¬ (e' = l.last ∧ l.last ≠ 0) := by
          rintro ⟨h1, h2⟩
          rcases hlast with hl | hl
          · exact (List.nodup_append.mp hnodup).2.2 hl (h1 ▸ List.mem_cons_of_mem e he')
          · exact h2 hl
        rw [if_neg hne']
        exact hnext e' (List.mem_cons_of_mem e he'))
    simpa [add_each] using this

theorem get_work_times_holds (m : Entry_Memory) (xs : List Nat) :
    ∀ (l : Work_List), Holds m l xs →
      (get_work_times m xs.length l).1 = xs ∧ Holds m (get_work_times m xs.length l).2 [] := by
  induction xs with
  | nil => intro l h; exact ⟨rfl, h⟩
  | cons x xs ih =>
    intro l h
    obtain ⟨h1, h2⟩ := holds_get_work_cons m l x xs h
    obtain ⟨h3, h4⟩ := ih _ h2
    exact ⟨by simp [get_work_times, h1, h3], by simpa [get_work_times] using h4⟩

/-- C3: when distinct, non-null, unlinked entries are pushed with `add_work`, in order, onto
an empty `Work_List` (`first` and `last` null, `count` zero), as many `get_work` calls return
exactly those entries in push order, and the `get_work` call after them returns null. -/
theorem add_work_get_work_fifo (m : Entry_Memory) (l : Work_List) (es : List Nat)
    (hfirst : l.first = 0) (hlast : l.last = 0) (hcount : l.count = 0)
    (hdistinct : es.Nodup) (hnotnull : ∀ e ∈ es, e ≠ 0)
    (hunlinked : ∀ e ∈ es, (m e).next = 0) :
    (get_work_times (add_each (m, l) es).1 es.length (add_each (m, l) es).2).1 = es ∧
    (get_work (add_each (m, l) es).1
      (get_work_times (add_each (m, l) es).1 es.length (add_each (m, l) es).2).2).1 = 0 := by
  have hempty : Holds m l [] := ⟨hfirst, hlast, by simp [hcount]⟩
  have hheld := add_each_holds es m l [] hempty (by simpa using hdistinct) hnotnull hunlinked
  rw [List.nil_append] at hheld
  obtain ⟨h1, h2⟩ := get_work_times_holds _ es _ hheld
  exact ⟨h1, (holds_get_work_nil _ _ h2).1⟩

/-- C3, at the entries 5, 9 and 2 pushed onto a default-initialised list. -/
theorem add_work_get_work_fifo_witness :
    (get_work_times (add_each (fun _ => {}, {}) [5, 9, 2]).1 3
      (add_each (fun _ => {}, {}) [5, 9, 2]).2).1 = [5, 9, 2] ∧
    (get_work (add_each (fun _ => {}, {}) [5, 9, 2]).1
      (get_work_times (add_each (fun _ => {}, {}) [5, 9, 2]).1 3
        (add_each (fun _ => {}, {}) [5, 9, 2]).2).2).1 = 0 :=
  add_work_get_work_fifo (fun _ => {}) {} [5, 9, 2] rfl rfl rfl (by decide) (by decide)
    (by decide)

/-! ## Theorems: ownership of the work entries -/

theorem count_all_owned_set (q : Nat) (o' : Owned) (A : List Owned) :
    ∀ (i : Nat) (o : Owned), A[i]? = some o →
      List.count q (all_owned (A.set i o')) + List.count q o.all
        = List.count q (all_owned A) + List.count q o'.all := by
  induction A with
  | nil => intro i o h; simp at h
  | cons a A ih =>
    intro i o h
    cases i with
    | zero =>
      simp at h
      subst h
      simp [all_owned, List.flatMap_cons, List.count_append]
      omega
    | succ i =>
      simp at h
      have := ih i o h
      simp [all_owned, List.flatMap_cons, List.count_append] at this ⊢
      omega

theorem count_le_all_owned (q : Nat) (A : List Owned) :
    ∀ (i : Nat) (o : Owned), A[i]? = some o → List.count q o.all ≤ List.count q (all_owned A) := by
  induction A with
  | nil => intro i o h; simp at h
  | cons a A ih =>
    intro i o h
    cases i with
    | zero =>
      simp at h
      subst h
      simp [all_owned, List.flatMap_cons, List.count_append]
    | succ i =>
      simp at h
      have := ih i o h
      simp [all_owned, List.flatMap_cons, List.count_append] at this ⊢
      omega

theorem count_two_le_all_owned (q : Nat) (A : List Owned) (i k : Nat) (o ok : Owned)
    (hi : A[i]? = some o) (hk : A[k]? = some ok) (hik : i ≠ k) :
    List.count q o.all + List.count q ok.all ≤ List.count q (all_owned A) := by
  have h1 := count_all_owned_set q {} A i o hi
  have hk' : (A.set i {})[k]? = some ok := by rw [List.getElem?_set_ne hik]; exact hk
  have h2 := count_le_all_owned q (A.set i {}) k ok hk'
  have h0 : List.count q ({} : Owned).all = 0 := by simp [Owned.all]
  rw [h0] at h1
  omega

theorem worker_rep_congr (m m' : Entry_Memory) (wi : Worker_Info) (o : Owned)
    (h : Worker_Rep m wi o) (hagree : ∀ q ∈ o.all, m' q = m q) : Worker_Rep m' wi o := by
  obtain ⟨⟨ha1, ha2, ha3⟩, ⟨hc1, hc2, hc3⟩, hh, hp1, hp2, hp3⟩ := h
  refine ⟨⟨chain_congr m m' _ _ ha1 ?_, ha2, ha3⟩, ⟨chain_congr m m' _ _ hc1 ?_, hc2, hc3⟩, hh,
    hp1, ?_, hp3⟩
  · intro q hq; exact hagree q (by simp [Owned.all, hq])
  · intro q hq; exact hagree q (by simp [Owned.all, hq])
  · intro hs
    have hne := hp1 (Or.inr hs)
    have hmem : wi.thread.entry ∈ o.all := by
      obtain ⟨s, hs'⟩ := hs
      have : in_hand wi.thread = [wi.thread.entry] := by simp [in_hand, hs', holds_entry, hne]
      rw [hh] at this
      simp [Owned.all, this]
    rw [hagree _ hmem]
    exact hp2 hs

/-- Replacing one worker, whose entries change from `o` to `o'` in exchange with the
producer's `F`, keeps the invariant when the memory changes only inside `F` and `o`. -/
theorem inv_put_worker (w : World) (A : List Owned) (F F' : List Nat) (i : Nat)
    (wi wi' : Worker_Info) (o o' : Owned) (m' : Entry_Memory)
    (hinv : Inv w A F) (hwi : w.group.worker_info[i]? = some wi) (ho : A[i]? = some o)
    (hexch : (F' ++ o'.all).Perm (F ++ o.all))
    (hrep : Worker_Rep m' wi' o')
    (hframe : ∀ q, q ∉ F → q ∉ o.all → m' q = w.memory q) :
    Inv (put_worker { w with memory := m' } i wi') (A.set i o') F' ∧
      ∀ q, List.count q (F' ++ all_owned (A.set i o')) = List.count q (F ++ all_owned A) := by
  have hcount : ∀ q, List.count q (F' ++ all_owned (A.set i o'))
      = List.count q (F ++ all_owned A) := by
    intro q
    have h1 := count_all_owned_set q o' A i o ho
    have h2 := List.perm_iff_count.mp hexch q
    simp only [List.count_append] at h2 ⊢
    omega
  have hperm : (F' ++ all_owned (A.set i o')).Perm (F ++ all_owned A) :=
    List.perm_iff_count.mpr hcount
  refine ⟨⟨?_, ?_, ?_, hinv.alloc, ?_⟩, hcount⟩
  · refine ⟨by simpa [put_worker] using hinv.rep.1, ?_⟩
    intro k wk ok hwk hok
    simp only [put_worker] at hwk
    by_cases hik : i = k
    · subst hik
      have hlt : i < w.group.worker_info.length := (List.getElem?_eq_some.mp hwi).1
      have hlt' : i < A.length := (List.getElem?_eq_some.mp ho).1
      rw [List.getElem?_set_self hlt] at hwk
      rw [List.getElem?_set_self hlt'] at hok
      cases hwk; cases hok
      exact hrep
    · rw [List.getElem?_set_ne hik] at hwk
      rw [List.getElem?_set_ne hik] at hok
      have hold := hinv.rep.2 k wk ok hwk hok
      apply worker_rep_congr w.memory m' wk ok hold
      intro q hq
      have hq1 : 1 ≤ List.count q ok.all := List.count_pos_iff.mpr hq
      have h2 := count_two_le_all_owned q A i k o ok ho hok hik
      have h3 := List.nodup_iff_count_le_one.mp hinv.nodup q
      simp only [List.count_append] at h3
      apply hframe
      · intro hF
        have : 1 ≤ List.count q F := List.count_pos_iff.mpr hF
        omega
      · intro ho'
        have : 1 ≤ List.count q o.all := List.count_pos_iff.mpr ho'
        omega
  · exact (hperm.nodup_iff).mpr hinv.nodup
  · intro p hp
    exact hinv.live p (hperm.mem_iff.mp hp)
  · simpa [put_worker] using hinv.cursor

theorem ledger_perm (m m' : Entry_Memory) (A A' : List Owned) (F F' : List Nat)
    (hcount : ∀ q, List.count q (F' ++ all_owned A') = List.count q (F ++ all_owned A))
    (hwork : ∀ q, (m' q).work = (m q).work) :
    (ledger m' A' F').Perm (ledger m A F) := by
  have hfun : (fun p => (m' p).work) = (fun p => (m p).work) := funext hwork
  unfold ledger
  rw [hfun]
  exact (List.perm_iff_count.mpr hcount).map _

theorem set_getElem?_self (A : List Owned) :
    ∀ (i : Nat) (o : Owned), A[i]? = some o → A.set i o = A := by
  induction A with
  | nil => intro i o h; simp at h
  | cons a A ih =>
    intro i o h
    cases i with
    | zero => simp at h; subst h; rfl
    | succ i => simp at h; simp [ih i o h]

theorem rep_getElem? (m : Entry_Memory) (ws : List Worker_Info) (A : List Owned)
    (h : Rep m ws A) (i : Nat) (wi : Worker_Info) (hwi : ws[i]? = some wi) :
    ∃ o, A[i]? = some o ∧ Worker_Rep m wi o := by
  have hlt : i < A.length := h.1 ▸ (List.getElem?_eq_some.mp hwi).1
  exact ⟨A[i], List.getElem?_eq_getElem hlt, h.2 i wi A[i] hwi (List.getElem?_eq_getElem hlt)⟩

/-- The invariant reads only the memory, the workers, the live blocks, the allocator and the
dispatch cursor. -/
theorem inv_of_eq (w w' : World) (A : List Owned) (F : List Nat) (h : Inv w A F)
    (hm : w'.memory = w.memory) (hws : w'.group.worker_info = w.group.worker_info)
    (hl : w'.live = w.live) (ha : w'.new_address = w.new_address)
    (hc : w'.group.next_worker_index = w.group.next_worker_index) : Inv w' A F := by
  refine ⟨?_, h.nodup, ?_, ?_, ?_⟩
  · rw [hm, hws]; exact h.rep
  · rw [hl]; exact h.live
  · rw [ha]; exact h.alloc
  · rw [hc, hws]; exact h.cursor

/-- A block the allocator hands out joins the producer's entries, whatever is written to
it. -/
theorem inv_alloc (w : World) (A : List Owned) (F : List Nat) (m' : Entry_Memory)
    (h : Inv w A F) (hm : ∀ q, q ≠ w.new_address w.live → m' q = w.memory q) :
    Inv { w with memory := m', live := w.new_address w.live :: w.live } A
        (w.new_address w.live :: F) ∧
      w.new_address w.live ∉ F ++ all_owned A ∧ w.new_address w.live ≠ 0 := by
  have hfresh : w.new_address w.live ∉ F ++ all_owned A :=
    fun hmem => (h.alloc w.live).1 (h.live _ hmem).1
  refine ⟨⟨?_, ?_, ?_, h.alloc, h.cursor⟩, hfresh, (h.alloc w.live).2⟩
  · refine ⟨h.rep.1, ?_⟩
    intro i wi o hwi ho
    apply worker_rep_congr w.memory m' wi o (h.rep.2 i wi o hwi ho)
    intro q hq
    apply hm
    intro hqp
    apply hfresh
    rw [← hqp]
    have h1 : 1 ≤ List.count q o.all := List.count_pos_iff.mpr hq
    have h2 := count_le_all_owned q A i o ho
    exact List.mem_append_right F (List.count_pos_iff.mp (by omega))
  · rw [List.cons_append]
    exact List.nodup_cons.mpr ⟨hfresh, h.nodup⟩
  · intro p hp
    rw [List.cons_append] at hp
    rcases List.mem_cons.mp hp with rfl | hp
    · exact ⟨List.mem_cons_self _ _, (h.alloc w.live).2⟩
    · exact ⟨List.mem_cons_of_mem _ (h.live p hp).1, (h.live p hp).2⟩

/-- Releasing an entry the producer holds. -/
theorem inv_free (w : World) (A : List Owned) (p : Nat) (F : List Nat) (h : Inv w A (p :: F)) :
    Inv { w with live := w.live.erase p } A F := by
  have hnodup := h.nodup
  rw [List.cons_append] at hnodup
  refine ⟨h.rep, (List.nodup_cons.mp hnodup).2, ?_, h.alloc, h.cursor⟩
  intro q hq
  have hq' := h.live q (by rw [List.cons_append]; exact List.mem_cons_of_mem p hq)
  refine ⟨?_, hq'.2⟩
  have hne : q ≠ p := fun heq => (List.nodup_cons.mp hnodup).1 (heq ▸ hq)
  exact (List.mem_erase_of_ne hne).mpr hq'.1

theorem nodup_owned (A : List Owned) (F : List Nat) (i : Nat) (o : Owned)
    (hnodup : (F ++ all_owned A).Nodup) (ho : A[i]? = some o) : (F ++ o.all).Nodup := by
  rw [List.nodup_iff_count_le_one] at hnodup ⊢
  intro q
  have h1 := hnodup q
  have h2 := count_le_all_owned q A i o ho
  simp only [List.count_append] at h1 ⊢
  omega

/-- Adding an entry to a list leaves alone every sequence of entries that the old last entry
of the list is not part of. -/
theorem holds_add_work_frame (m : Entry_Memory) (l l' : Work_List) (xs ys : List Nat) (e : Nat)
    (hl : Holds m l xs) (hl' : Holds m l' ys) (hdisj : ∀ q ∈ xs, q ∉ ys) :
    Holds (add_work m l e).1 l' ys := by
  refine ⟨chain_congr m _ ys _ hl'.1 ?_, hl'.2.1, hl'.2.2⟩
  intro q hq
  rw [add_work_memory]
  have : ¬ (q = l.last ∧ l.last ≠ 0) := by
    rintro ⟨h1, h2⟩
    cases xs with
    | nil => exact h2 hl.2.1
    | cons x xs =>
      have hmem := last_or_null_mem (x :: xs) (List.cons_ne_nil x xs)
      rw [← hl.2.1, ← h1] at hmem
      exact hdisj q hmem hq
  rw [if_neg this]

theorem add_work_work (m : Entry_Memory) (l : Work_List) (e q : Nat) :
    ((add_work m l e).1 q).work = (m q).work ∧
    ((add_work m l e).1 q).work_list_index = (m q).work_list_index ∧
    ((add_work m l e).1 q).thread_index = (m q).thread_index := by
  rw [add_work_memory]
  split <;> simp

theorem add_work_next_of_ne (m : Entry_Memory) (l : Work_List) (xs : List Nat) (e q : Nat)
    (hl : Holds m l xs) (hq : q ∉ xs) : (add_work m l e).1 q = m q := by
  rw [add_work_memory]
  have : ¬ (q = l.last ∧ l.last ≠ 0) := by
    rintro ⟨h1, h2⟩
    cases xs with
    | nil => exact h2 hl.2.1
    | cons x xs =>
      have hmem := last_or_null_mem (x :: xs) (List.cons_ne_nil x xs)
      rw [← hl.2.1, ← h1] at hmem
      exact hq hmem
  rw [if_neg this]

theorem worker_at_of_cursor (g : Thread_Group) (i : Int) (h0 : 0 ≤ i)
    (h1 : i < g.worker_info.length) :
    ∃ wi, worker_at g i = some wi ∧ g.worker_info[i.toNat]? = some wi := by
  have hlt : i.toNat < g.worker_info.length := by omega
  exact ⟨g.worker_info[i.toNat], by simp [worker_at, h0, List.getElem?_eq_getElem hlt],
    List.getElem?_eq_getElem hlt⟩

theorem thread_group_add_work_eq (w : World) (work : Nat) (wi : Worker_Info)
    (hwi : worker_at w.group w.group.next_worker_index = some wi) :
    thread_group_add_work w work =
      put_worker
        { w with
          memory := (add_work
            (store w.memory (w.new_address w.live)
              { next := 0, work := work, thread_index := 0,
                work_list_index := w.group.next_worker_index })
            wi.available (w.new_address w.live)).1
          live := w.new_address w.live :: w.live
          group := { w.group with
            next_worker_index :=
              if w.group.next_worker_index + 1 ≥ w.group.worker_info.length then 0
              else w.group.next_worker_index + 1 } }
        w.group.next_worker_index.toNat
        { wi with available := (add_work
            (store w.memory (w.new_address w.live)
              { next := 0, work := work, thread_index := 0,
                work_list_index := w.group.next_worker_index })
            wi.available (w.new_address w.live)).2 } := by
  have hstore : store (store (store w.memory (w.new_address w.live) {}) (w.new_address w.live)
        { store w.memory (w.new_address w.live) {} (w.new_address w.live) with work := work })
      (w.new_address w.live)
        { store (store w.memory (w.new_address w.live) {}) (w.new_address w.live)
            { store w.memory (w.new_address w.live) {} (w.new_address w.live) with work := work }
            (w.new_address w.live) with work_list_index := w.group.next_worker_index }
      = store w.memory (w.new_address w.live)
          { next := 0, work := work, thread_index := 0,
            work_list_index := w.group.next_worker_index } := by
    funext q
    by_cases hq : q = w.new_address w.live <;> simp [store, hq]
  have hwi' : worker_at
      { w.group with
        next_worker_index :=
          if w.group.next_worker_index + 1 ≥ w.group.worker_info.length then 0
          else w.group.next_worker_index + 1 } w.group.next_worker_index = some wi := hwi
  simp only [thread_group_add_work, New_Work_Entry, hstore, hwi']

/-- What `thread_group_add_work` does to a group that satisfies the invariant: the new entry
is a block `p` not owned before, it carries the payload and the index of the worker the cursor
selected, it is appended to that worker's available list, and the cursor advances and wraps. -/
theorem thread_group_add_work_spec (w : World) (A : List Owned) (work : Nat)
    (hinv : Inv w A []) :
    ∃ o : Owned, A[w.group.next_worker_index.toNat]? = some o ∧
      w.new_address w.live ∉ all_owned A ∧ w.new_address w.live ≠ 0 ∧
      Inv (thread_group_add_work w work)
        (A.set w.group.next_worker_index.toNat
          { o with available := o.available ++ [w.new_address w.live] }) [] ∧
      (∀ q, List.count q (all_owned (A.set w.group.next_worker_index.toNat
          { o with available := o.available ++ [w.new_address w.live] }))
        = List.count q (w.new_address w.live :: all_owned A)) ∧
      ((thread_group_add_work w work).memory (w.new_address w.live)).work = work ∧
      ((thread_group_add_work w work).memory (w.new_address w.live)).work_list_index
        = w.group.next_worker_index ∧
      (∀ q, q ≠ w.new_address w.live →
        ((thread_group_add_work w work).memory q).work = (w.memory q).work ∧
        ((thread_group_add_work w work).memory q).work_list_index
          = (w.memory q).work_list_index) ∧
      (thread_group_add_work w work).group.next_worker_index
        = (if w.group.next_worker_index + 1 ≥ w.group.worker_info.length then 0
          else w.group.next_worker_index + 1) ∧
      (thread_group_add_work w work).group.worker_info.length = w.group.worker_info.length := by
  obtain ⟨wi, hat, hwi⟩ := worker_at_of_cursor w.group _ hinv.cursor.1 hinv.cursor.2
  obtain ⟨o, ho, hrep⟩ := rep_getElem? _ _ _ hinv.rep _ wi hwi
  rw [thread_group_add_work_eq w work wi hat]
  generalize hp : w.new_address w.live = p
  generalize hm4 : store w.memory p
    { next := 0, work := work, thread_index := 0,
      work_list_index := w.group.next_worker_index } = m4
  have hm4q : ∀ q, q ≠ p → m4 q = w.memory q := by
    intro q hq; rw [← hm4]; simp [store, hq]
  have hm4p : m4 p = ⟨0, work, 0, w.group.next_worker_index⟩ := by
    rw [← hm4]; simp [store]
  obtain ⟨halloc, hfresh, hnotnull⟩ := inv_alloc w A [] m4 hinv (by rw [hp]; exact hm4q)
  rw [hp] at halloc hfresh hnotnull
  rw [List.nil_append] at hfresh
  -- the group with the cursor advanced
  have hcur : Inv
      { w with
        memory := m4
        live := p :: w.live
        group := { w.group with
          next_worker_index :=
            if w.group.next_worker_index + 1 ≥ w.group.worker_info.length then 0
            else w.group.next_worker_index + 1 } } A [p] := by
    refine ⟨halloc.rep, halloc.nodup, halloc.live, halloc.alloc, ?_⟩
    have := hinv.cursor
    by_cases hge : w.group.next_worker_index + 1 ≥ w.group.worker_info.length
    · simp only [hge, if_true]
      omega
    · simp only [hge, if_false]
      omega
  have hrep4 : Worker_Rep m4 wi o := halloc.rep.2 _ wi o hwi ho
  have hnodup_o : o.all.Nodup := by
    simpa using nodup_owned A [] _ o hinv.nodup ho
  have hp_o : p ∉ o.all := by
    intro hmem
    have h1 : 1 ≤ List.count p o.all := List.count_pos_iff.mpr hmem
    have h2 := count_le_all_owned p A _ o ho
    exact hfresh (List.count_pos_iff.mp (by omega))
  have hxs : o.available.Nodup := by
    simp only [Owned.all, List.append_assoc] at hnodup_o
    exact (List.nodup_append.mp hnodup_o).1
  have hdisj : ∀ q ∈ o.available, q ∉ o.completed ∧ q ∉ o.in_hand := by
    intro q hq
    simp only [Owned.all, List.append_assoc] at hnodup_o
    have := (List.nodup_append.mp hnodup_o).2.2 hq
    simpa using this
  have hnew : Worker_Rep (add_work m4 wi.available p).1
      { wi with available := (add_work m4 wi.available p).2 }
      { o with available := o.available ++ [p] } := by
    refine ⟨?_, ?_, hrep4.2.2.1, hrep4.2.2.2.1, ?_, hrep4.2.2.2.2.2⟩
    · exact holds_add_work m4 wi.available o.available p hrep4.1 hxs hnotnull
        (fun h => hp_o (by simp [Owned.all, h])) (by rw [hm4p])
    · exact holds_add_work_frame m4 wi.available wi.completed o.available o.completed p
        hrep4.1 hrep4.2.1 (fun q hq => (hdisj q hq).1)
    · intro hs0
      have hs : ∃ s, wi.thread.point = Program_Point.add_completed s := hs0
      have hne := hrep4.2.2.2.1 (Or.inr hs)
      have hmem : wi.thread.entry ∈ o.in_hand := by
        obtain ⟨s, hs'⟩ := hs
        have : in_hand wi.thread = [wi.thread.entry] := by simp [in_hand, hs', holds_entry, hne]
        rw [hrep4.2.2.1] at this
        simp [this]
      have : wi.thread.entry ∉ o.available := fun h => (hdisj _ h).2 hmem
      show ((add_work m4 wi.available p).1 wi.thread.entry).next = 0
      rw [add_work_next_of_ne m4 wi.available o.available p _ hrep4.1 this]
      exact hrep4.2.2.2.2.1 hs
  have hexch : (([] : List Nat) ++ ({ o with available := o.available ++ [p] } : Owned).all).Perm
      ([p] ++ o.all) := by
    rw [List.perm_iff_count]
    intro q
    simp [Owned.all, List.count_append, List.count_cons]
    omega
  obtain ⟨hfinal, hcount⟩ := inv_put_worker _ A [p] [] w.group.next_worker_index.toNat wi
    { wi with available := (add_work m4 wi.available p).2 } o
    { o with available := o.available ++ [p] } (add_work m4 wi.available p).1
    hcur hwi ho hexch hnew
    (fun q _ hq => add_work_next_of_ne m4 wi.available o.available p q hrep4.1
      (fun h => hq (by simp [Owned.all, h])))
  refine ⟨o, ho, hfresh, hnotnull, hfinal, ?_, ?_, ?_, ?_, ?_, ?_⟩
  · intro q
    have := hcount q
    simpa using this
  · show ((add_work m4 wi.available p).1 p).work = work
    rw [(add_work_work m4 wi.available p p).1, hm4p]
  · show ((add_work m4 wi.available p).1 p).work_list_index = w.group.next_worker_index
    rw [(add_work_work m4 wi.available p p).2.1, hm4p]
  · intro q hq
    show ((add_work m4 wi.available p).1 q).work = (w.memory q).work ∧
      ((add_work m4 wi.available p).1 q).work_list_index = (w.memory q).work_list_index
    rw [(add_work_work m4 wi.available p q).1, (add_work_work m4 wi.available p q).2.1,
      hm4q q hq]
    exact ⟨rfl, rfl⟩
  · rfl
  · simp [put_worker]

/-! ## Theorems: dispatch -/

theorem foldl_max_ge (live : List Nat) :
    ∀ top : Nat, top ≤ live.foldl Nat.max top ∧ ∀ x ∈ live, x ≤ live.foldl Nat.max top := by
  induction live with
  | nil => intro top; simp
  | cons y ys ih =>
    intro top
    obtain ⟨h1, h2⟩ := ih (Nat.max top y)
    have h3 : top ≤ Nat.max top y := Nat.le_max_left top y
    have h4 : y ≤ Nat.max top y := Nat.le_max_right top y
    refine ⟨le_trans h3 h1, ?_⟩
    intro x hx
    rcases List.mem_cons.mp hx with rfl | hx
    · exact le_trans h4 h1
    · exact h2 x hx

theorem bump_new_address_fresh (live : List Nat) :
    bump_new_address live ∉ live ∧ bump_new_address live ≠ 0 := by
  refine ⟨?_, by simp [bump_new_address]⟩
  intro hmem
  have := (foldl_max_ge live 0).2 _ hmem
  simp [bump_new_address] at this

theorem all_owned_replicate (n : Nat) : all_owned (List.replicate n {}) = [] := by
  induction n with
  | zero => rfl
  | succ n ih =>
    simp only [List.replicate_succ, all_owned, List.flatMap_cons] at ih ⊢
    rw [ih]
    rfl

/-- After `thread_group_init` on a group whose cursor is zero, with at least one thread, the
invariant holds with no entry owned by anyone. -/
theorem inv_thread_group_init (w0 : World) (num_threads : Int)
    (group_proc : Option Thread_Group_Proc) (enable_work_stealing : Bool)
    (hthreads : 1 ≤ num_threads) (hcursor : w0.group.next_worker_index = 0)
    (halloc : ∀ live : List Nat, w0.new_address live ∉ live ∧ w0.new_address live ≠ 0) :
    Inv (thread_group_init w0 num_threads group_proc enable_work_stealing)
      (List.replicate num_threads.toNat {}) [] := by
  refine ⟨⟨by simp [thread_group_init], ?_⟩, ?_, ?_, halloc, ?_⟩
  · intro i wi o hwi ho
    simp only [thread_group_init] at hwi
    rw [List.getElem?_map] at hwi
    have ho' : o = {} := by
      have := List.getElem?_eq_some.mp ho
      obtain ⟨hlt, heq⟩ := this
      rw [← heq]
      simp
    subst ho'
    cases hr : (List.range num_threads.toNat)[i]? with
    | none => rw [hr] at hwi; simp at hwi
    | some k =>
      rw [hr] at hwi
      simp only [Option.map_some'] at hwi
      cases hwi
      refine ⟨⟨rfl, rfl, rfl⟩, ⟨rfl, rfl, rfl⟩, rfl, ?_, ?_, ?_⟩
      · intro h
        rcases h with h | ⟨s, h⟩ <;> simp [worker_init, thread_init] at h
      · rintro ⟨s, h⟩
        simp [worker_init, thread_init] at h
      · rintro ⟨s, h⟩
        simp [worker_init, thread_init] at h
  · simp [all_owned_replicate]
  · intro p hp
    simp [all_owned_replicate] at hp
  · simp only [thread_group_init, hcursor, List.length_map, List.length_range]
    omega

theorem dealt_to_append (W i : Nat) (x : Nat) (works : List Nat) :
    ∀ k, dealt_to W i k (works ++ [x])
      = dealt_to W i k works ++ (if (k + works.length) % W = i then [x] else []) := by
  induction works with
  | nil => intro k; simp [dealt_to]
  | cons y ys ih =>
    intro k
    have : k + (ys.length + 1) = k + 1 + ys.length := by omega
    by_cases h : k % W = i <;> simp [dealt_to, h, ih (k + 1), this]

theorem add_work_each_append (w : World) (works : List Nat) (x : Nat) :
    add_work_each w (works ++ [x]) = thread_group_add_work (add_work_each w works) x := by
  simp [add_work_each, List.foldl_append]

theorem mem_all_owned (A : List Owned) (i : Nat) (o : Owned) (q : Nat) (ho : A[i]? = some o)
    (hq : q ∈ o.all) : q ∈ all_owned A := by
  have h1 : 1 ≤ List.count q o.all := List.count_pos_iff.mpr hq
  have h2 := count_le_all_owned q A i o ho
  exact List.count_pos_iff.mp (by omega)

theorem cursor_advance (K W : Nat) (hW : 0 < W) :
    (if ((K % W : Nat) : Int) + 1 ≥ (W : Int) then (0 : Int) else ((K % W : Nat) : Int) + 1)
      = (((K + 1) % W : Nat) : Int) := by
  have hlt : K % W < W := Nat.mod_lt _ hW
  have hdiv := Nat.div_add_mod K W
  by_cases h : K % W + 1 = W
  · have h1 : K + 1 = W * (K / W + 1) := by rw [Nat.mul_add, Nat.mul_one]; omega
    have h2 : (K + 1) % W = 0 := by rw [h1]; exact Nat.mul_mod_right _ _
    have h3 : ((K % W : Nat) : Int) + 1 ≥ (W : Int) := by omega
    rw [if_pos h3, h2]
    rfl
  · have h1 : K + 1 = (K % W + 1) + W * (K / W) := by omega
    have h2 : (K + 1) % W = K % W + 1 := by
      rw [h1, Nat.add_mul_mod_self_left]
      exact Nat.mod_eq_of_lt (by omega)
    have h3 : ¬ (((K % W : Nat) : Int) + 1 ≥ (W : Int)) := by omega
    rw [if_neg h3, h2]
    push_cast
    rfl

/-- The state after a sequence of submissions to a freshly initialised group. -/
theorem add_work_each_inv (w0 : World) (num_threads : Int)
    (group_proc : Option Thread_Group_Proc) (enable_work_stealing : Bool)
    (hthreads : 1 ≤ num_threads) (hcursor : w0.group.next_worker_index = 0)
    (halloc : ∀ live : List Nat, w0.new_address live ∉ live ∧ w0.new_address live ≠ 0)
    (works : List Nat) :
    ∃ A : List Owned,
      Inv (add_work_each
        (thread_group_init w0 num_threads group_proc enable_work_stealing) works) A [] ∧
      (add_work_each (thread_group_init w0 num_threads group_proc enable_work_stealing)
        works).group.worker_info.length = num_threads.toNat ∧
      (add_work_each (thread_group_init w0 num_threads group_proc enable_work_stealing)
        works).group.next_worker_index = ((works.length % num_threads.toNat : Nat) : Int) ∧
      ∀ (i : Nat) (o : Owned), A[i]? = some o →
        o.available.map (fun p => ((add_work_each
          (thread_group_init w0 num_threads group_proc enable_work_stealing)
          works).memory p).work) = dealt_to num_threads.toNat i 0 works ∧
        ∀ p ∈ o.available, ((add_work_each
          (thread_group_init w0 num_threads group_proc enable_work_stealing)
          works).memory p).work_list_index = (i : Int) := by
  induction works using List.reverseRecOn with
  | nil =>
    refine ⟨List.replicate num_threads.toNat {}, ?_, ?_, ?_, ?_⟩
    · exact inv_thread_group_init w0 num_threads group_proc enable_work_stealing hthreads
        hcursor halloc
    · simp [add_work_each, thread_group_init]
    · simp [add_work_each, thread_group_init, hcursor]
    · intro i o ho
      have ho' : o = {} := by
        obtain ⟨hlt, heq⟩ := List.getElem?_eq_some.mp ho
        rw [← heq]
        simp
      subst ho'
      simp [dealt_to]
  | append_singleton works x ih =>
    obtain ⟨A, hinv, hlen, hnext, hqueues⟩ := ih
    rw [add_work_each_append]
    have hW : 0 < num_threads.toNat := by omega
    generalize num_threads.toNat = W at hlen hnext hqueues hW ⊢
    generalize add_work_each
      (thread_group_init w0 num_threads group_proc enable_work_stealing) works = w
      at hinv hlen hnext hqueues ⊢
    obtain ⟨o, ho, hfresh, hnotnull, hinv', hcount, hwork, hindex, hothers, hnext', hlen'⟩ :=
      thread_group_add_work_spec w A x hinv
    have hidx : w.group.next_worker_index.toNat = works.length % W := by
      rw [hnext]; omega
    rw [hidx] at ho hinv'
    refine ⟨_, hinv', by rw [hlen', hlen], ?_, ?_⟩
    · rw [hnext', hlen, hnext, List.length_append, List.length_singleton]
      exact cursor_advance works.length W hW
    · intro i o' ho'
      have hunchanged : ∀ (k : Nat) (ok : Owned), A[k]? = some ok → ∀ q ∈ ok.available,
          ((thread_group_add_work w x).memory q).work = (w.memory q).work ∧
          ((thread_group_add_work w x).memory q).work_list_index
            = (w.memory q).work_list_index := by
        intro k ok hok q hq
        apply hothers
        intro heq
        apply hfresh
        rw [← heq]
        exact mem_all_owned A k ok q hok (by simp [Owned.all, hq])
      rw [dealt_to_append, Nat.zero_add]
      by_cases hi : works.length % W = i
      · subst hi
        have hlt : works.length % W < A.length := (List.getElem?_eq_some.mp ho).1
        rw [List.getElem?_set_self hlt] at ho'
        cases ho'
        obtain ⟨hpay, hidxs⟩ := hqueues _ o ho
        constructor
        · rw [List.map_append, if_pos rfl, ← hpay]
          congr 1
          · exact List.map_congr_left (fun q hq => (hunchanged _ o ho q hq).1)
          · simp [hwork]
        · intro q hq
          rcases List.mem_append.mp hq with hq | hq
          · rw [(hunchanged _ o ho q hq).2]
            exact hidxs q hq
          · rw [List.mem_singleton.mp hq, hindex, hnext]
      · rw [List.getElem?_set_ne hi] at ho'
        obtain ⟨hpay, hidxs⟩ := hqueues i o' ho'
        constructor
        · rw [if_neg hi, List.append_nil, ← hpay]
          exact List.map_congr_left (fun q hq => (hunchanged i o' ho' q hq).1)
        · intro q hq
          rw [(hunchanged i o' ho' q hq).2]
          exact hidxs q hq

/-- C2: after `thread_group_init` with `num_threads >= 1` on a group whose cursor is zero,
and any sequence `works` of `thread_group_add_work` calls, the group has `num_threads`
workers, the cursor is `works.length mod num_threads`, and the available list of the worker
at index `i` holds, in submission order, exactly the payloads whose position in `works` is
`i` modulo `num_threads`, each in an entry with `work_list_index = i`. (The call at position
`k` therefore appends to the list of worker `k mod num_threads`.) -/
theorem thread_group_add_work_round_robin (w0 : World) (num_threads : Int)
    (group_proc : Option Thread_Group_Proc) (enable_work_stealing : Bool) (works : List Nat)
    (hthreads : 1 ≤ num_threads) (hcursor : w0.group.next_worker_index = 0)
    (halloc : ∀ live : List Nat, w0.new_address live ∉ live ∧ w0.new_address live ≠ 0) :
    (add_work_each (thread_group_init w0 num_threads group_proc enable_work_stealing)
      works).group.worker_info.length = num_threads.toNat ∧
    (add_work_each (thread_group_init w0 num_threads group_proc enable_work_stealing)
      works).group.next_worker_index = ((works.length % num_threads.toNat : Nat) : Int) ∧
    ∀ (i : Nat) (wi : Worker_Info),
      (add_work_each (thread_group_init w0 num_threads group_proc enable_work_stealing)
        works).group.worker_info[i]? = some wi →
      payloads (add_work_each (thread_group_init w0 num_threads group_proc enable_work_stealing)
        works).memory wi.available = dealt_to num_threads.toNat i 0 works ∧
      ∀ p ∈ entries (add_work_each
          (thread_group_init w0 num_threads group_proc enable_work_stealing) works).memory
          wi.available,
        ((add_work_each (thread_group_init w0 num_threads group_proc enable_work_stealing)
          works).memory p).work_list_index = (i : Int) := by
  obtain ⟨A, hinv, hlen, hnext, hqueues⟩ := add_work_each_inv w0 num_threads group_proc
    enable_work_stealing hthreads hcursor halloc works
  refine ⟨hlen, hnext, ?_⟩
  intro i wi hwi
  obtain ⟨o, ho, hrep⟩ := rep_getElem? _ _ _ hinv.rep i wi hwi
  have hentries := entries_of_holds _ _ _ hrep.1
  obtain ⟨hpay, hidxs⟩ := hqueues i o ho
  constructor
  · rw [payloads, hentries]
    exact hpay
  · rw [hentries]
    exact hidxs

/-- C2, at two workers and the payloads 1, 2, 3, 4: worker 0 holds 1 and 3, worker 1 holds 2
and 4. -/
theorem thread_group_add_work_round_robin_witness :
    (1 : Int) ≤ 2 ∧
    (add_work_each (thread_group_init fresh_world 2 none false)
      [1, 2, 3, 4]).group.worker_info.length = 2 ∧
    (add_work_each (thread_group_init fresh_world 2 none false)
      [1, 2, 3, 4]).group.worker_info.map (fun wi =>
        payloads (add_work_each (thread_group_init fresh_world 2 none false)
          [1, 2, 3, 4]).memory wi.available) = [[1, 3], [2, 4]] ∧
    dealt_to 2 0 0 [1, 2, 3, 4] = [1, 3] ∧ dealt_to 2 1 0 [1, 2, 3, 4] = [2, 4] :=
  ⟨by decide,
    (thread_group_add_work_round_robin fresh_world 2 none false [1, 2, 3, 4] (by decide) rfl
      bump_new_address_fresh).1,
    by decide!, by decide, by decide⟩

/-! ## Theorems: the invariant along the calls of the producer -/

theorem holds_of_eq (m : Entry_Memory) (l l' : Work_List) (xs : List Nat) (h : Holds m l xs)
    (hf : l'.first = l.first) (hl : l'.last = l.last) (hc : l'.count = l.count) :
    Holds m l' xs := by
  obtain ⟨h1, h2, h3⟩ := h
  exact ⟨hf ▸ h1, hl ▸ h2, hc ▸ h3⟩

theorem point_ok_of_eq (m : Entry_Memory) (t t' : Thread) (h : Point_Ok m t)
    (hp : t'.point = t.point) (he : t'.entry = t.entry) : Point_Ok m t' := by
  unfold Point_Ok at h ⊢
  rw [hp, he]
  exact h

theorem in_hand_of_eq (t t' : Thread) (hp : t'.point = t.point) (he : t'.entry = t.entry) :
    in_hand t' = in_hand t := by
  unfold in_hand
  rw [hp, he]

/-- A worker whose lists keep `first`, `last` and `count` and whose thread keeps its point and
its `entry` owns the same entries. -/
theorem worker_rep_of_eq (m : Entry_Memory) (wi wi' : Worker_Info) (o : Owned)
    (h : Worker_Rep m wi o)
    (haf : wi'.available.first = wi.available.first)
    (hal : wi'.available.last = wi.available.last)
    (hac : wi'.available.count = wi.available.count)
    (hcf : wi'.completed.first = wi.completed.first)
    (hcl : wi'.completed.last = wi.completed.last)
    (hcc : wi'.completed.count = wi.completed.count)
    (hp : wi'.thread.point = wi.thread.point) (he : wi'.thread.entry = wi.thread.entry) :
    Worker_Rep m wi' o :=
  ⟨holds_of_eq m _ _ _ h.1 haf hal hac, holds_of_eq m _ _ _ h.2.1 hcf hcl hcc,
    (in_hand_of_eq _ _ hp he).trans h.2.2.1, point_ok_of_eq m _ _ h.2.2.2 hp he⟩

/-- Replacing one worker by one that owns the same entries keeps the invariant. -/
theorem inv_put_worker_same (w : World) (A : List Owned) (i : Nat) (wi wi' : Worker_Info)
    (hinv : Inv w A []) (hwi : w.group.worker_info[i]? = some wi)
    (hrep : ∀ o, Worker_Rep w.memory wi o → Worker_Rep w.memory wi' o) :
    Inv (put_worker w i wi') A [] := by
  obtain ⟨o, ho, hold⟩ := rep_getElem? _ _ _ hinv.rep i wi hwi
  have := (inv_put_worker w A [] [] i wi wi' o o w.memory hinv hwi ho (List.Perm.refl _)
    (hrep o hold) (fun q _ _ => rfl)).1
  rw [set_getElem?_self A i o ho] at this
  exact this

theorem thread_is_done_same (t t' : Thread) (ms : Int) (b : Bool)
    (h : thread_is_done t ms = some (b, t')) : t'.point = t.point ∧ t'.entry = t.entry := by
  unfold thread_is_done at h
  split at h
  · cases h; exact ⟨rfl, rfl⟩
  · split at h
    · cases h
    · split at h <;> (cases h; exact ⟨rfl, rfl⟩)

theorem thread_deinit_same (t t' : Thread) (h : thread_deinit t = some t') :
    t'.point = t.point ∧ t'.entry = t.entry := by
  unfold thread_deinit at h
  split at h
  · cases h
  · cases h; exact ⟨rfl, rfl⟩

theorem shutdown_join_loop_inv (timeout : Int) (elapsed : Nat → Int) (A : List Owned)
    (indices : List Nat) :
    ∀ (w w' : World) (remaining : Int) (all_done b : Bool), Inv w A [] →
      shutdown_join_loop timeout elapsed indices w remaining all_done = some (b, w') →
      Inv w' A [] ∧ w'.memory = w.memory ∧ w'.group.should_exit = w.group.should_exit := by
  induction indices with
  | nil =>
    intro w w' remaining all_done b hinv h
    simp only [shutdown_join_loop] at h
    cases h
    exact ⟨hinv, rfl, rfl⟩
  | cons i rest ih =>
    intro w w' remaining all_done b hinv h
    simp only [shutdown_join_loop] at h
    split at h
    · exact ih _ _ _ _ _ hinv h
    · rename_i wi hwi
      split at h
      · cases h
      · rename_i is_done t hdone
        obtain ⟨hp, he⟩ := thread_is_done_same _ _ _ _ hdone
        have hinv' := inv_put_worker_same w A i wi { wi with thread := t } hinv hwi
          (fun o ho => worker_rep_of_eq _ wi _ o ho rfl rfl rfl rfl rfl rfl hp he)
        obtain ⟨h1, h2, h3⟩ := ih _ _ _ _ _ hinv' h
        exact ⟨h1, h2, h3⟩

theorem shutdown_release_loop_inv (A : List Owned) (indices : List Nat) :
    ∀ (w w' : World), Inv w A [] → shutdown_release_loop indices w = some w' →
      Inv w' A [] ∧ w'.memory = w.memory ∧ w'.group.should_exit = w.group.should_exit := by
  induction indices with
  | nil =>
    intro w w' hinv h
    simp only [shutdown_release_loop] at h
    cases h
    exact ⟨hinv, rfl, rfl⟩
  | cons i rest ih =>
    intro w w' hinv h
    simp only [shutdown_release_loop] at h
    split at h
    · exact ih _ _ hinv h
    · rename_i wi hwi
      split at h
      · cases h
      · rename_i t hdeinit
        obtain ⟨hp, he⟩ := thread_deinit_same _ _ hdeinit
        have hinv' := inv_put_worker_same w A i wi _ hinv hwi
          (fun o ho => worker_rep_of_eq _ wi
            { thread := t
              available := deinit_work_list (deinit_work_list wi.available)
              completed := wi.completed
              worker_index := wi.worker_index
              work_steal_indices := wi.work_steal_indices
              work_steal_indices_released := true } o ho rfl rfl rfl rfl rfl rfl hp he)
        obtain ⟨h1, h2, h3⟩ := ih _ _ hinv' h
        exact ⟨h1, h2, h3⟩

/-- Mapping every worker to one that owns the same entries keeps the invariant. -/
theorem inv_map_workers (w : World) (A : List Owned) (f : Worker_Info → Worker_Info)
    (hinv : Inv w A [])
    (hf : ∀ wi o, Worker_Rep w.memory wi o → Worker_Rep w.memory (f wi) o) :
    Inv { w with group := { w.group with worker_info := w.group.worker_info.map f } } A [] := by
  refine ⟨⟨by simpa using hinv.rep.1, ?_⟩, hinv.nodup, hinv.live, hinv.alloc, ?_⟩
  · intro i wi o hwi ho
    simp only [List.getElem?_map] at hwi
    cases hw : w.group.worker_info[i]? with
    | none => rw [hw] at hwi; simp at hwi
    | some wi0 =>
      rw [hw] at hwi
      simp only [Option.map_some'] at hwi
      cases hwi
      exact hf wi0 o (hinv.rep.2 i wi0 o hw ho)
  · simpa using hinv.cursor

/-- A call of `thread_group_shutdown` keeps the invariant, the memory of the entries and
`should_exit`. -/
theorem thread_group_shutdown_inv (w w' : World) (A : List Owned) (timeout : Int)
    (elapsed : Nat → Int) (b : Bool) (hinv : Inv w A [])
    (h : thread_group_shutdown w timeout elapsed = some (b, w')) :
    Inv w' A [] ∧ w'.memory = w.memory ∧ w'.group.should_exit = w.group.should_exit := by
  unfold thread_group_shutdown at h
  simp only at h
  have hjoin : ∀ (b1 : Bool) (w1 : World),
      (if w.group.started then
        shutdown_join_loop timeout elapsed (List.range w.group.worker_info.length)
          { w with group := { w.group with
            worker_info := w.group.worker_info.map (fun wi =>
              { wi with available :=
                { wi.available with semaphore := signal wi.available.semaphore } }) } }
          timeout true
      else some (true, w)) = some (b1, w1) →
      Inv w1 A [] ∧ w1.memory = w.memory ∧ w1.group.should_exit = w.group.should_exit := by
    intro b1 w1 hj
    split at hj
    · have hsig := inv_map_workers w A (fun wi =>
        { wi with available :=
          { wi.available with semaphore := signal wi.available.semaphore } }) hinv
        (fun wi o ho => worker_rep_of_eq _ wi _ o ho rfl rfl rfl rfl rfl rfl rfl rfl)
      have hloop := shutdown_join_loop_inv timeout elapsed A _ _ _ _ _ _ hsig hj
      exact hloop
    · cases hj
      exact ⟨hinv, rfl, rfl⟩
  split at h
  · cases h
  · rename_i all_done w1 hj
    obtain ⟨hinv1, hm1, he1⟩ := hjoin all_done w1 hj
    split at h
    · cases h
      exact ⟨hinv1, hm1, he1⟩
    · split at h
      · cases h
      · rename_i w2 hrel
        cases h
        obtain ⟨hinv2, hm2, he2⟩ := shutdown_release_loop_inv A _ _ _ hinv1 hrel
        refine ⟨?_, hm2.trans hm1, he2.trans he1⟩
        exact inv_of_eq w2 _ A [] hinv2 rfl rfl rfl rfl rfl

theorem thread_group_start_inv (w : World) (A : List Owned) (hinv : Inv w A []) :
    Inv (thread_group_start w) A [] := by
  have h := inv_map_workers w A (fun wi => { wi with thread := thread_start wi.thread }) hinv
    (fun wi o ho => worker_rep_of_eq _ wi _ o ho rfl rfl rfl rfl rfl rfl rfl rfl)
  exact inv_of_eq _ _ A [] h rfl rfl rfl rfl rfl

theorem chain_null (m : Entry_Memory) (xs : List Nat) (h : Chain m 0 xs) : xs = [] := by
  cases xs with
  | nil => rfl
  | cons x xs => exact absurd h.1.symm h.2.1

/-- The loop `while(completed)` over a chain the producer holds returns the payloads of the
chain, in order, and releases its entries. -/
theorem collect_completed_inv (A : List Owned) (ys : List Nat) :
    ∀ (fuel : Nat) (w : World) (c : Nat) (results : List Nat), Inv w A ys →
      Chain w.memory c ys → ys.length ≤ fuel →
      ∃ w' : World, collect_completed fuel w c results
          = some (results ++ ys.map (fun p => (w.memory p).work), w') ∧
        Inv w' A [] ∧ w'.memory = w.memory ∧ w'.group = w.group := by
  induction ys with
  | nil =>
    intro fuel w c results hinv hchain _
    have hc : c = 0 := hchain
    refine ⟨w, ?_, hinv, rfl, rfl⟩
    cases fuel <;> simp [collect_completed, hc]
  | cons y ys ih =>
    intro fuel w c results hinv hchain hfuel
    obtain ⟨hc, hy, hrest⟩ := hchain
    cases fuel with
    | zero => simp at hfuel
    | succ fuel =>
      have hlive : y ∈ w.live := (hinv.live y (by simp)).1
      have hfree := inv_free w A y ys hinv
      obtain ⟨w', hcollect, hinv', hm, hg⟩ := ih fuel { w with live := w.live.erase y }
        (w.memory y).next (results ++ [(w.memory y).work]) hfree hrest (by simpa using hfuel)
      refine ⟨w', ?_, hinv', hm, hg⟩
      simp only [collect_completed, hc, hy, if_false, hlive, if_true]
      rw [hcollect]
      simp

theorem length_le_of_nodup_subset (ys live : List Nat) (hnodup : ys.Nodup)
    (hsub : ∀ y ∈ ys, y ∈ live) : ys.length ≤ live.length :=
  (List.subperm_of_subset hnodup hsub).length_le

/-- One turn of the loop of `thread_group_get_completed_work`: the completed list of the
worker is emptied and its payloads are appended to the results, in list order. -/
theorem get_completed_work_of_inv (w : World) (A : List Owned) (results : List Nat) (i : Nat)
    (hinv : Inv w A []) :
    ∃ (w' : World) (A' : List Owned) (extra : List Nat),
      get_completed_work_of w results i = some (results ++ extra, w') ∧
      Inv w' A' [] ∧ (ledger w'.memory A' [] ++ extra).Perm (ledger w.memory A []) ∧
      w'.memory = w.memory ∧ w'.group.should_exit = w.group.should_exit ∧
      w'.group.worker_info.length = w.group.worker_info.length := by
  unfold get_completed_work_of
  cases hwi : w.group.worker_info[i]? with
  | none =>
    refine ⟨w, A, [], by simp, hinv, by simp, rfl, rfl, rfl⟩
  | some wi =>
    obtain ⟨o, ho, hrep⟩ := rep_getElem? _ _ _ hinv.rep i wi hwi
    simp only
    generalize hlist : ({ (if ({ wi.completed with mutex := lock wi.completed.mutex } :
        Work_List).first ≠ 0 then
          { ({ wi.completed with mutex := lock wi.completed.mutex } : Work_List) with
            first := 0, last := 0, count := 0 }
        else ({ wi.completed with mutex := lock wi.completed.mutex } : Work_List)) with
        mutex := unlock (if ({ wi.completed with mutex := lock wi.completed.mutex } :
        Work_List).first ≠ 0 then
          { ({ wi.completed with mutex := lock wi.completed.mutex } : Work_List) with
            first := 0, last := 0, count := 0 }
        else ({ wi.completed with mutex := lock wi.completed.mutex } : Work_List)).mutex } :
        Work_List) = list
    have hempty : Holds w.memory list [] := by
      rw [← hlist]
      by_cases hf : wi.completed.first = 0
      · have hnil : o.completed = [] := chain_null _ _ (hf ▸ hrep.2.1.1)
        have h2 := hrep.2.1
        rw [hnil] at h2
        simp only [hf, ne_eq, not_true_eq_false, if_false]
        exact ⟨rfl, h2.2.1, h2.2.2⟩
      · simp only [hf, ne_eq, not_false_eq_true, if_true]
        exact ⟨rfl, rfl, rfl⟩
    have hnew : Worker_Rep w.memory { wi with completed := list } { o with completed := [] } :=
      ⟨hrep.1, hempty, hrep.2.2.1, hrep.2.2.2⟩
    have hexch : (o.completed ++ ({ o with completed := [] } : Owned).all).Perm ([] ++ o.all) := by
      rw [List.perm_iff_count]
      intro q
      simp [Owned.all, List.count_append]
      omega
    obtain ⟨hinv1, hcount⟩ := inv_put_worker w A [] o.completed i wi { wi with completed := list }
      o { o with completed := [] } w.memory hinv hwi ho hexch hnew (fun _ _ _ => rfl)
    have hw1 : put_worker { w with memory := w.memory } i { wi with completed := list }
        = put_worker w i { wi with completed := list } := rfl
    rw [hw1] at hinv1
    have hledger : (ledger w.memory (A.set i { o with completed := [] }) [] ++
        o.completed.map (fun p => (w.memory p).work)).Perm (ledger w.memory A []) := by
      unfold ledger
      rw [← List.map_append]
      apply List.Perm.map
      rw [List.perm_iff_count]
      intro q
      have := hcount q
      simp only [List.count_append, List.nil_append] at this ⊢
      omega
    by_cases hf : wi.completed.first = 0
    · have hnil : o.completed = [] := chain_null _ _ (hf ▸ hrep.2.1.1)
      rw [hnil] at hinv1 hledger
      refine ⟨_, _, [], ?_, hinv1, by simpa using hledger, rfl, rfl, by simp [put_worker]⟩
      simp [hf]
    · have hfuel : o.completed.length ≤
          (put_worker w i { wi with completed := list }).live.length := by
        apply length_le_of_nodup_subset
        · exact (List.nodup_append.mp hinv1.nodup).1
        · intro y hy
          exact (hinv1.live y (List.mem_append_left _ hy)).1
      obtain ⟨w', hcollect, hinv', hm, hg⟩ := collect_completed_inv _ o.completed _
        (put_worker w i { wi with completed := list }) wi.completed.first results hinv1
        hrep.2.1.1 hfuel
      refine ⟨w', _, o.completed.map (fun p => (w.memory p).work), ?_, hinv', ?_, hm, ?_, ?_⟩
      · simp only [hf, if_false]
        exact hcollect
      · rw [hm]
        exact hledger
      · rw [hg]; rfl
      · rw [hg]; simp [put_worker]

theorem get_completed_work_loop_inv (indices : List Nat) :
    ∀ (w : World) (A : List Owned) (results : List Nat), Inv w A [] →
      ∃ (w' : World) (A' : List Owned) (extra : List Nat),
        get_completed_work_loop indices w results = some (results ++ extra, w') ∧
        Inv w' A' [] ∧ (ledger w'.memory A' [] ++ extra).Perm (ledger w.memory A []) ∧
        w'.memory = w.memory ∧ w'.group.should_exit = w.group.should_exit ∧
        w'.group.worker_info.length = w.group.worker_info.length := by
  induction indices with
  | nil =>
    intro w A results hinv
    exact ⟨w, A, [], by simp [get_completed_work_loop], hinv, by simp, rfl, rfl, rfl⟩
  | cons i rest ih =>
    intro w A results hinv
    obtain ⟨w1, A1, extra1, h1, hinv1, hl1, hm1, he1, hn1⟩ :=
      get_completed_work_of_inv w A results i hinv
    obtain ⟨w2, A2, extra2, h2, hinv2, hl2, hm2, he2, hn2⟩ :=
      ih w1 A1 (results ++ extra1) hinv1
    refine ⟨w2, A2, extra1 ++ extra2, ?_, hinv2, ?_, hm2.trans hm1, he2.trans he1,
      hn2.trans hn1⟩
    · simp only [get_completed_work_loop, h1, h2, List.append_assoc]
    · have : (ledger w2.memory A2 [] ++ (extra1 ++ extra2)).Perm
          ((ledger w2.memory A2 [] ++ extra2) ++ extra1) := by
        rw [List.perm_iff_count]
        intro q
        simp only [List.count_append]
        omega
      exact this.trans ((hl2.append_right extra1).trans hl1)

/-- A call of `thread_group_get_completed_work` on a group that satisfies the invariant
returns, keeps the invariant, and the payloads it returns are taken out of the payloads
owned. -/
theorem thread_group_get_completed_work_inv (w : World) (A : List Owned) (hinv : Inv w A []) :
    ∃ (w' : World) (A' : List Owned) (returned : List Nat),
      thread_group_get_completed_work w = some (returned, w') ∧
      Inv w' A' [] ∧ (ledger w'.memory A' [] ++ returned).Perm (ledger w.memory A []) ∧
      w'.memory = w.memory ∧ w'.group.should_exit = w.group.should_exit := by
  obtain ⟨w', A', extra, h, hinv', hl, hm, he, _⟩ :=
    get_completed_work_loop_inv (List.range w.group.worker_info.length) w A [] hinv
  exact ⟨w', A', extra, by simpa [thread_group_get_completed_work] using h, hinv', hl, hm, he⟩

/-! ## Theorems: the invariant along the steps of a worker -/

theorem put_worker_put_worker (w : World) (i : Nat) (a b : Worker_Info) :
    put_worker (put_worker w i a) i b = put_worker w i b := by
  simp [put_worker, List.set_set]

theorem put_worker_getElem?_self (w : World) (i : Nat) (wi a : Worker_Info)
    (hwi : w.group.worker_info[i]? = some wi) :
    (put_worker w i a).group.worker_info[i]? = some a := by
  have hlt : i < w.group.worker_info.length := (List.getElem?_eq_some.mp hwi).1
  simp [put_worker, List.getElem?_set_self hlt]

theorem end_of_pass_same (t t' : Thread) (h : end_of_pass t = some t') :
    t'.point = t.point ∧ t'.entry = t.entry ∧ t'.index = t.index := by
  unfold end_of_pass at h
  cases hr : reset_temp_allocator t.temp with
  | none => rw [hr] at h; simp at h
  | some a => rw [hr] at h; simp at h; subst h; exact ⟨rfl, rfl, rfl⟩

/-- Taking the head off the available list of a worker, into the hands of nobody yet. -/
theorem inv_pop_available (w : World) (A : List Owned) (j : Nat) (wj : Worker_Info)
    (hinv : Inv w A []) (hwj : w.group.worker_info[j]? = some wj) :
    ∃ A1 : List Owned,
      Inv (put_worker w j { wj with available := (get_work w.memory wj.available).2 }) A1
        (if (get_work w.memory wj.available).1 = 0 then []
          else [(get_work w.memory wj.available).1]) ∧
      ∀ q, List.count q ((if (get_work w.memory wj.available).1 = 0 then []
          else [(get_work w.memory wj.available).1]) ++ all_owned A1)
        = List.count q (all_owned A) := by
  obtain ⟨o, ho, hrep⟩ := rep_getElem? _ _ _ hinv.rep j wj hwj
  cases hav : o.available with
  | nil =>
    have hh := hrep.1
    rw [hav] at hh
    obtain ⟨h1, h2⟩ := holds_get_work_nil _ _ hh
    have hnew : Worker_Rep w.memory
        { wj with available := (get_work w.memory wj.available).2 } o :=
      ⟨hav ▸ h2, hrep.2.1, hrep.2.2.1, hrep.2.2.2⟩
    obtain ⟨hinv', hcount⟩ := inv_put_worker w A [] [] j wj _ o o w.memory hinv hwj ho
      (List.Perm.refl _) hnew (fun _ _ _ => rfl)
    refine ⟨A.set j o, ?_, ?_⟩
    · simp only [h1, if_true]; exact hinv'
    · simp only [h1, if_true]; exact hcount
  | cons x xs =>
    have hh := hrep.1
    rw [hav] at hh
    obtain ⟨h1, h2⟩ := holds_get_work_cons _ _ x xs hh
    have hx : x ≠ 0 := hh.1.2.1
    have hnew : Worker_Rep w.memory
        { wj with available := (get_work w.memory wj.available).2 }
        { o with available := xs } :=
      ⟨h2, hrep.2.1, hrep.2.2.1, hrep.2.2.2⟩
    have hexch : ([x] ++ ({ o with available := xs } : Owned).all).Perm ([] ++ o.all) := by
      rw [List.perm_iff_count]
      intro q
      simp [Owned.all, hav, List.count_append, List.count_cons]
      try omega
    obtain ⟨hinv', hcount⟩ := inv_put_worker w A [] [x] j wj _ o { o with available := xs }
      w.memory hinv hwj ho hexch hnew (fun _ _ _ => rfl)
    refine ⟨A.set j { o with available := xs }, ?_, ?_⟩
    · simp only [h1, hx, if_false]; exact hinv'
    · simp only [h1, hx, if_false]; exact hcount

/-- A thread that holds nothing takes what the producer holds. -/
theorem inv_take_in_hand (w : World) (A : List Owned) (F : List Nat) (i : Nat)
    (wi : Worker_Info) (t' : Thread)
    (hinv : Inv w A F) (hwi : w.group.worker_info[i]? = some wi)
    (hidle : in_hand wi.thread = []) (hhand : in_hand t' = F)
    (hpoint : Point_Ok w.memory t') :
    ∃ A' : List Owned, Inv (put_worker w i { wi with thread := t' }) A' [] ∧
      ∀ q, List.count q (all_owned A') = List.count q (F ++ all_owned A) := by
  obtain ⟨o, ho, hrep⟩ := rep_getElem? _ _ _ hinv.rep i wi hwi
  have hoh : o.in_hand = [] := hrep.2.2.1 ▸ hidle
  have hnew : Worker_Rep w.memory { wi with thread := t' } { o with in_hand := F } :=
    ⟨hrep.1, hrep.2.1, hhand, hpoint⟩
  have hexch : ([] ++ ({ o with in_hand := F } : Owned).all).Perm (F ++ o.all) := by
    rw [List.perm_iff_count]
    intro q
    simp [Owned.all, hoh, List.count_append]
    omega
  obtain ⟨hinv', hcount⟩ := inv_put_worker w A F [] i wi _ o { o with in_hand := F }
    w.memory hinv hwi ho hexch hnew (fun _ _ _ => rfl)
  exact ⟨_, hinv', by simpa using hcount⟩

/-- A thread fetches from the available list of the worker at index `j` (its own or a
peer's). -/
theorem inv_fetch (w : World) (A : List Owned) (i j : Nat) (wi wj : Worker_Info)
    (f : Thread → Thread)
    (hinv : Inv w A []) (hwi : w.group.worker_info[i]? = some wi)
    (hwj : w.group.worker_info[j]? = some wj)
    (hidle : in_hand wi.thread = [])
    (hhand : ∀ t : Thread, in_hand (f t) =
      if (get_work w.memory wj.available).1 = 0 then []
      else [(get_work w.memory wj.available).1])
    (hpoint : ∀ t : Thread, Point_Ok w.memory (f t)) :
    ∃ (wi1 : Worker_Info),
      (put_worker w j { wj with available := (get_work w.memory wj.available).2
        }).group.worker_info[i]? = some wi1 ∧ wi1.thread = wi.thread ∧
      ∃ A' : List Owned,
        Inv (put_worker
          (put_worker w j { wj with available := (get_work w.memory wj.available).2 })
          i { wi1 with thread := f wi1.thread }) A' [] ∧
        ∀ q, List.count q (all_owned A') = List.count q (all_owned A) := by
  obtain ⟨A1, hinv1, hcount1⟩ := inv_pop_available w A j wj hinv hwj
  have hlt : i < w.group.worker_info.length := (List.getElem?_eq_some.mp hwi).1
  have hex : ∃ wi1, (put_worker w j { wj with available := (get_work w.memory wj.available).2
      }).group.worker_info[i]? = some wi1 ∧ wi1.thread = wi.thread := by
    by_cases hji : j = i
    · subst hji
      rw [hwi] at hwj
      cases hwj
      exact ⟨_, put_worker_getElem?_self w j wi _ hwi, rfl⟩
    · refine ⟨wi, ?_, rfl⟩
      simp only [put_worker]
      rw [List.getElem?_set_ne hji]
      exact hwi
  obtain ⟨wi1, hwi1, hthread⟩ := hex
  refine ⟨wi1, hwi1, hthread, ?_⟩
  obtain ⟨A', hinv', hcount'⟩ := inv_take_in_hand _ A1 _ i wi1 (f wi1.thread) hinv1 hwi1
    (hthread ▸ hidle) (hhand _) (hpoint _)
  exact ⟨A', hinv', fun q => (hcount' q).trans (hcount1 q)⟩

theorem ledger_perm_of_count (m m' : Entry_Memory) (A A' : List Owned)
    (hcount : ∀ q, List.count q (all_owned A') = List.count q (all_owned A))
    (hwork : ∀ q, (m' q).work = (m q).work) :
    (ledger m' A' []).Perm (ledger m A []) :=
  ledger_perm m m' A A' [] [] (by simpa using hcount) hwork

/-- Running the callback on the entry in hand: only the `thread_index` and `next` fields of
that entry are written. -/
theorem inv_run_proc (w : World) (A : List Owned) (i : Nat) (wi : Worker_Info) (t' : Thread)
    (m' : Entry_Memory)
    (hinv : Inv w A []) (hwi : w.group.worker_info[i]? = some wi)
    (hpt : wi.thread.point = Program_Point.run_proc)
    (hentry : t'.entry = wi.thread.entry) (hpt' : ∃ s, t'.point = Program_Point.add_completed s)
    (hnext : (m' wi.thread.entry).next = 0)
    (hother : ∀ q, q ≠ wi.thread.entry → m' q = w.memory q) :
    Inv (put_worker { w with memory := m' } i { wi with thread := t' }) A [] := by
  obtain ⟨o, ho, hrep⟩ := rep_getElem? _ _ _ hinv.rep i wi hwi
  have hne : wi.thread.entry ≠ 0 := hrep.2.2.2.1 (Or.inl hpt)
  have hhand : in_hand wi.thread = [wi.thread.entry] := by
    simp [in_hand, hpt, holds_entry, hne]
  have hoh : o.in_hand = [wi.thread.entry] := hrep.2.2.1 ▸ hhand
  have hnodup : o.all.Nodup := by simpa using nodup_owned A [] i o hinv.nodup ho
  have hdisj : ∀ q, q ∈ o.available ∨ q ∈ o.completed → q ≠ wi.thread.entry := by
    intro q hq heq
    rw [List.nodup_iff_count_le_one] at hnodup
    have h1 := hnodup q
    have h2 : 1 ≤ List.count q o.in_hand := by
      rw [hoh, heq]; simp
    have h3 : 1 ≤ List.count q o.available + List.count q o.completed := by
      rcases hq with hq | hq
      · have := List.count_pos_iff.mpr hq; omega
      · have := List.count_pos_iff.mpr hq; omega
    simp only [Owned.all, List.count_append] at h1
    omega
  obtain ⟨s, hs⟩ := hpt'
  have hnew : Worker_Rep m' { wi with thread := t' } o := by
    refine ⟨⟨chain_congr _ m' _ _ hrep.1.1 ?_, hrep.1.2.1, hrep.1.2.2⟩,
      ⟨chain_congr _ m' _ _ hrep.2.1.1 ?_, hrep.2.1.2.1, hrep.2.1.2.2⟩, ?_, ?_, ?_, ?_⟩
    · intro q hq; exact hother q (hdisj q (Or.inl hq))
    · intro q hq; exact hother q (hdisj q (Or.inr hq))
    · rw [hoh]
      simp [in_hand, hs, holds_entry, hentry, hne]
    · intro _
      show t'.entry ≠ 0
      rw [hentry]; exact hne
    · intro _
      show (m' t'.entry).next = 0
      rw [hentry]; exact hnext
    · rintro ⟨rest, hrest⟩
      have hrest' : t'.point = Program_Point.steal_from rest := hrest
      rw [hs] at hrest'
      cases hrest'
  have := (inv_put_worker w A [] [] i wi _ o o m' hinv hwi ho (List.Perm.refl _) hnew
    (fun q _ hq => hother q (fun heq => hq (by simp [Owned.all, hoh, heq])))).1
  rw [set_getElem?_self A i o ho] at this
  exact this

/-- Adding the entry in hand to the completed list. -/
theorem inv_add_completed (w : World) (A : List Owned) (i : Nat) (wi : Worker_Info)
    (t' : Thread)
    (hinv : Inv w A []) (hwi : w.group.worker_info[i]? = some wi)
    (hpt : ∃ s, wi.thread.point = Program_Point.add_completed s)
    (hidle : in_hand t' = [])
    (hpoint : ∀ m : Entry_Memory, Point_Ok m t') :
    ∃ A' : List Owned,
      Inv (put_worker { w with memory := (add_work w.memory wi.completed wi.thread.entry).1 } i
        { wi with
          completed := (add_work w.memory wi.completed wi.thread.entry).2
          thread := t' }) A' [] ∧
      ∀ q, List.count q (all_owned A') = List.count q (all_owned A) := by
  obtain ⟨o, ho, hrep⟩ := rep_getElem? _ _ _ hinv.rep i wi hwi
  have hne : wi.thread.entry ≠ 0 := hrep.2.2.2.1 (Or.inr hpt)
  have hunlinked : (w.memory wi.thread.entry).next = 0 := hrep.2.2.2.2.1 hpt
  have hhand : in_hand wi.thread = [wi.thread.entry] := by
    obtain ⟨s, hs⟩ := hpt
    simp [in_hand, hs, holds_entry, hne]
  have hoh : o.in_hand = [wi.thread.entry] := hrep.2.2.1 ▸ hhand
  have hnodup : o.all.Nodup := by simpa using nodup_owned A [] i o hinv.nodup ho
  have hnodup' := hnodup
  simp only [Owned.all, List.append_assoc] at hnodup'
  have hys : o.completed.Nodup := (List.nodup_append.mp (List.nodup_append.mp hnodup').2.1).1
  have hdisj : ∀ q, q ∈ o.completed → q ∉ o.available := by
    intro q hq hq'
    exact (List.nodup_append.mp hnodup').2.2 hq' (List.mem_append_left _ hq)
  have he_ys : wi.thread.entry ∉ o.completed := by
    intro hq
    have := (List.nodup_append.mp (List.nodup_append.mp hnodup').2.1).2.2 hq
    exact this (by rw [hoh]; simp)
  have hnew : Worker_Rep (add_work w.memory wi.completed wi.thread.entry).1
      { wi with
        completed := (add_work w.memory wi.completed wi.thread.entry).2
        thread := t' }
      { o with completed := o.completed ++ [wi.thread.entry], in_hand := [] } :=
    ⟨holds_add_work_frame _ wi.completed wi.available o.completed o.available _ hrep.2.1 hrep.1
        hdisj,
      holds_add_work _ wi.completed o.completed _ hrep.2.1 hys hne he_ys hunlinked,
      hidle, hpoint _⟩
  have hexch : (([] : List Nat) ++
      (⟨o.available, o.completed ++ [wi.thread.entry], []⟩ : Owned).all).Perm ([] ++ o.all) := by
    rw [List.perm_iff_count]
    intro q
    simp [Owned.all, hoh, List.count_append]
  obtain ⟨hinv', hcount⟩ := inv_put_worker w A [] [] i wi _ o
    { o with completed := o.completed ++ [wi.thread.entry], in_hand := [] }
    (add_work w.memory wi.completed wi.thread.entry).1 hinv hwi ho hexch hnew
    (fun q _ hq => add_work_next_of_ne _ wi.completed o.completed _ q hrep.2.1
      (fun h => hq (by simp [Owned.all, h])))
  exact ⟨_, hinv', by simpa using hcount⟩

/-- A step of a thread that moves no entry. -/
theorem inv_thread_only (w : World) (A : List Owned) (i : Nat) (wi wi' : Worker_Info)
    (hinv : Inv w A []) (hwi : w.group.worker_info[i]? = some wi)
    (haf : wi'.available.first = wi.available.first)
    (hal : wi'.available.last = wi.available.last)
    (hac : wi'.available.count = wi.available.count)
    (hc : wi'.completed = wi.completed)
    (hhand : in_hand wi'.thread = in_hand wi.thread)
    (hpoint : Point_Ok w.memory wi'.thread) :
    Inv (put_worker w i wi') A [] :=
  inv_put_worker_same w A i wi wi' hinv hwi (fun _ ho =>
    ⟨holds_of_eq _ _ _ _ ho.1 haf hal hac, hc ▸ ho.2.1, hhand.trans ho.2.2.1, hpoint⟩)

theorem worker_at_some (g : Thread_Group) (j : Int) (peer : Worker_Info)
    (h : worker_at g j = some peer) : g.worker_info[j.toNat]? = some peer := by
  unfold worker_at at h
  split at h
  · exact h
  · cases h

/-- A thread fetches from its own available list. -/
theorem inv_fetch_own (w : World) (A : List Owned) (i : Nat) (wi : Worker_Info)
    (f : Thread → Thread)
    (hinv : Inv w A []) (hwi : w.group.worker_info[i]? = some wi)
    (hidle : in_hand wi.thread = [])
    (hhand : ∀ t : Thread, in_hand (f t) =
      if (get_work w.memory wi.available).1 = 0 then []
      else [(get_work w.memory wi.available).1])
    (hpoint : ∀ t : Thread, Point_Ok w.memory (f t)) :
    ∃ A' : List Owned,
      Inv (put_worker w i
        { wi with available := (get_work w.memory wi.available).2, thread := f wi.thread })
        A' [] ∧
      ∀ q, List.count q (all_owned A') = List.count q (all_owned A) := by
  obtain ⟨wi1, hwi1, _, A', hinv', hcount⟩ :=
    inv_fetch w A i i wi wi f hinv hwi hwi hidle hhand hpoint
  rw [put_worker_getElem?_self w i wi _ hwi] at hwi1
  cases hwi1
  rw [put_worker_put_worker] at hinv'
  exact ⟨A', hinv', hcount⟩

/-- A step of a worker's thread keeps the invariant and the payloads owned, as long as the
exit flag is clear. -/
theorem thread_step_inv (w w' : World) (A : List Owned) (i : Nat) (hinv : Inv w A [])
    (hrun : w.group.should_exit = false) (hstep : thread_step w i = some w') :
    ∃ A' : List Owned, Inv w' A' [] ∧ (ledger w'.memory A' []).Perm (ledger w.memory A []) ∧
      w'.group.should_exit = false := by
  unfold thread_step at hstep
  cases hwi : w.group.worker_info[i]? with
  | none => rw [hwi] at hstep; simp at hstep
  | some wi =>
    rw [hwi] at hstep
    simp only at hstep
    obtain ⟨o, ho, hrep⟩ := rep_getElem? _ _ _ hinv.rep i wi hwi
    split at hstep
    · -- suspended
      rename_i pt hpt
      obtain ⟨r, _, hw⟩ := Option.map_eq_some'.mp hstep
      subst hw
      exact ⟨A, inv_thread_only w A i wi _ hinv hwi rfl rfl rfl rfl
        (by simp [in_hand, holds_entry, hpt]) (by simp [Point_Ok]), List.Perm.refl _, hrun⟩
    · -- loop_test
      rename_i pt hpt
      rw [hrun] at hstep
      simp only [Bool.false_eq_true, if_false] at hstep
      split at hstep
      · rename_i hentry
        have hw := Option.some.inj hstep
        subst hw
        exact ⟨A, inv_thread_only w A i wi _ hinv hwi rfl rfl rfl rfl
          (by simp [in_hand, holds_entry, hpt, hentry]) (by simp [Point_Ok]),
          List.Perm.refl _, hrun⟩
      · rename_i hentry
        have hw := Option.some.inj hstep
        subst hw
        exact ⟨A, inv_thread_only w A i wi _ hinv hwi rfl rfl rfl rfl
          (by simp [in_hand, holds_entry, hpt, hentry]) (by simp [Point_Ok, hentry]),
          List.Perm.refl _, hrun⟩
    · -- wait_available
      rename_i pt hpt
      obtain ⟨r, _, hw⟩ := Option.map_eq_some'.mp hstep
      subst hw
      exact ⟨A, inv_thread_only w A i wi _ hinv hwi rfl rfl rfl rfl
        (by simp [in_hand, holds_entry, hpt]) (by simp [Point_Ok]), List.Perm.refl _, hrun⟩
    · -- woken
      rename_i pt hpt
      rw [hrun] at hstep
      simp only [Bool.false_eq_true, if_false] at hstep
      have hw := Option.some.inj hstep
      subst hw
      exact ⟨A, inv_thread_only w A i wi _ hinv hwi rfl rfl rfl rfl
        (by simp [in_hand, holds_entry, hpt]) (by simp [Point_Ok]), List.Perm.refl _, hrun⟩
    · -- get_own
      rename_i pt hpt
      have hw := Option.some.inj hstep
      subst hw
      obtain ⟨A', hinv', hcount⟩ := inv_fetch_own w A i wi
        (fun t => { t with
          entry := (get_work w.memory wi.available).1
          point := if (get_work w.memory wi.available).1 ≠ 0 then Program_Point.run_proc
            else Program_Point.steal_test })
        hinv hwi (by simp [in_hand, holds_entry, hpt])
        (fun t => by
          by_cases he : (get_work w.memory wi.available).1 = 0 <;>
            simp [in_hand, holds_entry, he])
        (fun t => by
          by_cases he : (get_work w.memory wi.available).1 = 0 <;> simp [Point_Ok, he])
      exact ⟨A', hinv', ledger_perm_of_count _ _ A A' hcount (fun _ => rfl), hrun⟩
    · -- run_proc
      rename_i pt hpt
      have hw := Option.some.inj hstep
      subst hw
      refine ⟨A, inv_run_proc w A i wi _ _ hinv hwi hpt rfl ⟨_, rfl⟩ ?_ ?_, ?_, hrun⟩
      · simp [store]
      · intro q hq
        simp [store, hq]
      · apply ledger_perm_of_count _ _ A A (fun _ => rfl)
        intro q
        by_cases hq : q = wi.thread.entry <;> simp [put_worker, store, hq]
    · -- add_completed
      rename_i pt sc hpt
      split at hstep
      · obtain ⟨t1, ht1, hw⟩ := Option.map_eq_some'.mp hstep
        subst hw
        obtain ⟨A', hinv', hcount⟩ := inv_add_completed w A i wi
          { t1 with point := Program_Point.finished } hinv hwi ⟨sc, hpt⟩
          (by simp [in_hand, holds_entry]) (fun m => by simp [Point_Ok])
        exact ⟨A', hinv', ledger_perm_of_count _ _ A A' hcount
          (fun q => (add_work_work _ _ _ q).1), hrun⟩
      · have hw := Option.some.inj hstep
        subst hw
        obtain ⟨A', hinv', hcount⟩ := inv_add_completed w A i wi
          { wi.thread with point := Program_Point.steal_test } hinv hwi ⟨sc, hpt⟩
          (by simp [in_hand, holds_entry]) (fun m => by simp [Point_Ok])
        exact ⟨A', hinv', ledger_perm_of_count _ _ A A' hcount
          (fun q => (add_work_work _ _ _ q).1), hrun⟩
    · -- steal_test
      rename_i pt hpt
      rw [hrun] at hstep
      simp only [Bool.false_eq_true, if_false] at hstep
      split at hstep
      · have hw := Option.some.inj hstep
        subst hw
        exact ⟨A, inv_thread_only w A i wi _ hinv hwi rfl rfl rfl rfl
          (by simp [in_hand, holds_entry, hpt]) (by simp [Point_Ok]), List.Perm.refl _, hrun⟩
      · obtain ⟨t1, ht1, hw⟩ := Option.map_eq_some'.mp hstep
        subst hw
        exact ⟨A, inv_thread_only w A i wi _ hinv hwi rfl rfl rfl rfl
          (by simp [in_hand, holds_entry, hpt]) (by simp [Point_Ok]), List.Perm.refl _, hrun⟩
    · -- steal_get_own
      rename_i pt hpt
      have hw := Option.some.inj hstep
      subst hw
      obtain ⟨A', hinv', hcount⟩ := inv_fetch_own w A i wi
        (fun t => { t with
          entry := (get_work w.memory wi.available).1
          point := if (get_work w.memory wi.available).1 ≠ 0 then Program_Point.steal_wait
            else Program_Point.steal_from wi.work_steal_indices })
        hinv hwi (by simp [in_hand, holds_entry, hpt])
        (fun t => by
          by_cases he : (get_work w.memory wi.available).1 = 0 <;>
            simp [in_hand, holds_entry, he])
        (fun t => by
          by_cases he : (get_work w.memory wi.available).1 = 0 <;> simp [Point_Ok, he])
      exact ⟨A', hinv', ledger_perm_of_count _ _ A A' hcount (fun _ => rfl), hrun⟩
    · -- steal_wait
      rename_i pt hpt
      split at hstep
      · rename_i r t1 hr ht1
        have hw := Option.some.inj hstep
        subst hw
        obtain ⟨h1, h2, _⟩ := end_of_pass_same _ _ ht1
        exact ⟨A, inv_thread_only w A i wi _ hinv hwi rfl rfl rfl rfl
          (by simp [in_hand, holds_entry, hpt, h2]) (by simp [Point_Ok]),
          List.Perm.refl _, hrun⟩
      · cases hstep
    · -- steal_from []
      rename_i pt hpt
      obtain ⟨t1, ht1, hw⟩ := Option.map_eq_some'.mp hstep
      subst hw
      obtain ⟨h1, h2, _⟩ := end_of_pass_same _ _ ht1
      have hzero : wi.thread.entry = 0 := hrep.2.2.2.2.2 ⟨[], hpt⟩
      exact ⟨A, inv_thread_only w A i wi _ hinv hwi rfl rfl rfl rfl
        (by simp [in_hand, holds_entry, hpt, h2, hzero]) (by simp [Point_Ok]),
        List.Perm.refl _, hrun⟩
    · -- steal_from (j :: rest)
      rename_i pt j rest hpt
      split at hstep
      · cases hstep
      · rename_i peer hpeer
        have hwj := worker_at_some _ _ _ hpeer
        have hidle : in_hand wi.thread = [] := by simp [in_hand, holds_entry, hpt]
        split at hstep
        · cases hstep
        · rename_i wi2 hwi2
          split at hstep
          · rename_i he
            obtain ⟨t1, ht1, hw⟩ := Option.map_eq_some'.mp hstep
            subst hw
            obtain ⟨wi1, hwi1, _, A', hinv', hcount⟩ := inv_fetch w A i j.toNat wi peer
              (fun _ => { t1 with
                entry := (get_work w.memory peer.available).1
                point := Program_Point.loop_test })
              hinv hwi hwj hidle
              (fun t => by simp [in_hand, holds_entry, he])
              (fun t => by simp [Point_Ok])
            rw [hwi2] at hwi1
            cases hwi1
            exact ⟨A', hinv', ledger_perm_of_count _ _ A A' hcount (fun _ => rfl), hrun⟩
          · rename_i he
            have he' : (get_work w.memory peer.available).1 = 0 := by
              by_contra hne
              exact he hne
            have hw := Option.some.inj hstep
            subst hw
            obtain ⟨wi1, hwi1, _, A', hinv', hcount⟩ := inv_fetch w A i j.toNat wi peer
              (fun t => { t with
                entry := (get_work w.memory peer.available).1
                point := Program_Point.steal_from rest })
              hinv hwi hwj hidle
              (fun t => by simp [in_hand, holds_entry, he'])
              (fun t => by simp [Point_Ok, he'])
            rw [hwi2] at hwi1
            cases hwi1
            exact ⟨A', hinv', ledger_perm_of_count _ _ A A' hcount (fun _ => rfl), hrun⟩
    · -- finished
      rename_i pt hpt
      have hw := Option.some.inj hstep
      subst hw
      exact ⟨A, inv_thread_only w A i wi _ hinv hwi rfl rfl rfl rfl
        (by simp [in_hand, holds_entry, hpt]) (by simp [Point_Ok]), List.Perm.refl _, hrun⟩
    · -- exited
      cases hstep

/-! ## Theorems: the array of the completed work and the traversal -/

theorem array_reserve_nonpoly_count (a : Arena) (arr : Resizable_Array)
    (desired_items size : Int) :
    (array_reserve_nonpoly a arr desired_items size).1.count = arr.count := by
  unfold array_reserve_nonpoly
  split <;> rfl

theorem array_add_count (a : Arena) (arr : Resizable_Array) (item : Nat) :
    (array_add a arr item).1.count = arr.count + 1 := by
  have h : (maybe_grow a arr).1.count = arr.count := by
    unfold maybe_grow
    split
    · exact array_reserve_nonpoly_count _ _ _ _
    · rfl
  show (maybe_grow a arr).1.count + 1 = arr.count + 1
  rw [h]

/-- The loop `while(completed)` has the same effect on the state, and adds as many elements,
whether the results are kept as an array in an arena or as their list. -/
theorem collect_completed_in_arena_eq :
    ∀ (fuel : Nat) (w : World) (temp : Arena) (arr : Resizable_Array) (c : Nat)
      (results : List Nat), arr.count = (results.length : Int) →
      (collect_completed_in_arena fuel w temp arr c).map (fun r => (r.1.count, r.2.2)) =
        (collect_completed fuel w c results).map (fun r => ((r.1.length : Int), r.2)) := by
  intro fuel
  induction fuel with
  | zero =>
    intro w temp arr c results h
    by_cases hc : c = 0
    · simp [collect_completed_in_arena, collect_completed, hc, h]
    · simp [collect_completed_in_arena, collect_completed, hc]
  | succ fuel ih =>
    intro w temp arr c results h
    by_cases hc : c = 0
    · simp [collect_completed_in_arena, collect_completed, hc, h]
    · by_cases hl : c ∈ w.live
      · simp only [collect_completed_in_arena, collect_completed, hc, hl, if_true, if_false]
        exact ih _ _ _ _ _ (by rw [array_add_count, h]; simp)
      · simp [collect_completed_in_arena, collect_completed, hc, hl]

theorem get_completed_work_of_in_arena_eq (w : World) (temp : Arena) (arr : Resizable_Array)
    (results : List Nat) (i : Nat) (h : arr.count = (results.length : Int)) :
    (get_completed_work_of_in_arena w temp arr i).map (fun r => (r.1.count, r.2.2)) =
      (get_completed_work_of w results i).map (fun r => ((r.1.length : Int), r.2)) := by
  unfold get_completed_work_of_in_arena get_completed_work_of
  cases hwi : w.group.worker_info[i]? with
  | none => simp [h]
  | some wi =>
    simp only
    by_cases hf : wi.completed.first = 0
    · simp [hf, h]
    · simp only [hf, if_false]
      exact collect_completed_in_arena_eq _ _ _ _ _ _
        (by rw [array_reserve, array_reserve_nonpoly_count, h])

theorem get_completed_work_loop_in_arena_eq (indices : List Nat) :
    ∀ (w : World) (temp : Arena) (arr : Resizable_Array) (results : List Nat),
      arr.count = (results.length : Int) →
      (get_completed_work_loop_in_arena indices w temp arr).map (fun r => (r.1.count, r.2.2)) =
        (get_completed_work_loop indices w results).map
          (fun r => ((r.1.length : Int), r.2)) := by
  induction indices with
  | nil =>
    intro w temp arr results h
    simp [get_completed_work_loop_in_arena, get_completed_work_loop, h]
  | cons i rest ih =>
    intro w temp arr results h
    have hstep := get_completed_work_of_in_arena_eq w temp arr results i h
    simp only [get_completed_work_loop_in_arena, get_completed_work_loop]
    cases h1 : get_completed_work_of_in_arena w temp arr i with
    | none =>
      rw [h1] at hstep
      cases h2 : get_completed_work_of w results i with
      | none => rfl
      | some r2 => rw [h2] at hstep; cases hstep
    | some r1 =>
      rw [h1] at hstep
      cases h2 : get_completed_work_of w results i with
      | none => rw [h2] at hstep; cases hstep
      | some r2 =>
        rw [h2] at hstep
        simp only [Option.map_some', Option.some.injEq, Prod.mk.injEq] at hstep
        obtain ⟨hcount, hworld⟩ := hstep
        obtain ⟨arr1, temp1, w1⟩ := r1
        obtain ⟨results2, w2⟩ := r2
        simp only at hcount hworld
        subst hworld
        exact ih _ _ _ _ hcount

/-- The array returned by `thread_group_get_completed_work` has as many elements as the list of
the payloads fetched, and the state afterwards is the same, whether the results are kept as an
array in an arena or as their list, whatever the arena. -/
theorem thread_group_get_completed_work_in_arena_eq (w : World) (temp : Arena) :
    (thread_group_get_completed_work_in_arena w temp).map (fun r => (r.1.count, r.2.2)) =
      (thread_group_get_completed_work w).map (fun r => ((r.1.length : Int), r.2)) :=
  get_completed_work_loop_in_arena_eq _ w temp {} [] rfl

/-- From the agreement of the two forms of `thread_group_get_completed_work`: when the one on
lists returns, the one on an array in an arena returns an array of as many elements and the
same state. -/
theorem thread_group_get_completed_work_in_arena_of_list (w w' : World) (temp : Arena)
    (results : List Nat) (h : thread_group_get_completed_work w = some (results, w')) :
    ∃ (arr : Resizable_Array) (temp' : Arena),
      thread_group_get_completed_work_in_arena w temp = some (arr, temp', w') ∧
      arr.count = (results.length : Int) := by
  have heq := thread_group_get_completed_work_in_arena_eq w temp
  rw [h] at heq
  cases hr : thread_group_get_completed_work_in_arena w temp with
  | none => rw [hr] at heq; cases heq
  | some r =>
    rw [hr] at heq
    simp only [Option.map_some', Option.some.injEq, Prod.mk.injEq] at heq
    obtain ⟨arr, temp', w1⟩ := r
    obtain ⟨hc, hw⟩ := heq
    simp only at hc hw
    subst hw
    exact ⟨arr, temp', rfl, hc⟩

/-- From the agreement of the two forms of `thread_group_get_completed_work`: when the one
on an array in an arena returns, the traversal returns the same state and as many payloads as
the array has elements. -/
theorem thread_group_get_completed_work_of_in_arena (w : World) (temp : Arena)
    (res : Resizable_Array × Arena × World)
    (h : thread_group_get_completed_work_in_arena w temp = some res) :
    ∃ results : List Nat, thread_group_get_completed_work w = some (results, res.2.2) ∧
      res.1.count = (results.length : Int) := by
  have heq := thread_group_get_completed_work_in_arena_eq w temp
  rw [h] at heq
  cases hr : thread_group_get_completed_work w with
  | none => rw [hr] at heq; cases heq
  | some r =>
    rw [hr] at heq
    simp only [Option.map_some', Option.some.injEq, Prod.mk.injEq] at heq
    obtain ⟨results, w1⟩ := r
    obtain ⟨hc, hw⟩ := heq
    simp only at hc hw
    subst hw
    exact ⟨results, rfl, hc⟩

/-! ## Theorems: runs -/

theorem rep_cons (m : Entry_Memory) (wi : Worker_Info) (ws : List Worker_Info) (o : Owned)
    (A : List Owned) (h : Rep m (wi :: ws) (o :: A)) : Worker_Rep m wi o ∧ Rep m ws A := by
  refine ⟨h.2 0 wi o (by simp) (by simp), by simpa using h.1, ?_⟩
  intro i wk ok hwk hok
  exact h.2 (i + 1) wk ok (by simpa using hwk) (by simpa using hok)

theorem pending_eq_all_owned (m : Entry_Memory) (ws : List Worker_Info) :
    ∀ A : List Owned, Rep m ws A →
      ws.flatMap (fun wi => entries m wi.available ++ entries m wi.completed ++ in_hand wi.thread)
        = all_owned A := by
  induction ws with
  | nil =>
    intro A h
    have : A = [] := List.length_eq_zero.mp h.1.symm
    subst this
    rfl
  | cons wi ws ih =>
    intro A h
    cases A with
    | nil => exact absurd h.1 (by simp)
    | cons o A =>
      obtain ⟨h1, h2⟩ := rep_cons m wi ws o A h
      simp only [List.flatMap_cons, all_owned]
      rw [ih A h2, entries_of_holds m _ _ h1.1, entries_of_holds m _ _ h1.2.1, h1.2.2.1]
      rfl

theorem pending_payloads_eq_ledger (w : World) (A : List Owned) (h : Inv w A []) :
    pending_payloads w = ledger w.memory A [] := by
  unfold pending_payloads pending ledger
  rw [pending_eq_all_owned w.memory _ A h.rep]
  rfl

/-- Every action keeps the invariant, the clear exit flag and the account of the payloads:
those owned by the workers together with those taken off the completed lists by
`thread_group_get_completed_work` are those submitted. -/
theorem act_inv (r r' : Run) (a : Action) (A : List Owned) (hinv : Inv r.world A [])
    (hexit : r.world.group.should_exit = false)
    (hledger : (ledger r.world.memory A [] ++ r.taken).Perm r.submitted)
    (hact : act r a = some r') :
    ∃ A' : List Owned, Inv r'.world A' [] ∧ r'.world.group.should_exit = false ∧
      (ledger r'.world.memory A' [] ++ r'.taken).Perm r'.submitted := by
  cases a with
  | start =>
    simp only [act] at hact
    have hw := Option.some.inj hact
    subst hw
    exact ⟨A, thread_group_start_inv r.world A hinv, hexit, hledger⟩
  | add_work x =>
    simp only [act] at hact
    have hw := Option.some.inj hact
    subst hw
    obtain ⟨o, ho, hfresh, _, hinv', hcount, hwork, _, hothers, _, _⟩ :=
      thread_group_add_work_spec r.world A x hinv
    refine ⟨_, hinv', ?_, ?_⟩
    · obtain ⟨wi, hat, _⟩ := worker_at_of_cursor r.world.group _ hinv.cursor.1 hinv.cursor.2
      rw [thread_group_add_work_eq r.world x wi hat]
      exact hexit
    · have hperm : (all_owned (A.set r.world.group.next_worker_index.toNat
          { o with available := o.available ++ [r.world.new_address r.world.live] })).Perm
          (r.world.new_address r.world.live :: all_owned A) := List.perm_iff_count.mpr hcount
      have h1 : (ledger (thread_group_add_work r.world x).memory
          (A.set r.world.group.next_worker_index.toNat
            { o with available := o.available ++ [r.world.new_address r.world.live] }) []).Perm
          (x :: ledger r.world.memory A []) := by
        unfold ledger
        simp only [List.nil_append]
        refine (hperm.map _).trans ?_
        rw [List.map_cons, hwork]
        apply List.Perm.cons
        rw [List.map_congr_left (fun q hq => (hothers q (fun heq => hfresh (heq ▸ hq))).1)]
      show (_ ++ r.taken).Perm (r.submitted ++ [x])
      refine (h1.append_right r.taken).trans ?_
      rw [List.cons_append]
      exact (List.Perm.cons x hledger).trans (List.perm_append_singleton x r.submitted).symm
  | get_completed_work =>
    simp only [act] at hact
    obtain ⟨res, hres, hw⟩ := Option.map_eq_some'.mp hact
    subst hw
    obtain ⟨arr, temp', w1⟩ := res
    obtain ⟨results, hlist, _⟩ := thread_group_get_completed_work_of_in_arena _ _ _ hres
    obtain ⟨w', A', returned, hcall, hinv', hl, hm, he⟩ :=
      thread_group_get_completed_work_inv r.world A hinv
    rw [hcall] at hlist
    simp only [Option.some.injEq, Prod.mk.injEq] at hlist
    obtain ⟨hr, hw⟩ := hlist
    subst hr hw
    refine ⟨A', hinv', he.trans hexit, ?_⟩
    show (ledger w'.memory A' [] ++ (r.taken ++
      ((thread_group_get_completed_work r.world).map Prod.fst).getD [])).Perm r.submitted
    rw [hcall]
    show (ledger w'.memory A' [] ++ (r.taken ++ returned)).Perm r.submitted
    have h1 : (ledger w'.memory A' [] ++ (r.taken ++ returned)).Perm
        ((ledger w'.memory A' [] ++ returned) ++ r.taken) := by
      rw [List.perm_iff_count]
      intro q
      simp only [List.count_append]
      omega
    exact h1.trans ((hl.append_right r.taken).trans hledger)
  | shutdown timeout =>
    simp only [act] at hact
    obtain ⟨res, hres, hw⟩ := Option.map_eq_some'.mp hact
    subst hw
    obtain ⟨hinv', hm, he⟩ := thread_group_shutdown_inv r.world res.2 A timeout
      (fun _ => 0) res.1 hinv hres
    refine ⟨A, hinv', he.trans hexit, ?_⟩
    show (ledger res.2.memory A [] ++ r.taken).Perm r.submitted
    rw [hm]
    exact hledger
  | worker i =>
    simp only [act] at hact
    obtain ⟨w', hstep, hw⟩ := Option.map_eq_some'.mp hact
    subst hw
    obtain ⟨A', hinv', hl, he⟩ := thread_step_inv r.world w' A i hinv hexit hstep
    exact ⟨A', hinv', he, (hl.append_right r.taken).trans hledger⟩

theorem run_inv (acts : List Action) :
    ∀ (r r' : Run) (A : List Owned), Inv r.world A [] → r.world.group.should_exit = false →
      (ledger r.world.memory A [] ++ r.taken).Perm r.submitted → run r acts = some r' →
      ∃ A' : List Owned, Inv r'.world A' [] ∧ r'.world.group.should_exit = false ∧
        (ledger r'.world.memory A' [] ++ r'.taken).Perm r'.submitted := by
  induction acts with
  | nil =>
    intro r r' A hinv hexit hledger hrun
    simp only [run] at hrun
    have hw := Option.some.inj hrun
    subst hw
    exact ⟨A, hinv, hexit, hledger⟩
  | cons a rest ih =>
    intro r r' A hinv hexit hledger hrun
    simp only [run] at hrun
    split at hrun
    · cases hrun
    · rename_i r1 hact
      obtain ⟨A1, hinv1, hexit1, hledger1⟩ := act_inv r r1 a A hinv hexit hledger hact
      exact ih r1 r' A1 hinv1 hexit1 hledger1 hrun

theorem array_elements_length (vm : Virtual_Memory) (count data : Int) :
    (array_elements vm count data).length = count.toNat := by
  unfold array_elements
  rw [List.length_map]
  simp [Functor.map, Bind.bind, Pure.pure, Function.comp_def, List.singleton]

/-- Every action keeps the number of elements of the arrays returned equal to the number of
entries taken off the completed lists. -/
theorem act_returned_length (r r' : Run) (a : Action)
    (hlen : r.returned.length = r.taken.length) (hact : act r a = some r') :
    r'.returned.length = r'.taken.length := by
  cases a with
  | start =>
    simp only [act] at hact
    cases hact
    exact hlen
  | add_work x =>
    simp only [act] at hact
    cases hact
    exact hlen
  | get_completed_work =>
    simp only [act] at hact
    obtain ⟨res, hres, hw⟩ := Option.map_eq_some'.mp hact
    subst hw
    obtain ⟨results, hlist, hcount⟩ := thread_group_get_completed_work_of_in_arena _ _ _ hres
    show (r.returned ++ array_elements res.2.1.vm res.1.count res.1.data).length =
      (r.taken ++ ((thread_group_get_completed_work r.world).map Prod.fst).getD []).length
    rw [hlist, List.length_append, List.length_append, array_elements_length, hcount, hlen]
    simp
  | shutdown timeout =>
    simp only [act] at hact
    obtain ⟨res, _, hw⟩ := Option.map_eq_some'.mp hact
    subst hw
    exact hlen
  | worker i =>
    simp only [act] at hact
    obtain ⟨w', _, hw⟩ := Option.map_eq_some'.mp hact
    subst hw
    exact hlen

theorem run_returned_length (acts : List Action) :
    ∀ (r r' : Run), r.returned.length = r.taken.length → run r acts = some r' →
      r'.returned.length = r'.taken.length := by
  induction acts with
  | nil =>
    intro r r' hlen hrun
    simp only [run] at hrun
    cases hrun
    exact hlen
  | cons a rest ih =>
    intro r r' hlen hrun
    simp only [run] at hrun
    split at hrun
    · cases hrun
    · rename_i r1 hact
      exact ih r1 r' (act_returned_length r r1 a hlen hact) hrun

/-- C1 (as amended): from a freshly initialised group with at least one thread, whatever the
temp arena of the calling thread, after any sequence of producer calls (start,
`thread_group_add_work`, `thread_group_get_completed_work`, `thread_group_shutdown`) and worker
steps, in any interleaving and with any callback: the payloads of the entries that the calls of
`thread_group_get_completed_work` took off the completed lists, which are the items they
passed to `array_add`, together with the payloads of the entries still in the workers'
available lists, completed lists and hands, contain every submitted payload exactly once; and
the arrays these calls returned have together as many elements as entries were taken. -/
theorem taken_and_pending_are_submitted (w0 : World) (num_threads : Int)
    (group_proc : Option Thread_Group_Proc) (enable_work_stealing : Bool) (temp : Arena)
    (acts : List Action) (r : Run)
    (hthreads : 1 ≤ num_threads) (hcursor : w0.group.next_worker_index = 0)
    (hexit : w0.group.should_exit = false)
    (halloc : ∀ live : List Nat, w0.new_address live ∉ live ∧ w0.new_address live ≠ 0)
    (hrun :
      run { temp := temp
            world := thread_group_init w0 num_threads group_proc enable_work_stealing }
        acts = some r) :
    (r.taken ++ pending_payloads r.world).Perm r.submitted ∧
      r.returned.length = r.taken.length := by
  have hinit := inv_thread_group_init w0 num_threads group_proc enable_work_stealing hthreads
    hcursor halloc
  obtain ⟨A, hinv, _, hledger⟩ := run_inv acts
    { temp := temp
      world := thread_group_init w0 num_threads group_proc enable_work_stealing } r
    (List.replicate num_threads.toNat {}) hinit hexit
    (by simp [ledger, all_owned_replicate]) hrun
  refine ⟨?_, run_returned_length acts _ r rfl hrun⟩
  rw [pending_payloads_eq_ledger r.world A hinv]
  exact List.perm_append_comm.trans hledger

theorem shutdown_join_loop_should_exit (timeout : Int) (elapsed : Nat → Int)
    (indices : List Nat) :
    ∀ (w w' : World) (remaining : Int) (all_done b : Bool),
      shutdown_join_loop timeout elapsed indices w remaining all_done = some (b, w') →
      w'.group.should_exit = w.group.should_exit := by
  induction indices with
  | nil =>
    intro w w' remaining all_done b h
    simp only [shutdown_join_loop] at h
    cases h
    rfl
  | cons i rest ih =>
    intro w w' remaining all_done b h
    simp only [shutdown_join_loop] at h
    split at h
    · exact ih _ _ _ _ _ h
    · split at h
      · cases h
      · have hrest := ih _ _ _ _ _ h
        exact hrest

theorem shutdown_release_loop_should_exit (indices : List Nat) :
    ∀ (w w' : World), shutdown_release_loop indices w = some w' →
      w'.group.should_exit = w.group.should_exit := by
  induction indices with
  | nil =>
    intro w w' h
    simp only [shutdown_release_loop] at h
    cases h
    rfl
  | cons i rest ih =>
    intro w w' h
    simp only [shutdown_release_loop] at h
    split at h
    · exact ih _ _ h
    · split at h
      · cases h
      · have hrest := ih _ _ h
        exact hrest

/-- Whatever the group, the timeout and the clock, a call of `thread_group_shutdown` that
returns leaves `should_exit` as it found it. -/
theorem thread_group_shutdown_should_exit (w w' : World) (timeout : Int)
    (elapsed : Nat → Int) (b : Bool)
    (h : thread_group_shutdown w timeout elapsed = some (b, w')) :
    w'.group.should_exit = w.group.should_exit := by
  unfold thread_group_shutdown at h
  simp only at h
  split at h
  · cases h
  · rename_i all_done w1 hj
    have h1 : w1.group.should_exit = w.group.should_exit := by
      split at hj
      · have hloop := shutdown_join_loop_should_exit timeout elapsed _ _ _ _ _ _ hj
        exact hloop
      · cases hj; rfl
    split at h
    · cases h; exact h1
    · split at h
      · cases h
      · rename_i w2 hrel
        cases h
        exact (shutdown_release_loop_should_exit _ _ _ hrel).trans h1

/-! ## Theorems: submission, completion and shutdown on concrete runs -/

/-- C1 (as stated) fails: one worker whose callback returns `STOP`, started; the payloads 7
and 8 are submitted; the worker processes 7 and leaves its loop; the completed work is
fetched and `thread_group_shutdown` returns true. The calls of
`thread_group_get_completed_work` have returned 7 only, and 8 is still in the available
list. -/
theorem shutdown_succeeds_with_payload_left :
    (run { world := thread_group_init fresh_world 1 (some stop_proc) }
      [Action.start, Action.add_work 7, Action.add_work 8,
        Action.worker 0, Action.worker 0, Action.worker 0, Action.worker 0,
        Action.worker 0, Action.worker 0, Action.worker 0, Action.worker 0,
        Action.get_completed_work, Action.shutdown 0]).map
      (fun r => (r.submitted, r.returned, r.shutdowns,
        r.world.group.worker_info.map (worker_view r.world.memory)))
      = some ([7, 8], [7], [true], [⟨Program_Point.exited, true, 2, [8], []⟩]) := by
  decide!

/-- C1 (as amended), on the run of one worker with a `STOP` callback and the payloads 7 and
8, the calling thread having a fresh arena: 7 is taken and returned, 8 is pending. -/
theorem taken_and_pending_are_submitted_witness :
    (run { world := thread_group_init fresh_world 1 (some stop_proc), temp := fresh_arena }
      [Action.start, Action.add_work 7, Action.add_work 8,
        Action.worker 0, Action.worker 0, Action.worker 0, Action.worker 0,
        Action.worker 0, Action.worker 0, Action.worker 0, Action.worker 0,
        Action.get_completed_work, Action.shutdown 0]).map
      (fun r => (r.taken, r.returned, pending_payloads r.world, r.submitted))
      = some ([7], [7], [8], [7, 8]) ∧
    ∀ r : Run,
      run { world := thread_group_init fresh_world 1 (some stop_proc), temp := fresh_arena }
        [Action.start, Action.add_work 7, Action.add_work 8,
          Action.worker 0, Action.worker 0, Action.worker 0, Action.worker 0,
          Action.worker 0, Action.worker 0, Action.worker 0, Action.worker 0,
          Action.get_completed_work, Action.shutdown 0] = some r →
      (r.taken ++ pending_payloads r.world).Perm r.submitted ∧
        r.returned.length = r.taken.length :=
  ⟨by decide!, fun r hrun =>
    taken_and_pending_are_submitted fresh_world 1 (some stop_proc) false fresh_arena _ r
      (by decide) rfl rfl bump_new_address_fresh hrun⟩

/-- C10: on a started group of one worker whose thread waits on its empty available list,
`thread_group_shutdown` with a zero timeout returns false and leaves `should_exit` false; the
worker, woken by the signal, finds the flag clear and the list empty, and goes back to wait on
the semaphore, whose count is zero again. -/
theorem shutdown_leaves_should_exit_clear :
    (run { world := thread_group_init fresh_world 1 (some continue_proc) }
      [Action.start, Action.worker 0, Action.worker 0]).map
      (fun r => (r.world.group.started, r.world.group.should_exit,
        r.world.group.worker_info.map (worker_view r.world.memory)))
      = some (true, false, [⟨Program_Point.wait_available, false, 0, [], []⟩]) ∧
    (run { world := thread_group_init fresh_world 1 (some continue_proc) }
      [Action.start, Action.worker 0, Action.worker 0, Action.shutdown 0]).map
      (fun r => (r.shutdowns, r.world.group.should_exit,
        r.world.group.worker_info.map (worker_view r.world.memory)))
      = some ([false], false, [⟨Program_Point.wait_available, false, 1, [], []⟩]) ∧
    (run { world := thread_group_init fresh_world 1 (some continue_proc) }
      [Action.start, Action.worker 0, Action.worker 0, Action.shutdown 0,
        Action.worker 0, Action.worker 0, Action.worker 0, Action.worker 0,
        Action.worker 0]).map
      (fun r => (r.shutdowns, r.world.group.should_exit,
        r.world.group.worker_info.map (worker_view r.world.memory)))
      = some ([false], false, [⟨Program_Point.wait_available, false, 0, [], []⟩]) := by
  decide!

/-! ## Theorems: the allocator procedure -/

/-- C19. A REALLOCATE request that does not ask for more than the old size returns `old_memory`
and leaves the arena as it was: the allocator fields (cursor, region bounds, high-water mark),
the address space and the growth count. -/
theorem reallocate_not_larger_is_identity (a : Arena) (requested_size old_size old_memory : Int)
    (hsize : requested_size ≤ old_size) :
    temp_allocator_proc a Allocator_Mode.REALLOCATE requested_size old_size old_memory =
      (old_memory, a) := by
  simp [temp_allocator_proc, hsize]

theorem reallocate_not_larger_is_identity_witness :
    (8 : Int) ≤ 24 ∧
    temp_allocator_proc (get fresh_arena 24).2 Allocator_Mode.REALLOCATE 8 24 65536 =
      (65536, (get fresh_arena 24).2) :=
  ⟨by decide, reallocate_not_larger_is_identity (get fresh_arena 24).2 8 24 65536 (by decide)⟩

/-- C20. A DEALLOCATE request returns the null pointer and leaves the arena as it was, whatever
its arguments: no field of the allocator, no mapping and no byte changes, so every block handed
out before is still where it was, and every later request is answered as if the DEALLOCATE had
not been made. -/
theorem deallocate_is_identity (a : Arena) (requested_size old_size old_memory : Int) :
    temp_allocator_proc a Allocator_Mode.DEALLOCATE requested_size old_size old_memory =
      (0, a) ∧
    ∀ (mode : Allocator_Mode) (requested_size' old_size' old_memory' : Int),
      temp_allocator_proc
        (temp_allocator_proc a Allocator_Mode.DEALLOCATE requested_size old_size old_memory).2
        mode requested_size' old_size' old_memory' =
      temp_allocator_proc a mode requested_size' old_size' old_memory' :=
  ⟨rfl, fun _ _ _ _ => rfl⟩

/-- C17. A REALLOCATE request for more than the old size, for the block that ends at the cursor,
with the extra bytes fitting below the limit of the current region, returns `old_memory`; the
cursor and the high-water mark advance by the extra bytes and nothing else changes: no region is
mapped and the arena does not grow. On an arena that was never initialised the cursor and the
limit are both null, which is the reading of the first hypothesis. -/
theorem reallocate_in_place (a : Arena) (requested_size old_size old_memory : Int)
    (hstate : a.t.original_memory_base = 0 → a.t.current_memory_limit = a.t.current_point)
    (hsize : old_size < requested_size)
    (hlast : old_memory + old_size = a.t.current_point)
    (hfits : requested_size - old_size ≤ a.t.current_memory_limit - a.t.current_point) :
    temp_allocator_proc a Allocator_Mode.REALLOCATE requested_size old_size old_memory =
      (old_memory,
        { a with t := { a.t with
            current_point := a.t.current_point + (requested_size - old_size)
            high_water_mark := a.t.high_water_mark + (requested_size - old_size) } }) := by
  have hbase : a.t.original_memory_base ≠ 0 := by
    intro h0
    have := hstate h0
    omega
  have hprev : a.t.current_point - old_size = old_memory := by omega
  have hno : ¬ a.t.current_point + (requested_size - old_size) > a.t.current_memory_limit := by
    omega
  simp only [temp_allocator_proc, get_unaligned]
  rw [if_neg (by omega), if_pos ⟨hprev, hfits⟩]
  simp only [if_neg hbase, if_neg hno]

theorem reallocate_in_place_witness :
    ((get fresh_arena 8).2.t.original_memory_base = 0 →
      (get fresh_arena 8).2.t.current_memory_limit = (get fresh_arena 8).2.t.current_point) ∧
    (8 : Int) < 24 ∧
    65536 + 8 = (get fresh_arena 8).2.t.current_point ∧
    (24 : Int) - 8 ≤
      (get fresh_arena 8).2.t.current_memory_limit - (get fresh_arena 8).2.t.current_point ∧
    temp_allocator_proc (get fresh_arena 8).2 Allocator_Mode.REALLOCATE 24 8 65536 =
      (65536,
        { (get fresh_arena 8).2 with t := { (get fresh_arena 8).2.t with
            current_point := (get fresh_arena 8).2.t.current_point + (24 - 8)
            high_water_mark := (get fresh_arena 8).2.t.high_water_mark + (24 - 8) } }) :=
  ⟨by decide!, by decide, by decide!, by decide!,
    reallocate_in_place (get fresh_arena 8).2 24 8 65536 (by decide!) (by decide) (by decide!)
      (by decide!)⟩

/-- Masking a 64-bit pattern with the complement of `4095` clears its low twelve bits. -/
theorem land_page_mask (y : Nat) (hy : y < 18446744073709551616) :
    Nat.land y 18446744073709547520 = 4096 * (y / 4096) := by
  show y &&& 18446744073709547520 = 4096 * (y / 4096)
  apply Nat.eq_of_testBit_eq
  intro i
  have hm : (18446744073709547520 : Nat) = 2 ^ 12 * (2 ^ 52 - 1) := by norm_num
  have hp : (4096 : Nat) = 2 ^ 12 := by norm_num
  rw [Nat.testBit_land, hm, hp, Nat.testBit_mul_pow_two, Nat.testBit_mul_pow_two,
    Nat.testBit_two_pow_sub_one, ← Nat.shiftRight_eq_div_pow, Nat.testBit_shiftRight]
  by_cases h12 : i ≥ 12
  · have hadd : 12 + (i - 12) = i := by omega
    rw [hadd]
    by_cases h64 : i < 64
    · have : i - 12 < 52 := by omega
      simp [h12, this]
    · have hlt : y < 2 ^ i :=
        lt_of_lt_of_le hy (by
          have : (18446744073709551616 : Nat) = 2 ^ 64 := by norm_num
          rw [this]
          exact Nat.pow_le_pow_right (by norm_num) (by omega))
      have : ¬ i - 12 < 52 := by omega
      simp [Nat.testBit_lt_two_pow hlt, this]
  · simp [h12]

/-- Source `align_pow2(n, TEMP_ALLOCATOR_PAGE_SIZE)` rounds a size up to the next multiple of the
page size, as long as the sum `n + 4095` does not overflow. -/
theorem align_pow2_page (n : Int) (h0 : 0 ≤ n) (h1 : n + 4095 < 9223372036854775808) :
    align_pow2 n TEMP_ALLOCATOR_PAGE_SIZE = 4096 * ((n + 4095) / 4096) := by
  have hnot : s64_not (TEMP_ALLOCATOR_PAGE_SIZE - 1) = -4096 := by decide
  have hu : to_u64 (-4096) = 18446744073709547520 := by decide
  obtain ⟨y, hy⟩ := Int.eq_ofNat_of_zero_le (by omega : 0 ≤ n + 4096 - 1)
  have hylt : y < 9223372036854775808 := by omega
  have huy : to_u64 (n + TEMP_ALLOCATOR_PAGE_SIZE - 1) = y := by
    show ((n + 4096 - 1) % 18446744073709551616).toNat = y
    rw [hy]
    omega
  unfold align_pow2 s64_and
  rw [hnot, hu, huy, land_page_mask y (by omega)]
  unfold to_s64
  have hq : 4096 * (y / 4096) ≤ y := Nat.mul_div_le y 4096
  have hmod : 4096 * (y / 4096) % 18446744073709551616 = 4096 * (y / 4096) :=
    Nat.mod_eq_of_lt (by omega)
  rw [hmod, if_pos (by omega)]
  have : n + 4095 = (y : Int) := by omega
  rw [this]
  push_cast
  rfl

theorem le_align_pow2_page (n : Int) (h0 : 0 ≤ n) (h1 : n + 4095 < 9223372036854775808) :
    n ≤ align_pow2 n TEMP_ALLOCATOR_PAGE_SIZE := by
  rw [align_pow2_page n h0 h1]
  omega

theorem bump_mmap_address_ge (mapped : List Mapping) :
    ∀ top : Int, top ≤ mapped.foldl (fun top m => max top (m.base + m.length)) top ∧
      ∀ m ∈ mapped, m.base + m.length ≤
        mapped.foldl (fun top m => max top (m.base + m.length)) top := by
  induction mapped with
  | nil => intro top; simp
  | cons m ms ih =>
    intro top
    have h := ih (max top (m.base + m.length))
    have hmax : top ≤ max top (m.base + m.length) ∧
        m.base + m.length ≤ max top (m.base + m.length) := by
      unfold max
      split <;> constructor <;> omega
    refine ⟨le_trans hmax.1 h.1, ?_⟩
    intro m' hm'
    rcases List.mem_cons.1 hm' with rfl | hm'
    · exact le_trans hmax.2 h.1
    · exact h.2 m' hm'

theorem fresh_placement_bump : Fresh_Placement bump_mmap_address := by
  intro mapped length m hm x _ hx hnew
  have := (bump_mmap_address_ge mapped 65536).2 m hm
  unfold bump_mmap_address at hnew
  omega

/-- What a new mapping does to a block inside a live mapping: its bytes stay, it stays inside a
live mapping, and the new mapping is disjoint from it. -/
theorem mmap_frame (vm : Virtual_Memory) (length p n : Int)
    (hfresh : Fresh_Placement vm.mmap_address)
    (hin : ∃ m ∈ vm.mapped, m.base ≤ p ∧ p + n ≤ m.base + m.length) :
    (∀ x, p ≤ x → x < p + n → (mmap vm length).2.bytes x = vm.bytes x) ∧
    (∀ x, p ≤ x → x < p + n →
      ¬ ((mmap vm length).1 ≤ x ∧ x < (mmap vm length).1 + length)) ∧
    (∃ m ∈ (mmap vm length).2.mapped, m.base ≤ p ∧ p + n ≤ m.base + m.length) ∧
    (mmap vm length).2.mmap_address = vm.mmap_address := by
  obtain ⟨m, hm, hb, he⟩ := hin
  have hdis : ∀ x, p ≤ x → x < p + n →
      ¬ (vm.mmap_address vm.mapped length ≤ x ∧ x < vm.mmap_address vm.mapped length + length) :=
    fun x h1 h2 => hfresh vm.mapped length m hm x (by omega) (by omega)
  refine ⟨?_, hdis, ⟨m, List.mem_cons_of_mem _ hm, hb, he⟩, rfl⟩
  intro x h1 h2
  show (if vm.mmap_address vm.mapped length ≤ x ∧ x < vm.mmap_address vm.mapped length + length
    then 0 else vm.bytes x) = vm.bytes x
  rw [if_neg (hdis x h1 h2)]


/-- The second half of `get`: the bump, after a growth when the request does not fit. -/
theorem get_bump_frame (a0 : Arena) (nbytes p n : Int)
    (h0 : 0 ≤ nbytes) (h1 : nbytes + 4095 < 9223372036854775808)
    (hfresh : Fresh_Placement a0.vm.mmap_address)
    (hin : ∃ m ∈ a0.vm.mapped, m.base ≤ p ∧ p + n ≤ m.base + m.length)
    (hfree : ∀ x, a0.t.current_point ≤ x → x < a0.t.current_memory_limit →
      ¬ (p ≤ x ∧ x < p + n)) :
    (∀ x, p ≤ x → x < p + n →
      (if a0.t.current_point + nbytes > a0.t.current_memory_limit then
        (grow_temp a0 nbytes).vm.bytes x else a0.vm.bytes x) = a0.vm.bytes x) ∧
    (∀ x,
      (if a0.t.current_point + nbytes > a0.t.current_memory_limit then
        (grow_temp a0 nbytes).t.current_point else a0.t.current_point) ≤ x →
      x < (if a0.t.current_point + nbytes > a0.t.current_memory_limit then
        (grow_temp a0 nbytes).t.current_point else a0.t.current_point) + nbytes →
      ¬ (p ≤ x ∧ x < p + n)) := by
  by_cases hgrow : a0.t.current_point + nbytes > a0.t.current_memory_limit
  · simp only [if_pos hgrow]
    have hle := le_align_pow2_page nbytes h0 h1
    have hmax : nbytes ≤ max (align_pow2
        ((a0.t.current_memory_limit - a0.t.current_memory_base + sizeof_Next_Pool_Footer) * 2)
        TEMP_ALLOCATOR_PAGE_SIZE) (align_pow2 nbytes TEMP_ALLOCATOR_PAGE_SIZE) := by
      unfold max
      split <;> omega
    have hf := mmap_frame a0.vm (max (align_pow2
        ((a0.t.current_memory_limit - a0.t.current_memory_base + sizeof_Next_Pool_Footer) * 2)
        TEMP_ALLOCATOR_PAGE_SIZE) (align_pow2 nbytes TEMP_ALLOCATOR_PAGE_SIZE)) p n hfresh hin
    refine ⟨fun x hx1 hx2 => hf.1 x hx1 hx2, ?_⟩
    intro x hx1 hx2 hx
    have hx1' : (mmap a0.vm (max (align_pow2
        ((a0.t.current_memory_limit - a0.t.current_memory_base + sizeof_Next_Pool_Footer) * 2)
        TEMP_ALLOCATOR_PAGE_SIZE) (align_pow2 nbytes TEMP_ALLOCATOR_PAGE_SIZE))).1 ≤ x := hx1
    have hx2' : x < (mmap a0.vm (max (align_pow2
        ((a0.t.current_memory_limit - a0.t.current_memory_base + sizeof_Next_Pool_Footer) * 2)
        TEMP_ALLOCATOR_PAGE_SIZE) (align_pow2 nbytes TEMP_ALLOCATOR_PAGE_SIZE))).1 + nbytes := hx2
    exact hf.2.1 x hx.1 hx.2 ⟨hx1', by omega⟩
  · simp only [if_neg hgrow]
    refine ⟨fun _ _ _ => trivial, ?_⟩
    intro x hx1 hx2
    exact hfree x hx1 (by omega)

/-- The arena on which `get` does its bump: the one given, initialised when it never was. -/
theorem get_bytes (a : Arena) (nbytes x : Int) :
    (get a nbytes).2.vm.bytes x =
      (fun a0 : Arena =>
        if a0.t.current_point + nbytes > a0.t.current_memory_limit then
          (grow_temp a0 nbytes).vm.bytes x else a0.vm.bytes x)
        (if a.t.original_memory_base = 0 then
          init a (max (nbytes + sizeof_Next_Pool_Footer)
            DEFAULT_TEMP_ALLOCATOR_VIRTUAL_MEMORY_RESERVE)
        else a) := by
  unfold get
  simp only []
  split <;> split <;> simp_all

theorem get_pointer (a : Arena) (nbytes : Int) :
    (get a nbytes).1 =
      (fun a0 : Arena =>
        if a0.t.current_point + nbytes > a0.t.current_memory_limit then
          (grow_temp a0 nbytes).t.current_point else a0.t.current_point)
        (if a.t.original_memory_base = 0 then
          init a (max (nbytes + sizeof_Next_Pool_Footer)
            DEFAULT_TEMP_ALLOCATOR_VIRTUAL_MEMORY_RESERVE)
        else a) := by
  unfold get
  simp only []
  split <;> split <;> simp_all

/-- What `get` does to a block the arena handed out before: the bytes of the block stay, and the
block returned is disjoint from it. -/
theorem get_frame (a : Arena) (nbytes p n : Int)
    (h0 : 0 ≤ nbytes) (h1 : nbytes + 4095 < 9223372036854775808)
    (hfresh : Fresh_Placement a.vm.mmap_address) (hold : Handed_Out a p n) :
    (∀ x, p ≤ x → x < p + n → (get a nbytes).2.vm.bytes x = a.vm.bytes x) ∧
    (∀ x, (get a nbytes).1 ≤ x → x < (get a nbytes).1 + nbytes → ¬ (p ≤ x ∧ x < p + n)) := by
  obtain ⟨hin, hused, _⟩ := hold
  simp only [get_bytes, get_pointer]
  by_cases hbase : a.t.original_memory_base = 0
  · simp only [if_pos hbase]
    have hf := mmap_frame a.vm (align_pow2 (max (nbytes + sizeof_Next_Pool_Footer)
      DEFAULT_TEMP_ALLOCATOR_VIRTUAL_MEMORY_RESERVE) TEMP_ALLOCATOR_PAGE_SIZE) p n hfresh hin
    have hb := get_bump_frame (init a (max (nbytes + sizeof_Next_Pool_Footer)
      DEFAULT_TEMP_ALLOCATOR_VIRTUAL_MEMORY_RESERVE)) nbytes p n h0 h1
      (by rw [← hf.2.2.2] at hfresh; exact hfresh) hf.2.2.1
      (by
        intro x hx1 hx2 hx
        have hx1' : (mmap a.vm (align_pow2 (max (nbytes + sizeof_Next_Pool_Footer)
          DEFAULT_TEMP_ALLOCATOR_VIRTUAL_MEMORY_RESERVE) TEMP_ALLOCATOR_PAGE_SIZE)).1 ≤ x := hx1
        have hx2' : x < (mmap a.vm (align_pow2 (max (nbytes + sizeof_Next_Pool_Footer)
          DEFAULT_TEMP_ALLOCATOR_VIRTUAL_MEMORY_RESERVE) TEMP_ALLOCATOR_PAGE_SIZE)).1 +
            align_pow2 (max (nbytes + sizeof_Next_Pool_Footer)
              DEFAULT_TEMP_ALLOCATOR_VIRTUAL_MEMORY_RESERVE) TEMP_ALLOCATOR_PAGE_SIZE -
            sizeof_Next_Pool_Footer := hx2
        have h16 : sizeof_Next_Pool_Footer = 16 := rfl
        exact hf.2.1 x hx.1 hx.2 ⟨hx1', by omega⟩)
    refine ⟨?_, hb.2⟩
    intro x hx1 hx2
    rw [hb.1 x hx1 hx2]
    exact hf.1 x hx1 hx2
  · simp only [if_neg hbase]
    exact get_bump_frame a nbytes p n h0 h1 hfresh hin (by
      intro x hx1 hx2 hx
      omega)


theorem get_mmap_address (a : Arena) (nbytes : Int) :
    (get a nbytes).2.vm.mmap_address = a.vm.mmap_address := by
  unfold get
  simp only []
  split <;> split <;> rfl

/-- C18. A REALLOCATE request for more than the old size that cannot be served in place, for a
block the arena handed out before, returns the block that an ALLOCATE request of the new size
returns, with the same effect on the allocator; that block is disjoint from the old one, its
first `old_size` bytes are the bytes the old block held, and the old block still holds them. The
placement of `mmap` is assumed never to overlap a live mapping, and the sizes to be in the range
where rounding to a page does not overflow. -/
theorem reallocate_elsewhere_copies (a : Arena) (requested_size old_size old_memory : Int)
    (hfresh : Fresh_Placement a.vm.mmap_address)
    (hold : Handed_Out a old_memory old_size)
    (hnonnull : old_memory ≠ 0)
    (h0 : 0 ≤ old_size) (hsize : old_size < requested_size)
    (hrange : requested_size + 4095 < 9223372036854775808)
    (hnot : ¬ (a.t.current_point - old_size = old_memory ∧
      requested_size - old_size ≤ a.t.current_memory_limit - a.t.current_point)) :
    ∃ (p : Int) (a' : Arena),
      temp_allocator_proc a Allocator_Mode.REALLOCATE requested_size old_size old_memory =
        (p, a') ∧
      p = (get a requested_size).1 ∧
      a'.t = (get a requested_size).2.t ∧
      a'.vm.mapped = (get a requested_size).2.vm.mapped ∧
      (∀ x, p ≤ x → x < p + requested_size →
        ¬ (old_memory ≤ x ∧ x < old_memory + old_size)) ∧
      (∀ k, 0 ≤ k → k < old_size → a'.vm.bytes (p + k) = a.vm.bytes (old_memory + k)) ∧
      (∀ k, 0 ≤ k → k < old_size →
        a'.vm.bytes (old_memory + k) = a.vm.bytes (old_memory + k)) := by
  have hf := get_frame a requested_size old_memory old_size (by omega) hrange hfresh hold
  refine ⟨(get a requested_size).1,
    { (get a requested_size).2 with
      vm := memcpy (get a requested_size).2.vm (get a requested_size).1 old_memory old_size },
    ?_, rfl, rfl, rfl, hf.2, ?_, ?_⟩
  · simp only [temp_allocator_proc]
    rw [if_neg (by omega), if_neg hnot]
    simp only [if_pos hnonnull]
  · intro k hk0 hk
    show (if (get a requested_size).1 ≤ (get a requested_size).1 + k ∧
        (get a requested_size).1 + k < (get a requested_size).1 + old_size then
        (get a requested_size).2.vm.bytes
          (old_memory + ((get a requested_size).1 + k - (get a requested_size).1))
      else (get a requested_size).2.vm.bytes ((get a requested_size).1 + k)) =
      a.vm.bytes (old_memory + k)
    rw [if_pos ⟨by omega, by omega⟩]
    have : old_memory + ((get a requested_size).1 + k - (get a requested_size).1) =
        old_memory + k := by omega
    rw [this]
    exact hf.1 _ (by omega) (by omega)
  · intro k hk0 hk
    show (if (get a requested_size).1 ≤ old_memory + k ∧
        old_memory + k < (get a requested_size).1 + old_size then
        (get a requested_size).2.vm.bytes
          (old_memory + (old_memory + k - (get a requested_size).1))
      else (get a requested_size).2.vm.bytes (old_memory + k)) =
      a.vm.bytes (old_memory + k)
    have hdis := hf.2 (old_memory + k)
    rw [if_neg (by
      intro hx
      exact hdis hx.1 (by omega) ⟨by omega, by omega⟩)]
    exact hf.1 _ (by omega) (by omega)

theorem reallocate_elsewhere_copies_witness :
    ∃ (p : Int) (a' : Arena),
      temp_allocator_proc (get (get fresh_arena 8).2 8).2 Allocator_Mode.REALLOCATE 24 8 65536 =
        (p, a') ∧
      p = (get (get (get fresh_arena 8).2 8).2 24).1 ∧
      a'.t = (get (get (get fresh_arena 8).2 8).2 24).2.t ∧
      a'.vm.mapped = (get (get (get fresh_arena 8).2 8).2 24).2.vm.mapped ∧
      (∀ x, p ≤ x → x < p + 24 → ¬ (65536 ≤ x ∧ x < 65536 + 8)) ∧
      (∀ k, 0 ≤ k → k < 8 →
        a'.vm.bytes (p + k) = (get (get fresh_arena 8).2 8).2.vm.bytes (65536 + k)) ∧
      (∀ k, 0 ≤ k → k < 8 →
        a'.vm.bytes (65536 + k) = (get (get fresh_arena 8).2 8).2.vm.bytes (65536 + k)) :=
  reallocate_elsewhere_copies (get (get fresh_arena 8).2 8).2 24 8 65536
    (by rw [get_mmap_address, get_mmap_address]; exact fresh_placement_bump)
    (by unfold Handed_Out; decide!) (by decide) (by decide) (by decide) (by decide)
    (by decide!)

/-! ## Theorems: the steal lists -/

/-- The loop filling `indices` visits the residues of `cursor`, `cursor + 1`, ... in turn. -/
theorem steal_ring_eq (num_threads : Int) :
    ∀ (turns : Nat) (c : Int),
      steal_ring turns (c % num_threads) num_threads =
        (List.range turns).map (fun k : Nat => (c + (k : Int)) % num_threads) := by
  intro turns
  induction turns with
  | zero => intro c; rfl
  | succ n ih =>
    intro c
    have hstep : (c % num_threads + 1) % num_threads = (c + 1) % num_threads :=
      Int.emod_add_emod c num_threads 1
    rw [steal_ring, hstep, ih (c + 1), List.range_succ_eq_map, List.map_cons, List.map_map]
    congr 1
    · simp
    · apply List.map_congr_left
      intro k _
      simp only [Function.comp, Nat.succ_eq_add_one, Nat.cast_add, Nat.cast_one]
      congr 1
      ring

/-- The worker at index `i` after `thread_group_init`. -/
theorem thread_group_init_worker (w : World) (num_threads : Int)
    (group_proc : Option Thread_Group_Proc) (enable_work_stealing : Bool) (i : Nat)
    (wi : Worker_Info)
    (hwi : (thread_group_init w num_threads group_proc enable_work_stealing).group.worker_info[i]?
      = some wi) :
    (i : Int) < num_threads ∧ wi = worker_init w num_threads enable_work_stealing i := by
  have h : ((List.range num_threads.toNat).map
      (worker_init w num_threads enable_work_stealing))[i]? = some wi := hwi
  rw [List.getElem?_map] at h
  by_cases hi : i < num_threads.toNat
  · rw [List.getElem?_range hi] at h
    simp only [Option.map_some', Option.some.injEq] at h
    exact ⟨by omega, h.symm⟩
  · rw [List.getElem?_eq_none (by simpa using hi)] at h
    simp at h

/-- C15. After `thread_group_init` with `num_threads` workers, the steal list of the worker at
index `i` is `(i + 1) mod num_threads, (i + 2) mod num_threads, ...`, `num_threads - 1` entries,
when stealing is enabled and there is more than one worker, and is empty otherwise. In the first
case the list has no repetition and holds exactly the indices of the other workers. -/
theorem thread_group_init_work_steal_indices (w : World) (num_threads : Int)
    (group_proc : Option Thread_Group_Proc) (enable_work_stealing : Bool) (i : Nat)
    (wi : Worker_Info)
    (hwi : (thread_group_init w num_threads group_proc enable_work_stealing).group.worker_info[i]?
      = some wi) :
    wi.work_steal_indices =
      (if enable_work_stealing = true ∧ num_threads > 1 then
        (List.range (num_threads - 1).toNat).map
          (fun k : Nat => ((i : Int) + 1 + (k : Int)) % num_threads)
      else []) ∧
    (enable_work_stealing = true → num_threads > 1 →
      wi.work_steal_indices.Nodup ∧
      ∀ j : Int, j ∈ wi.work_steal_indices ↔ 0 ≤ j ∧ j < num_threads ∧ j ≠ (i : Int)) := by
  obtain ⟨hi, rfl⟩ := thread_group_init_worker w num_threads group_proc enable_work_stealing i wi hwi
  have hlist : (worker_init w num_threads enable_work_stealing i).work_steal_indices =
      (if enable_work_stealing = true ∧ num_threads > 1 then
        (List.range (num_threads - 1).toNat).map
          (fun k : Nat => ((i : Int) + 1 + (k : Int)) % num_threads)
      else []) := by
    show (if enable_work_stealing = true ∧ num_threads > 1 then
        steal_ring (num_threads - 1).toNat (((i : Int) + 1) % num_threads) num_threads
      else []) = _
    rw [steal_ring_eq]
  refine ⟨hlist, ?_⟩
  intro hsteal hmany
  rw [hlist, if_pos ⟨hsteal, hmany⟩]
  have hi0 : (0 : Int) ≤ i := Int.ofNat_nonneg i
  constructor
  · apply List.Nodup.map_on _ (List.nodup_range _)
    intro k hk k' hk' heq
    have hk1 := List.mem_range.1 hk
    have hk1' := List.mem_range.1 hk'
    have hz : ((i : Int) + 1 + (k : Int) - ((i : Int) + 1 + (k' : Int))) % num_threads = 0 :=
      Int.emod_eq_emod_iff_emod_sub_eq_zero.1 heq
    have hd : num_threads ∣ ((k : Int) - (k' : Int)) := by
      have : (i : Int) + 1 + (k : Int) - ((i : Int) + 1 + (k' : Int)) = (k : Int) - (k' : Int) := by
        ring
      rw [this] at hz
      exact Int.dvd_of_emod_eq_zero hz
    have habs : |(k : Int) - (k' : Int)| < num_threads := by
      rw [abs_lt]
      constructor <;> omega
    have := Int.eq_zero_of_abs_lt_dvd hd habs
    omega
  · intro j
    rw [List.mem_map]
    constructor
    · rintro ⟨k, hk, rfl⟩
      have hk1 := List.mem_range.1 hk
      refine ⟨Int.emod_nonneg _ (by omega), Int.emod_lt_of_pos _ (by omega), ?_⟩
      intro heq
      have hii : (i : Int) % num_threads = i := Int.emod_eq_of_lt hi0 hi
      have heq' : ((i : Int) + 1 + (k : Int)) % num_threads = (i : Int) % num_threads := by
        rw [hii]
        exact heq
      have hz := Int.emod_eq_emod_iff_emod_sub_eq_zero.1 heq'
      have hd : num_threads ∣ (1 + (k : Int)) := by
        have h2 : (i : Int) + 1 + (k : Int) - (i : Int) = 1 + (k : Int) := by ring
        rw [h2] at hz
        exact Int.dvd_of_emod_eq_zero hz
      have habs : |1 + (k : Int)| < num_threads := by
        rw [abs_lt]
        constructor <;> omega
      have := Int.eq_zero_of_abs_lt_dvd hd habs
      omega
    · rintro ⟨hj0, hjW, hji⟩
      by_cases hlt : (i : Int) < j
      · refine ⟨(j - i - 1).toNat, List.mem_range.2 (by omega), ?_⟩
        have : (i : Int) + 1 + ((j - i - 1).toNat : Int) = j := by omega
        rw [this]
        exact Int.emod_eq_of_lt hj0 hjW
      · refine ⟨(j + num_threads - i - 1).toNat, List.mem_range.2 (by omega), ?_⟩
        have : (i : Int) + 1 + ((j + num_threads - i - 1).toNat : Int) = j + num_threads := by
          omega
        rw [this, Int.add_emod_self]
        exact Int.emod_eq_of_lt hj0 hjW

theorem thread_group_init_work_steal_indices_witness :
    (thread_group_init fresh_world 4 (some continue_proc) true).group.worker_info[2]? =
      some (worker_init fresh_world 4 true 2) ∧
    (worker_init fresh_world 4 true 2).work_steal_indices = [3, 0, 1] ∧
    ((worker_init fresh_world 4 true 2).work_steal_indices =
      (if true = true ∧ (4 : Int) > 1 then
        (List.range ((4 : Int) - 1).toNat).map
          (fun k : Nat => (((2 : Nat) : Int) + 1 + (k : Int)) % 4)
      else []) ∧
    (true = true → (4 : Int) > 1 →
      (worker_init fresh_world 4 true 2).work_steal_indices.Nodup ∧
      ∀ j : Int, j ∈ (worker_init fresh_world 4 true 2).work_steal_indices ↔
        0 ≤ j ∧ j < 4 ∧ j ≠ ((2 : Nat) : Int))) :=
  ⟨rfl, by decide,
    thread_group_init_work_steal_indices fresh_world 4 (some continue_proc) true 2
      (worker_init fresh_world 4 true 2) rfl⟩

/-! ## Theorems: shutdown -/

theorem some_getD_of_isSome {α : Type} (o : Option α) (d : α) (h : o.isSome = true) :
    o = some (o.getD d) := by
  cases o with
  | none => cases h
  | some a => rfl

/-- A call of `thread_is_done` that returns leaves the thread as it was (a unit taken from
`is_alive_semaphore` is given back), and its result is the result of a poll. -/
theorem thread_is_done_eq (t t' : Thread) (ms : Int) (b : Bool)
    (h : thread_is_done t ms = some (b, t')) :
    t' = t ∧ (b = true ↔ (thread_is_done t).map Prod.fst = some true) := by
  obtain ⟨idx, handle, ⟨v, d⟩, susp, done, point, entry, temp⟩ := t
  cases done with
  | true =>
    simp only [thread_is_done, if_true, Option.some.injEq, Prod.mk.injEq] at h
    obtain ⟨hb, ht⟩ := h
    subst hb ht
    simp [thread_is_done]
  | false =>
    by_cases hv : 0 < v
    · have hv1 : v - 1 + 1 = v := Nat.sub_add_cancel hv
      simp [thread_is_done, wait_for, hv, signal, hv1] at h
      obtain ⟨hb, ht⟩ := h
      subst hb ht
      simp [thread_is_done, wait_for, hv]
    · by_cases hm : ms < 0
      · simp [thread_is_done, wait_for, hv, hm] at h
      · simp [thread_is_done, wait_for, hv, hm] at h
        obtain ⟨hb, ht⟩ := h
        subst hb ht
        simp [thread_is_done, wait_for, hv]

theorem list_set_self {α : Type} (l : List α) :
    ∀ (i : Nat) (a : α), l[i]? = some a → l.set i a = l := by
  induction l with
  | nil => intro i a h; simp at h
  | cons x l ih =>
    intro i a h
    cases i with
    | zero => simp at h; subst h; rfl
    | succ i => simp at h; simp [ih i a h]

theorem put_worker_self (w : World) (i : Nat) (wi : Worker_Info)
    (h : w.group.worker_info[i]? = some wi) : put_worker w i wi = w := by
  unfold put_worker
  rw [list_set_self _ i wi h]

/-- The loop over `thread_is_done` changes nothing, and ends with `all_done` exactly when it
began so and the poll of every thread it visited reports done. -/
theorem shutdown_join_loop_eq (timeout : Int) (elapsed : Nat → Int) (indices : List Nat) :
    ∀ (w w' : World) (remaining : Int) (all_done b : Bool),
      shutdown_join_loop timeout elapsed indices w remaining all_done = some (b, w') →
      w' = w ∧
      (b = true ↔ all_done = true ∧ ∀ i ∈ indices, ∀ wi, w.group.worker_info[i]? = some wi →
        (thread_is_done wi.thread).map Prod.fst = some true) := by
  induction indices with
  | nil =>
    intro w w' remaining all_done b h
    simp only [shutdown_join_loop] at h
    cases h
    exact ⟨rfl, by simp⟩
  | cons i rest ih =>
    intro w w' remaining all_done b h
    simp only [shutdown_join_loop] at h
    split at h
    · rename_i hnone
      obtain ⟨h1, h2⟩ := ih _ _ _ _ _ h
      refine ⟨h1, h2.trans ?_⟩
      constructor
      · rintro ⟨ha, hall⟩
        refine ⟨ha, ?_⟩
        intro k hk wk hwk
        rcases List.mem_cons.1 hk with rfl | hk
        · rw [hnone] at hwk; cases hwk
        · exact hall k hk wk hwk
      · rintro ⟨ha, hall⟩
        exact ⟨ha, fun k hk => hall k (List.mem_cons_of_mem _ hk)⟩
    · rename_i wi hwi
      split at h
      · cases h
      · rename_i is_done t hdone
        obtain ⟨ht, hres⟩ := thread_is_done_eq _ _ _ _ hdone
        subst ht
        have hput : put_worker w i { wi with thread := wi.thread } = w :=
          put_worker_self w i wi hwi
        rw [hput] at h
        obtain ⟨h1, h2⟩ := ih _ _ _ _ _ h
        refine ⟨h1, h2.trans ?_⟩
        constructor
        · rintro ⟨ha, hall⟩
          have hd : is_done = true := by
            by_contra hn
            simp [hn] at ha
          simp only [hd, if_true] at ha
          refine ⟨ha, ?_⟩
          intro k hk wk hwk
          rcases List.mem_cons.1 hk with rfl | hk
          · rw [hwi] at hwk
            cases hwk
            exact hres.1 hd
          · exact hall k hk wk hwk
        · rintro ⟨ha, hall⟩
          have hd : is_done = true := hres.2 (hall i (List.mem_cons_self _ _) wi hwi)
          refine ⟨by simp [hd, ha], fun k hk => hall k (List.mem_cons_of_mem _ hk)⟩

/-- The loop that releases the workers leaves every completed list as it was. -/
theorem shutdown_release_loop_completed (indices : List Nat) :
    ∀ (w w' : World), shutdown_release_loop indices w = some w' →
      w'.group.worker_info.map (fun wi => wi.completed) =
        w.group.worker_info.map (fun wi => wi.completed) := by
  induction indices with
  | nil =>
    intro w w' h
    simp only [shutdown_release_loop] at h
    cases h
    rfl
  | cons i rest ih =>
    intro w w' h
    simp only [shutdown_release_loop] at h
    split at h
    · exact ih _ _ h
    · rename_i wi hwi
      split at h
      · cases h
      · have hrest := ih _ _ h
        rw [hrest]
        show (w.group.worker_info.set i _).map (fun wi => wi.completed) = _
        rw [List.map_set]
        exact list_set_self _ i _ (by rw [List.getElem?_map, hwi]; rfl)

/-- Whatever its result, a call of `thread_group_shutdown` that returns leaves the completed
list of every worker as it was, its semaphore and its mutex included. -/
theorem thread_group_shutdown_completed (w w' : World) (timeout : Int) (elapsed : Nat → Int)
    (b : Bool) (h : thread_group_shutdown w timeout elapsed = some (b, w')) :
    w'.group.worker_info.map (fun wi => wi.completed) =
      w.group.worker_info.map (fun wi => wi.completed) := by
  unfold thread_group_shutdown at h
  simp only at h
  split at h
  · cases h
  · rename_i all_done w1 hj
    have h1 : w1.group.worker_info.map (fun wi => wi.completed) =
        w.group.worker_info.map (fun wi => wi.completed) := by
      split at hj
      · obtain ⟨hw1, _⟩ := shutdown_join_loop_eq timeout elapsed _ _ _ _ _ _ hj
        rw [hw1]
        show (w.group.worker_info.map _).map _ = _
        rw [List.map_map]
        rfl
      · cases hj; rfl
    split at h
    · cases h; exact h1
    · split at h
      · cases h
      · rename_i w2 hrel
        cases h
        exact (shutdown_release_loop_completed _ _ _ hrel).trans h1

/-- C12 fails: one worker whose callback returns `STOP`, started; the payload 7 is submitted,
processed and fetched, and the thread has returned. `thread_group_shutdown` returns true and
marks the storage of `worker_info` freed; the thread is joined and its semaphores destroyed, the
semaphore and the mutex of the available list are destroyed and the steal list is released,
but the semaphore and the mutex of the completed list are not destroyed. -/
theorem shutdown_leaves_completed_list_unreleased :
    (run { world := thread_group_init fresh_world 1 (some stop_proc) }
      [Action.start, Action.add_work 7,
        Action.worker 0, Action.worker 0, Action.worker 0, Action.worker 0,
        Action.worker 0, Action.worker 0, Action.worker 0, Action.worker 0,
        Action.get_completed_work, Action.shutdown 0]).map
      (fun r => (r.returned, r.shutdowns, r.world.group.worker_info_released,
        r.world.group.worker_info.map release_view))
      = some ([7], [true], true, [⟨0, true, true, true, false, false, true⟩]) := by
  decide!

/-! ## Theorems: fetching the completed work -/

theorem drained_of_empty (l : Work_List) (h1 : l.first = 0) (h2 : l.last = 0)
    (h3 : l.count = 0) : ({ l with mutex := unlock (lock l.mutex) } : Work_List) = drained l := by
  cases l
  simp_all [drained]

theorem payloads_drained (m : Entry_Memory) (l : Work_List) : payloads m (drained l) = [] := rfl

/-- One turn of the loop of `thread_group_get_completed_work`, in full: the payloads of the
completed list of the worker are appended in list order, that list is left drained, and nothing
else of the group changes. -/
theorem get_completed_work_of_spec (w : World) (A : List Owned) (results : List Nat) (i : Nat)
    (hinv : Inv w A []) :
    ∃ (w' : World) (A' : List Owned),
      get_completed_work_of w results i =
        some (results ++ ((w.group.worker_info[i]?).map
          (fun wi => payloads w.memory wi.completed)).getD [], w') ∧
      Inv w' A' [] ∧ w'.memory = w.memory ∧
      w'.group = { w.group with worker_info := match w.group.worker_info[i]? with
        | some wi => w.group.worker_info.set i { wi with completed := drained wi.completed }
        | none => w.group.worker_info } := by
  unfold get_completed_work_of
  cases hwi : w.group.worker_info[i]? with
  | none =>
    exact ⟨w, A, by simp, hinv, rfl, rfl⟩
  | some wi =>
    obtain ⟨o, ho, hrep⟩ := rep_getElem? _ _ _ hinv.rep i wi hwi
    have hpay : payloads w.memory wi.completed = o.completed.map (fun p => (w.memory p).work) := by
      unfold payloads
      rw [entries_of_holds _ _ _ hrep.2.1]
    have hlist : ({ (if ({ wi.completed with mutex := lock wi.completed.mutex } :
        Work_List).first ≠ 0 then
          { ({ wi.completed with mutex := lock wi.completed.mutex } : Work_List) with
            first := 0, last := 0, count := 0 }
        else ({ wi.completed with mutex := lock wi.completed.mutex } : Work_List)) with
        mutex := unlock (if ({ wi.completed with mutex := lock wi.completed.mutex } :
        Work_List).first ≠ 0 then
          { ({ wi.completed with mutex := lock wi.completed.mutex } : Work_List) with
            first := 0, last := 0, count := 0 }
        else ({ wi.completed with mutex := lock wi.completed.mutex } : Work_List)).mutex } :
        Work_List) = drained wi.completed := by
      by_cases hf : wi.completed.first = 0
      · have hnil : o.completed = [] := chain_null _ _ (hf ▸ hrep.2.1.1)
        have h2 := hrep.2.1
        rw [hnil] at h2
        simp only [hf, ne_eq, not_true_eq_false, if_false]
        have hl : wi.completed.last = 0 := h2.2.1
        have hc : wi.completed.count = 0 := by simpa using h2.2.2
        simp [drained, hl, hc]
      · simp only [hf, ne_eq, not_false_eq_true, if_true]
        rfl
    simp only
    rw [hlist]
    have hempty : Holds w.memory (drained wi.completed) [] := ⟨rfl, rfl, rfl⟩
    have hnew : Worker_Rep w.memory { wi with completed := drained wi.completed }
        { o with completed := [] } := ⟨hrep.1, hempty, hrep.2.2.1, hrep.2.2.2⟩
    have hexch : (o.completed ++ ({ o with completed := [] } : Owned).all).Perm ([] ++ o.all) := by
      rw [List.perm_iff_count]
      intro q
      simp [Owned.all, List.count_append]
      omega
    obtain ⟨hinv1, _⟩ := inv_put_worker w A [] o.completed i wi
      { wi with completed := drained wi.completed }
      o { o with completed := [] } w.memory hinv hwi ho hexch hnew (fun _ _ _ => rfl)
    have hw1 : put_worker { w with memory := w.memory } i
        { wi with completed := drained wi.completed }
        = put_worker w i { wi with completed := drained wi.completed } := rfl
    rw [hw1] at hinv1
    by_cases hf : wi.completed.first = 0
    · have hnil : o.completed = [] := chain_null _ _ (hf ▸ hrep.2.1.1)
      rw [hnil] at hinv1
      refine ⟨_, _, ?_, hinv1, rfl, rfl⟩
      simp [hf, hpay, hnil]
    · have hfuel : o.completed.length ≤
          (put_worker w i { wi with completed := drained wi.completed }).live.length := by
        apply length_le_of_nodup_subset
        · exact (List.nodup_append.mp hinv1.nodup).1
        · intro y hy
          exact (hinv1.live y (List.mem_append_left _ hy)).1
      obtain ⟨w', hcollect, hinv', hm, hg⟩ := collect_completed_inv _ o.completed _
        (put_worker w i { wi with completed := drained wi.completed }) wi.completed.first
        results hinv1 hrep.2.1.1 hfuel
      refine ⟨w', _, ?_, hinv', hm, ?_⟩
      · simp only [hf, if_false, Option.map_some', Option.getD_some, hpay]
        exact hcollect
      · rw [hg]; rfl


theorem set_drained_getElem? (ws : List Worker_Info) (i k : Nat) :
    (match ws[i]? with
      | some wi => ws.set i { wi with completed := drained wi.completed }
      | none => ws)[k]? =
    if k = i then
      (ws[k]?).map (fun wi : Worker_Info => { wi with completed := drained wi.completed })
    else ws[k]? := by
  cases hwi : ws[i]? with
  | none =>
    by_cases hk : k = i
    · subst hk; simp [hwi]
    · simp [hk]
  | some wi =>
    have hlt : i < ws.length := (List.getElem?_eq_some_iff.1 hwi).1
    by_cases hk : k = i
    · subst hk
      simp [List.getElem?_set, hlt, hwi]
    · have hne : i ≠ k := fun h => hk h.symm
      simp [List.getElem?_set_ne hne, hk]

/-- The loop of `thread_group_get_completed_work` over distinct workers: their payloads are
appended in the order of the visit, each from the list as it was before the loop; the lists
visited are left drained and nothing else of the group changes. -/
theorem get_completed_work_loop_spec (indices : List Nat) :
    indices.Nodup → ∀ (w : World) (A : List Owned) (results : List Nat), Inv w A [] →
      ∃ (w' : World) (A' : List Owned) (ws' : List Worker_Info),
        get_completed_work_loop indices w results =
          some (results ++ indices.flatMap (fun k => ((w.group.worker_info[k]?).map
            (fun wi => payloads w.memory wi.completed)).getD []), w') ∧
        Inv w' A' [] ∧ w'.memory = w.memory ∧
        w'.group = { w.group with worker_info := ws' } ∧
        ∀ k, ws'[k]? =
          if k ∈ indices then
            (w.group.worker_info[k]?).map
              (fun wi : Worker_Info => { wi with completed := drained wi.completed })
          else w.group.worker_info[k]? := by
  induction indices with
  | nil =>
    intro _ w A results hinv
    exact ⟨w, A, w.group.worker_info, by simp [get_completed_work_loop], hinv, rfl, rfl,
      by simp⟩
  | cons i rest ih =>
    intro hnodup w A results hinv
    obtain ⟨hi, hrest⟩ := List.nodup_cons.1 hnodup
    obtain ⟨w1, A1, h1, hinv1, hm1, hg1⟩ := get_completed_work_of_spec w A results i hinv
    have hws1 : ∀ k, w1.group.worker_info[k]? =
        if k = i then
          (w.group.worker_info[k]?).map
            (fun wi : Worker_Info => { wi with completed := drained wi.completed })
        else w.group.worker_info[k]? := by
      intro k
      rw [hg1]
      exact set_drained_getElem? w.group.worker_info i k
    obtain ⟨w2, A2, ws2, h2, hinv2, hm2, hg2, hws2⟩ := ih hrest w1 A1 _ hinv1
    refine ⟨w2, A2, ws2, ?_, hinv2, hm2.trans hm1, ?_, ?_⟩
    · have hflat : (rest.flatMap (fun k => ((w1.group.worker_info[k]?).map
            (fun wi => payloads w1.memory wi.completed)).getD [])) =
          rest.flatMap (fun k => ((w.group.worker_info[k]?).map
            (fun wi => payloads w.memory wi.completed)).getD []) := by
        apply List.flatMap_congr
        intro k hk
        have hki : k ≠ i := fun h => hi (h ▸ hk)
        rw [hws1 k, if_neg hki, hm1]
      rw [hflat] at h2
      simp only [get_completed_work_loop, h1]
      rw [h2, List.flatMap_cons, List.append_assoc]
    · rw [hg2, hg1]
    · intro k
      rw [hws2 k]
      by_cases hk : k ∈ rest
      · have hki : k ≠ i := fun h => hi (h ▸ hk)
        rw [if_pos hk, hws1 k, if_neg hki, if_pos (List.mem_cons_of_mem _ hk)]
      · by_cases hki : k = i
        · rw [if_neg hk, hws1 k, if_pos hki,
            if_pos (by rw [hki]; exact List.mem_cons_self _ _)]
        · rw [if_neg hk, hws1 k, if_neg hki, if_neg (by simp [hk, hki])]

theorem flatMap_range_getElem? {α β : Type} (f : α → List β) :
    ∀ l : List α,
      (List.range l.length).flatMap (fun k => ((l[k]?).map f).getD []) = l.flatMap f := by
  intro l
  induction l with
  | nil => rfl
  | cons a l ih =>
    rw [List.length_cons, List.range_succ_eq_map, List.flatMap_cons, List.flatMap_map,
      List.flatMap_cons]
    simp only [List.getElem?_cons_zero, Nat.succ_eq_add_one, List.getElem?_cons_succ,
      Option.map_some', Option.getD_some]
    rw [ih]

/-- A call of `thread_group_get_completed_work` on a group that satisfies the invariant: it
returns the payloads of the completed lists, worker after worker, each list in its order;
afterwards every completed list is drained and nothing else of the group has changed. -/
theorem thread_group_get_completed_work_spec (w : World) (A : List Owned) (hinv : Inv w A []) :
    ∃ (w' : World) (A' : List Owned),
      thread_group_get_completed_work w =
        some (w.group.worker_info.flatMap (fun wi => payloads w.memory wi.completed), w') ∧
      Inv w' A' [] ∧ w'.memory = w.memory ∧
      w'.group = { w.group with
        worker_info := w.group.worker_info.map
          (fun wi => { wi with completed := drained wi.completed }) } := by
  obtain ⟨w', A', ws', h, hinv', hm, hg, hws⟩ :=
    get_completed_work_loop_spec (List.range w.group.worker_info.length) (List.nodup_range _)
      w A [] hinv
  refine ⟨w', A', ?_, hinv', hm, ?_⟩
  · unfold thread_group_get_completed_work
    rw [h, List.nil_append, flatMap_range_getElem?
      (fun wi : Worker_Info => payloads w.memory wi.completed) w.group.worker_info]
  · rw [hg]
    have : ws' = w.group.worker_info.map
        (fun wi => { wi with completed := drained wi.completed }) := by
      apply List.ext_getElem?
      intro k
      rw [hws k, List.getElem?_map]
      by_cases hk : k < w.group.worker_info.length
      · simp [hk]
      · have hnone : w.group.worker_info[k]? = none := List.getElem?_eq_none (by omega)
        simp [hk, hnone]
    rw [this]


/-- Every state reached by a run from a freshly initialised group satisfies the invariant. -/
theorem reachable_inv (w0 : World) (num_threads : Int)
    (group_proc : Option Thread_Group_Proc) (enable_work_stealing : Bool)
    (acts : List Action) (r : Run)
    (hthreads : 1 ≤ num_threads) (hcursor : w0.group.next_worker_index = 0)
    (hexit : w0.group.should_exit = false)
    (halloc : ∀ live : List Nat, w0.new_address live ∉ live ∧ w0.new_address live ≠ 0)
    (hrun : run { world := thread_group_init w0 num_threads group_proc enable_work_stealing }
      acts = some r) :
    ∃ A : List Owned, Inv r.world A [] := by
  have hinit := inv_thread_group_init w0 num_threads group_proc enable_work_stealing hthreads
    hcursor halloc
  obtain ⟨A, hinv, _, _⟩ := run_inv acts
    { world := thread_group_init w0 num_threads group_proc enable_work_stealing } r
    (List.replicate num_threads.toNat {}) hinit hexit
    (by simp [ledger, all_owned_replicate]) hrun
  exact ⟨A, hinv⟩

/-- Under the invariant the completed list of a worker holds as many payloads as its `count`
says. -/
theorem payloads_completed_length (w : World) (A : List Owned) (hinv : Inv w A [])
    (wi : Worker_Info) (hwi : wi ∈ w.group.worker_info) :
    ((payloads w.memory wi.completed).length : Int) = wi.completed.count := by
  obtain ⟨i, hi⟩ := List.mem_iff_getElem?.1 hwi
  obtain ⟨o, _, hrep⟩ := rep_getElem? _ _ _ hinv.rep i wi hi
  unfold payloads
  rw [entries_of_holds _ _ _ hrep.2.1, List.length_map]
  exact hrep.2.1.2.2.symm

theorem length_flatMap_eq_sum {α β : Type} (f : α → List β) (g : α → Int) :
    ∀ l : List α, (∀ a ∈ l, ((f a).length : Int) = g a) →
      ((l.flatMap f).length : Int) = (l.map g).sum := by
  intro l
  induction l with
  | nil => intro _; rfl
  | cons a l ih =>
    intro h
    rw [List.flatMap_cons, List.length_append, List.map_cons, List.sum_cons, Nat.cast_add,
      h a (List.mem_cons_self _ _), ih (fun b hb => h b (List.mem_cons_of_mem _ hb))]

/-- The payloads fetched, with the results kept as their list: in every state reached from a
freshly initialised group by calls of the producer and steps of the workers,
`thread_group_get_completed_work` returns, and what it returns is the concatenation, worker
after worker in the order of `worker_info`, of the payloads of each completed list in the
order of the list; its length is the sum of the `count` fields of the completed lists. -/
theorem get_completed_work_returns_completed_payloads (w0 : World) (num_threads : Int)
    (group_proc : Option Thread_Group_Proc) (enable_work_stealing : Bool)
    (acts : List Action) (r : Run)
    (hthreads : 1 ≤ num_threads) (hcursor : w0.group.next_worker_index = 0)
    (hexit : w0.group.should_exit = false)
    (halloc : ∀ live : List Nat, w0.new_address live ∉ live ∧ w0.new_address live ≠ 0)
    (hrun : run { world := thread_group_init w0 num_threads group_proc enable_work_stealing }
      acts = some r) :
    ∃ w' : World,
      thread_group_get_completed_work r.world =
        some (r.world.group.worker_info.flatMap
          (fun wi => payloads r.world.memory wi.completed), w') ∧
      (((r.world.group.worker_info.flatMap
          (fun wi => payloads r.world.memory wi.completed)).length : Nat) : Int) =
        (r.world.group.worker_info.map (fun wi => wi.completed.count)).sum := by
  obtain ⟨A, hinv⟩ := reachable_inv w0 num_threads group_proc enable_work_stealing acts r
    hthreads hcursor hexit halloc hrun
  obtain ⟨w', _, h, _, _, _⟩ := thread_group_get_completed_work_spec r.world A hinv
  exact ⟨w', h, length_flatMap_eq_sum _ _ _
    (fun wi hwi => payloads_completed_length r.world A hinv wi hwi)⟩

theorem get_completed_work_returns_completed_payloads_witness :
    (run { world := thread_group_init fresh_world 2 (some continue_proc) }
      [Action.start, Action.add_work 7, Action.add_work 8, Action.add_work 9,
        Action.worker 1, Action.worker 1, Action.worker 1, Action.worker 1,
        Action.worker 1, Action.worker 1, Action.worker 1,
        Action.worker 0, Action.worker 0, Action.worker 0, Action.worker 0,
        Action.worker 0, Action.worker 0, Action.worker 0, Action.worker 0,
        Action.worker 0, Action.worker 0, Action.worker 0, Action.worker 0,
        Action.worker 0, Action.worker 0, Action.get_completed_work]).map
      (fun r => r.returned) = some [7, 9, 8] ∧
    ∀ r : Run,
      run { world := thread_group_init fresh_world 2 (some continue_proc) }
        [Action.start, Action.add_work 7, Action.add_work 8, Action.add_work 9,
          Action.worker 1, Action.worker 1, Action.worker 1, Action.worker 1,
          Action.worker 1, Action.worker 1, Action.worker 1,
          Action.worker 0, Action.worker 0, Action.worker 0, Action.worker 0,
          Action.worker 0, Action.worker 0, Action.worker 0, Action.worker 0,
          Action.worker 0, Action.worker 0, Action.worker 0, Action.worker 0,
          Action.worker 0, Action.worker 0] = some r →
      ∃ w' : World,
        thread_group_get_completed_work r.world =
          some (r.world.group.worker_info.flatMap
            (fun wi => payloads r.world.memory wi.completed), w') ∧
        (((r.world.group.worker_info.flatMap
            (fun wi => payloads r.world.memory wi.completed)).length : Nat) : Int) =
          (r.world.group.worker_info.map (fun wi => wi.completed.count)).sum :=
  ⟨by decide!, fun r hrun =>
    get_completed_work_returns_completed_payloads fresh_world 2 (some continue_proc) false _ r
      (by decide) rfl rfl bump_new_address_fresh hrun⟩

theorem flatMap_payloads_drained (m : Entry_Memory) :
    ∀ ws : List Worker_Info,
      (ws.map (fun wi : Worker_Info =>
        { wi with completed := drained wi.completed })).flatMap
        (fun wi => payloads m wi.completed) = [] := by
  intro ws
  induction ws with
  | nil => rfl
  | cons wi ws ih =>
    rw [List.map_cons, List.flatMap_cons, ih]
    rfl

/-! ## Theorems: the stealing step -/

theorem thread_steps_add (i : Nat) (a : Nat) :
    ∀ (b : Nat) (w w1 : World), thread_steps i a w = some w1 →
      thread_steps i (a + b) w = thread_steps i b w1 := by
  induction a with
  | zero =>
    intro b w w1 h
    simp only [thread_steps] at h
    cases h
    simp
  | succ a ih =>
    intro b w w1 h
    have hab : a + 1 + b = (a + b) + 1 := by omega
    rw [hab]
    simp only [thread_steps] at h ⊢
    split at h
    · cases h
    · rename_i w2 hstep
      exact ih b w2 w1 h

theorem thread_steps_succ (i n : Nat) (w w1 : World) (h : thread_step w i = some w1) :
    thread_steps i (n + 1) w = thread_steps i n w1 := by
  simp only [thread_steps, h]

/-- Source `get_work` on an empty list whose mutex is free: null, and the list as it was. -/
theorem get_work_empty (m : Entry_Memory) (l : Work_List) (hf : l.first = 0)
    (hl : l.mutex.locked = false) : get_work m l = (0, l) := by
  obtain ⟨s, ⟨locked, destroyed⟩, first, last, count⟩ := l
  simp only at hf hl
  subst hf hl
  rfl

/-- A worker seen through a change of the thread of the worker at `i`: its available list is
the same. -/
theorem worker_at_put_thread (w : World) (i : Nat) (wi : Worker_Info) (t : Thread) (p : Int)
    (wp : Worker_Info) (hwi : w.group.worker_info[i]? = some wi)
    (hwp : worker_at w.group p = some wp) :
    ∃ wp', worker_at (put_worker w i { wi with thread := t }).group p = some wp' ∧
      wp'.available = wp.available := by
  unfold worker_at at hwp ⊢
  by_cases h0 : 0 ≤ p
  · simp only [h0, if_true] at hwp ⊢
    by_cases hp : p.toNat = i
    · rw [hp] at hwp ⊢
      rw [hwi] at hwp
      cases hwp
      exact ⟨_, put_worker_getElem?_self w i wi _ hwi, rfl⟩
    · refine ⟨wp, ?_, rfl⟩
      show (w.group.worker_info.set i _)[p.toNat]? = some wp
      rw [List.getElem?_set_ne (fun h => hp h.symm)]
      exact hwp
  · simp [h0] at hwp

/-- One turn of the loop over `work_steal_indices` at a peer whose available list is empty:
nothing changes but the place of the thread in the loop. -/
theorem thread_step_steal_from_empty (w : World) (i : Nat) (wi : Worker_Info) (p : Int)
    (rest : List Int) (peer : Worker_Info)
    (hwi : w.group.worker_info[i]? = some wi)
    (hpoint : wi.thread.point = Program_Point.steal_from (p :: rest))
    (hpeer : worker_at w.group p = some peer) (hfirst : peer.available.first = 0)
    (hfree : peer.available.mutex.locked = false) :
    thread_step w i = some (put_worker w i { wi with thread := { wi.thread with
      entry := 0, point := Program_Point.steal_from rest } }) := by
  have hself : put_worker w p.toNat { peer with available := peer.available } = w :=
    put_worker_self w p.toNat peer (worker_at_some _ _ _ hpeer)
  unfold thread_step
  rw [hwi]
  simp only [hpoint, hpeer, get_work_empty w.memory peer.available hfirst hfree]
  rw [hself, hwi]
  simp

/-- The loop over `work_steal_indices` along peers whose available lists are empty. -/
theorem thread_steps_steal_from_empty (i : Nat) (pre : List Int) :
    ∀ (w : World) (wi : Worker_Info) (rest : List Int),
      w.group.worker_info[i]? = some wi →
      (∀ p ∈ pre, ∃ wp, worker_at w.group p = some wp ∧ wp.available.first = 0 ∧
        wp.available.mutex.locked = false) →
      thread_steps i pre.length (put_worker w i { wi with thread := { wi.thread with
          entry := 0, point := Program_Point.steal_from (pre ++ rest) } }) =
        some (put_worker w i { wi with thread := { wi.thread with
          entry := 0, point := Program_Point.steal_from rest } }) := by
  induction pre with
  | nil => intro w wi rest _ _; rfl
  | cons p pre ih =>
    intro w wi rest hwi hpre
    obtain ⟨wp, hwp, hfirst, hfree⟩ := hpre p (List.mem_cons_self _ _)
    obtain ⟨wp', hwp', havail⟩ := worker_at_put_thread w i wi
      { wi.thread with entry := 0, point := Program_Point.steal_from (p :: pre ++ rest) }
      p wp hwi hwp
    have hstep := thread_step_steal_from_empty
      (put_worker w i { wi with thread := { wi.thread with
        entry := 0, point := Program_Point.steal_from (p :: pre ++ rest) } }) i
      { wi with thread := { wi.thread with
        entry := 0, point := Program_Point.steal_from (p :: pre ++ rest) } }
      p (pre ++ rest) wp' (put_worker_getElem?_self w i wi _ hwi) rfl hwp'
      (by rw [havail]; exact hfirst) (by rw [havail]; exact hfree)
    rw [put_worker_put_worker] at hstep
    exact (thread_steps_succ i pre.length _ _ hstep).trans
      (ih w wi rest hwi (fun q hq => hpre q (List.mem_cons_of_mem _ hq)))


theorem put_worker_comm (w : World) (i j : Nat) (a b c : Worker_Info) (hne : j ≠ i) :
    put_worker (put_worker (put_worker w i a) j b) i c = put_worker (put_worker w j b) i c := by
  unfold put_worker
  simp only
  rw [List.set_comm a b _ (fun h => hne h.symm), List.set_set]

/-- The turn of the loop over `work_steal_indices` at a peer whose available list is not empty:
the thread takes the head of that list and leaves the loop. -/
theorem thread_step_steal_from_take (w : World) (i : Nat) (wi : Worker_Info) (j : Int)
    (rest : List Int) (peer : Worker_Info) (a' : Arena)
    (hwi : w.group.worker_info[i]? = some wi)
    (hpoint : wi.thread.point = Program_Point.steal_from (j :: rest))
    (hpeer : worker_at w.group j = some peer) (hfirst : peer.available.first ≠ 0)
    (hne : j.toNat ≠ i) (hreset : reset_temp_allocator wi.thread.temp = some a') :
    thread_step w i = some
      (put_worker
        (put_worker w j.toNat { peer with available := (get_work w.memory peer.available).2 })
        i { wi with thread := { wi.thread with
          temp := a', entry := peer.available.first, point := Program_Point.loop_test } }) := by
  have hentry := (get_work_of_first w.memory peer.available hfirst).1
  have hi : (put_worker w j.toNat
      { peer with available := (get_work w.memory peer.available).2 }).group.worker_info[i]? =
      some wi := by
    show (w.group.worker_info.set j.toNat _)[i]? = some wi
    rw [List.getElem?_set_ne hne]
    exact hwi
  unfold thread_step
  rw [hwi]
  simp only [hpoint, hpeer]
  rw [hi]
  simp only [hentry, ne_eq, hfirst, not_false_eq_true, if_true, end_of_pass, hreset,
    Option.map_some']

/-- The end of the loop over `work_steal_indices`: the pass ends with nothing taken. -/
theorem thread_step_steal_from_nil (w : World) (i : Nat) (wi : Worker_Info) (a' : Arena)
    (hwi : w.group.worker_info[i]? = some wi)
    (hpoint : wi.thread.point = Program_Point.steal_from [])
    (hreset : reset_temp_allocator wi.thread.temp = some a') :
    thread_step w i = some
      (put_worker w i { wi with thread := { wi.thread with
        temp := a', point := Program_Point.loop_test } }) := by
  unfold thread_step
  rw [hwi]
  simp only [hpoint, end_of_pass, hreset, Option.map_some']

/-- C16. The stealing step of `thread_group_run`, for the worker at index `i` standing at
`entry = get_work(&info.available)` with no mutex of an available list held and no other thread
running meanwhile. If its own available list is not empty, one step takes the head of that
list and changes no other worker. If it is empty, and the first peer of `work_steal_indices`
whose available list is not empty is `j`, the thread ends its pass holding the head of the list
of `j`; that list has lost its head and nothing else has changed but the thread itself. If the
lists of all the peers are empty too, the thread ends its pass holding nothing and nothing has
changed but the thread itself. -/
theorem steal_step_takes_first_available (w : World) (i : Nat) (wi : Worker_Info) (a' : Arena)
    (hwi : w.group.worker_info[i]? = some wi)
    (hpoint : wi.thread.point = Program_Point.steal_get_own)
    (hfree : ∀ wk ∈ w.group.worker_info, wk.available.mutex.locked = false)
    (hreset : reset_temp_allocator wi.thread.temp = some a') :
    (wi.available.first ≠ 0 →
      thread_step w i = some
        (put_worker w i { wi with
          available := (get_work w.memory wi.available).2
          thread := { wi.thread with
            entry := wi.available.first, point := Program_Point.steal_wait } })) ∧
    (wi.available.first = 0 →
      ∀ (pre : List Int) (j : Int) (post : List Int) (peer : Worker_Info),
        wi.work_steal_indices = pre ++ j :: post →
        (∀ p ∈ pre, ∃ wp, worker_at w.group p = some wp ∧ wp.available.first = 0) →
        worker_at w.group j = some peer → peer.available.first ≠ 0 →
        thread_steps i (pre.length + 2) w = some
          (put_worker
            (put_worker w j.toNat
              { peer with available := (get_work w.memory peer.available).2 })
            i { wi with thread := { wi.thread with
              temp := a', entry := peer.available.first,
              point := Program_Point.loop_test } })) ∧
    (wi.available.first = 0 →
      (∀ p ∈ wi.work_steal_indices,
        ∃ wp, worker_at w.group p = some wp ∧ wp.available.first = 0) →
      thread_steps i (wi.work_steal_indices.length + 2) w = some
        (put_worker w i { wi with thread := { wi.thread with
          temp := a', entry := 0, point := Program_Point.loop_test } })) := by
  have hwimem : wi ∈ w.group.worker_info := List.mem_iff_getElem?.2 ⟨i, hwi⟩
  have hfirst_step : wi.available.first = 0 →
      thread_step w i = some (put_worker w i { wi with thread := { wi.thread with
        entry := 0, point := Program_Point.steal_from wi.work_steal_indices } }) := by
    intro hempty
    unfold thread_step
    rw [hwi]
    simp only [hpoint, get_work_empty w.memory wi.available hempty (hfree wi hwimem)]
    simp
  have hpeers : ∀ l : List Int,
      (∀ p ∈ l, ∃ wp, worker_at w.group p = some wp ∧ wp.available.first = 0) →
      ∀ p ∈ l, ∃ wp, worker_at w.group p = some wp ∧ wp.available.first = 0 ∧
        wp.available.mutex.locked = false := by
    intro l hl p hp
    obtain ⟨wp, hwp, hf⟩ := hl p hp
    exact ⟨wp, hwp, hf,
      hfree wp (List.mem_iff_getElem?.2 ⟨p.toNat, worker_at_some _ _ _ hwp⟩)⟩
  refine ⟨?_, ?_, ?_⟩
  · intro hown
    have hentry := (get_work_of_first w.memory wi.available hown).1
    unfold thread_step
    rw [hwi]
    simp only [hpoint, hentry, ne_eq, hown, not_false_eq_true, if_true]
  · intro hempty pre j post peer hsplit hpre hpeer hpeerfirst
    have hne : j.toNat ≠ i := by
      intro h
      have := worker_at_some _ _ _ hpeer
      rw [h, hwi] at this
      cases this
      exact hpeerfirst hempty
    have h1 : thread_step w i = some (put_worker w i { wi with thread := { wi.thread with
        entry := 0, point := Program_Point.steal_from (pre ++ j :: post) } }) := by
      rw [← hsplit]
      exact hfirst_step hempty
    have h2 := thread_steps_steal_from_empty i pre w wi (j :: post) hwi (hpeers pre hpre)
    obtain ⟨peer', hpeer', _⟩ := worker_at_put_thread w i wi
      { wi.thread with entry := 0, point := Program_Point.steal_from (j :: post) } j peer hwi
      hpeer
    have hpeer_eq : peer' = peer := by
      have h3 := worker_at_some _ _ _ hpeer'
      have h4 : (w.group.worker_info.set i _)[j.toNat]? = some peer' := h3
      rw [List.getElem?_set_ne (fun h => hne h.symm), worker_at_some _ _ _ hpeer] at h4
      cases h4
      rfl
    subst hpeer_eq
    have h3 := thread_step_steal_from_take
      (put_worker w i { wi with thread := { wi.thread with
        entry := 0, point := Program_Point.steal_from (j :: post) } }) i
      { wi with thread := { wi.thread with
        entry := 0, point := Program_Point.steal_from (j :: post) } }
      j post peer' a' (put_worker_getElem?_self w i wi _ hwi) rfl hpeer' hpeerfirst hne hreset
    rw [put_worker_comm _ _ _ _ _ _ hne] at h3
    have hsteps : thread_steps i (1 + pre.length + 1) w = thread_steps i 1 _ :=
      thread_steps_add i (1 + pre.length) 1 w _ (by
        rw [Nat.add_comm 1 pre.length, thread_steps_succ i pre.length w _ h1]
        exact h2)
    have hlen : pre.length + 2 = 1 + pre.length + 1 := by omega
    rw [hlen, hsteps]
    exact (thread_steps_succ i 0 _ _ h3).trans rfl
  · intro hempty hall
    have h1 := hfirst_step hempty
    have h2 := thread_steps_steal_from_empty i wi.work_steal_indices w wi [] hwi
      (hpeers _ hall)
    rw [List.append_nil] at h2
    have h3 := thread_step_steal_from_nil
      (put_worker w i { wi with thread := { wi.thread with
        entry := 0, point := Program_Point.steal_from [] } }) i
      { wi with thread := { wi.thread with
        entry := 0, point := Program_Point.steal_from [] } }
      a' (put_worker_getElem?_self w i wi _ hwi) rfl hreset
    rw [put_worker_put_worker] at h3
    have hsteps : thread_steps i (1 + wi.work_steal_indices.length + 1) w =
        thread_steps i 1 _ :=
      thread_steps_add i (1 + wi.work_steal_indices.length) 1 w _ (by
        rw [Nat.add_comm 1 wi.work_steal_indices.length,
          thread_steps_succ i wi.work_steal_indices.length w _ h1]
        exact h2)
    have hlen : wi.work_steal_indices.length + 2 = 1 + wi.work_steal_indices.length + 1 := by
      omega
    rw [hlen, hsteps]
    exact (thread_steps_succ i 0 _ _ h3).trans rfl


theorem steal_step_takes_first_available_witness :
    (steal_example.group.worker_info.map (worker_view steal_example.memory) =
      [⟨Program_Point.steal_get_own, false, 0, [], [7]⟩,
        ⟨Program_Point.run_proc, false, 0, [], []⟩,
        ⟨Program_Point.suspended, false, 1, [9], []⟩]) ∧
    ((thread_steps 0 3 steal_example).map
      (fun w => w.group.worker_info.map (fun wi => (worker_view w.memory wi,
        (w.memory wi.thread.entry).work))) =
      some [(⟨Program_Point.loop_test, false, 0, [], [7]⟩, 9),
        (⟨Program_Point.run_proc, false, 0, [], []⟩, 8),
        (⟨Program_Point.suspended, false, 1, [], []⟩, 0)]) ∧
    ∃ (wi peer : Worker_Info) (a' : Arena),
      steal_example.group.worker_info[0]? = some wi ∧
      wi.thread.point = Program_Point.steal_get_own ∧
      (∀ wk ∈ steal_example.group.worker_info, wk.available.mutex.locked = false) ∧
      reset_temp_allocator wi.thread.temp = some a' ∧
      wi.available.first = 0 ∧
      wi.work_steal_indices = [1] ++ 2 :: [] ∧
      (∀ p ∈ [(1 : Int)],
        ∃ wp, worker_at steal_example.group p = some wp ∧ wp.available.first = 0) ∧
      worker_at steal_example.group 2 = some peer ∧
      peer.available.first ≠ 0 ∧
      thread_steps 0 ([(1 : Int)].length + 2) steal_example = some
        (put_worker
          (put_worker steal_example (2 : Int).toNat
            { peer with available := (get_work steal_example.memory peer.available).2 })
          0 { wi with thread := { wi.thread with
            temp := a', entry := peer.available.first,
            point := Program_Point.loop_test } }) := by
  have hwi := some_getD_of_isSome (steal_example.group.worker_info[0]?) idle_worker
    (by decide!)
  have hpeer := some_getD_of_isSome (worker_at steal_example.group 2) idle_worker (by decide!)
  have hpeer1 := some_getD_of_isSome (worker_at steal_example.group 1) idle_worker (by decide!)
  have hreset := some_getD_of_isSome
    (reset_temp_allocator
      ((steal_example.group.worker_info[0]?).getD idle_worker).thread.temp)
    fresh_arena (by decide!)
  have hpoint : ((steal_example.group.worker_info[0]?).getD idle_worker).thread.point =
      Program_Point.steal_get_own := by decide!
  have hfree : ∀ wk ∈ steal_example.group.worker_info, wk.available.mutex.locked = false := by
    decide!
  have hempty : ((steal_example.group.worker_info[0]?).getD idle_worker).available.first = 0 := by
    decide!
  have hsplit : ((steal_example.group.worker_info[0]?).getD idle_worker).work_steal_indices =
      [1] ++ 2 :: [] := by decide!
  have hpre : ∀ p ∈ [(1 : Int)],
      ∃ wp, worker_at steal_example.group p = some wp ∧ wp.available.first = 0 := by
    intro p hp
    rw [List.mem_singleton] at hp
    subst hp
    exact ⟨_, hpeer1, by decide!⟩
  have hpf : ((worker_at steal_example.group 2).getD idle_worker).available.first ≠ 0 := by
    decide!
  exact ⟨by decide!, by decide!, _, _, _, hwi, hpoint, hfree, hreset, hempty, hsplit, hpre,
    hpeer, hpf,
    (steal_step_takes_first_available steal_example 0 _ _ hwi hpoint hfree hreset).2.1
      hempty [1] 2 [] _ hsplit hpre hpeer hpf⟩


/-- C13 fails: two workers, started; worker 0 has completed the payloads 70007 and 70009 and
worker 1 the payload 70008, and the arena of the calling thread has 10 bytes left in its
region. `array_reserve` asks for `2 + 8` bytes for the two pointers of worker 0, which fit; for
worker 1 it asks to extend the block to `3 + 8` bytes, reporting `2 + 8` bytes as its size; the
extra byte does not fit, the arena grows, and `temp_allocator_proc` copies 10 bytes to the new
block: the first pointer and the two low bytes of the second. The array returned holds
70007, 4473 and 70008. In an arena with room the array holds 70007, 70009 and 70008. -/
theorem get_completed_work_moved_array_loses_payload :
    (get fresh_arena 268435430).2.t.current_memory_limit -
      (get fresh_arena 268435430).2.t.current_point = 10 ∧
    (run { world := thread_group_init fresh_world 2 (some continue_proc) }
      [Action.start, Action.add_work 70007, Action.add_work 70008, Action.add_work 70009,
        Action.worker 1, Action.worker 1, Action.worker 1, Action.worker 1,
        Action.worker 1, Action.worker 1, Action.worker 1,
        Action.worker 0, Action.worker 0, Action.worker 0, Action.worker 0,
        Action.worker 0, Action.worker 0, Action.worker 0, Action.worker 0,
        Action.worker 0, Action.worker 0, Action.worker 0, Action.worker 0,
        Action.worker 0, Action.worker 0]).bind (fun r =>
      (thread_group_get_completed_work_in_arena r.world (get fresh_arena 268435430).2).map
        (fun res =>
          (r.world.group.worker_info.map (fun wi => payloads r.world.memory wi.completed),
            res.1.count, res.2.1.grow_events,
            array_elements res.2.1.vm res.1.count res.1.data)))
      = some ([[70007, 70009], [70008]], 3, 1, [70007, 4473, 70008]) ∧
    (run { world := thread_group_init fresh_world 2 (some continue_proc) }
      [Action.start, Action.add_work 70007, Action.add_work 70008, Action.add_work 70009,
        Action.worker 1, Action.worker 1, Action.worker 1, Action.worker 1,
        Action.worker 1, Action.worker 1, Action.worker 1,
        Action.worker 0, Action.worker 0, Action.worker 0, Action.worker 0,
        Action.worker 0, Action.worker 0, Action.worker 0, Action.worker 0,
        Action.worker 0, Action.worker 0, Action.worker 0, Action.worker 0,
        Action.worker 0, Action.worker 0]).bind (fun r =>
      (thread_group_get_completed_work_in_arena r.world fresh_arena).map
        (fun res =>
          (r.world.group.worker_info.map (fun wi => payloads r.world.memory wi.completed),
            res.1.count, res.2.1.grow_events,
            array_elements res.2.1.vm res.1.count res.1.data)))
      = some ([[70007, 70009], [70008]], 3, 0, [70007, 70009, 70008]) := by
  decide!

/-- C14. In every state reached from a freshly initialised group by calls of the producer and
steps of the workers, the traversal of `thread_group_get_completed_work` returns; afterwards
the completed list of every worker is empty (`first` and `last` null, `count` zero), the
available list of every worker and the dispatch cursor are what they were, and a second call
made at once returns no payload. With the results kept as an array in the arena of the calling
thread, whatever that arena: a call that returns leaves the same state, and a second call made
at once returns an array of no element. -/
theorem get_completed_work_drains (w0 : World) (num_threads : Int)
    (group_proc : Option Thread_Group_Proc) (enable_work_stealing : Bool)
    (acts : List Action) (r : Run)
    (hthreads : 1 ≤ num_threads) (hcursor : w0.group.next_worker_index = 0)
    (hexit : w0.group.should_exit = false)
    (halloc : ∀ live : List Nat, w0.new_address live ∉ live ∧ w0.new_address live ≠ 0)
    (hrun : run { world := thread_group_init w0 num_threads group_proc enable_work_stealing }
      acts = some r) :
    ∃ (results : List Nat) (w' : World),
      thread_group_get_completed_work r.world = some (results, w') ∧
      (∀ wi ∈ w'.group.worker_info,
        wi.completed.first = 0 ∧ wi.completed.last = 0 ∧ wi.completed.count = 0) ∧
      w'.group.worker_info.map (fun wi => wi.available) =
        r.world.group.worker_info.map (fun wi => wi.available) ∧
      w'.group.next_worker_index = r.world.group.next_worker_index ∧
      (∃ w'' : World, thread_group_get_completed_work w' = some ([], w'')) ∧
      ∀ (temp temp' : Arena) (array : Resizable_Array) (w1 : World),
        thread_group_get_completed_work_in_arena r.world temp = some (array, temp', w1) →
        w1 = w' ∧ array.count = (results.length : Int) ∧
        ∃ (array' : Resizable_Array) (temp'' : Arena) (w'' : World),
          thread_group_get_completed_work_in_arena w1 temp' = some (array', temp'', w'') ∧
          array'.count = 0 := by
  obtain ⟨A, hinv⟩ := reachable_inv w0 num_threads group_proc enable_work_stealing acts r
    hthreads hcursor hexit halloc hrun
  obtain ⟨w', A', h, hinv', hm, hg⟩ := thread_group_get_completed_work_spec r.world A hinv
  obtain ⟨w'', _, h2, _, _, _⟩ := thread_group_get_completed_work_spec w' A' hinv'
  have hnil : w'.group.worker_info.flatMap (fun wi => payloads w'.memory wi.completed) = [] := by
    rw [hg]
    show (r.world.group.worker_info.map _).flatMap _ = _
    rw [flatMap_payloads_drained]
  rw [hnil] at h2
  refine ⟨_, w', h, ?_, ?_, ?_, ⟨w'', h2⟩, ?_⟩
  · intro wi hwi
    rw [hg] at hwi
    obtain ⟨wi0, _, rfl⟩ := List.mem_map.1 hwi
    exact ⟨rfl, rfl, rfl⟩
  · rw [hg]
    show (r.world.group.worker_info.map _).map _ = _
    rw [List.map_map]
    rfl
  · rw [hg]
  · intro temp temp' array w1 harr
    have heq := thread_group_get_completed_work_in_arena_eq r.world temp
    rw [harr, h] at heq
    simp only [Option.map_some', Option.some.injEq, Prod.mk.injEq] at heq
    obtain ⟨hcount, hw⟩ := heq
    subst hw
    obtain ⟨array2, temp'', harr2, hcount2⟩ :=
      thread_group_get_completed_work_in_arena_of_list w1 w'' temp' _ h2
    exact ⟨rfl, hcount, array2, temp'', w'', harr2, by rw [hcount2]; rfl⟩

theorem get_completed_work_drains_witness :
    (run { world := thread_group_init fresh_world 2 (some continue_proc) }
      [Action.start, Action.add_work 7, Action.add_work 8, Action.add_work 9,
        Action.worker 0, Action.worker 0, Action.worker 0, Action.worker 0,
        Action.worker 0, Action.worker 0, Action.worker 0,
        Action.get_completed_work, Action.get_completed_work]).map
      (fun r => (r.returned, r.world.group.next_worker_index,
        r.world.group.worker_info.map (worker_view r.world.memory)))
      = some ([7], 1, [⟨Program_Point.steal_test, false, 1, [9], []⟩,
        ⟨Program_Point.suspended, false, 1, [8], []⟩]) ∧
    ∃ r : Run,
      run { world := thread_group_init fresh_world 2 (some continue_proc) }
        [Action.start, Action.add_work 7, Action.add_work 8, Action.add_work 9,
          Action.worker 0, Action.worker 0, Action.worker 0, Action.worker 0,
          Action.worker 0, Action.worker 0, Action.worker 0] = some r ∧
      ∃ (results : List Nat) (w' : World),
        thread_group_get_completed_work r.world = some (results, w') ∧
        (∀ wi ∈ w'.group.worker_info,
          wi.completed.first = 0 ∧ wi.completed.last = 0 ∧ wi.completed.count = 0) ∧
        w'.group.worker_info.map (fun wi => wi.available) =
          r.world.group.worker_info.map (fun wi => wi.available) ∧
        w'.group.next_worker_index = r.world.group.next_worker_index ∧
        (∃ w'' : World, thread_group_get_completed_work w' = some ([], w'')) ∧
        ∀ (temp temp' : Arena) (array : Resizable_Array) (w1 : World),
          thread_group_get_completed_work_in_arena r.world temp = some (array, temp', w1) →
          w1 = w' ∧ array.count = (results.length : Int) ∧
          ∃ (array' : Resizable_Array) (temp'' : Arena) (w'' : World),
            thread_group_get_completed_work_in_arena w1 temp' = some (array', temp'', w'') ∧
            array'.count = 0 :=
  ⟨by decide!, _,
    some_getD_of_isSome _ { world := fresh_world } (by decide!),
    get_completed_work_drains fresh_world 2 (some continue_proc) false _ _
      (by decide) rfl rfl bump_new_address_fresh
      (some_getD_of_isSome _ { world := fresh_world } (by decide!))⟩

/-! ## Theorems: the work-list invariant, pops and signals -/

/-- A chain from a given entry is determined by the memory. -/
theorem chain_unique (m : Entry_Memory) (xs : List Nat) :
    ∀ (p : Nat) (ys : List Nat), Chain m p xs → Chain m p ys → xs = ys := by
  induction xs with
  | nil =>
    intro p ys hx hy
    have hp : p = 0 := hx
    subst hp
    exact (chain_null m ys hy).symm
  | cons x xs ih =>
    intro p ys hx hy
    obtain ⟨hp, hx0, hrest⟩ := hx
    cases ys with
    | nil =>
      have : p = 0 := hy
      omega
    | cons y ys =>
      obtain ⟨hp', _, hrest'⟩ := hy
      have hxy : x = y := by omega
      subst hxy
      rw [ih _ ys hrest hrest']

/-- The chain continues from every entry of it. -/
theorem chain_suffix (m : Entry_Memory) (pre : List Nat) :
    ∀ (p x : Nat) (post : List Nat), Chain m p (pre ++ x :: post) → Chain m x (x :: post) := by
  induction pre with
  | nil =>
    intro p x post h
    obtain ⟨_, hx, hrest⟩ := h
    exact ⟨rfl, hx, hrest⟩
  | cons y pre ih =>
    intro p x post h
    obtain ⟨_, _, hrest⟩ := h
    exact ih _ x post hrest

/-- A chain that reaches null visits no entry twice. -/
theorem chain_nodup (m : Entry_Memory) (xs : List Nat) :
    ∀ p, Chain m p xs → xs.Nodup := by
  induction xs with
  | nil => intro _ _; exact List.nodup_nil
  | cons x xs ih =>
    intro p h
    obtain ⟨hp, hx, hrest⟩ := h
    refine List.nodup_cons.2 ⟨?_, ih _ hrest⟩
    intro hmem
    obtain ⟨pre, post, hsplit⟩ := List.append_of_mem hmem
    have h1 : Chain m x (x :: post) := by
      rw [hsplit] at hrest
      exact chain_suffix m pre _ x post hrest
    have h2 : Chain m x (x :: xs) := ⟨rfl, hx, hrest⟩
    have heq := chain_unique m _ x _ h1 h2
    have hlen := congrArg List.length heq
    rw [hsplit] at hlen
    simp at hlen
    omega

/-- Source `thread_group_get_completed_work`, one worker: the critical section is
`swap_out`. -/
theorem get_completed_work_of_swap_out (w : World) (results : List Nat) (i : Nat)
    (wi : Worker_Info) (hwi : w.group.worker_info[i]? = some wi) :
    get_completed_work_of w results i =
      if (swap_out wi.completed).2.1 = 0 then
        some (results, put_worker w i { wi with completed := (swap_out wi.completed).2.2 })
      else
        collect_completed
          (put_worker w i { wi with completed := (swap_out wi.completed).2.2 }).live.length
          (put_worker w i { wi with completed := (swap_out wi.completed).2.2 })
          (swap_out wi.completed).2.1 results := by
  unfold get_completed_work_of
  rw [hwi]
  rfl

/-- C23. The invariant of a `Work_List` (the entries chained from `first` up to null are
`count` many and `last` is the last of them) holds for a list just initialised; under it
`first` is null exactly when `count` is zero, and `last` likewise; `add_work` of an entry that
is not null, not in the list and whose `next` is null keeps it, the entries being the old ones
followed by the new one; `get_work` keeps it; the swap-out of
`thread_group_get_completed_work` keeps it, leaving the list empty and handing over the whole
chain with its length. -/
theorem work_list_invariant_preserved (m : Entry_Memory) (l : Work_List) (xs : List Nat)
    (h : Holds m l xs) :
    Work_List_Invariant m (init_work_list {}) ∧
    (l.first = 0 ↔ l.count = 0) ∧ (l.last = 0 ↔ l.count = 0) ∧
    (∀ e : Nat, e ≠ 0 → e ∉ xs → (m e).next = 0 →
      Holds (add_work m l e).1 (add_work m l e).2 (xs ++ [e])) ∧
    Holds m (get_work m l).2 xs.tail ∧ (get_work m l).1 = xs.headD 0 ∧
    Holds m (swap_out l).2.2 [] ∧ Chain m (swap_out l).2.1 xs ∧
    (swap_out l).1 = (xs.length : Int) := by
  obtain ⟨hchain, hlast, hcount⟩ := h
  have hnodup := chain_nodup m xs _ hchain
  refine ⟨⟨[], rfl, rfl, rfl⟩, ?_, ?_, ?_, ?_, ?_, ?_, ?_, ?_⟩
  · cases xs with
    | nil =>
      have : l.first = 0 := hchain
      simp [this, hcount]
    | cons x xs =>
      have h1 : l.first ≠ 0 := by rw [hchain.1]; exact hchain.2.1
      simp only [List.length_cons] at hcount
      constructor
      · intro h0; exact absurd h0 h1
      · intro h0; omega
  · cases xs with
    | nil =>
      have : l.last = 0 := hlast
      simp [this, hcount]
    | cons x xs =>
      have h1 : l.last ≠ 0 := by
        rw [hlast]
        exact chain_not_null m _ _ hchain _ (last_or_null_mem _ (List.cons_ne_nil x xs))
      simp only [List.length_cons] at hcount
      constructor
      · intro h0; exact absurd h0 h1
      · intro h0; omega
  · intro e he hmem hnext
    exact holds_add_work m l xs e ⟨hchain, hlast, hcount⟩ hnodup he hmem hnext
  · cases xs with
    | nil => exact (holds_get_work_nil m l ⟨hchain, hlast, hcount⟩).2
    | cons x xs => exact (holds_get_work_cons m l x xs ⟨hchain, hlast, hcount⟩).2
  · cases xs with
    | nil => exact (holds_get_work_nil m l ⟨hchain, hlast, hcount⟩).1
    | cons x xs => exact (holds_get_work_cons m l x xs ⟨hchain, hlast, hcount⟩).1
  · by_cases hf : l.first = 0
    · have hnil : xs = [] := chain_null m xs (hf ▸ hchain)
      subst hnil
      have hl : l.last = 0 := hlast
      have hc : l.count = 0 := by simpa using hcount
      refine ⟨?_, ?_, ?_⟩
      · show (swap_out l).2.2.first = 0
        simp [swap_out, hf]
      · show (swap_out l).2.2.last = 0
        simp [swap_out, hf, hl]
      · show (swap_out l).2.2.count = 0
        simp [swap_out, hf, hc]
    · refine ⟨?_, ?_, ?_⟩
      · show (swap_out l).2.2.first = 0
        simp [swap_out, hf]
      · show (swap_out l).2.2.last = 0
        simp [swap_out, hf]
      · show (swap_out l).2.2.count = 0
        simp [swap_out, hf]
  · exact hchain
  · exact hcount

theorem work_list_invariant_preserved_witness :
    Holds two_entries two_entry_list [1, 2] ∧
    Work_List_Invariant two_entries (init_work_list {}) ∧
    (two_entry_list.first = 0 ↔ two_entry_list.count = 0) ∧
    (two_entry_list.last = 0 ↔ two_entry_list.count = 0) ∧
    (∀ e : Nat, e ≠ 0 → e ∉ [1, 2] → (two_entries e).next = 0 →
      Holds (add_work two_entries two_entry_list e).1 (add_work two_entries two_entry_list e).2
        ([1, 2] ++ [e])) ∧
    Holds two_entries (get_work two_entries two_entry_list).2 [1, 2].tail ∧
    (get_work two_entries two_entry_list).1 = [1, 2].headD 0 ∧
    Holds two_entries (swap_out two_entry_list).2.2 [] ∧
    Chain two_entries (swap_out two_entry_list).2.1 [1, 2] ∧
    (swap_out two_entry_list).1 = (([1, 2] : List Nat).length : Int) :=
  ⟨⟨⟨rfl, by decide, rfl, by decide, rfl⟩, rfl, rfl⟩,
    work_list_invariant_preserved two_entries two_entry_list [1, 2]
      ⟨⟨rfl, by decide, rfl, by decide, rfl⟩, rfl, rfl⟩⟩

/-- C24. Source `get_work`: on a list whose `first` is null it returns null and leaves `first`,
`last` and `count` as they were; on a list whose `first` is not null it returns that first
entry and `count` is one less afterwards. -/
theorem get_work_empty_or_head (m : Entry_Memory) (l : Work_List) :
    (l.first = 0 →
      (get_work m l).1 = 0 ∧ (get_work m l).2.first = l.first ∧
      (get_work m l).2.last = l.last ∧ (get_work m l).2.count = l.count) ∧
    (l.first ≠ 0 →
      (get_work m l).1 = l.first ∧ (get_work m l).2.count = l.count - 1) := by
  constructor
  · intro hf
    obtain ⟨h1, h2, h3, h4, _⟩ := get_work_of_null m l hf
    exact ⟨h1, h2, h3, h4⟩
  · intro hf
    obtain ⟨h1, _, _, h4, _⟩ := get_work_of_first m l hf
    exact ⟨h1, h4⟩

theorem get_work_empty_or_head_witness :
    ((init_work_list {}).first = 0 ∧
      (get_work two_entries (init_work_list {})).1 = 0 ∧
      (get_work two_entries (init_work_list {})).2.first = (init_work_list {}).first ∧
      (get_work two_entries (init_work_list {})).2.last = (init_work_list {}).last ∧
      (get_work two_entries (init_work_list {})).2.count = (init_work_list {}).count) ∧
    (two_entry_list.first ≠ 0 ∧
      (get_work two_entries two_entry_list).1 = two_entry_list.first ∧
      (get_work two_entries two_entry_list).2.count = two_entry_list.count - 1) :=
  ⟨⟨rfl, (get_work_empty_or_head two_entries (init_work_list {})).1 rfl⟩,
    ⟨by decide, (get_work_empty_or_head two_entries two_entry_list).2 (by decide)⟩⟩

theorem apply_ops_semaphore (ops : List List_Op) :
    ∀ s : Entry_Memory × Work_List,
      (apply_ops s ops).2.semaphore =
        { s.2.semaphore with value := s.2.semaphore.value + pushes ops } := by
  induction ops with
  | nil => intro s; rfl
  | cons op ops ih =>
    intro s
    show (apply_ops (apply_op s op) ops).2.semaphore = _
    rw [ih]
    cases op with
    | push e =>
      show ({ (add_work s.1 s.2 e).2.semaphore with
        value := (add_work s.1 s.2 e).2.semaphore.value + pushes ops } : Semaphore) = _
      rw [add_work_semaphore]
      simp only [signal, pushes]
      congr 1
      omega
    | pop =>
      show ({ (get_work s.1 s.2).2.semaphore with
        value := (get_work s.1 s.2).2.semaphore.value + pushes ops } : Semaphore) = _
      have hsem : (get_work s.1 s.2).2.semaphore = s.2.semaphore := by
        by_cases hf : s.2.first = 0
        · exact (get_work_of_null s.1 s.2 hf).2.2.2.2
        · exact (get_work_of_first s.1 s.2 hf).2.2.2.2
      rw [hsem]
      rfl

/-- C25. Source `add_work` signals the list's semaphore once (its count is one more afterwards)
and `get_work` leaves the semaphore as it was; so after any sequence of `add_work` and
`get_work` calls on a list, the count of its semaphore is the count before plus the number of
`add_work` calls in the sequence. -/
theorem add_work_signals_once_get_work_never (m : Entry_Memory) (l : Work_List) :
    (∀ e : Nat, (add_work m l e).2.semaphore.value = l.semaphore.value + 1 ∧
      (add_work m l e).2.semaphore = signal l.semaphore) ∧
    (get_work m l).2.semaphore = l.semaphore ∧
    (∀ ops : List List_Op,
      (apply_ops (m, l) ops).2.semaphore.value = l.semaphore.value + pushes ops ∧
      (apply_ops (m, l) ops).2.semaphore.destroyed = l.semaphore.destroyed) := by
  refine ⟨?_, ?_, ?_⟩
  · intro e
    rw [add_work_semaphore]
    exact ⟨rfl, rfl⟩
  · by_cases hf : l.first = 0
    · exact (get_work_of_null m l hf).2.2.2.2
    · exact (get_work_of_first m l hf).2.2.2.2
  · intro ops
    rw [apply_ops_semaphore]
    exact ⟨rfl, rfl⟩

/-! ## Theorems: the dispatch cursor, repeated joins, the pushed allocator -/

theorem thread_group_add_work_length (w : World) (work : Nat) :
    (thread_group_add_work w work).group.worker_info.length = w.group.worker_info.length := by
  unfold thread_group_add_work New_Work_Entry
  simp only
  split
  · rfl
  · simp [put_worker]

theorem thread_group_add_work_cursor (w : World) (work : Nat) :
    (thread_group_add_work w work).group.next_worker_index =
      if w.group.next_worker_index + 1 ≥ w.group.worker_info.length then 0
      else w.group.next_worker_index + 1 := by
  unfold thread_group_add_work New_Work_Entry
  simp only
  split
  · rfl
  · simp [put_worker]

theorem cursor_in_range_add_work (w : World) (work : Nat) (h : Cursor_In_Range w.group) :
    Cursor_In_Range (thread_group_add_work w work).group := by
  unfold Cursor_In_Range at h ⊢
  rw [thread_group_add_work_cursor, thread_group_add_work_length]
  split <;> omega

theorem cursor_in_range_add_work_each (works : List Nat) :
    ∀ w : World, Cursor_In_Range w.group → Cursor_In_Range (add_work_each w works).group := by
  induction works with
  | nil => intro w h; exact h
  | cons x xs ih =>
    intro w h
    exact ih _ (cursor_in_range_add_work w x h)

theorem add_work_each_length (works : List Nat) :
    ∀ w : World, (add_work_each w works).group.worker_info.length
      = w.group.worker_info.length := by
  induction works with
  | nil => intro w; rfl
  | cons x xs ih =>
    intro w
    exact (ih _).trans (thread_group_add_work_length w x)

/-- C26. Source `thread_group_init` leaves `next_worker_index` as it finds it, and a group is
constructed with the cursor at zero. For a group whose cursor is inside `[0, num_threads)`
when `thread_group_init` is called with `num_threads >= 1` (as it is for a group just
constructed): after the call the group has `num_threads` workers and
`0 <= next_worker_index < num_threads`; a call of `thread_group_add_work` in any state where
the cursor is inside the range keeps the number of workers and leaves the cursor inside the
range; so the cursor is inside the range after every call of a sequence of
`thread_group_add_work` calls. -/
theorem next_worker_index_in_range (w0 : World) (num_threads : Int)
    (group_proc : Option Thread_Group_Proc) (enable_work_stealing : Bool)
    (hthreads : 1 ≤ num_threads)
    (hcursor : 0 ≤ w0.group.next_worker_index ∧ w0.group.next_worker_index < num_threads) :
    (thread_group_init w0 num_threads group_proc enable_work_stealing).group.worker_info.length
      = num_threads.toNat ∧
    0 ≤ (thread_group_init w0 num_threads group_proc enable_work_stealing).group.next_worker_index ∧
    (thread_group_init w0 num_threads group_proc enable_work_stealing).group.next_worker_index
      < num_threads ∧
    (∀ (w : World) (work : Nat), w.group.worker_info.length = num_threads.toNat →
      0 ≤ w.group.next_worker_index → w.group.next_worker_index < num_threads →
      (thread_group_add_work w work).group.worker_info.length = num_threads.toNat ∧
      0 ≤ (thread_group_add_work w work).group.next_worker_index ∧
      (thread_group_add_work w work).group.next_worker_index < num_threads) ∧
    (∀ works : List Nat,
      0 ≤ (add_work_each (thread_group_init w0 num_threads group_proc enable_work_stealing)
        works).group.next_worker_index ∧
      (add_work_each (thread_group_init w0 num_threads group_proc enable_work_stealing)
        works).group.next_worker_index < num_threads) := by
  have hlen : (thread_group_init w0 num_threads group_proc
      enable_work_stealing).group.worker_info.length = num_threads.toNat := by
    simp [thread_group_init]
  have hsame : (thread_group_init w0 num_threads group_proc
      enable_work_stealing).group.next_worker_index = w0.group.next_worker_index := rfl
  have hrange : Cursor_In_Range
      (thread_group_init w0 num_threads group_proc enable_work_stealing).group := by
    unfold Cursor_In_Range
    rw [hlen, hsame]
    omega
  refine ⟨hlen, by rw [hsame]; exact hcursor.1, by rw [hsame]; exact hcursor.2, ?_, ?_⟩
  · intro w work hl h0 h1
    have h := cursor_in_range_add_work w work ⟨h0, by rw [hl]; omega⟩
    unfold Cursor_In_Range at h
    rw [thread_group_add_work_length, hl] at h
    exact ⟨by rw [thread_group_add_work_length, hl], h.1, by omega⟩
  · intro works
    have h := cursor_in_range_add_work_each works _ hrange
    unfold Cursor_In_Range at h
    rw [add_work_each_length, hlen] at h
    exact ⟨h.1, by omega⟩

theorem next_worker_index_in_range_witness :
    ((1 : Int) ≤ 2 ∧
      (0 ≤ fresh_world.group.next_worker_index ∧ fresh_world.group.next_worker_index < 2)) ∧
    (thread_group_init fresh_world 2 none false).group.worker_info.length = (2 : Int).toNat ∧
    0 ≤ (thread_group_init fresh_world 2 none false).group.next_worker_index ∧
    (thread_group_init fresh_world 2 none false).group.next_worker_index < 2 ∧
    (∀ (w : World) (work : Nat), w.group.worker_info.length = (2 : Int).toNat →
      0 ≤ w.group.next_worker_index → w.group.next_worker_index < 2 →
      (thread_group_add_work w work).group.worker_info.length = (2 : Int).toNat ∧
      0 ≤ (thread_group_add_work w work).group.next_worker_index ∧
      (thread_group_add_work w work).group.next_worker_index < 2) ∧
    (∀ works : List Nat,
      0 ≤ (add_work_each (thread_group_init fresh_world 2 none false)
        works).group.next_worker_index ∧
      (add_work_each (thread_group_init fresh_world 2 none false)
        works).group.next_worker_index < 2) :=
  ⟨⟨by decide, by decide, by decide⟩,
    next_worker_index_in_range fresh_world 2 none false (by decide) ⟨by decide, by decide⟩⟩

/-- Source `thread_is_done` returns true exactly when the thread's `is_done` flag is set or
its `is_alive_semaphore` has a unit, and then leaves the thread as it was. -/
theorem thread_is_done_true_iff (t : Thread) (ms : Int) :
    thread_is_done t ms = some (true, t) ↔
      (t.is_done = true ∨ 0 < t.is_alive_semaphore.value) := by
  obtain ⟨idx, handle, ⟨v, d⟩, susp, done, point, entry, temp⟩ := t
  cases done with
  | true => simp [thread_is_done]
  | false =>
    by_cases hv : 0 < v
    · have hv1 : v - 1 + 1 = v := Nat.sub_add_cancel hv
      simp [thread_is_done, wait_for, hv, signal, hv1]
    · by_cases hm : ms < 0 <;> simp [thread_is_done, wait_for, hv, hm]

/-- C28. Source `push_allocator(new_allocator, body)`: the body starts in the context it would
start in without the macro but for `context.allocator`, which is `new_allocator`; when
control leaves the body, by whatever path, it leaves the macro's block by the same path, and
the context is then the one the body left but for `context.allocator`, which is the allocator
from before the macro, whatever the body assigned to it; and control leaves the block whenever
it leaves the body. -/
theorem push_allocator_restores (new_allocator : Allocator) (body : Block)
    (context : Context) :
    ({ context with allocator := new_allocator } : Context).allocator = new_allocator ∧
    push_allocator new_allocator body context =
      (body { context with allocator := new_allocator }).map
        (fun r => (r.1, { r.2 with allocator := context.allocator })) ∧
    (∀ (exit_path : Exit_Path) (after : Context),
      push_allocator new_allocator body context = some (exit_path, after) →
        after.allocator = context.allocator) ∧
    ((body { context with allocator := new_allocator }).isSome →
      (push_allocator new_allocator body context).isSome) := by
  have hmap : push_allocator new_allocator body context =
      (body { context with allocator := new_allocator }).map
        (fun r => (r.1, { r.2 with allocator := context.allocator })) := by
    unfold push_allocator
    simp only
    cases body { context with allocator := new_allocator } with
    | none => rfl
    | some r => rfl
  refine ⟨rfl, hmap, ?_, ?_⟩
  · intro exit_path after h
    rw [hmap] at h
    obtain ⟨r, _, hr⟩ := Option.map_eq_some'.mp h
    cases hr
    rfl
  · intro h
    rw [hmap]
    simpa using h

theorem push_allocator_restores_witness :
    push_allocator temp_allocator reassigning_body { allocator := { proc := 7, data := 9 } }
      = some (Exit_Path.jump,
          { allocator := { proc := 7, data := 9 }, temp := { current_point := 8 } }) ∧
    (reassigning_body { allocator := temp_allocator }).map (fun r => r.2.allocator)
      = some default_allocator :=
  ⟨((push_allocator_restores temp_allocator reassigning_body
      { allocator := { proc := 7, data := 9 } }).2.1).trans (by decide), by decide⟩

/-! ## Theorems: the steps of a worker, thread by thread -/

theorem threads_put_worker (w : World) (i : Nat) (a : Worker_Info) :
    (put_worker w i a).group.worker_info.map (fun wk => wk.thread) =
      (w.group.worker_info.map (fun wk => wk.thread)).set i a.thread := by
  simp [put_worker, List.map_set]

theorem threads_put_worker_same (w : World) (j : Nat) (peer a : Worker_Info)
    (hpeer : w.group.worker_info[j]? = some peer) (ha : a.thread = peer.thread) :
    (put_worker w j a).group.worker_info.map (fun wk => wk.thread) =
      w.group.worker_info.map (fun wk => wk.thread) := by
  rw [threads_put_worker, ha]
  apply list_set_self
  rw [List.getElem?_map, hpeer]
  rfl

theorem end_of_pass_eq (t t' : Thread) (h : end_of_pass t = some t') :
    ∃ a, reset_temp_allocator t.temp = some a ∧ t' = { t with temp := a } := by
  unfold end_of_pass at h
  obtain ⟨a, ha, ht⟩ := Option.map_eq_some'.mp h
  exact ⟨a, ha, ht.symm⟩

/-- What one step of the thread of worker `i` does to the threads of the group: only the
thread of worker `i` changes. It either returns from its procedure (setting `is_done` and
signalling `is_alive_semaphore`), or calls the callback on its arena, or moves on without
touching its arena, or ends a pass of the loop with `reset_temp_allocator`. -/
theorem thread_step_local (w w' : World) (i : Nat) (hstep : thread_step w i = some w') :
    ∃ (wi : Worker_Info) (t' : Thread), w.group.worker_info[i]? = some wi ∧
      w'.group.worker_info.map (fun wk => wk.thread) =
        (w.group.worker_info.map (fun wk => wk.thread)).set i t' ∧
      w'.group.proc = w.group.proc ∧ w'.group.should_exit = w.group.should_exit ∧
      t'.index = wi.thread.index ∧
      ((wi.thread.point = Program_Point.finished ∧ t'.point = Program_Point.exited ∧
          t'.is_done = true ∧
          t'.is_alive_semaphore = signal wi.thread.is_alive_semaphore ∧
          t'.temp = wi.thread.temp) ∨
        (t'.is_done = wi.thread.is_done ∧
          t'.is_alive_semaphore = wi.thread.is_alive_semaphore ∧
          ((wi.thread.point = Program_Point.run_proc ∧ after_proc t'.point = true ∧
              ((∃ (proc : Thread_Group_Proc) (work : Nat), w.group.proc = some proc ∧
                  t'.temp = (proc wi.thread.index work wi.thread.temp).2) ∨
                (w.group.proc = none ∧ t'.temp = wi.thread.temp))) ∨
            (wi.thread.point ≠ Program_Point.run_proc ∧ t'.temp = wi.thread.temp ∧
              (after_proc t'.point = false → after_proc wi.thread.point = false) ∧
              (in_loop_body t'.point = false → in_loop_body wi.thread.point = false)) ∨
            (in_loop_body wi.thread.point = true ∧ in_loop_body t'.point = false ∧
              reset_temp_allocator wi.thread.temp = some t'.temp)))) := by
  unfold thread_step at hstep
  cases hwi : w.group.worker_info[i]? with
  | none => rw [hwi] at hstep; simp at hstep
  | some wi =>
    rw [hwi] at hstep
    simp only at hstep
    cases hp : wi.thread.point with
    | suspended =>
      rw [hp] at hstep
      simp only at hstep
      obtain ⟨r, hr, hw⟩ := Option.map_eq_some'.mp hstep
      subst hw
      refine ⟨wi, _, rfl, threads_put_worker _ _ _, rfl, rfl, rfl, Or.inr ⟨rfl, rfl, ?_⟩⟩
      exact Or.inr (Or.inl ⟨by simp [hp], rfl, by simp [after_proc, hp], by simp [in_loop_body, hp]⟩)
    | loop_test =>
      rw [hp] at hstep
      simp only at hstep
      split at hstep
      · cases hstep
        refine ⟨wi, _, rfl, threads_put_worker _ _ _, rfl, rfl, rfl, Or.inr ⟨rfl, rfl, ?_⟩⟩
        exact Or.inr (Or.inl ⟨by simp [hp], rfl, by simp [after_proc, hp], by simp [in_loop_body, hp]⟩)
      · split at hstep
        · cases hstep
          refine ⟨wi, _, rfl, threads_put_worker _ _ _, rfl, rfl, rfl, Or.inr ⟨rfl, rfl, ?_⟩⟩
          exact Or.inr (Or.inl ⟨by simp [hp], rfl, by simp [after_proc, hp], by simp [in_loop_body, hp]⟩)
        · cases hstep
          refine ⟨wi, _, rfl, threads_put_worker _ _ _, rfl, rfl, rfl, Or.inr ⟨rfl, rfl, ?_⟩⟩
          exact Or.inr (Or.inl ⟨by simp [hp], rfl, by simp [after_proc, hp], by simp [in_loop_body, hp]⟩)
    | wait_available =>
      rw [hp] at hstep
      simp only at hstep
      obtain ⟨r, hr, hw⟩ := Option.map_eq_some'.mp hstep
      subst hw
      refine ⟨wi, _, rfl, threads_put_worker _ _ _, rfl, rfl, rfl, Or.inr ⟨rfl, rfl, ?_⟩⟩
      exact Or.inr (Or.inl ⟨by simp [hp], rfl, by simp [after_proc, hp], by simp [in_loop_body, hp]⟩)
    | woken =>
      rw [hp] at hstep
      simp only at hstep
      split at hstep
      · obtain ⟨t1, ht1, hw⟩ := Option.map_eq_some'.mp hstep
        obtain ⟨a, ha, ht⟩ := end_of_pass_eq _ _ ht1
        subst ht
        subst hw
        refine ⟨wi, _, rfl, threads_put_worker _ _ _, rfl, rfl, rfl, Or.inr ⟨rfl, rfl, ?_⟩⟩
        exact Or.inr (Or.inr ⟨by simp [in_loop_body, hp], by simp [in_loop_body, hp], ha⟩)
      · cases hstep
        refine ⟨wi, _, rfl, threads_put_worker _ _ _, rfl, rfl, rfl, Or.inr ⟨rfl, rfl, ?_⟩⟩
        exact Or.inr (Or.inl ⟨by simp [hp], rfl, by simp [after_proc, hp], by simp [in_loop_body, hp]⟩)
    | get_own =>
      rw [hp] at hstep
      simp only at hstep
      cases hstep
      refine ⟨wi, _, rfl, threads_put_worker _ _ _, rfl, rfl, rfl, Or.inr ⟨rfl, rfl, ?_⟩⟩
      refine Or.inr (Or.inl ⟨by simp [hp], rfl, by simp [after_proc, hp], ?_⟩)
      intro h
      split at h <;> simp [in_loop_body] at h
    | run_proc =>
      rw [hp] at hstep
      simp only at hstep
      cases hstep
      refine ⟨wi, _, rfl, threads_put_worker _ _ _, rfl, rfl, rfl, Or.inr ⟨rfl, rfl, ?_⟩⟩
      refine Or.inl ⟨hp, by simp [after_proc], ?_⟩
      cases hproc : w.group.proc with
      | none => exact Or.inr ⟨rfl, rfl⟩
      | some proc => exact Or.inl ⟨proc, _, rfl, rfl⟩
    | add_completed s =>
      rw [hp] at hstep
      simp only at hstep
      split at hstep
      · obtain ⟨t1, ht1, hw⟩ := Option.map_eq_some'.mp hstep
        obtain ⟨a, ha, ht⟩ := end_of_pass_eq _ _ ht1
        subst ht
        subst hw
        refine ⟨wi, _, rfl, threads_put_worker _ _ _, rfl, rfl, rfl, Or.inr ⟨rfl, rfl, ?_⟩⟩
        exact Or.inr (Or.inr ⟨by simp [in_loop_body, hp], by simp [in_loop_body, hp], ha⟩)
      · cases hstep
        refine ⟨wi, _, rfl, threads_put_worker _ _ _, rfl, rfl, rfl, Or.inr ⟨rfl, rfl, ?_⟩⟩
        exact Or.inr (Or.inl ⟨by simp [hp], rfl, by simp [after_proc, hp], by simp [in_loop_body, hp]⟩)
    | steal_test =>
      rw [hp] at hstep
      simp only at hstep
      split at hstep
      · split at hstep
        · obtain ⟨t1, ht1, hw⟩ := Option.map_eq_some'.mp hstep
          obtain ⟨a, ha, ht⟩ := end_of_pass_eq _ _ ht1
          subst ht
          subst hw
          refine ⟨wi, _, rfl, threads_put_worker _ _ _, rfl, rfl, rfl, Or.inr ⟨rfl, rfl, ?_⟩⟩
          exact Or.inr (Or.inr ⟨by simp [in_loop_body, hp], by simp [in_loop_body, hp], ha⟩)
        · cases hstep
          refine ⟨wi, _, rfl, threads_put_worker _ _ _, rfl, rfl, rfl, Or.inr ⟨rfl, rfl, ?_⟩⟩
          exact Or.inr (Or.inl ⟨by simp [hp], rfl, by simp [after_proc, hp], by simp [in_loop_body, hp]⟩)
      · obtain ⟨t1, ht1, hw⟩ := Option.map_eq_some'.mp hstep
        obtain ⟨a, ha, ht⟩ := end_of_pass_eq _ _ ht1
        subst ht
        subst hw
        refine ⟨wi, _, rfl, threads_put_worker _ _ _, rfl, rfl, rfl, Or.inr ⟨rfl, rfl, ?_⟩⟩
        exact Or.inr (Or.inr ⟨by simp [in_loop_body, hp], by simp [in_loop_body, hp], ha⟩)
    | steal_get_own =>
      rw [hp] at hstep
      simp only at hstep
      cases hstep
      refine ⟨wi, _, rfl, threads_put_worker _ _ _, rfl, rfl, rfl, Or.inr ⟨rfl, rfl, ?_⟩⟩
      refine Or.inr (Or.inl ⟨by simp [hp], rfl, ?_, ?_⟩)
      · intro h
        split at h <;> simp [after_proc] at h
      · intro h
        split at h <;> simp [in_loop_body] at h
    | steal_wait =>
      rw [hp] at hstep
      simp only at hstep
      split at hstep
      · rename_i r t1 hr ht1
        obtain ⟨a, ha, ht⟩ := end_of_pass_eq _ _ ht1
        subst ht
        cases hstep
        refine ⟨wi, _, rfl, threads_put_worker _ _ _, rfl, rfl, rfl, Or.inr ⟨rfl, rfl, ?_⟩⟩
        exact Or.inr (Or.inr ⟨by simp [in_loop_body, hp], by simp [in_loop_body, hp], ha⟩)
      · cases hstep
    | steal_from rest =>
      rw [hp] at hstep
      cases rest with
      | nil =>
        simp only at hstep
        obtain ⟨t1, ht1, hw⟩ := Option.map_eq_some'.mp hstep
        obtain ⟨a, ha, ht⟩ := end_of_pass_eq _ _ ht1
        subst ht
        subst hw
        refine ⟨wi, _, rfl, threads_put_worker _ _ _, rfl, rfl, rfl, Or.inr ⟨rfl, rfl, ?_⟩⟩
        exact Or.inr (Or.inr ⟨by simp [in_loop_body, hp], by simp [in_loop_body, hp], ha⟩)
      | cons j rest =>
        simp only at hstep
        cases hpeer : worker_at w.group j with
        | none => rw [hpeer] at hstep; simp at hstep
        | some peer =>
          rw [hpeer] at hstep
          simp only at hstep
          have hpeer' := worker_at_some _ _ _ hpeer
          have hsame := threads_put_worker_same w j.toNat peer
            { peer with available := (get_work w.memory peer.available).2 } hpeer' rfl
          cases hwi2 : (put_worker w j.toNat
            { peer with available := (get_work w.memory peer.available).2 }).group.worker_info[i]? with
          | none => rw [hwi2] at hstep; simp at hstep
          | some wi2 =>
            rw [hwi2] at hstep
            simp only at hstep
            have hthread : wi2.thread = wi.thread := by
              have h1 : ((put_worker w j.toNat
                  { peer with available := (get_work w.memory peer.available).2
                    }).group.worker_info.map (fun wk => wk.thread))[i]? = some wi2.thread := by
                rw [List.getElem?_map, hwi2]; rfl
              rw [hsame, List.getElem?_map, hwi] at h1
              exact (Option.some.inj h1).symm
            split at hstep
            · obtain ⟨t1, ht1, hw⟩ := Option.map_eq_some'.mp hstep
              obtain ⟨a, ha, ht⟩ := end_of_pass_eq _ _ ht1
              subst ht
              subst hw
              rw [hthread] at ha
              refine ⟨wi, _, rfl, (threads_put_worker _ _ _).trans (by rw [hsame]), rfl, rfl,
                by rw [← hthread], Or.inr ⟨by rw [← hthread], by rw [← hthread], ?_⟩⟩
              exact Or.inr (Or.inr ⟨by simp [in_loop_body, hp], by simp [in_loop_body, hp], ha⟩)
            · cases hstep
              refine ⟨wi, _, rfl, (threads_put_worker _ _ _).trans (by rw [hsame]), rfl, rfl,
                by rw [← hthread], Or.inr ⟨by rw [← hthread], by rw [← hthread], ?_⟩⟩
              exact Or.inr (Or.inl ⟨by simp [hp], by rw [← hthread],
                by simp [after_proc, hp], by simp [in_loop_body, hp]⟩)
    | finished =>
      rw [hp] at hstep
      simp only at hstep
      cases hstep
      refine ⟨wi, _, rfl, threads_put_worker _ _ _, rfl, rfl, rfl, Or.inl ⟨hp, rfl, rfl, rfl, rfl⟩⟩
    | exited =>
      rw [hp] at hstep
      simp at hstep

theorem put_worker_threads_same {α : Type} (f : Thread → α) (w : World) (i : Nat)
    (wi a : Worker_Info) (hwi : w.group.worker_info[i]? = some wi)
    (ha : f a.thread = f wi.thread) :
    (put_worker w i a).group.worker_info.map (fun wk => f wk.thread) =
      w.group.worker_info.map (fun wk => f wk.thread) := by
  show (w.group.worker_info.set i a).map (fun wk => f wk.thread) = _
  rw [List.map_set]
  exact list_set_self _ i _ (by rw [List.getElem?_map, hwi]; simp [ha])

theorem collect_completed_group :
    ∀ (fuel : Nat) (w : World) (c : Nat) (results results' : List Nat) (w' : World),
      collect_completed fuel w c results = some (results', w') → w'.group = w.group := by
  intro fuel
  induction fuel with
  | zero =>
    intro w c results results' w' h
    unfold collect_completed at h
    split at h
    · cases h; rfl
    · cases h
  | succ fuel ih =>
    intro w c results results' w' h
    unfold collect_completed at h
    split at h
    · cases h; rfl
    · simp only at h
      split at h
      · have hg := ih _ _ _ _ _ h
        exact hg
      · cases h

theorem get_completed_work_of_threads {α : Type} (f : Thread → α) (w w' : World)
    (results results' : List Nat) (i : Nat)
    (h : get_completed_work_of w results i = some (results', w')) :
    w'.group.worker_info.map (fun wk => f wk.thread) =
      w.group.worker_info.map (fun wk => f wk.thread) ∧ w'.group.proc = w.group.proc := by
  unfold get_completed_work_of at h
  cases hwi : w.group.worker_info[i]? with
  | none => rw [hwi] at h; cases h; exact ⟨rfl, rfl⟩
  | some wi =>
    rw [hwi] at h
    simp only at h
    split at h
    · cases h
      exact ⟨put_worker_threads_same f w i wi _ hwi rfl, rfl⟩
    · have hg := collect_completed_group _ _ _ _ _ _ h
      rw [hg]
      exact ⟨put_worker_threads_same f w i wi _ hwi rfl, rfl⟩

theorem get_completed_work_loop_threads {α : Type} (f : Thread → α) (indices : List Nat) :
    ∀ (w w' : World) (results results' : List Nat),
      get_completed_work_loop indices w results = some (results', w') →
      w'.group.worker_info.map (fun wk => f wk.thread) =
        w.group.worker_info.map (fun wk => f wk.thread) ∧ w'.group.proc = w.group.proc := by
  induction indices with
  | nil =>
    intro w w' results results' h
    simp only [get_completed_work_loop] at h
    cases h
    exact ⟨rfl, rfl⟩
  | cons i rest ih =>
    intro w w' results results' h
    simp only [get_completed_work_loop] at h
    split at h
    · cases h
    · rename_i r1 w1 h1
      obtain ⟨ha, hb⟩ := get_completed_work_of_threads f _ _ _ _ _ h1
      obtain ⟨hc, hd⟩ := ih _ _ _ _ h
      exact ⟨hc.trans ha, hd.trans hb⟩

theorem shutdown_release_loop_threads {α : Type} (f : Thread → α)
    (hdeinit : ∀ t t', thread_deinit t = some t' → f t' = f t) (indices : List Nat) :
    ∀ (w w' : World), shutdown_release_loop indices w = some w' →
      w'.group.worker_info.map (fun wk => f wk.thread) =
        w.group.worker_info.map (fun wk => f wk.thread) ∧ w'.group.proc = w.group.proc := by
  induction indices with
  | nil =>
    intro w w' h
    simp only [shutdown_release_loop] at h
    cases h
    exact ⟨rfl, rfl⟩
  | cons i rest ih =>
    intro w w' h
    simp only [shutdown_release_loop] at h
    split at h
    · exact ih _ _ h
    · rename_i wi hwi
      split at h
      · cases h
      · rename_i t ht
        obtain ⟨ha, hb⟩ := ih _ _ h
        exact ⟨ha.trans (put_worker_threads_same f w i wi _ hwi (hdeinit _ _ ht)), hb⟩

theorem thread_group_shutdown_threads {α : Type} (f : Thread → α)
    (hdeinit : ∀ t t', thread_deinit t = some t' → f t' = f t)
    (w w' : World) (timeout : Int) (elapsed : Nat → Int)
    (b : Bool) (h : thread_group_shutdown w timeout elapsed = some (b, w')) :
    w'.group.worker_info.map (fun wk => f wk.thread) =
      w.group.worker_info.map (fun wk => f wk.thread) ∧ w'.group.proc = w.group.proc := by
  unfold thread_group_shutdown at h
  simp only at h
  split at h
  · cases h
  · rename_i all_done w1 hj
    have h1 : w1.group.worker_info.map (fun wk => f wk.thread) =
        w.group.worker_info.map (fun wk => f wk.thread) ∧ w1.group.proc = w.group.proc := by
      split at hj
      · obtain ⟨hw1, _⟩ := shutdown_join_loop_eq timeout elapsed _ _ _ _ _ _ hj
        rw [hw1]
        refine ⟨?_, rfl⟩
        show (w.group.worker_info.map _).map _ = _
        rw [List.map_map]
        rfl
      · cases hj; exact ⟨rfl, rfl⟩
    split at h
    · cases h; exact h1
    · split at h
      · cases h
      · rename_i w2 hrel
        cases h
        obtain ⟨ha, hb⟩ := shutdown_release_loop_threads f hdeinit _ _ _ hrel
        exact ⟨ha.trans h1.1, hb.trans h1.2⟩

theorem thread_group_add_work_threads {α : Type} (f : Thread → α) (w : World) (work : Nat) :
    (thread_group_add_work w work).group.worker_info.map (fun wk => f wk.thread) =
      w.group.worker_info.map (fun wk => f wk.thread) ∧
    (thread_group_add_work w work).group.proc = w.group.proc := by
  unfold thread_group_add_work New_Work_Entry
  simp only
  split
  · exact ⟨rfl, rfl⟩
  · rename_i wi hwi
    have hwi' := worker_at_some _ _ _ hwi
    exact ⟨put_worker_threads_same f _ _ wi _ hwi' rfl, rfl⟩

theorem thread_group_start_threads {α : Type} (f : Thread → α)
    (hstart : ∀ t, f (thread_start t) = f t) (w : World) :
    (thread_group_start w).group.worker_info.map (fun wk => f wk.thread) =
      w.group.worker_info.map (fun wk => f wk.thread) ∧
    (thread_group_start w).group.proc = w.group.proc := by
  refine ⟨?_, rfl⟩
  show (w.group.worker_info.map _).map _ = _
  rw [List.map_map]
  apply List.map_congr_left
  intro wk _
  exact hstart wk.thread

/-- A call of the producer leaves alone whatever of the workers' threads neither
`thread_start` nor `thread_deinit` changes, and the callback of the group. -/
theorem act_producer_threads {α : Type} (f : Thread → α)
    (hstart : ∀ t, f (thread_start t) = f t)
    (hdeinit : ∀ t t', thread_deinit t = some t' → f t' = f t)
    (r r' : Run) (a : Action) (hproducer : ∀ i, a ≠ Action.worker i)
    (hact : act r a = some r') :
    r'.world.group.worker_info.map (fun wk => f wk.thread) =
      r.world.group.worker_info.map (fun wk => f wk.thread) ∧
    r'.world.group.proc = r.world.group.proc := by
  cases a with
  | start =>
    simp only [act] at hact
    cases hact
    exact thread_group_start_threads f hstart _
  | add_work work =>
    simp only [act] at hact
    cases hact
    exact thread_group_add_work_threads f _ _
  | get_completed_work =>
    simp only [act] at hact
    obtain ⟨res, hres, hw⟩ := Option.map_eq_some'.mp hact
    subst hw
    obtain ⟨results, hlist, _⟩ := thread_group_get_completed_work_of_in_arena _ _ _ hres
    exact get_completed_work_loop_threads f _ _ _ _ _ hlist
  | shutdown timeout =>
    simp only [act] at hact
    obtain ⟨res, hres, hw⟩ := Option.map_eq_some'.mp hact
    subst hw
    exact thread_group_shutdown_threads f hdeinit _ _ timeout (fun _ => 0) res.1 hres
  | worker i => exact absurd rfl (hproducer i)

theorem deinit_loop_mmap_address :
    ∀ (fuel : Nat) (a a' : Arena), deinit_loop fuel a = some a' →
      a'.vm.mmap_address = a.vm.mmap_address := by
  intro fuel
  induction fuel with
  | zero =>
    intro a a' h
    unfold deinit_loop at h
    split at h
    · cases h; rfl
    · cases h
  | succ fuel ih =>
    intro a a' h
    unfold deinit_loop at h
    split at h
    · cases h; rfl
    · simp only at h
      split at h
      · have hrec := ih _ _ h
        exact hrec
      · cases h

theorem reset_temp_allocator_mmap_address (a a' : Arena)
    (h : reset_temp_allocator a = some a') : a'.vm.mmap_address = a.vm.mmap_address := by
  unfold reset_temp_allocator at h
  split at h
  · cases h; rfl
  · simp only at h
    obtain ⟨a1, ha1, h1⟩ := Option.map_eq_some'.mp h
    subst h1
    split at ha1
    · obtain ⟨a2, ha2, h2⟩ := Option.map_eq_some'.mp ha1
      subst h2
      have hd := deinit_loop_mmap_address _ _ _ ha2
      exact hd
    · cases ha1; rfl

/-- After `reset_temp_allocator` nothing is counted as used and the cursor is at the base of
the current region; for an arena without region, which the call leaves alone, that is so when
it has handed out nothing. -/
theorem reset_temp_allocator_arena_reset (a a' : Arena)
    (h : reset_temp_allocator a = some a') (hu : Uninit_Ok a) : Arena_Reset a' := by
  unfold reset_temp_allocator at h
  split at h
  · rename_i h0
    cases h
    exact hu h0
  · simp only at h
    obtain ⟨a1, _, h1⟩ := Option.map_eq_some'.mp h
    subst h1
    exact ⟨rfl, rfl⟩

theorem pass_ok_thread_group_init (w0 : World) (num_threads : Int)
    (group_proc : Option Thread_Group_Proc) (enable_work_stealing : Bool) :
    ∀ s ∈ (thread_group_init w0 num_threads group_proc
      enable_work_stealing).group.worker_info.map (fun wk => (wk.thread.point, wk.thread.temp)),
      Pass_Ok w0.mmap_address s := by
  intro s hs
  simp only [thread_group_init, List.map_map, List.mem_map, List.mem_range] at hs
  obtain ⟨k, _, hk⟩ := hs
  subst hk
  exact ⟨rfl, fun _ => ⟨rfl, rfl⟩, fun _ => ⟨rfl, rfl⟩⟩

theorem threads_map (f : Thread → α) (w : World) :
    w.group.worker_info.map (fun wk => f wk.thread) =
      (w.group.worker_info.map (fun wk => wk.thread)).map f := by
  rw [List.map_map]
  rfl

theorem forall_mem_set {α : Type} (P : α → Prop) (l : List α) (i : Nat) (y : α)
    (hl : ∀ x ∈ l, P x) (hy : P y) : ∀ x ∈ l.set i y, P x := by
  intro x hx
  rcases List.mem_or_eq_of_mem_set hx with h | h
  · exact hl x h
  · rw [h]; exact hy

/-- One action keeps `Pass_Ok` true of every worker, when the callback, called on a reset
arena of this address space, returns an arena of this address space that, if it has no region,
has handed out nothing. -/
theorem act_pass_ok (placement : List Mapping → Int → Int) (r r' : Run) (a : Action)
    (hproc : ∀ proc, r.world.group.proc = some proc → ∀ (idx : Int) (work : Nat) (temp : Arena),
      temp.vm.mmap_address = placement → Arena_Reset temp →
      Uninit_Ok (proc idx work temp).2 ∧ (proc idx work temp).2.vm.mmap_address = placement)
    (hok : ∀ s ∈ r.world.group.worker_info.map (fun wk => (wk.thread.point, wk.thread.temp)),
      Pass_Ok placement s)
    (hact : act r a = some r') :
    r'.world.group.proc = r.world.group.proc ∧
    ∀ s ∈ r'.world.group.worker_info.map (fun wk => (wk.thread.point, wk.thread.temp)),
      Pass_Ok placement s := by
  by_cases hworker : ∃ i, a = Action.worker i
  · obtain ⟨i, ha⟩ := hworker
    subst ha
    simp only [act] at hact
    obtain ⟨w', hstep, hw⟩ := Option.map_eq_some'.mp hact
    subst hw
    obtain ⟨wi, t', hwi, hthreads, hp, _, _, hcases⟩ := thread_step_local _ _ _ hstep
    refine ⟨hp, ?_⟩
    rw [threads_map (fun t => (t.point, t.temp)), hthreads, List.map_set,
      ← threads_map (fun t => (t.point, t.temp))]
    apply forall_mem_set _ _ _ _ hok
    have hwi_ok : Pass_Ok placement (wi.thread.point, wi.thread.temp) :=
      hok _ (List.mem_map.2 ⟨wi, List.mem_iff_getElem?.2 ⟨i, hwi⟩, rfl⟩)
    obtain ⟨hplace, huninit, hreset⟩ := hwi_ok
    rcases hcases with ⟨hfin, hex, _, _, htemp⟩ | ⟨_, _, hrun | hmove | hend⟩
    · refine ⟨by rw [htemp]; exact hplace, by rw [htemp]; exact huninit, fun _ => ?_⟩
      rw [htemp]
      exact hreset (by simp [hfin, after_proc])
    · obtain ⟨hpoint, hafter, hcall | hnone⟩ := hrun
      · obtain ⟨proc, work, hproc_eq, htemp⟩ := hcall
        have hres := hproc proc hproc_eq wi.thread.index work wi.thread.temp hplace
          (hreset (by simp [hpoint, after_proc]))
        refine ⟨by show t'.temp.vm.mmap_address = placement; rw [htemp]; exact hres.2,
          by show Uninit_Ok t'.temp; rw [htemp]; exact hres.1, fun h => ?_⟩
        simp only at h
        rw [hafter] at h
        cases h
      · refine ⟨by show t'.temp.vm.mmap_address = placement; rw [hnone.2]; exact hplace,
          by show Uninit_Ok t'.temp; rw [hnone.2]; exact huninit, fun h => ?_⟩
        simp only at h
        rw [hafter] at h
        cases h
    · obtain ⟨_, htemp, hafter, _⟩ := hmove
      refine ⟨by show t'.temp.vm.mmap_address = placement; rw [htemp]; exact hplace,
        by show Uninit_Ok t'.temp; rw [htemp]; exact huninit, fun h => ?_⟩
      show Arena_Reset t'.temp
      rw [htemp]
      exact hreset (hafter h)
    · obtain ⟨_, _, hres⟩ := hend
      have hr := reset_temp_allocator_arena_reset _ _ hres huninit
      exact ⟨(reset_temp_allocator_mmap_address _ _ hres).trans hplace, fun _ => hr,
        fun _ => hr⟩
  · have hproducer : ∀ i, a ≠ Action.worker i := fun i h => hworker ⟨i, h⟩
    obtain ⟨hsame, hp⟩ := act_producer_threads (fun t => (t.point, t.temp))
      (fun _ => rfl)
      (fun t t' h => by
        unfold thread_deinit at h
        split at h
        · cases h
        · cases h; rfl)
      r r' a hproducer hact
    exact ⟨hp, by rw [hsame]; exact hok⟩

theorem run_pass_ok (placement : List Mapping → Int → Int) (acts : List Action) :
    ∀ (r r' : Run),
      (∀ proc, r.world.group.proc = some proc → ∀ (idx : Int) (work : Nat) (temp : Arena),
        temp.vm.mmap_address = placement → Arena_Reset temp →
        Uninit_Ok (proc idx work temp).2 ∧ (proc idx work temp).2.vm.mmap_address = placement) →
      (∀ s ∈ r.world.group.worker_info.map (fun wk => (wk.thread.point, wk.thread.temp)),
        Pass_Ok placement s) →
      run r acts = some r' →
      r'.world.group.proc = r.world.group.proc ∧
      ∀ s ∈ r'.world.group.worker_info.map (fun wk => (wk.thread.point, wk.thread.temp)),
        Pass_Ok placement s := by
  induction acts with
  | nil =>
    intro r r' _ hok hrun
    simp only [run] at hrun
    cases hrun
    exact ⟨rfl, hok⟩
  | cons a rest ih =>
    intro r r' hproc hok hrun
    simp only [run] at hrun
    split at hrun
    · cases hrun
    · rename_i r1 hact
      obtain ⟨hp1, hok1⟩ := act_pass_ok placement r r1 a hproc hok hact
      obtain ⟨hp2, hok2⟩ := ih r1 r' (by rw [hp1]; exact hproc) hok1 hrun
      exact ⟨hp2.trans hp1, hok2⟩

theorem in_loop_body_of_after_proc (p : Program_Point) (h : after_proc p = true) :
    in_loop_body p = true := by
  cases p <;> simp [after_proc] at h <;> rfl

theorem get_original_memory_base (a : Arena) (nbytes : Int) :
    (get a nbytes).2.t.original_memory_base =
      if a.t.original_memory_base = 0 then
        a.vm.mmap_address a.vm.mapped
          (align_pow2 (max (nbytes + sizeof_Next_Pool_Footer)
            DEFAULT_TEMP_ALLOCATOR_VIRTUAL_MEMORY_RESERVE) TEMP_ALLOCATOR_PAGE_SIZE)
      else a.t.original_memory_base := by
  unfold get
  simp only []
  split <;> split <;> rfl

theorem bump_mmap_address_ne_zero (mapped : List Mapping) (length : Int) :
    bump_mmap_address mapped length ≠ 0 := by
  have h := (bump_mmap_address_ge mapped 65536).1
  unfold bump_mmap_address
  omega

/-- The callback `leaky_proc` leaves an arena that has a region, in the address space it was
given. -/
theorem leaky_proc_ok (idx : Int) (work : Nat) (temp : Arena)
    (hplace : temp.vm.mmap_address = bump_mmap_address) :
    Uninit_Ok (leaky_proc idx work temp).2 ∧
    (leaky_proc idx work temp).2.vm.mmap_address = bump_mmap_address := by
  have h1 : (get temp 5000).2.t.original_memory_base ≠ 0 := by
    rw [get_original_memory_base]
    split
    · rw [hplace]; exact bump_mmap_address_ne_zero _ _
    · assumption
  have h2 : (get (get temp 5000).2 268435456).2.t.original_memory_base ≠ 0 := by
    rw [get_original_memory_base, if_neg h1]
    exact h1
  refine ⟨fun h0 => absurd h0 h2, ?_⟩
  show (get (get temp 5000).2 268435456).2.vm.mmap_address = bump_mmap_address
  rw [get_mmap_address, get_mmap_address, hplace]

/-- C30. In a run from `thread_group_init`, with a callback that, called on a reset arena,
returns an arena of the same address space that has handed out nothing if it has no region:
every step of a worker's thread that takes it from inside the body of the loop of
`thread_group_run` to the loop test or out of the loop (the end of the body, the `break` on
`should_exit`, the `break` on `STOP`) runs `reset_temp_allocator` on the thread's arena and
leaves it with `high_water_mark` zero and the cursor at the base of the current region; and at
every program point up to the call of the callback, in particular where the callback is about
to be called, the arena of the thread is in that state. -/
theorem pass_ends_with_reset (w0 : World) (num_threads : Int)
    (group_proc : Option Thread_Group_Proc) (enable_work_stealing : Bool)
    (acts : List Action) (r : Run)
    (hproc : ∀ proc, group_proc = some proc → ∀ (idx : Int) (work : Nat) (temp : Arena),
      temp.vm.mmap_address = w0.mmap_address → Arena_Reset temp →
      Uninit_Ok (proc idx work temp).2 ∧
      (proc idx work temp).2.vm.mmap_address = w0.mmap_address)
    (hrun : run { world := thread_group_init w0 num_threads group_proc enable_work_stealing }
      acts = some r) :
    (∀ (i : Nat) (w' : World) (wi wi' : Worker_Info),
      r.world.group.worker_info[i]? = some wi → thread_step r.world i = some w' →
      w'.group.worker_info[i]? = some wi' →
      in_loop_body wi.thread.point = true → in_loop_body wi'.thread.point = false →
      reset_temp_allocator wi.thread.temp = some wi'.thread.temp ∧
      wi'.thread.temp.t.high_water_mark = 0 ∧
      wi'.thread.temp.t.current_point = wi'.thread.temp.t.current_memory_base) ∧
    (∀ wk ∈ r.world.group.worker_info, after_proc wk.thread.point = false →
      wk.thread.temp.t.high_water_mark = 0 ∧
      wk.thread.temp.t.current_point = wk.thread.temp.t.current_memory_base) ∧
    (∀ wk ∈ r.world.group.worker_info, wk.thread.point = Program_Point.run_proc →
      wk.thread.temp.t.high_water_mark = 0 ∧
      wk.thread.temp.t.current_point = wk.thread.temp.t.current_memory_base) := by
  obtain ⟨_, hok⟩ := run_pass_ok w0.mmap_address acts
    { world := thread_group_init w0 num_threads group_proc enable_work_stealing } r
    hproc (pass_ok_thread_group_init w0 num_threads group_proc enable_work_stealing) hrun
  have hok' : ∀ wk ∈ r.world.group.worker_info,
      Pass_Ok w0.mmap_address (wk.thread.point, wk.thread.temp) :=
    fun wk hwk => hok _ (List.mem_map.2 ⟨wk, hwk, rfl⟩)
  refine ⟨?_, fun wk hwk h => (hok' wk hwk).2.2 h, fun wk hwk h =>
    (hok' wk hwk).2.2 (by simp [h, after_proc])⟩
  intro i w' wi wi' hwi hstep hwi' hbody hout
  obtain ⟨wi0, t', hwi0, hthreads, _, _, _, hcases⟩ := thread_step_local _ _ _ hstep
  rw [hwi] at hwi0
  cases hwi0
  have ht' : wi'.thread = t' := by
    have h1 : (w'.group.worker_info.map (fun wk => wk.thread))[i]? = some wi'.thread := by
      rw [List.getElem?_map, hwi']; rfl
    rw [hthreads] at h1
    have hlt : i < (r.world.group.worker_info.map (fun wk => wk.thread)).length := by
      rw [List.length_map]
      exact (List.getElem?_eq_some.mp hwi).1
    rw [List.getElem?_set_self hlt] at h1
    exact (Option.some.inj h1).symm
  subst ht'
  rcases hcases with ⟨hfin, _⟩ | ⟨_, _, hrun | hmove | hend⟩
  · rw [hfin] at hbody
    cases hbody
  · rw [in_loop_body_of_after_proc _ hrun.2.1] at hout
    cases hout
  · rw [hmove.2.2.2 hout] at hbody
    cases hbody
  · exact ⟨hend.2.2, reset_temp_allocator_arena_reset _ _ hend.2.2
      (hok' wi (List.mem_iff_getElem?.2 ⟨i, hwi⟩)).2.1⟩

theorem pass_ends_with_reset_witness :
    (leaky_run 7).map (fun r => r.world.group.worker_info.map (fun wk => arena_view wk.thread))
      = some [⟨Program_Point.steal_test, 268440456, 268435456, 536870896, 2, 1⟩] ∧
    (leaky_run 8).map (fun r => r.world.group.worker_info.map (fun wk => arena_view wk.thread))
      = some [⟨Program_Point.loop_test, 0, 0, 268443632, 1, 1⟩] ∧
    (leaky_run 12).map (fun r => r.world.group.worker_info.map (fun wk => arena_view wk.thread))
      = some [⟨Program_Point.run_proc, 0, 0, 268443632, 1, 1⟩] ∧
    ∃ r : Run,
      run { world := thread_group_init fresh_world 1 (some leaky_proc) false }
        ([Action.start, Action.add_work 7, Action.add_work 8] ++
          List.replicate 7 (Action.worker 0)) = some r ∧
      (∀ proc, some leaky_proc = some proc → ∀ (idx : Int) (work : Nat) (temp : Arena),
        temp.vm.mmap_address = fresh_world.mmap_address → Arena_Reset temp →
        Uninit_Ok (proc idx work temp).2 ∧
        (proc idx work temp).2.vm.mmap_address = fresh_world.mmap_address) ∧
      (∀ (i : Nat) (w' : World) (wi wi' : Worker_Info),
        r.world.group.worker_info[i]? = some wi → thread_step r.world i = some w' →
        w'.group.worker_info[i]? = some wi' →
        in_loop_body wi.thread.point = true → in_loop_body wi'.thread.point = false →
        reset_temp_allocator wi.thread.temp = some wi'.thread.temp ∧
        wi'.thread.temp.t.high_water_mark = 0 ∧
        wi'.thread.temp.t.current_point = wi'.thread.temp.t.current_memory_base) ∧
      (∀ wk ∈ r.world.group.worker_info, after_proc wk.thread.point = false →
        wk.thread.temp.t.high_water_mark = 0 ∧
        wk.thread.temp.t.current_point = wk.thread.temp.t.current_memory_base) ∧
      (∀ wk ∈ r.world.group.worker_info, wk.thread.point = Program_Point.run_proc →
        wk.thread.temp.t.high_water_mark = 0 ∧
        wk.thread.temp.t.current_point = wk.thread.temp.t.current_memory_base) :=
  ⟨by decide!, by decide!, by decide!,
    (leaky_run 7).getD { world := fresh_world },
    some_getD_of_isSome (leaky_run 7) { world := fresh_world } (by decide!),
    fun proc hp idx work temp hplace _ => by
      cases hp
      exact leaky_proc_ok idx work temp hplace,
    pass_ends_with_reset fresh_world 1 (some leaky_proc) false _
      ((leaky_run 7).getD { world := fresh_world })
      (fun proc hp idx work temp hplace _ => by
        cases hp
        exact leaky_proc_ok idx work temp hplace)
      (some_getD_of_isSome (leaky_run 7) { world := fresh_world } (by decide!))⟩

/-- One action keeps a thread that has returned, as far as `thread_is_done` can tell, in that
state. -/
theorem act_done_signalled (r r' : Run) (a : Action) (k : Nat) (hact : act r a = some r')
    (hdone : ∃ s, (r.world.group.worker_info.map
      (fun wk => (wk.thread.is_done, wk.thread.is_alive_semaphore.value)))[k]? = some s ∧
      Done_Signalled s) :
    ∃ s, (r'.world.group.worker_info.map
      (fun wk => (wk.thread.is_done, wk.thread.is_alive_semaphore.value)))[k]? = some s ∧
      Done_Signalled s := by
  by_cases hworker : ∃ i, a = Action.worker i
  · obtain ⟨i, ha⟩ := hworker
    subst ha
    simp only [act] at hact
    obtain ⟨w', hstep, hw⟩ := Option.map_eq_some'.mp hact
    subst hw
    obtain ⟨wi, t', hwi, hthreads, _, _, _, hcases⟩ := thread_step_local _ _ _ hstep
    obtain ⟨s, hs, hsig⟩ := hdone
    rw [threads_map (fun t => (t.is_done, t.is_alive_semaphore.value)), hthreads, List.map_set,
      ← threads_map (fun t => (t.is_done, t.is_alive_semaphore.value))]
    by_cases hk : i = k
    · subst hk
      have hlt : i < (r.world.group.worker_info.map
          (fun wk => (wk.thread.is_done, wk.thread.is_alive_semaphore.value))).length := by
        rw [List.length_map]
        exact (List.getElem?_eq_some.mp hwi).1
      refine ⟨_, List.getElem?_set_self hlt, ?_⟩
      rw [List.getElem?_map, hwi] at hs
      cases hs
      rcases hcases with ⟨_, _, hd, _, _⟩ | ⟨hd, hsem, _⟩
      · exact Or.inl hd
      · show t'.is_done = true ∨ 0 < t'.is_alive_semaphore.value
        rw [hd, hsem]
        exact hsig
    · exact ⟨s, by rw [List.getElem?_set_ne hk]; exact hs, hsig⟩
  · have hproducer : ∀ i, a ≠ Action.worker i := fun i h => hworker ⟨i, h⟩
    obtain ⟨hsame, _⟩ := act_producer_threads
      (fun t => (t.is_done, t.is_alive_semaphore.value))
      (fun _ => rfl)
      (fun t t' h => by
        unfold thread_deinit at h
        split at h
        · cases h
        · cases h; rfl)
      r r' a hproducer hact
    rw [hsame]
    exact hdone

theorem run_done_signalled (acts : List Action) (k : Nat) :
    ∀ (r r' : Run), run r acts = some r' →
      (∃ s, (r.world.group.worker_info.map
        (fun wk => (wk.thread.is_done, wk.thread.is_alive_semaphore.value)))[k]? = some s ∧
        Done_Signalled s) →
      ∃ s, (r'.world.group.worker_info.map
        (fun wk => (wk.thread.is_done, wk.thread.is_alive_semaphore.value)))[k]? = some s ∧
        Done_Signalled s := by
  induction acts with
  | nil =>
    intro r r' hrun hdone
    simp only [run] at hrun
    cases hrun
    exact hdone
  | cons a rest ih =>
    intro r r' hrun hdone
    simp only [run] at hrun
    split at hrun
    · cases hrun
    · rename_i r1 hact
      exact ih r1 r' hrun (act_done_signalled r r1 a k hact hdone)

/-- C27. Source `thread_is_done`: a call that returns true leaves the thread as it found it,
in particular the count of `is_alive_semaphore` and the flag `is_done`; every later call on
the thread, with any timeout, returns true and again leaves the thread as it is; and this
stays so for the thread of a worker after any calls of the producer and steps of the workers'
threads in between. -/
theorem thread_is_done_stays_true (t t' : Thread) (milliseconds : Int)
    (h : thread_is_done t milliseconds = some (true, t')) :
    t'.is_alive_semaphore = t.is_alive_semaphore ∧ t'.is_done = t.is_done ∧ t' = t ∧
    (∀ later : Int, thread_is_done t' later = some (true, t')) ∧
    ∀ (r r' : Run) (acts : List Action) (k : Nat) (wk : Worker_Info),
      r.world.group.worker_info[k]? = some wk → wk.thread = t' → run r acts = some r' →
      ∃ wk', r'.world.group.worker_info[k]? = some wk' ∧
        ∀ later : Int, thread_is_done wk'.thread later = some (true, wk'.thread) := by
  have heq := (thread_is_done_eq t t' milliseconds true h).1
  subst heq
  have hsig := (thread_is_done_true_iff _ milliseconds).1 h
  refine ⟨rfl, rfl, rfl, fun later => (thread_is_done_true_iff _ later).2 hsig, ?_⟩
  intro r r' acts k wk hwk ht hrun
  subst ht
  obtain ⟨s, hs, hdone⟩ := run_done_signalled acts k r r' hrun
    ⟨(wk.thread.is_done, wk.thread.is_alive_semaphore.value),
      by rw [List.getElem?_map, hwk]; rfl, hsig⟩
  rw [List.getElem?_map] at hs
  cases hwk' : r'.world.group.worker_info[k]? with
  | none => rw [hwk'] at hs; cases hs
  | some wk' =>
    rw [hwk'] at hs
    cases hs
    exact ⟨wk', rfl, fun later => (thread_is_done_true_iff _ later).2 hdone⟩

theorem thread_is_done_stays_true_witness :
    thread_is_done returned_thread 0 = some (true, returned_thread) ∧
    returned_thread.is_alive_semaphore = returned_thread.is_alive_semaphore ∧
    returned_thread.is_done = returned_thread.is_done ∧ returned_thread = returned_thread ∧
    (∀ later : Int, thread_is_done returned_thread later = some (true, returned_thread)) ∧
    ∀ (r r' : Run) (acts : List Action) (k : Nat) (wk : Worker_Info),
      r.world.group.worker_info[k]? = some wk → wk.thread = returned_thread →
      run r acts = some r' →
      ∃ wk', r'.world.group.worker_info[k]? = some wk' ∧
        ∀ later : Int, thread_is_done wk'.thread later = some (true, wk'.thread) :=
  ⟨rfl, thread_is_done_stays_true returned_thread returned_thread 0 rfl⟩

/-! ## Theorems: resetting an arena -/

/-- C21. Source `reset_temp_allocator` on an arena that was never initialised changes
nothing. On an arena whose current region is its original region it unmaps and maps nothing,
keeps the bounds of the region, and sets `current_point` to the base of the region and
`high_water_mark` to zero; then any sequence of allocations whose total size is not more than
what was in use before the reset, the cursor having been inside the region, is served from
the region, block after block from its base, without growth. -/
theorem reset_single_region (a : Arena) :
    (a.t.original_memory_base = 0 → reset_temp_allocator a = some a) ∧
    (a.t.original_memory_base ≠ 0 → a.t.current_memory_base = a.t.original_memory_base →
      ∃ a' : Arena, reset_temp_allocator a = some a' ∧
        a'.vm.mapped = a.vm.mapped ∧ a'.grow_events = a.grow_events ∧
        a'.t.original_memory_base = a.t.original_memory_base ∧
        a'.t.original_memory_limit = a.t.original_memory_limit ∧
        a'.t.current_memory_base = a.t.current_memory_base ∧
        a'.t.current_memory_limit = a.t.current_memory_limit ∧
        a'.t.current_point = a.t.current_memory_base ∧ a'.t.high_water_mark = 0 ∧
        ∀ sizes : List Int, (∀ n ∈ sizes, 0 ≤ n) →
          sizes.sum ≤ a.t.current_point - a.t.current_memory_base →
          a.t.current_point ≤ a.t.current_memory_limit →
          (get_each a' sizes).1 = consecutive a.t.current_memory_base sizes ∧
          (get_each a' sizes).2.grow_events = a.grow_events ∧
          (get_each a' sizes).2.vm.mapped = a.vm.mapped ∧
          (get_each a' sizes).2.t.current_memory_base = a.t.current_memory_base ∧
          (get_each a' sizes).2.t.current_memory_limit = a.t.current_memory_limit ∧
          (get_each a' sizes).2.t.current_point = a.t.current_memory_base + sizes.sum ∧
          (get_each a' sizes).2.t.current_point ≤ a.t.current_memory_limit) := by
  constructor
  · intro h0
    simp [reset_temp_allocator, h0]
  · intro hinit hsingle
    obtain ⟨a', hres, ht, hvm, hgrow⟩ : ∃ a' : Arena, reset_temp_allocator a = some a' ∧
        a'.t = { a.t with high_water_mark := 0, current_point := a.t.current_memory_base } ∧
        a'.vm = a.vm ∧ a'.grow_events = a.grow_events :=
      ⟨{ a with t := { a.t with
          high_water_mark := 0, current_point := a.t.current_memory_base } },
        by simp [reset_temp_allocator, hinit, hsingle], rfl, rfl, rfl⟩
    refine ⟨a', hres, by rw [hvm], hgrow, by rw [ht], by rw [ht], by rw [ht], by rw [ht],
      by rw [ht], by rw [ht], ?_⟩
    intro sizes hsizes hsum hin
    have hg := get_each_of_fits sizes a' (by rw [ht]; exact hinit) hsizes
      (by rw [ht]; simp only; omega)
    rw [hg]
    simp only [ht, hvm, hgrow]
    refine ⟨trivial, trivial, trivial, trivial, trivial, trivial, ?_⟩
    omega

theorem reset_single_region_witness :
    ((get_each (init fresh_arena 4096) [100, 200, 300]).2.t.original_memory_base ≠ 0 ∧
      (get_each (init fresh_arena 4096) [100, 200, 300]).2.t.current_memory_base =
        (get_each (init fresh_arena 4096) [100, 200, 300]).2.t.original_memory_base ∧
      (get_each (init fresh_arena 4096) [100, 200, 300]).2.t.current_point = 65536 + 600 ∧
      (get_each (init fresh_arena 4096) [100, 200, 300]).2.t.current_memory_limit
        = 65536 + 4080) ∧
    (reset_temp_allocator fresh_arena).map (fun a => a.t) = some fresh_arena.t ∧
    (reset_temp_allocator (get_each (init fresh_arena 4096) [100, 200, 300]).2).map
      (fun a => (a.t.current_point, a.t.high_water_mark, a.t.current_memory_base,
        a.t.current_memory_limit))
      = some (65536, 0, 65536, 65536 + 4080) ∧
    (reset_temp_allocator (get_each (init fresh_arena 4096) [100, 200, 300]).2).map
      (fun a => (a.vm.mapped, (get_each a [300, 300]).1, (get_each a [300, 300]).2.grow_events,
        (get_each a [300, 300]).2.vm.mapped))
      = some ([⟨65536, 4096⟩], [65536, 65836], 0, [⟨65536, 4096⟩]) ∧
    ∃ a' : Arena,
      reset_temp_allocator (get_each (init fresh_arena 4096) [100, 200, 300]).2 = some a' ∧
      a'.t.current_point = 65536 ∧ a'.t.high_water_mark = 0 ∧
      (get_each a' [300, 300]).1 = consecutive 65536 [300, 300] ∧
      (get_each a' [300, 300]).2.grow_events = 0 :=
  ⟨⟨by decide, by decide, by decide, by decide⟩,
    congrArg (Option.map (fun a : Arena => a.t))
      ((reset_single_region fresh_arena).1 rfl),
    by decide, by decide,
    ((reset_single_region (get_each (init fresh_arena 4096) [100, 200, 300]).2).2
      (by decide) (by decide)).elim (fun a' h =>
        ⟨a', h.1, h.2.2.2.2.2.2.2.1.trans (by decide), h.2.2.2.2.2.2.2.2.1,
          (h.2.2.2.2.2.2.2.2.2 [300, 300] (by decide) (by decide) (by decide)).1.trans
            (by decide),
          (h.2.2.2.2.2.2.2.2.2 [300, 300] (by decide) (by decide) (by decide)).2.1.trans
            (by decide)⟩)⟩

theorem get_of_grows (a : Arena) (n : Int) (hinit : a.t.original_memory_base ≠ 0)
    (hgrow : a.t.current_point + n > a.t.current_memory_limit) :
    get a n = ((grow_temp a n).t.current_point, { grow_temp a n with t := { (grow_temp a n).t with
      current_point := (grow_temp a n).t.current_point + n,
      high_water_mark := (grow_temp a n).t.high_water_mark + n } }) := by
  simp [get, hinit, hgrow]

theorem mapped_at_munmap (vm : Virtual_Memory) (addr other length : Int) (hne : other ≠ addr)
    (h : mapped_at vm other = true) : mapped_at (munmap vm addr length) other = true := by
  unfold mapped_at munmap at *
  simp only [List.any_eq_true, List.mem_filter, decide_eq_true_eq] at *
  obtain ⟨m, hm, hb⟩ := h
  exact ⟨m, ⟨hm, by rw [hb]; exact hne⟩, hb⟩

theorem deinit_loop_null (fuel : Nat) (a : Arena) (h : a.t.original_memory_base = 0) :
    deinit_loop fuel a = some a := by
  unfold deinit_loop
  simp [h]

theorem deinit_loop_step (fuel : Nat) (a : Arena) (hbase : a.t.original_memory_base ≠ 0)
    (hmapped : mapped_at a.vm a.t.original_memory_base = true) :
    deinit_loop (fuel + 1) a =
      deinit_loop fuel
        { a with
          vm := munmap a.vm a.t.original_memory_base
            (a.t.original_memory_limit - a.t.original_memory_base)
          t := { a.t with
            original_memory_base := (a.vm.footers a.t.original_memory_limit).next_memory_base
            original_memory_limit := (a.vm.footers a.t.original_memory_limit).next_memory_limit } } := by
  rw [deinit_loop]
  simp [hbase, hmapped]

/-- Source `reset_temp_allocator` on an arena of two regions, the second one linked from the
footer of the first and itself the last: both are unmapped and one region is mapped, sized by
the `high_water_mark`. -/
theorem reset_two_regions (a : Arena)
    (hbase : a.t.original_memory_base ≠ 0)
    (hcur : a.t.current_memory_base ≠ a.t.original_memory_base)
    (hmapped : mapped_at a.vm a.t.original_memory_base = true)
    (hlink : (a.vm.footers a.t.original_memory_limit).next_memory_base = a.t.current_memory_base)
    (hlimit : (a.vm.footers a.t.original_memory_limit).next_memory_limit
      = a.t.current_memory_limit)
    (hcur0 : a.t.current_memory_base ≠ 0)
    (hcur_mapped : mapped_at a.vm a.t.current_memory_base = true)
    (hlast : (a.vm.footers a.t.current_memory_limit).next_memory_base = 0)
    (hfuel : 2 ≤ a.vm.mapped.length) :
    ∃ a' : Arena, reset_temp_allocator a = some a' ∧
      a'.grow_events = a.grow_events ∧ a'.vm.mmap_address = a.vm.mmap_address ∧
      a'.t.high_water_mark = 0 ∧ a'.t.current_point = a'.t.current_memory_base ∧
      a'.t.current_memory_base = a'.t.original_memory_base ∧
      a'.t.current_memory_limit = a'.t.current_memory_base +
        align_pow2 a.t.high_water_mark TEMP_ALLOCATOR_PAGE_SIZE - sizeof_Next_Pool_Footer ∧
      (∃ mapped : List Mapping, a'.t.current_memory_base = a.vm.mmap_address mapped
        (align_pow2 a.t.high_water_mark TEMP_ALLOCATOR_PAGE_SIZE)) := by
  obtain ⟨fuel, hfuel'⟩ : ∃ fuel, a.vm.mapped.length = fuel + 2 := ⟨a.vm.mapped.length - 2, by omega⟩
  have hd : deinit a = some
      { a with
        vm := munmap (munmap a.vm a.t.original_memory_base
            (a.t.original_memory_limit - a.t.original_memory_base)) a.t.current_memory_base
            (a.t.current_memory_limit - a.t.current_memory_base)
        t := { a.t with
          original_memory_base := 0
          original_memory_limit :=
            (a.vm.footers a.t.current_memory_limit).next_memory_limit } } := by
    unfold deinit
    rw [hfuel', deinit_loop_step _ a hbase hmapped]
    rw [deinit_loop_step]
    · rw [deinit_loop_null]
      · simp only [hlink, hlimit, munmap, hlast]
      · simp only [hlink, hlimit, munmap, hlast]
    · simp only [hlink]
      exact hcur0
    · simp only [hlink]
      exact mapped_at_munmap _ _ _ _ hcur hcur_mapped
  unfold reset_temp_allocator
  rw [if_neg hbase]
  simp only [if_pos hcur, hd, Option.map_some']
  exact ⟨_, rfl, rfl, rfl, rfl, rfl, rfl, rfl, _, rfl⟩


theorem max_ge_left (x y : Int) : x ≤ max x y := by
  unfold max
  split <;> omega

/-- C22. An arena that was never initialised is initialised with a reservation of 4096 bytes,
in an address space where `mmap` returns neither null nor a mapping over a live one. For
sizes `a` and `b` with `0 < a <= 4080`, `a + b > 4080` and `a + b + 4095 < 2^63`: the
allocation of `a` bytes is served from the base of the region without growth; the allocation
of `b` bytes after it grows the arena, once; `reset_temp_allocator` then returns, leaving one
region whose usable size is `a + b` rounded up to the page size, less the footer; and an
allocation of `a` bytes after the reset is served from the base of that region, inside it,
without growth and without a new mapping. -/
theorem grow_then_reset_then_fits (vm : Virtual_Memory) (a b : Int)
    (hfresh : Fresh_Placement vm.mmap_address)
    (hnonnull : ∀ (mapped : List Mapping) (length : Int), vm.mmap_address mapped length ≠ 0)
    (ha0 : 0 < a) (ha1 : a ≤ 4080) (hab : a + b > 4080)
    (hbound : a + b + 4095 < 9223372036854775808) :
    (get (init { vm := vm } 4096) a).1 = (init { vm := vm } 4096).t.current_memory_base ∧
    (get (init { vm := vm } 4096) a).2.grow_events = 0 ∧
    (get (get (init { vm := vm } 4096) a).2 b).2.grow_events = 1 ∧
    (get (get (init { vm := vm } 4096) a).2 b).2.t.high_water_mark = a + b ∧
    ∃ a' : Arena,
      reset_temp_allocator (get (get (init { vm := vm } 4096) a).2 b).2 = some a' ∧
      a'.grow_events = 1 ∧ a'.t.high_water_mark = 0 ∧
      a'.t.current_point = a'.t.current_memory_base ∧
      a'.t.current_memory_base = a'.t.original_memory_base ∧
      a'.t.current_memory_limit - a'.t.current_memory_base =
        align_pow2 (a + b) TEMP_ALLOCATOR_PAGE_SIZE - sizeof_Next_Pool_Footer ∧
      (get a' a).1 = a'.t.current_memory_base ∧
      (get a' a).1 + a ≤ a'.t.current_memory_limit ∧
      (get a' a).2.grow_events = 1 ∧ (get a' a).2.vm.mapped = a'.vm.mapped := by
  have hR : align_pow2 4096 TEMP_ALLOCATOR_PAGE_SIZE = 4096 := by decide
  have hR2 : align_pow2 ((4080 + sizeof_Next_Pool_Footer) * 2) TEMP_ALLOCATOR_PAGE_SIZE = 8192 := by
    decide
  -- the arena after `init`
  obtain ⟨a1, h1, h1ob, h1ol, h1cb, h1cl, h1cp, h1hwm, h1g, h1mapped, h1policy⟩ :
      ∃ a1 : Arena, init { vm := vm } 4096 = a1 ∧
        a1.t.original_memory_base = vm.mmap_address vm.mapped 4096 ∧
        a1.t.original_memory_limit = vm.mmap_address vm.mapped 4096 + 4080 ∧
        a1.t.current_memory_base = vm.mmap_address vm.mapped 4096 ∧
        a1.t.current_memory_limit = vm.mmap_address vm.mapped 4096 + 4080 ∧
        a1.t.current_point = vm.mmap_address vm.mapped 4096 ∧
        a1.t.high_water_mark = 0 ∧ a1.grow_events = 0 ∧
        a1.vm.mapped = ⟨vm.mmap_address vm.mapped 4096, 4096⟩ :: vm.mapped ∧
        a1.vm.mmap_address = vm.mmap_address := by
    refine ⟨_, rfl, ?_, ?_, ?_, ?_, ?_, rfl, rfl, ?_, rfl⟩ <;>
      simp [init, mmap, hR, sizeof_Next_Pool_Footer] <;> omega
  rw [h1]
  generalize hb1 : vm.mmap_address vm.mapped 4096 = base1 at *
  have hbase1 : base1 ≠ 0 := by rw [← hb1]; exact hnonnull _ _
  -- the first allocation
  have hget1 := get_of_fits a1 a (by rw [h1ob]; exact hbase1) (by rw [h1cp, h1cl]; omega)
  obtain ⟨a2, h2, h2ob, h2ol, h2cb, h2cl, h2cp, h2hwm, h2g, h2mapped, h2policy⟩ :
      ∃ a2 : Arena, (get a1 a).2 = a2 ∧
        a2.t.original_memory_base = base1 ∧ a2.t.original_memory_limit = base1 + 4080 ∧
        a2.t.current_memory_base = base1 ∧ a2.t.current_memory_limit = base1 + 4080 ∧
        a2.t.current_point = base1 + a ∧ a2.t.high_water_mark = a ∧ a2.grow_events = 0 ∧
        a2.vm.mapped = ⟨base1, 4096⟩ :: vm.mapped ∧ a2.vm.mmap_address = vm.mmap_address := by
    refine ⟨_, rfl, ?_, ?_, ?_, ?_, ?_, ?_, ?_, ?_, ?_⟩ <;> rw [hget1] <;> simp only <;>
      first
        | assumption
        | (rw [h1cp])
        | (rw [h1hwm]; omega)
  have hfirst : (get a1 a).1 = a1.t.current_memory_base := by rw [hget1, h1cb, h1cp]
  refine ⟨hfirst, by rw [h2, h2g], ?_⟩
  rw [h2]
  -- the second allocation
  have hget2 := get_of_grows a2 b (by rw [h2ob]; exact hbase1) (by rw [h2cp, h2cl]; omega)
  generalize hres : max (align_pow2 ((a2.t.current_memory_limit - a2.t.current_memory_base
      + sizeof_Next_Pool_Footer) * 2) TEMP_ALLOCATOR_PAGE_SIZE)
      (align_pow2 b TEMP_ALLOCATOR_PAGE_SIZE) = reserve2 at *
  have hreserve2 : 8192 ≤ reserve2 := by
    rw [← hres, h2cl, h2cb]
    have : base1 + 4080 - base1 = 4080 := by omega
    rw [this, hR2]
    exact max_ge_left _ _
  obtain ⟨a3, h3, h3ob, h3ol, h3cb, h3cl, h3hwm, h3g, h3mapped, h3link, h3clear, h3policy⟩ :
      ∃ a3 : Arena, (get a2 b).2 = a3 ∧
        a3.t.original_memory_base = base1 ∧ a3.t.original_memory_limit = base1 + 4080 ∧
        a3.t.current_memory_base = vm.mmap_address (⟨base1, 4096⟩ :: vm.mapped) reserve2 ∧
        a3.t.current_memory_limit =
          vm.mmap_address (⟨base1, 4096⟩ :: vm.mapped) reserve2 + reserve2 - 16 ∧
        a3.t.high_water_mark = a + b ∧ a3.grow_events = 1 ∧
        a3.vm.mapped = ⟨vm.mmap_address (⟨base1, 4096⟩ :: vm.mapped) reserve2, reserve2⟩ ::
          ⟨base1, 4096⟩ :: vm.mapped ∧
        a3.vm.footers (base1 + 4080) =
          ⟨vm.mmap_address (⟨base1, 4096⟩ :: vm.mapped) reserve2,
            vm.mmap_address (⟨base1, 4096⟩ :: vm.mapped) reserve2 + reserve2 - 16⟩ ∧
        (∀ p : Int, p ≠ base1 + 4080 →
          vm.mmap_address (⟨base1, 4096⟩ :: vm.mapped) reserve2 ≤ p →
          p < vm.mmap_address (⟨base1, 4096⟩ :: vm.mapped) reserve2 + reserve2 →
          a3.vm.footers p = {}) ∧
        a3.vm.mmap_address = vm.mmap_address := by
    refine ⟨_, rfl, ?_, ?_, ?_, ?_, ?_, ?_, ?_, ?_, ?_, ?_⟩
    · rw [hget2]; exact h2ob
    · rw [hget2]; exact h2ol
    · rw [hget2]; simp only [grow_temp, mmap, hres, h2policy, h2mapped]
    · rw [hget2]; simp only [grow_temp, mmap, hres, h2policy, h2mapped]; rfl
    · rw [hget2]; simp only [grow_temp, mmap, hres, h2hwm]
    · rw [hget2]; simp only [grow_temp, mmap, hres, h2g]
    · rw [hget2]; simp only [grow_temp, mmap, hres, h2policy, h2mapped]
    · rw [hget2]
      simp only [grow_temp, mmap, hres, h2policy, h2mapped, h2ol, if_true]
      rfl
    · intro p hp hlo hhi
      rw [hget2]
      simp only [grow_temp, mmap, hres, h2policy, h2mapped, h2ol, if_neg hp]
      rw [if_pos ⟨hlo, hhi⟩]
    · rw [hget2]; simp only [grow_temp, mmap, hres, h2policy]
  rw [h3]
  refine ⟨h3g, h3hwm, ?_⟩
  generalize hb2 : vm.mmap_address (⟨base1, 4096⟩ :: vm.mapped) reserve2 = base2 at *
  have hbase2 : base2 ≠ 0 := by rw [← hb2]; exact hnonnull _ _
  have hapart : ∀ x : Int, base1 ≤ x → x < base1 + 4096 →
      ¬ (base2 ≤ x ∧ x < base2 + reserve2) := by
    intro x hlo hhi
    have h := hfresh (⟨base1, 4096⟩ :: vm.mapped) reserve2 ⟨base1, 4096⟩
      (List.mem_cons_self _ _) x hlo hhi
    rw [hb2] at h
    exact h
  have hne21 : base2 ≠ base1 := by
    intro h
    have h4096 : base1 < base1 + 4096 := by clear * -; omega
    exact hapart base1 (le_refl _) h4096
      ⟨by clear * - h; omega, by clear * - h hreserve2; omega⟩
  have hapart_limit : ¬ (base2 ≤ base1 + 4080 ∧ base1 + 4080 < base2 + reserve2) :=
    hapart (base1 + 4080) (by clear * -; omega) (by clear * -; omega)
  obtain ⟨a', hreset, hg', _, hhwm', hcp', hcb', hcl', mapped', hplace'⟩ :=
    reset_two_regions a3
      (by rw [h3ob]; exact hbase1)
      (by rw [h3cb, h3ob]; exact hne21)
      (by rw [h3ob]; unfold mapped_at; rw [h3mapped]; simp)
      (by rw [h3ol, h3link, h3cb])
      (by rw [h3ol, h3link, h3cl])
      (by rw [h3cb]; exact hbase2)
      (by rw [h3cb]; unfold mapped_at; rw [h3mapped]; simp)
      (by
        rw [h3cl, h3clear (base2 + reserve2 - 16)
          (by intro h; apply hapart_limit; clear * - h hreserve2; omega)
          (by clear * - hreserve2; omega) (by clear * -; omega)])
      (by rw [h3mapped]; simp)
  rw [h3hwm] at hcl' hplace'
  have hbase' : a'.t.original_memory_base ≠ 0 := by
    rw [← hcb', hplace', h3policy]
    exact hnonnull _ _
  have halign := align_pow2_page (a + b) (by clear * - ha0 hab; omega) hbound
  have hfits : a'.t.current_point + a ≤ a'.t.current_memory_limit := by
    rw [hcp', hcl', halign]
    show a'.t.current_memory_base + a ≤ a'.t.current_memory_base +
      4096 * ((a + b + 4095) / 4096) - 16
    clear * - ha0 ha1 hab
    omega
  have hget3 := get_of_fits a' a hbase' hfits
  refine ⟨a', hreset, by rw [hg', h3g], hhwm', hcp', hcb', by rw [hcl']; clear * -; omega, ?_, ?_, ?_, ?_⟩
  · rw [hget3]; exact hcp'
  · rw [hget3]; exact hfits
  · rw [hget3]; show a'.grow_events = 1; rw [hg', h3g]
  · rw [hget3]

theorem grow_then_reset_then_fits_witness :
    (Fresh_Placement fresh_arena.vm.mmap_address ∧
      (∀ (mapped : List Mapping) (length : Int),
        fresh_arena.vm.mmap_address mapped length ≠ 0) ∧
      (0 : Int) < 4000 ∧ (4000 : Int) ≤ 4080 ∧ (4000 : Int) + 1000 > 4080 ∧
      (4000 : Int) + 1000 + 4095 < 9223372036854775808) ∧
    ((get (init { vm := fresh_arena.vm } 4096) 4000).1 = 65536 ∧
      (get (get (init { vm := fresh_arena.vm } 4096) 4000).2 1000).1 = 69632 ∧
      (get (get (init { vm := fresh_arena.vm } 4096) 4000).2 1000).2.vm.mapped.length = 2 ∧
      (reset_temp_allocator (get (get (init { vm := fresh_arena.vm } 4096) 4000).2 1000).2).map
        (fun a => (a.t.current_memory_base, a.t.current_memory_limit - a.t.current_memory_base,
          a.vm.mapped.length, (get a 4000).1)) = some (65536, 8176, 1, 65536)) ∧
    (get (init { vm := fresh_arena.vm } 4096) 4000).1 =
      (init { vm := fresh_arena.vm } 4096).t.current_memory_base ∧
    (get (init { vm := fresh_arena.vm } 4096) 4000).2.grow_events = 0 ∧
    (get (get (init { vm := fresh_arena.vm } 4096) 4000).2 1000).2.grow_events = 1 ∧
    (get (get (init { vm := fresh_arena.vm } 4096) 4000).2 1000).2.t.high_water_mark
      = 4000 + 1000 ∧
    ∃ a' : Arena,
      reset_temp_allocator (get (get (init { vm := fresh_arena.vm } 4096) 4000).2 1000).2
        = some a' ∧
      a'.grow_events = 1 ∧ a'.t.high_water_mark = 0 ∧
      a'.t.current_point = a'.t.current_memory_base ∧
      a'.t.current_memory_base = a'.t.original_memory_base ∧
      a'.t.current_memory_limit - a'.t.current_memory_base =
        align_pow2 (4000 + 1000) TEMP_ALLOCATOR_PAGE_SIZE - sizeof_Next_Pool_Footer ∧
      (get a' 4000).1 = a'.t.current_memory_base ∧
      (get a' 4000).1 + 4000 ≤ a'.t.current_memory_limit ∧
      (get a' 4000).2.grow_events = 1 ∧ (get a' 4000).2.vm.mapped = a'.vm.mapped :=
  ⟨⟨fresh_placement_bump, bump_mmap_address_ne_zero, by decide, by decide, by decide,
      by decide⟩,
    ⟨by decide, by decide, by decide, by decide⟩,
    grow_then_reset_then_fits fresh_arena.vm 4000 1000 fresh_placement_bump
      bump_mmap_address_ne_zero (by decide) (by decide) (by decide) (by decide)⟩

/-! ## Theorems: from a fetched entry to the completed list -/

theorem stamp_entry_at (m : Entry_Memory) (entry : Nat) (index : Int) :
    stamp_entry m entry index entry = { m entry with thread_index := index, next := 0 } := by
  simp [stamp_entry, store]

theorem stamp_entry_other (m : Entry_Memory) (entry : Nat) (index : Int) (q : Nat)
    (h : q ≠ entry) : stamp_entry m entry index q = m q := by
  simp [stamp_entry, store, h]

/-- The step of a worker that calls the callback on the entry it holds. -/
theorem thread_step_run_proc (w : World) (i : Nat) (wi : Worker_Info)
    (hwi : w.group.worker_info[i]? = some wi)
    (hpoint : wi.thread.point = Program_Point.run_proc) :
    thread_step w i = some
      (put_worker { w with memory := stamp_entry w.memory wi.thread.entry wi.thread.index } i
        { wi with thread := { wi.thread with
          temp := (call_proc w.group.proc wi.thread.index (w.memory wi.thread.entry).work
            wi.thread.temp).2
          point := Program_Point.add_completed
            (call_proc w.group.proc wi.thread.index (w.memory wi.thread.entry).work
              wi.thread.temp).1 } }) := by
  unfold thread_step
  rw [hwi]
  simp only [hpoint]
  cases hproc : w.group.proc with
  | none => simp [call_proc, stamp_entry, store]
  | some proc => simp [call_proc, stamp_entry, store]

/-- The step of a worker that appends the entry it holds to its completed list. -/
theorem thread_step_add_completed (w : World) (i : Nat) (wi : Worker_Info)
    (s : Thread_Continue_Status)
    (hwi : w.group.worker_info[i]? = some wi)
    (hpoint : wi.thread.point = Program_Point.add_completed s) :
    thread_step w i =
      if s = Thread_Continue_Status.STOP then
        (reset_temp_allocator wi.thread.temp).map (fun a =>
          put_worker { w with memory := (add_work w.memory wi.completed wi.thread.entry).1 } i
            { wi with
              completed := (add_work w.memory wi.completed wi.thread.entry).2
              thread := { wi.thread with temp := a, point := Program_Point.finished } })
      else
        some (put_worker
          { w with memory := (add_work w.memory wi.completed wi.thread.entry).1 } i
          { wi with
            completed := (add_work w.memory wi.completed wi.thread.entry).2
            thread := { wi.thread with point := Program_Point.steal_test } }) := by
  unfold thread_step
  rw [hwi]
  simp only [hpoint, end_of_pass]
  split
  · cases hr : reset_temp_allocator wi.thread.temp <;> simp
  · rfl

/-- The two steps of a worker from the call of the callback on the entry it holds to the end
of `add_work(&info.completed, entry)`. -/
theorem thread_steps_process (w : World) (i : Nat) (wi : Worker_Info)
    (hwi : w.group.worker_info[i]? = some wi)
    (hpoint : wi.thread.point = Program_Point.run_proc) :
    thread_steps i 2 w =
      if (call_proc w.group.proc wi.thread.index (w.memory wi.thread.entry).work
          wi.thread.temp).1 = Thread_Continue_Status.STOP then
        (reset_temp_allocator (call_proc w.group.proc wi.thread.index
          (w.memory wi.thread.entry).work wi.thread.temp).2).map (fun a =>
          put_worker
            { w with memory := (add_work
                (stamp_entry w.memory wi.thread.entry wi.thread.index)
                wi.completed wi.thread.entry).1 } i
            { wi with
              completed := (add_work (stamp_entry w.memory wi.thread.entry wi.thread.index)
                wi.completed wi.thread.entry).2
              thread := { wi.thread with temp := a, point := Program_Point.finished } })
      else
        some (put_worker
          { w with memory := (add_work
              (stamp_entry w.memory wi.thread.entry wi.thread.index)
              wi.completed wi.thread.entry).1 } i
          { wi with
            completed := (add_work (stamp_entry w.memory wi.thread.entry wi.thread.index)
              wi.completed wi.thread.entry).2
            thread := { wi.thread with
              temp := (call_proc w.group.proc wi.thread.index (w.memory wi.thread.entry).work
                wi.thread.temp).2
              point := Program_Point.steal_test } }) := by
  have h1 := thread_step_run_proc w i wi hwi hpoint
  rw [thread_steps_succ i 1 _ _ h1]
  have hwi1 := put_worker_getElem?_self
    { w with memory := stamp_entry w.memory wi.thread.entry wi.thread.index } i wi
    { wi with thread := { wi.thread with
      temp := (call_proc w.group.proc wi.thread.index (w.memory wi.thread.entry).work
        wi.thread.temp).2
      point := Program_Point.add_completed
        (call_proc w.group.proc wi.thread.index (w.memory wi.thread.entry).work
          wi.thread.temp).1 } } hwi
  have h2 := thread_step_add_completed _ i _ _ hwi1 rfl
  simp only [thread_steps]
  rw [h2]
  by_cases hs : (call_proc w.group.proc wi.thread.index (w.memory wi.thread.entry).work
      wi.thread.temp).1 = Thread_Continue_Status.STOP
  · rw [if_pos hs, if_pos hs]
    cases hr : reset_temp_allocator (call_proc w.group.proc wi.thread.index
      (w.memory wi.thread.entry).work wi.thread.temp).2 with
    | none => simp [hr]
    | some a => simp [hr, put_worker, List.set_set]
  · rw [if_neg hs, if_neg hs]
    simp [put_worker, List.set_set]

theorem put_worker_getElem?_ne (w : World) (i k : Nat) (a : Worker_Info) (h : k ≠ i) :
    (put_worker w i a).group.worker_info[k]? = w.group.worker_info[k]? := by
  show (w.group.worker_info.set i a)[k]? = _
  exact List.getElem?_set_ne (Ne.symm h)

/-- What `e.thread_index = thread->index; e.next = {}; add_work(&info.completed, entry)` does
to a completed list that holds `xs`, for an entry outside it: the list holds `xs` followed by
the entry, whose `next` is null and whose `thread_index` is the index given; its payload is
untouched. -/
theorem holds_stamp_add_work (m : Entry_Memory) (l : Work_List) (xs : List Nat) (e : Nat)
    (index : Int) (hlist : Holds m l xs) (he : e ≠ 0) (hnew : e ∉ xs) :
    Holds (add_work (stamp_entry m e index) l e).1 (add_work (stamp_entry m e index) l e).2
      (xs ++ [e]) ∧
    (add_work (stamp_entry m e index) l e).1 e = { m e with thread_index := index, next := 0 } := by
  have hchain : Chain (stamp_entry m e index) l.first xs :=
    chain_congr m _ xs _ hlist.1 (fun q hq =>
      stamp_entry_other m e index q (fun h => hnew (h ▸ hq)))
  have hlist' : Holds (stamp_entry m e index) l xs := ⟨hchain, hlist.2.1, hlist.2.2⟩
  have hnext : (stamp_entry m e index e).next = 0 := by rw [stamp_entry_at]
  refine ⟨holds_add_work _ l xs e hlist' (chain_nodup _ xs _ hchain) he hnew hnext, ?_⟩
  rw [add_work_memory]
  have hlast : ¬ (e = l.last ∧ l.last ≠ 0) := by
    rintro ⟨h1, h2⟩
    apply hnew
    rw [h1, hlist.2.1]
    apply last_or_null_mem
    intro hnil
    apply h2
    rw [hlist.2.1, hnil]
    rfl
  rw [if_neg hlast, stamp_entry_at]

/-- From the call of the callback on the entry held to the entry in the completed list, in the
form the three starting points share. -/
theorem process_from_run_proc (w : World) (i : Nat) (wi : Worker_Info) (a' : Arena)
    (hwi : w.group.worker_info[i]? = some wi)
    (hpoint : wi.thread.point = Program_Point.run_proc)
    (hstop : (call_proc w.group.proc wi.thread.index (w.memory wi.thread.entry).work
        wi.thread.temp).1 = Thread_Continue_Status.STOP →
      reset_temp_allocator (call_proc w.group.proc wi.thread.index
        (w.memory wi.thread.entry).work wi.thread.temp).2 = some a') :
    ∃ wi' : Worker_Info,
      thread_steps i 2 w = some (put_worker
        { w with memory := (add_work (stamp_entry w.memory wi.thread.entry wi.thread.index)
          wi.completed wi.thread.entry).1 } i wi') ∧
      wi'.completed = (add_work (stamp_entry w.memory wi.thread.entry wi.thread.index)
        wi.completed wi.thread.entry).2 ∧
      wi'.available = wi.available ∧
      wi'.thread.temp =
        (if (call_proc w.group.proc wi.thread.index (w.memory wi.thread.entry).work
            wi.thread.temp).1 = Thread_Continue_Status.STOP then a'
        else (call_proc w.group.proc wi.thread.index (w.memory wi.thread.entry).work
          wi.thread.temp).2) ∧
      wi'.thread.point =
        (if (call_proc w.group.proc wi.thread.index (w.memory wi.thread.entry).work
            wi.thread.temp).1 = Thread_Continue_Status.STOP then Program_Point.finished
        else Program_Point.steal_test) := by
  rw [thread_steps_process w i wi hwi hpoint]
  by_cases hs : (call_proc w.group.proc wi.thread.index (w.memory wi.thread.entry).work
      wi.thread.temp).1 = Thread_Continue_Status.STOP
  · rw [if_pos hs, if_pos hs, if_pos hs, hstop hs]
    exact ⟨_, rfl, rfl, rfl, rfl, rfl⟩
  · rw [if_neg hs, if_neg hs, if_neg hs]
    exact ⟨_, rfl, rfl, rfl, rfl, rfl⟩

/-- The step of a worker at the loop test that holds an entry, `should_exit` being clear: it
goes on to process the entry. -/
theorem thread_step_loop_test_holding (w : World) (i : Nat) (wi : Worker_Info)
    (hwi : w.group.worker_info[i]? = some wi)
    (hpoint : wi.thread.point = Program_Point.loop_test)
    (hexit : w.group.should_exit = false) (hentry : wi.thread.entry ≠ 0) :
    thread_step w i = some (put_worker w i
      { wi with thread := { wi.thread with point := Program_Point.run_proc } }) := by
  unfold thread_step
  rw [hwi]
  simp [hpoint, hexit, hentry]

/-- The step of a worker that has taken an entry off its own list in the stealing branch:
`wait_for(&info.available.semaphore)` and the end of the pass. -/
theorem thread_step_steal_wait (w : World) (i : Nat) (wi : Worker_Info) (a0 : Arena)
    (hwi : w.group.worker_info[i]? = some wi)
    (hpoint : wi.thread.point = Program_Point.steal_wait)
    (hsem : 0 < wi.available.semaphore.value)
    (hreset : reset_temp_allocator wi.thread.temp = some a0) :
    thread_step w i = some (put_worker w i
      { wi with
        available := { wi.available with
          semaphore := { wi.available.semaphore with
            value := wi.available.semaphore.value - 1 } }
        thread := { wi.thread with temp := a0, point := Program_Point.loop_test } }) := by
  unfold thread_step
  rw [hwi]
  simp [hpoint, wait_for, hsem, end_of_pass, hreset]

theorem published_from_run_proc (w : World) (i : Nat) (wi : Worker_Info) (xs : List Nat)
    (a' : Arena)
    (hwi : w.group.worker_info[i]? = some wi)
    (hpoint : wi.thread.point = Program_Point.run_proc)
    (hentry : wi.thread.entry ≠ 0)
    (hlist : Holds w.memory wi.completed xs) (hnew : wi.thread.entry ∉ xs)
    (hstop : (call_proc w.group.proc wi.thread.index (w.memory wi.thread.entry).work
        wi.thread.temp).1 = Thread_Continue_Status.STOP →
      reset_temp_allocator (call_proc w.group.proc wi.thread.index
        (w.memory wi.thread.entry).work wi.thread.temp).2 = some a') :
    ∃ w' : World, thread_steps i 2 w = some w' ∧ Published w i wi xs wi.thread.temp a' w' := by
  obtain ⟨wi', hsteps, hcompleted, _, htemp, hpt⟩ :=
    process_from_run_proc w i wi a' hwi hpoint hstop
  obtain ⟨hholds, hmem⟩ := holds_stamp_add_work w.memory wi.completed xs wi.thread.entry
    wi.thread.index hlist hentry hnew
  refine ⟨_, hsteps, wi', put_worker_getElem?_self _ i wi wi' hwi,
    fun k hk => put_worker_getElem?_ne _ i k wi' hk, ?_, hmem, htemp, hpt⟩
  rw [hcompleted]
  exact hholds

theorem published_from_loop_test (w : World) (i : Nat) (wi : Worker_Info) (xs : List Nat)
    (a' : Arena)
    (hwi : w.group.worker_info[i]? = some wi)
    (hpoint : wi.thread.point = Program_Point.loop_test)
    (hexit : w.group.should_exit = false)
    (hentry : wi.thread.entry ≠ 0)
    (hlist : Holds w.memory wi.completed xs) (hnew : wi.thread.entry ∉ xs)
    (hstop : (call_proc w.group.proc wi.thread.index (w.memory wi.thread.entry).work
        wi.thread.temp).1 = Thread_Continue_Status.STOP →
      reset_temp_allocator (call_proc w.group.proc wi.thread.index
        (w.memory wi.thread.entry).work wi.thread.temp).2 = some a') :
    ∃ w' : World, thread_steps i 3 w = some w' ∧ Published w i wi xs wi.thread.temp a' w' := by
  have h1 := thread_step_loop_test_holding w i wi hwi hpoint hexit hentry
  rw [thread_steps_succ i 2 _ _ h1]
  obtain ⟨w', hsteps, wi', h_i, hothers, hholds, hmem, htemp, hpt⟩ :=
    published_from_run_proc
      (put_worker w i { wi with thread := { wi.thread with point := Program_Point.run_proc } })
      i { wi with thread := { wi.thread with point := Program_Point.run_proc } } xs a'
      (put_worker_getElem?_self w i wi _ hwi) rfl hentry hlist hnew hstop
  exact ⟨w', hsteps, wi', h_i,
    fun k hk => (hothers k hk).trans (put_worker_getElem?_ne w i k _ hk),
    hholds, hmem, htemp, hpt⟩

theorem published_from_steal_wait (w : World) (i : Nat) (wi : Worker_Info) (xs : List Nat)
    (a0 a' : Arena)
    (hwi : w.group.worker_info[i]? = some wi)
    (hpoint : wi.thread.point = Program_Point.steal_wait)
    (hexit : w.group.should_exit = false)
    (hsem : 0 < wi.available.semaphore.value)
    (hreset : reset_temp_allocator wi.thread.temp = some a0)
    (hentry : wi.thread.entry ≠ 0)
    (hlist : Holds w.memory wi.completed xs) (hnew : wi.thread.entry ∉ xs)
    (hstop : (call_proc w.group.proc wi.thread.index (w.memory wi.thread.entry).work
        a0).1 = Thread_Continue_Status.STOP →
      reset_temp_allocator (call_proc w.group.proc wi.thread.index
        (w.memory wi.thread.entry).work a0).2 = some a') :
    ∃ w' : World, thread_steps i 4 w = some w' ∧ Published w i wi xs a0 a' w' := by
  have h1 := thread_step_steal_wait w i wi a0 hwi hpoint hsem hreset
  rw [thread_steps_succ i 3 _ _ h1]
  obtain ⟨w', hsteps, wi', h_i, hothers, hholds, hmem, htemp, hpt⟩ :=
    published_from_loop_test
      (put_worker w i { wi with
        available := { wi.available with
          semaphore := { wi.available.semaphore with
            value := wi.available.semaphore.value - 1 } }
        thread := { wi.thread with temp := a0, point := Program_Point.loop_test } })
      i { wi with
        available := { wi.available with
          semaphore := { wi.available.semaphore with
            value := wi.available.semaphore.value - 1 } }
        thread := { wi.thread with temp := a0, point := Program_Point.loop_test } } xs a'
      (put_worker_getElem?_self w i wi _ hwi) rfl hexit hentry hlist hnew hstop
  exact ⟨w', hsteps, wi', h_i,
    fun k hk => (hothers k hk).trans (put_worker_getElem?_ne w i k _ hk),
    hholds, hmem, htemp, hpt⟩

/-- The fetch at the top of a pass: `get_work` on the worker's own list, when it is not empty,
leaves the thread at the call of the callback, holding the head of the list. -/
theorem thread_step_get_own (w : World) (i : Nat) (wi : Worker_Info)
    (hwi : w.group.worker_info[i]? = some wi)
    (hpoint : wi.thread.point = Program_Point.get_own)
    (hfirst : wi.available.first ≠ 0) :
    thread_step w i = some (put_worker w i
      { wi with
        available := (get_work w.memory wi.available).2
        thread := { wi.thread with
          entry := wi.available.first, point := Program_Point.run_proc } }) := by
  unfold thread_step
  rw [hwi]
  have h1 := (get_work_of_first w.memory wi.available hfirst).1
  simp [hpoint, h1, hfirst]

/-- A worker holds an entry it has fetched: at the call of the callback
(after `get_work` on its own list at the top of the pass), at the loop test (after a steal from
a peer), or at `wait_for` in the stealing branch (after `get_work` on its own list there, the
semaphore having a unit and the reset at the end of the pass returning `temp`). The entry is
not null and not in the worker's completed list, which holds `xs`. If `should_exit` is clear
when the loop test is reached, and the reset returns if the callback returns `STOP`, then the
thread's next steps (two, three or four) are defined and after them: the callback has been
called once, on the thread's arena `temp`; the worker's completed list holds `xs` followed by
the entry; the entry has `next` null, `thread_index` the index of the thread, and its other
fields as before; no other worker has changed; and the thread stands behind
`add_work(&info.completed, entry)`, out of the loop with its arena reset after `STOP`, and
at the stealing branch with the arena the callback left otherwise (callback absent or
`CONTINUE`). -/
theorem published_of_holding (w : World) (i : Nat) (wi : Worker_Info)
    (xs : List Nat) (temp after_reset : Arena)
    (hwi : w.group.worker_info[i]? = some wi)
    (hpoint : wi.thread.point = Program_Point.run_proc ∨
      wi.thread.point = Program_Point.loop_test ∨ wi.thread.point = Program_Point.steal_wait)
    (hexit : wi.thread.point ≠ Program_Point.run_proc → w.group.should_exit = false)
    (hwait : wi.thread.point = Program_Point.steal_wait →
      0 < wi.available.semaphore.value ∧ reset_temp_allocator wi.thread.temp = some temp)
    (htemp : wi.thread.point ≠ Program_Point.steal_wait → temp = wi.thread.temp)
    (hentry : wi.thread.entry ≠ 0)
    (hlist : Holds w.memory wi.completed xs) (hnew : wi.thread.entry ∉ xs)
    (hstop : (call_proc w.group.proc wi.thread.index (w.memory wi.thread.entry).work
        temp).1 = Thread_Continue_Status.STOP →
      reset_temp_allocator (call_proc w.group.proc wi.thread.index
        (w.memory wi.thread.entry).work temp).2 = some after_reset) :
    ∃ (w' : World) (wi' : Worker_Info),
      thread_steps i
        (if wi.thread.point = Program_Point.run_proc then 2
          else if wi.thread.point = Program_Point.loop_test then 3 else 4) w = some w' ∧
      w'.group.worker_info[i]? = some wi' ∧
      (∀ k : Nat, k ≠ i → w'.group.worker_info[k]? = w.group.worker_info[k]?) ∧
      Holds w'.memory wi'.completed (xs ++ [wi.thread.entry]) ∧
      w'.memory wi.thread.entry =
        { w.memory wi.thread.entry with thread_index := wi.thread.index, next := 0 } ∧
      wi'.thread.temp =
        (if (call_proc w.group.proc wi.thread.index (w.memory wi.thread.entry).work temp).1
            = Thread_Continue_Status.STOP then after_reset
        else (call_proc w.group.proc wi.thread.index (w.memory wi.thread.entry).work temp).2) ∧
      wi'.thread.point =
        (if (call_proc w.group.proc wi.thread.index (w.memory wi.thread.entry).work temp).1
            = Thread_Continue_Status.STOP then Program_Point.finished
        else Program_Point.steal_test) := by
  rcases hpoint with hp | hp | hp
  · have ht := htemp (by rw [hp]; simp)
    subst ht
    obtain ⟨w', hsteps, wi', hrest⟩ :=
      published_from_run_proc w i wi xs after_reset hwi hp hentry hlist hnew hstop
    refine ⟨w', wi', ?_, hrest⟩
    rw [if_pos hp]
    exact hsteps
  · have ht := htemp (by rw [hp]; simp)
    subst ht
    obtain ⟨w', hsteps, wi', hrest⟩ :=
      published_from_loop_test w i wi xs after_reset hwi hp (hexit (by rw [hp]; simp))
        hentry hlist hnew hstop
    refine ⟨w', wi', ?_, hrest⟩
    rw [if_neg (by rw [hp]; simp), if_pos hp]
    exact hsteps
  · obtain ⟨hsem, hreset⟩ := hwait hp
    obtain ⟨w', hsteps, wi', hrest⟩ :=
      published_from_steal_wait w i wi xs temp after_reset hwi hp (hexit (by rw [hp]; simp))
        hsem hreset hentry hlist hnew hstop
    refine ⟨w', wi', ?_, hrest⟩
    rw [if_neg (by rw [hp]; simp), if_neg (by rw [hp]; simp)]
    exact hsteps

/-! ## Theorems: the first allocation, and the high-water mark -/

theorem max_reserve_bounds (n : Int) (h0 : 0 ≤ n)
    (hbound : n + 16 + 4095 < 9223372036854775808) :
    n + 16 ≤ max (n + sizeof_Next_Pool_Footer) DEFAULT_TEMP_ALLOCATOR_VIRTUAL_MEMORY_RESERVE ∧
    268435456 ≤ max (n + sizeof_Next_Pool_Footer) DEFAULT_TEMP_ALLOCATOR_VIRTUAL_MEMORY_RESERVE ∧
    max (n + sizeof_Next_Pool_Footer) DEFAULT_TEMP_ALLOCATOR_VIRTUAL_MEMORY_RESERVE + 4095
      < 9223372036854775808 := by
  unfold max sizeof_Next_Pool_Footer DEFAULT_TEMP_ALLOCATOR_VIRTUAL_MEMORY_RESERVE
  split <;> omega

/-- C33. On an arena that was never initialised, for `0 <= n` with `n + 16 + 4095 < 2^63`, the
first allocation of `n` bytes (`get`, which is what an ALLOCATE request runs) maps one region
of `align_pow2(max(n + 16, 256 MiB), 4096)` bytes, at the address `mmap` chooses; the limits
of the arena are 16 bytes below the end of that region, where the footer lies; the pointer
returned is the base of the region, the block ends at or below the footer, and the arena has
not grown. -/
theorem first_allocate_maps_default_region (a : Arena) (n old_size old_memory : Int)
    (hnever : a.t.original_memory_base = 0) (h0 : 0 ≤ n)
    (hbound : n + 16 + 4095 < 9223372036854775808) :
    temp_allocator_proc a Allocator_Mode.ALLOCATE n old_size old_memory = get a n ∧
    (get a n).1 = a.vm.mmap_address a.vm.mapped
      (align_pow2 (max (n + 16) (256 * 1024 * 1024)) 4096) ∧
    (get a n).2.vm.mapped =
      ⟨(get a n).1, align_pow2 (max (n + 16) (256 * 1024 * 1024)) 4096⟩ :: a.vm.mapped ∧
    (get a n).2.t.original_memory_base = (get a n).1 ∧
    (get a n).2.t.current_memory_base = (get a n).1 ∧
    (get a n).2.t.original_memory_limit =
      (get a n).1 + align_pow2 (max (n + 16) (256 * 1024 * 1024)) 4096 - 16 ∧
    (get a n).2.t.current_memory_limit =
      (get a n).1 + align_pow2 (max (n + 16) (256 * 1024 * 1024)) 4096 - 16 ∧
    (get a n).2.t.current_point = (get a n).1 + n ∧
    (get a n).1 + n ≤ (get a n).2.t.current_memory_limit ∧
    (get a n).2.grow_events = a.grow_events := by
  obtain ⟨h1, _, h3⟩ := max_reserve_bounds n h0 hbound
  have hle := le_align_pow2_page
    (max (n + sizeof_Next_Pool_Footer) DEFAULT_TEMP_ALLOCATOR_VIRTUAL_MEMORY_RESERVE)
    (by clear * - h0 h1; omega) h3
  have hfit : ¬ ((init a (max (n + sizeof_Next_Pool_Footer)
      DEFAULT_TEMP_ALLOCATOR_VIRTUAL_MEMORY_RESERVE)).t.current_point + n >
      (init a (max (n + sizeof_Next_Pool_Footer)
        DEFAULT_TEMP_ALLOCATOR_VIRTUAL_MEMORY_RESERVE)).t.current_memory_limit) := by
    simp only [init, mmap, sizeof_Next_Pool_Footer] at hle ⊢
    clear * - hle h1
    unfold sizeof_Next_Pool_Footer at h1
    omega
  have hget : get a n =
      ((init a (max (n + sizeof_Next_Pool_Footer)
          DEFAULT_TEMP_ALLOCATOR_VIRTUAL_MEMORY_RESERVE)).t.current_point,
        { (init a (max (n + sizeof_Next_Pool_Footer)
            DEFAULT_TEMP_ALLOCATOR_VIRTUAL_MEMORY_RESERVE)) with
          t := { (init a (max (n + sizeof_Next_Pool_Footer)
              DEFAULT_TEMP_ALLOCATOR_VIRTUAL_MEMORY_RESERVE)).t with
            current_point := (init a (max (n + sizeof_Next_Pool_Footer)
              DEFAULT_TEMP_ALLOCATOR_VIRTUAL_MEMORY_RESERVE)).t.current_point + n
            high_water_mark := (init a (max (n + sizeof_Next_Pool_Footer)
              DEFAULT_TEMP_ALLOCATOR_VIRTUAL_MEMORY_RESERVE)).t.high_water_mark + n } }) := by
    unfold get
    simp only [if_pos hnever, if_neg hfit]
  refine ⟨rfl, ?_, ?_, ?_, ?_, ?_, ?_, ?_, ?_, ?_⟩
  · rw [hget]; rfl
  · rw [hget]; rfl
  · rw [hget]; rfl
  · rw [hget]; rfl
  · rw [hget]; rfl
  · rw [hget]; rfl
  · rw [hget]
  · rw [hget]
    exact not_lt.mp hfit
  · rw [hget]; rfl

theorem first_allocate_maps_default_region_witness :
    (fresh_arena.t.original_memory_base = 0 ∧ (0 : Int) ≤ 100 ∧
      (100 : Int) + 16 + 4095 < 9223372036854775808) ∧
    ((get fresh_arena 100).1 = 65536 ∧
      (get fresh_arena 100).2.vm.mapped = [⟨65536, 268435456⟩] ∧
      (get fresh_arena 268436000).2.vm.mapped = [⟨65536, 268439552⟩] ∧
      (get fresh_arena 268436000).2.t.current_memory_limit = 65536 + 268439552 - 16) ∧
    temp_allocator_proc fresh_arena Allocator_Mode.ALLOCATE 100 0 0 = get fresh_arena 100 ∧
    (get fresh_arena 100).1 = fresh_arena.vm.mmap_address fresh_arena.vm.mapped
      (align_pow2 (max (100 + 16) (256 * 1024 * 1024)) 4096) ∧
    (get fresh_arena 100).2.vm.mapped =
      ⟨(get fresh_arena 100).1, align_pow2 (max (100 + 16) (256 * 1024 * 1024)) 4096⟩ ::
        fresh_arena.vm.mapped ∧
    (get fresh_arena 100).2.t.original_memory_base = (get fresh_arena 100).1 ∧
    (get fresh_arena 100).2.t.current_memory_base = (get fresh_arena 100).1 ∧
    (get fresh_arena 100).2.t.original_memory_limit =
      (get fresh_arena 100).1 + align_pow2 (max (100 + 16) (256 * 1024 * 1024)) 4096 - 16 ∧
    (get fresh_arena 100).2.t.current_memory_limit =
      (get fresh_arena 100).1 + align_pow2 (max (100 + 16) (256 * 1024 * 1024)) 4096 - 16 ∧
    (get fresh_arena 100).2.t.current_point = (get fresh_arena 100).1 + 100 ∧
    (get fresh_arena 100).1 + 100 ≤ (get fresh_arena 100).2.t.current_memory_limit ∧
    (get fresh_arena 100).2.grow_events = fresh_arena.grow_events :=
  ⟨⟨rfl, by decide, by decide⟩, ⟨by decide, by decide, by decide, by decide⟩,
    first_allocate_maps_default_region fresh_arena 100 0 0 rfl (by decide) (by decide)⟩

theorem get_high_water_mark (a : Arena) (nbytes : Int) :
    (get a nbytes).2.t.high_water_mark = a.t.high_water_mark + nbytes := by
  unfold get
  simp only []
  split <;> split <;> rfl

theorem get_unaligned_high_water_mark (a : Arena) (nbytes : Int) :
    (get_unaligned a nbytes).2.t.high_water_mark = a.t.high_water_mark + nbytes := by
  unfold get_unaligned
  simp only []
  split <;> split <;> rfl

theorem get_unaligned_mmap_address (a : Arena) (nbytes : Int) :
    (get_unaligned a nbytes).2.vm.mmap_address = a.vm.mmap_address := by
  unfold get_unaligned
  simp only []
  split <;> split <;> rfl

theorem get_unaligned_original_memory_base (a : Arena) (nbytes : Int) :
    (get_unaligned a nbytes).2.t.original_memory_base =
      if a.t.original_memory_base = 0 then
        a.vm.mmap_address a.vm.mapped
          (align_pow2 (max (nbytes + sizeof_Next_Pool_Footer)
            DEFAULT_TEMP_ALLOCATOR_VIRTUAL_MEMORY_RESERVE) TEMP_ALLOCATOR_PAGE_SIZE)
      else a.t.original_memory_base := by
  unfold get_unaligned
  simp only []
  split <;> split <;> rfl

/-- What a request does to the high-water mark: it adds the bytes handed out. -/
theorem temp_allocator_proc_high_water_mark (a : Arena) (op : Arena_Op) (a' : Arena)
    (hop : op ≠ Arena_Op.reset) (h : apply_arena_op a op = some a') :
    a'.t.high_water_mark = a.t.high_water_mark + bytes_handed_out a op := by
  cases op with
  | allocate n =>
    simp only [apply_arena_op, temp_allocator_proc, Option.some.injEq] at h
    subst h
    exact get_high_water_mark a n
  | reallocate r o m =>
    simp only [apply_arena_op, Option.some.injEq] at h
    subst h
    unfold temp_allocator_proc bytes_handed_out
    by_cases h1 : r ≤ o
    · simp [h1]
    · by_cases h2 : a.t.current_point - o = m ∧
          r - o ≤ a.t.current_memory_limit - a.t.current_point
      · simp only [if_neg h1, if_pos h2]
        exact get_unaligned_high_water_mark a (r - o)
      · simp only [if_neg h1, if_neg h2]
        split <;> exact get_high_water_mark a r
  | reset => exact absurd rfl hop

theorem counted_apply_arena_op (a : Arena) (op : Arena_Op) (a' : Arena) (hc : Counted a)
    (h : apply_arena_op a op = some a') : Counted a' := by
  obtain ⟨hplace, hzero⟩ := hc
  cases op with
  | allocate n =>
    simp only [apply_arena_op, temp_allocator_proc, Option.some.injEq] at h
    subst h
    refine ⟨by rw [get_mmap_address]; exact hplace, fun h0 => ?_⟩
    rw [get_original_memory_base] at h0
    split at h0
    · exact absurd h0 (hplace _ _)
    · rename_i hne
      exact absurd h0 hne
  | reallocate r o m =>
    simp only [apply_arena_op, Option.some.injEq] at h
    subst h
    unfold temp_allocator_proc
    by_cases h1 : r ≤ o
    · simp only [if_pos h1]
      exact ⟨hplace, hzero⟩
    · by_cases h2 : a.t.current_point - o = m ∧
          r - o ≤ a.t.current_memory_limit - a.t.current_point
      · simp only [if_neg h1, if_pos h2]
        refine ⟨by rw [get_unaligned_mmap_address]; exact hplace, fun h0 => ?_⟩
        rw [get_unaligned_original_memory_base] at h0
        split at h0
        · exact absurd h0 (hplace _ _)
        · rename_i hne
          exact absurd h0 hne
      · simp only [if_neg h1, if_neg h2]
        have hbase : (get a r).2.t.original_memory_base ≠ 0 := by
          rw [get_original_memory_base]
          split
          · exact hplace _ _
          · assumption
        split
        · refine ⟨fun mapped length => ?_, fun h0 => absurd h0 hbase⟩
          show (get a r).2.vm.mmap_address mapped length ≠ 0
          rw [get_mmap_address]
          exact hplace _ _
        · exact ⟨by rw [get_mmap_address]; exact hplace, fun h0 => absurd h0 hbase⟩
  | reset =>
    simp only [apply_arena_op] at h
    refine ⟨by rw [reset_temp_allocator_mmap_address a a' h]; exact hplace, fun _ => ?_⟩
    unfold reset_temp_allocator at h
    split at h
    · rename_i h0
      cases h
      exact hzero h0
    · simp only at h
      obtain ⟨a1, _, h1⟩ := Option.map_eq_some'.mp h
      subst h1
      rfl

theorem reset_high_water_mark (a a' : Arena) (h : reset_temp_allocator a = some a') :
    (a.t.original_memory_base ≠ 0 → a'.t.high_water_mark = 0) ∧
    (a.t.original_memory_base = 0 → a' = a) := by
  unfold reset_temp_allocator at h
  split at h
  · rename_i h0
    cases h
    exact ⟨fun hne => absurd h0 hne, fun _ => rfl⟩
  · rename_i hne
    simp only at h
    obtain ⟨a1, _, h1⟩ := Option.map_eq_some'.mp h
    subst h1
    exact ⟨fun _ => rfl, fun h0 => absurd h0 hne⟩

theorem handed_out_since_reset_eq (ops : List Arena_Op) :
    ∀ (a a' : Arena) (total : Int), Counted a →
      handed_out_since_reset (a.t.high_water_mark, a) ops = some (total, a') →
      a'.t.high_water_mark = total ∧ Counted a' := by
  induction ops with
  | nil =>
    intro a a' total hc h
    simp only [handed_out_since_reset, Option.some.injEq, Prod.mk.injEq] at h
    obtain ⟨h1, h2⟩ := h
    subst h2
    exact ⟨h1, hc⟩
  | cons op ops ih =>
    intro a a' total hc h
    simp only [handed_out_since_reset] at h
    split at h
    · cases h
    · rename_i a1 hop
      have hc1 := counted_apply_arena_op a op a1 hc hop
      by_cases hreset : op = Arena_Op.reset
      · rw [if_pos hreset] at h
        subst hreset
        simp only [apply_arena_op] at hop
        have hz : a1.t.high_water_mark = 0 := by
          by_cases h0 : a.t.original_memory_base = 0
          · rw [(reset_high_water_mark a a1 hop).2 h0]
            exact hc.2 h0
          · exact (reset_high_water_mark a a1 hop).1 h0
        rw [← hz] at h
        exact ih a1 a' total hc1 h
      · rw [if_neg hreset, ← temp_allocator_proc_high_water_mark a op a1 hreset hop] at h
        exact ih a1 a' total hc1 h

/-- C32. Source `get` adds `nbytes` to `high_water_mark` on every path, growth included, and
so does an ALLOCATE request; a REALLOCATE request served in place adds the new size less the
old size; `reset_temp_allocator` on an arena that has a region leaves `high_water_mark` zero,
and leaves an arena without region as it is. So, in an address space where `mmap` does not
return null, from an arena whose high-water mark is zero while it has no region, after any
sequence of ALLOCATE and REALLOCATE requests and resets the high-water mark is the number of
bytes handed out since the last reset. -/
theorem high_water_mark_counts_handed_out (a : Arena) :
    (∀ n : Int, (get a n).2.t.high_water_mark = a.t.high_water_mark + n) ∧
    (∀ n old_size old_memory : Int,
      (temp_allocator_proc a Allocator_Mode.ALLOCATE n old_size old_memory).2.t.high_water_mark
        = a.t.high_water_mark + n) ∧
    (∀ requested_size old_size old_memory : Int, old_size < requested_size →
      a.t.current_point - old_size = old_memory →
      requested_size - old_size ≤ a.t.current_memory_limit - a.t.current_point →
      (temp_allocator_proc a Allocator_Mode.REALLOCATE requested_size old_size
        old_memory).1 = old_memory ∧
      (temp_allocator_proc a Allocator_Mode.REALLOCATE requested_size old_size
        old_memory).2.t.high_water_mark = a.t.high_water_mark + (requested_size - old_size)) ∧
    (∀ a' : Arena, reset_temp_allocator a = some a' →
      (a.t.original_memory_base ≠ 0 → a'.t.high_water_mark = 0) ∧
      (a.t.original_memory_base = 0 → a' = a)) ∧
    ((∀ (mapped : List Mapping) (length : Int), a.vm.mmap_address mapped length ≠ 0) →
      (a.t.original_memory_base = 0 → a.t.high_water_mark = 0) →
      ∀ (ops : List Arena_Op) (total : Int) (a' : Arena),
        handed_out_since_reset (a.t.high_water_mark, a) ops = some (total, a') →
        a'.t.high_water_mark = total) := by
  refine ⟨get_high_water_mark a, fun n _ _ => get_high_water_mark a n, ?_,
    fun a' h => reset_high_water_mark a a' h,
    fun hplace hzero ops total a' h =>
      (handed_out_since_reset_eq ops a a' total ⟨hplace, hzero⟩ h).1⟩
  intro r o m hlt hprev hfits
  have h1 : ¬ r ≤ o := by omega
  unfold temp_allocator_proc
  simp only [if_neg h1, if_pos (And.intro hprev hfits)]
  exact ⟨trivial, get_unaligned_high_water_mark a (r - o)⟩

theorem high_water_mark_counts_handed_out_witness :
    ((handed_out_since_reset (0, fresh_arena) (example_requests.take 3)).map
        (fun s => (s.1, s.2.t.high_water_mark, s.2.grow_events))
        = some (268435740, 268435740, 1) ∧
      (handed_out_since_reset (0, fresh_arena) (example_requests.take 4)).map
        (fun s => (s.1, s.2.t.high_water_mark, s.2.grow_events)) = some (0, 0, 1) ∧
      (handed_out_since_reset (0, fresh_arena) example_requests).map
        (fun s => (s.1, s.2.t.high_water_mark, s.2.grow_events)) = some (508, 508, 1)) ∧
    (∀ (mapped : List Mapping) (length : Int),
      fresh_arena.vm.mmap_address mapped length ≠ 0) ∧
    (fresh_arena.t.original_memory_base = 0 → fresh_arena.t.high_water_mark = 0) ∧
    ∀ (ops : List Arena_Op) (total : Int) (a' : Arena),
      handed_out_since_reset (fresh_arena.t.high_water_mark, fresh_arena) ops
        = some (total, a') →
      a'.t.high_water_mark = total :=
  ⟨⟨by decide, by decide, by decide⟩, bump_mmap_address_ne_zero, fun _ => rfl,
    (high_water_mark_counts_handed_out fresh_arena).2.2.2.2 bump_mmap_address_ne_zero
      (fun _ => rfl)⟩

/-! ## Theorems: the size an array asks for -/

/-- C35 fails. Source `array_reserve_nonpoly(arr, n, size)` with `n > arr.allocated` asks the
allocator for `n + size` bytes and reports the old block as `allocated + size` bytes. For an
empty array of pointers in a fresh arena the first `array_add` asks for `8 + 8 = 16` bytes, not
`8 * 8 = 64`: the block handed out is the 16 bytes at 65536 and the array counts 8 slots as
allocated. After three `array_add` calls the element at index 2 lies at `data + 16`, past the
end of that block, where the cursor of the arena stands; the next allocation of 8 bytes
returns that address, and a pointer stored in the new block replaces the third element. -/
theorem array_reserve_asks_for_sum_of_count_and_size :
    (∀ (a : Arena) (arr : Resizable_Array) (n size : Int),
      array_reserve_nonpoly a arr n size =
        if n ≤ arr.allocated then (arr, a)
        else
          ({ arr with
              data := (temp_allocator_proc a Allocator_Mode.REALLOCATE (n + size)
                (arr.allocated + size) arr.data).1
              allocated := n },
            (temp_allocator_proc a Allocator_Mode.REALLOCATE (n + size)
              (arr.allocated + size) arr.data).2)) ∧
    ((array_reserve_nonpoly fresh_arena {} 8 8).1.data = 65536 ∧
      (array_reserve_nonpoly fresh_arena {} 8 8).1.allocated = 8 ∧
      (array_reserve_nonpoly fresh_arena {} 8 8).2.t.current_point = 65536 + 16 ∧
      (array_reserve_nonpoly fresh_arena {} 8 8).2.t.high_water_mark = 16) ∧
    (three_pointers.1.count = 3 ∧ three_pointers.1.data = 65536 ∧
      three_pointers.1.allocated = 8 ∧
      three_pointers.2.t.current_point = 65536 + 16 ∧
      three_pointers.2.t.high_water_mark = 16 ∧
      array_elements three_pointers.2.vm three_pointers.1.count three_pointers.1.data
        = [7, 8, 9]) ∧
    ((get three_pointers.2 8).1 = three_pointers.1.data + 8 * 2 ∧
      array_elements
        (store_pointer (get three_pointers.2 8).2.vm (get three_pointers.2 8).1 255)
        three_pointers.1.count three_pointers.1.data = [7, 8, 255]) := by
  refine ⟨?_, by decide!, by decide!, by decide!⟩
  intro a arr n size
  rfl

/-! ## Theorems: the mutexes of the work lists -/

theorem held_after_append (xs : List Sync_Event) :
    ∀ (held : List List_Id) (ys : List Sync_Event),
      held_after held (xs ++ ys) = (held_after held xs).bind (fun h => held_after h ys) := by
  induction xs with
  | nil => intro held ys; rfl
  | cons x xs ih =>
    intro held ys
    simp only [List.cons_append, held_after]
    cases sync_step held x with
    | none => rfl
    | some h => exact ih h ys

theorem disciplined_append (xs ys : List Sync_Event) (hx : Disciplined xs)
    (hy : Disciplined ys) : Disciplined (xs ++ ys) := by
  unfold Disciplined at *
  rw [held_after_append, hx]
  exact hy

theorem disciplined_nil : Disciplined [] := rfl

theorem disciplined_flatMap {α : Type} (f : α → List Sync_Event) (l : List α)
    (h : ∀ x ∈ l, Disciplined (f x)) : Disciplined (l.flatMap f) := by
  induction l with
  | nil => exact disciplined_nil
  | cons x xs ih =>
    rw [List.flatMap_cons]
    exact disciplined_append _ _ (h x (List.mem_cons_self x xs))
      (ih (fun y hy => h y (List.mem_cons_of_mem x hy)))

theorem disciplined_signals {α : Type} (l : List α) :
    Disciplined (l.map (fun _ => Sync_Event.signal)) := by
  induction l with
  | nil => exact disciplined_nil
  | cons x xs ih => exact disciplined_append [Sync_Event.signal] _ rfl ih

theorem add_work_traced_events (m : Entry_Memory) (l : Work_List) (entry : Nat)
    (list : List_Id) :
    (add_work_traced m l entry list).2 =
      [Sync_Event.lock list, Sync_Event.unlock list, Sync_Event.signal] := rfl

theorem get_work_traced_events (m : Entry_Memory) (l : Work_List) (list : List_Id) :
    (get_work_traced m l list).2 = [Sync_Event.lock list, Sync_Event.unlock list] := by
  unfold get_work_traced
  simp only []
  split <;> rfl

theorem disciplined_lock_unlock (list : List_Id) :
    Disciplined [Sync_Event.lock list, Sync_Event.unlock list] := by
  simp [Disciplined, held_after, sync_step]

theorem disciplined_lock_unlock_signal (list : List_Id) :
    Disciplined [Sync_Event.lock list, Sync_Event.unlock list, Sync_Event.signal] := by
  simp [Disciplined, held_after, sync_step]

theorem disciplined_thread_is_done (t : Thread) : Disciplined (thread_is_done_events t) := by
  unfold thread_is_done_events
  split
  · rfl
  · split <;> rfl

theorem disciplined_steal_loop (indices : List Int) :
    ∀ w : World, Disciplined (steal_loop_events w indices) := by
  induction indices with
  | nil => intro w; rfl
  | cons j rest ih =>
    intro w
    simp only [steal_loop_events]
    split
    · rfl
    · split
      · rw [get_work_traced_events]
        exact disciplined_lock_unlock _
      · apply disciplined_append
        · rw [get_work_traced_events]
          exact disciplined_lock_unlock _
        · exact ih _

theorem disciplined_thread_step (w : World) (i : Nat) :
    Disciplined (thread_step_events w i) := by
  unfold thread_step_events
  split
  · rfl
  · split
    all_goals first
      | rfl
      | (rw [get_work_traced_events]; exact disciplined_lock_unlock _)
      | (rw [add_work_traced_events]; exact disciplined_lock_unlock_signal _)
      | (split <;> first
          | rfl
          | (rw [get_work_traced_events]; exact disciplined_lock_unlock _))

theorem disciplined_act (r : Run) (a : Action) : Disciplined (act_events r a) := by
  cases a with
  | start => exact disciplined_signals _
  | add_work work =>
    simp only [act_events]
    split
    · rfl
    · rw [add_work_traced_events]
      exact disciplined_lock_unlock_signal _
  | get_completed_work =>
    simp only [act_events]
    apply disciplined_flatMap
    intro k _
    split
    · rfl
    · exact disciplined_lock_unlock _
  | shutdown timeout =>
    simp only [act_events]
    split
    · apply disciplined_append
      · exact disciplined_signals _
      · exact disciplined_flatMap _ _ (fun wi _ => disciplined_thread_is_done wi.thread)
    · rfl
  | worker i => exact disciplined_thread_step r.world i

theorem disciplined_run (acts : List Action) : ∀ r : Run, Disciplined (run_events r acts) := by
  induction acts with
  | nil => intro r; rfl
  | cons a rest ih =>
    intro r
    simp only [run_events]
    split
    · rfl
    · exact disciplined_append _ _ (disciplined_act r a) (ih _)

theorem add_work_traced_fst (m : Entry_Memory) (l : Work_List) (entry : Nat) (list : List_Id) :
    (add_work_traced m l entry list).1 = add_work m l entry := rfl

theorem get_work_traced_fst (m : Entry_Memory) (l : Work_List) (list : List_Id) :
    (get_work_traced m l list).1 = get_work m l := by
  unfold get_work_traced get_work
  simp only []
  split <;> rfl

theorem swap_out_traced_fst (l : Work_List) (list : List_Id) :
    (swap_out_traced l list).1 = swap_out l := rfl

theorem get_work_unlocked (m : Entry_Memory) (l : Work_List) :
    (get_work m l).2.mutex.locked = false := by
  unfold get_work
  simp only []
  split <;> rfl

/-- C31: the calls of the work-list operations on mutexes and semaphores. The traced
operations compute what `add_work`, `get_work` and the swap-out compute. `add_work` makes the
calls lock, unlock, signal in this order; `get_work` makes lock, unlock on both returns, the
early return on an empty list included, and returns the head of the list (null when it is
empty); the swap-out makes lock, unlock. Each leaves the mutex
of its list unlocked. The calls of the steal loop, of every step of a worker, of every producer
call and of every run keep the discipline: a lock is taken only while no mutex is held, an
unlock releases the mutex that is held, the semaphore is signalled and the callback is called
only while no mutex is held, and no mutex is held at the end. The last four parts show that the
check rejects a callback or a signal under a lock and a second lock, and reports a mutex left
locked. -/
theorem work_list_mutex_discipline :
    (∀ (m : Entry_Memory) (l : Work_List) (entry : Nat) (list : List_Id),
      (add_work_traced m l entry list).1 = add_work m l entry ∧
      (add_work_traced m l entry list).2 =
        [Sync_Event.lock list, Sync_Event.unlock list, Sync_Event.signal] ∧
      Disciplined (add_work_traced m l entry list).2 ∧
      (add_work m l entry).2.mutex.locked = false) ∧
    (∀ (m : Entry_Memory) (l : Work_List) (list : List_Id),
      (get_work_traced m l list).1 = get_work m l ∧
      (get_work_traced m l list).2 = [Sync_Event.lock list, Sync_Event.unlock list] ∧
      Disciplined (get_work_traced m l list).2 ∧
      (get_work m l).2.mutex.locked = false ∧
      (get_work m l).1 = l.first) ∧
    (∀ (l : Work_List) (list : List_Id),
      (swap_out_traced l list).1 = swap_out l ∧
      (swap_out_traced l list).2 = [Sync_Event.lock list, Sync_Event.unlock list] ∧
      Disciplined (swap_out_traced l list).2 ∧
      (swap_out l).2.2.mutex.locked = false) ∧
    (∀ (w : World) (indices : List Int), Disciplined (steal_loop_events w indices)) ∧
    (∀ (w : World) (i : Nat), Disciplined (thread_step_events w i)) ∧
    (∀ (r : Run) (a : Action), Disciplined (act_events r a)) ∧
    (∀ (r : Run) (acts : List Action), Disciplined (run_events r acts)) ∧
    held_after [] [Sync_Event.lock (List_Id.available 0), Sync_Event.call_proc,
        Sync_Event.unlock (List_Id.available 0)] = none ∧
    held_after [] [Sync_Event.lock (List_Id.available 0), Sync_Event.signal,
        Sync_Event.unlock (List_Id.available 0)] = none ∧
    held_after [] [Sync_Event.lock (List_Id.available 0), Sync_Event.lock (List_Id.available 1),
        Sync_Event.unlock (List_Id.available 1), Sync_Event.unlock (List_Id.available 0)]
      = none ∧
    held_after [] [Sync_Event.lock (List_Id.available 0)] = some [List_Id.available 0] := by
  refine ⟨fun m l entry list => ⟨rfl, rfl, disciplined_lock_unlock_signal list, rfl⟩,
    fun m l list => ⟨get_work_traced_fst m l list, get_work_traced_events m l list, ?_,
      get_work_unlocked m l, ?_⟩,
    fun l list => ⟨rfl, rfl, disciplined_lock_unlock list, rfl⟩,
    fun w indices => disciplined_steal_loop indices w,
    disciplined_thread_step, disciplined_act,
    fun r acts => disciplined_run acts r, rfl, rfl, rfl, rfl⟩
  · rw [get_work_traced_events]
    exact disciplined_lock_unlock list
  · unfold get_work
    simp only []
    split
    · rename_i h
      exact h.symm
    · rfl

/-! ## Theorems: a lookup after an insertion -/

theorem next_pow2_loop_pos (x : Int) (fuel : Nat) :
    ∀ p : Int, 0 < p → 0 < next_pow2_loop x fuel p := by
  induction fuel with
  | zero => intro p hp; exact hp
  | succ fuel ih =>
    intro p hp
    simp only [next_pow2_loop]
    split
    · exact ih _ (by omega)
    · exact hp

theorem table_resize_allocated_pos (t : Hash_Table) (slots_to_allocate : Int) :
    0 < (table_resize t slots_to_allocate).allocated :=
  next_pow2_loop_pos _ _ _ (by decide)

theorem walk_hash_ne_zero (key : Nat) : walk_hash key ≠ 0 := by
  unfold walk_hash FIRST_VALID_HASH
  split <;> omega

theorem table_add_walk_start (t : Hash_Table) (mask fuel index0 probe_increment index : Nat)
    (slots_filled : Int)
    (h : table_add_walk t mask fuel index0 probe_increment = some (index, slots_filled)) :
    ∃ slot, t.entries[index0]? = some slot ∧ (index = index0 ∨ slot.hash ≠ 0) := by
  cases fuel with
  | zero => simp [table_add_walk] at h
  | succ fuel =>
    simp only [table_add_walk] at h
    cases hslot : t.entries[index0]? with
    | none => simp [hslot] at h
    | some slot =>
      simp only [hslot] at h
      refine ⟨slot, rfl, ?_⟩
      by_cases h0 : slot.hash = 0
      · simp [h0] at h
        exact Or.inl h.1.symm
      · exact Or.inr h0

theorem table_expand_loop_allocated_pos
    (add : Hash_Table → Nat → Int → Option (Nat × Hash_Table))
    (hadd : ∀ t key value r, 0 < t.allocated → add t key value = some r → 0 < r.2.allocated)
    (old_entries : List Table_Entry) :
    ∀ t t1 : Hash_Table, 0 < t.allocated → table_expand_loop add old_entries t = some t1 →
      0 < t1.allocated := by
  induction old_entries with
  | nil =>
    intro t t1 ht h
    simp only [table_expand_loop, Option.some.injEq] at h
    rw [← h]
    exact ht
  | cons entry rest ih =>
    intro t t1 ht h
    simp only [table_expand_loop] at h
    split at h
    · cases hr : add t entry.key entry.value with
      | none => simp [hr] at h
      | some r =>
        simp only [hr] at h
        exact ih r.2 t1 (hadd t _ _ r ht hr) h
    · exact ih t t1 ht h

theorem table_expand_allocated_pos
    (add : Hash_Table → Nat → Int → Option (Nat × Hash_Table))
    (hadd : ∀ t key value r, 0 < t.allocated → add t key value = some r → 0 < r.2.allocated)
    (t t1 : Hash_Table) (h : table_expand add t = some t1) : 0 < t1.allocated := by
  unfold table_expand at h
  simp only [] at h
  refine table_expand_loop_allocated_pos add hadd _ _ t1 ?_ h
  exact table_resize_allocated_pos t _

/-- What `table_add_within` does after the test of the load: the table it walks has the
`allocated` and the number of slots of the result, the walk starts at a slot of the table, and
the slot at the start is occupied afterwards. -/
theorem table_add_within_start (depth : Nat) (t : Hash_Table) (key : Nat) (value : Int)
    (r : Nat × Hash_Table) (h : table_add_within (depth + 1) t key value = some r) :
    ∃ t1 : Hash_Table,
      (if (t.slots_filled + 1) * 100 > t.allocated * LOAD_FACTOR_PERCENT then
          table_expand (table_add_within depth) t
        else some t) = some t1 ∧
      r.2.allocated = t1.allocated ∧ r.2.entries.length = t1.entries.length ∧
      Nat.land (walk_hash key) (walk_mask t1) < t1.entries.length ∧
      ∃ slot, r.2.entries[Nat.land (walk_hash key) (walk_mask t1)]? = some slot ∧
        slot.hash ≠ 0 := by
  simp only [table_add_within] at h
  generalize (if (t.slots_filled + 1) * 100 > t.allocated * LOAD_FACTOR_PERCENT then
      table_expand (table_add_within depth) t else some t) = expanded at h
  cases expanded with
  | none => simp at h
  | some t1 =>
    simp only [] at h
    cases hw : table_add_walk t1 (walk_mask t1) (t1.entries.length + 1)
        (Nat.land (walk_hash key) (walk_mask t1)) 1 with
    | none => simp [hw] at h
    | some found =>
      obtain ⟨index, slots_filled⟩ := found
      simp only [hw, Option.some.injEq] at h
      obtain ⟨slot, hslot, hor⟩ := table_add_walk_start _ _ _ _ _ _ _ hw
      have hlt : Nat.land (walk_hash key) (walk_mask t1) < t1.entries.length := by
        rcases Nat.lt_or_ge (Nat.land (walk_hash key) (walk_mask t1)) t1.entries.length with
          hlt | hge
        · exact hlt
        · rw [List.getElem?_eq_none hge] at hslot
          cases hslot
      refine ⟨t1, rfl, ?_, ?_, hlt, ?_⟩
      · rw [← h]
      · rw [← h]
        simp
      · rw [← h]
        simp only []
        by_cases hi : index = Nat.land (walk_hash key) (walk_mask t1)
        · refine ⟨{ hash := walk_hash key, key := key, value := value }, ?_,
            walk_hash_ne_zero key⟩
          rw [hi, List.getElem?_set_self hlt]
        · rcases hor with hor | hor
          · exact absurd hor hi
          · refine ⟨slot, ?_, hor⟩
            rw [List.getElem?_set_ne hi]
            exact hslot

theorem table_add_within_allocated_pos (depth : Nat) :
    ∀ (t : Hash_Table) (key : Nat) (value : Int) (r : Nat × Hash_Table),
      0 < t.allocated → table_add_within depth t key value = some r → 0 < r.2.allocated := by
  induction depth with
  | zero =>
    intro t key value r _ h
    simp [table_add_within] at h
  | succ depth ih =>
    intro t key value r ht h
    obtain ⟨t1, hexp, hall, _⟩ := table_add_within_start depth t key value r h
    rw [hall]
    split at hexp
    · exact table_expand_allocated_pos _ ih t t1 hexp
    · simp only [Option.some.injEq] at hexp
      rw [← hexp]
      exact ht

theorem table_find_pointer_at_hash (t : Hash_Table) (key : Nat) (slot : Table_Entry)
    (hallocated : t.allocated ≠ 0)
    (hslot : t.entries[Nat.land (walk_hash key) (walk_mask t)]? = some slot)
    (hocc : slot.hash ≠ 0) (hout : t.entries.length ≤ walk_hash key) :
    table_find_pointer t key =
      some (Lookup.out_of_bounds (walk_hash key),
        [Nat.land (walk_hash key) (walk_mask t), walk_hash key]) := by
  unfold table_find_pointer
  rw [if_neg hallocated]
  simp only [table_find_pointer_walk, hslot, if_neg hocc, List.getElem?_eq_none hout,
    List.nil_append]

/-- After `table_add(t, key, value)` has returned, a lookup of `key` whose hash is not below
the number of slots reads the slot at index `hash`, past the end of `entries`. -/
theorem table_find_pointer_after_add (t : Hash_Table) (key : Nat) (value : Int)
    (r : Nat × Hash_Table) (hadd : table_add t key value = some r)
    (hout : r.2.entries.length ≤ walk_hash key) :
    table_find_pointer r.2 key =
      some (Lookup.out_of_bounds (walk_hash key),
        [Nat.land (walk_hash key) (walk_mask r.2), walk_hash key]) := by
  obtain ⟨t1, hexp, hall, hlen, hlt, slot, hslot, hocc⟩ :=
    table_add_within_start 2 t key value r hadd
  have hmask : walk_mask r.2 = walk_mask t1 := by
    unfold walk_mask
    rw [hall]
  have hne : r.2.allocated ≠ 0 := by
    rw [hall]
    split at hexp
    · have := table_expand_allocated_pos _ (table_add_within_allocated_pos 2) t t1 hexp
      omega
    · intro h0
      have hm : walk_mask t1 = 4294967295 := by
        unfold walk_mask
        rw [h0]
        rfl
      have hh : walk_hash key < 4294967296 := by
        unfold walk_hash get_hash
        split <;> omega
      have hland : Nat.land (walk_hash key) 4294967295 = walk_hash key := by
        show walk_hash key &&& (2 ^ 32 - 1) = walk_hash key
        rw [Nat.and_pow_two_sub_one_eq_mod]
        exact Nat.mod_eq_of_lt hh
      rw [hm, hland] at hlt
      omega
  rw [← hmask] at hslot
  exact table_find_pointer_at_hash r.2 key slot hne hslot hocc hout

/-- C34 fails. Source `table_find_pointer` takes the entry of its loop at `t.entries[hash]`,
where `table_find_multiple` takes it at `t.entries[index]`. Whenever `table_add(t, key, value)`
has returned and the hash of `key` is not below the number of slots, the lookup of `key` reads
the slot at `hash & mask` and then the slot at index `hash`, past the end of `entries`, so that
`table_contains` has no defined result. For the table after `table_init` (32 slots) and
`table_add(&t, 1, 10)`: the hash of the key 1 is 2157301717, the pair is stored in slot 21, the
lookup of the key 1 reads the slots 21 and 2157301717, and `table_find_multiple` finds the
value 10. -/
theorem table_find_pointer_reads_slot_at_hash :
    (∀ (t : Hash_Table) (key : Nat) (value : Int) (r : Nat × Hash_Table),
      table_add t key value = some r → r.2.entries.length ≤ walk_hash key →
        table_find_pointer r.2 key =
            some (Lookup.out_of_bounds (walk_hash key),
              [Nat.land (walk_hash key) (walk_mask r.2), walk_hash key]) ∧
          table_contains r.2 key = none) ∧
    (walk_hash 1 = 2157301717 ∧
      (table_init {}).allocated = 32 ∧ (table_init {}).entries.length = 32 ∧
      (table_add (table_init {}) 1 10).map
          (fun r => (r.1, r.2.count, r.2.slots_filled, r.2.allocated, r.2.entries[r.1]?)) =
        some (21, 1, 1, 32, some { hash := 2157301717, key := 1, value := 10 })) ∧
    (table_find_pointer one_key_table 1 =
        some (Lookup.out_of_bounds 2157301717, [21, 2157301717]) ∧
      table_contains one_key_table 1 = none ∧
      table_find_multiple one_key_table 1 = some [10]) := by
  refine ⟨fun t key value r hadd hout => ?_, by decide!, by decide!⟩
  have h := table_find_pointer_after_add t key value r hadd hout
  refine ⟨h, ?_⟩
  unfold table_contains
  rw [h]

theorem table_find_pointer_reads_slot_at_hash_witness :
    table_add (table_init {}) 1 10 = some (21, one_key_table) ∧
      (21, one_key_table).2.entries.length ≤ walk_hash 1 ∧
      table_find_pointer (21, one_key_table).2 1 =
        some (Lookup.out_of_bounds (walk_hash 1),
          [Nat.land (walk_hash 1) (walk_mask (21, one_key_table).2), walk_hash 1]) ∧
      table_contains (21, one_key_table).2 1 = none :=
  ⟨by decide!, by decide!,
    table_find_pointer_reads_slot_at_hash.1 (table_init {}) 1 10 (21, one_key_table)
      (by decide!) (by decide!)⟩

/-! ## Theorems: a fetched entry in the states a run reaches -/

/-- C29. In every state reached from a freshly initialised group by calls of the producer and
steps of the workers' threads, `should_exit` is clear (no function assigns it). A worker that
holds an entry it has fetched stands at the call of the callback (after `get_work` on its own
list at the top of the pass), at the loop test (after a steal from a peer), or at `wait_for` in
the stealing branch (after `get_work` on its own list there, the semaphore having a unit and the
reset at the end of the pass returning `temp`). The entry is then not in the worker's completed
list, which holds some entries `xs`. If the reset returns when the callback returns `STOP`, the
thread's next steps (two, three or four) are defined and after them: the callback has been
called once, on the thread's arena `temp`; the worker's completed list holds `xs` followed by
the entry; the entry has `next` null, `thread_index` the index of the thread, and its other
fields as before; no other worker has changed; and the thread stands behind
`add_work(&info.completed, entry)`, out of the loop with its arena reset after `STOP`, and at
the stealing branch with the arena the callback left otherwise (callback absent or
`CONTINUE`). -/
theorem fetched_entry_processed_and_completed (w0 : World) (num_threads : Int)
    (group_proc : Option Thread_Group_Proc) (enable_work_stealing : Bool) (caller : Arena)
    (acts : List Action) (r : Run) (i : Nat) (wi : Worker_Info) (temp after_reset : Arena)
    (hthreads : 1 ≤ num_threads) (hcursor : w0.group.next_worker_index = 0)
    (hexit : w0.group.should_exit = false)
    (halloc : ∀ live : List Nat, w0.new_address live ∉ live ∧ w0.new_address live ≠ 0)
    (hrun :
      run { temp := caller
            world := thread_group_init w0 num_threads group_proc enable_work_stealing }
        acts = some r)
    (hwi : r.world.group.worker_info[i]? = some wi)
    (hpoint : wi.thread.point = Program_Point.run_proc ∨
      wi.thread.point = Program_Point.loop_test ∨ wi.thread.point = Program_Point.steal_wait)
    (hwait : wi.thread.point = Program_Point.steal_wait →
      0 < wi.available.semaphore.value ∧ reset_temp_allocator wi.thread.temp = some temp)
    (htemp : wi.thread.point ≠ Program_Point.steal_wait → temp = wi.thread.temp)
    (hentry : wi.thread.entry ≠ 0)
    (hstop : (call_proc r.world.group.proc wi.thread.index (r.world.memory wi.thread.entry).work
        temp).1 = Thread_Continue_Status.STOP →
      reset_temp_allocator (call_proc r.world.group.proc wi.thread.index
        (r.world.memory wi.thread.entry).work temp).2 = some after_reset) :
    r.world.group.should_exit = false ∧
    ∃ (xs : List Nat) (w' : World) (wi' : Worker_Info),
      Holds r.world.memory wi.completed xs ∧ wi.thread.entry ∉ xs ∧
      thread_steps i
        (if wi.thread.point = Program_Point.run_proc then 2
          else if wi.thread.point = Program_Point.loop_test then 3 else 4) r.world = some w' ∧
      w'.group.worker_info[i]? = some wi' ∧
      (∀ k : Nat, k ≠ i → w'.group.worker_info[k]? = r.world.group.worker_info[k]?) ∧
      Holds w'.memory wi'.completed (xs ++ [wi.thread.entry]) ∧
      w'.memory wi.thread.entry =
        { r.world.memory wi.thread.entry with thread_index := wi.thread.index, next := 0 } ∧
      wi'.thread.temp =
        (if (call_proc r.world.group.proc wi.thread.index (r.world.memory wi.thread.entry).work
            temp).1 = Thread_Continue_Status.STOP then after_reset
        else (call_proc r.world.group.proc wi.thread.index
          (r.world.memory wi.thread.entry).work temp).2) ∧
      wi'.thread.point =
        (if (call_proc r.world.group.proc wi.thread.index (r.world.memory wi.thread.entry).work
            temp).1 = Thread_Continue_Status.STOP then Program_Point.finished
        else Program_Point.steal_test) := by
  have hinit := inv_thread_group_init w0 num_threads group_proc enable_work_stealing hthreads
    hcursor halloc
  obtain ⟨A, hinv, hclear, _⟩ := run_inv acts
    { temp := caller
      world := thread_group_init w0 num_threads group_proc enable_work_stealing } r
    (List.replicate num_threads.toNat {}) hinit hexit
    (by simp [ledger, all_owned_replicate]) hrun
  obtain ⟨o, ho, hrep⟩ := rep_getElem? _ _ _ hinv.rep i wi hwi
  have hhand : o.in_hand = [wi.thread.entry] := by
    rw [← hrep.2.2.1]
    unfold in_hand
    rcases hpoint with hp | hp | hp <;> simp [hp, holds_entry, hentry]
  have hnodup := nodup_owned A [] i o hinv.nodup ho
  have hnew : wi.thread.entry ∉ o.completed := by
    intro hmem
    rw [List.nil_append, Owned.all, hhand, List.append_assoc] at hnodup
    have h2 := (List.nodup_append.1 hnodup).2.1
    have h3 := List.disjoint_of_nodup_append h2
    exact h3 hmem (List.mem_singleton_self _)
  obtain ⟨w', wi', hsteps, hrest⟩ := published_of_holding r.world i wi o.completed temp
    after_reset hwi hpoint (fun _ => hclear) hwait htemp hentry hrep.2.1 hnew hstop
  exact ⟨hclear, o.completed, w', wi', hrep.2.1, hnew, hsteps, hrest⟩

theorem stolen_run_eq :
    run { world := thread_group_init fresh_world 3 (some continue_proc) true }
      stolen_actions = some stolen_run := by
  unfold stolen_run
  exact some_getD_of_isSome _ { world := fresh_world } (by decide!)

theorem stolen_worker_eq : stolen_run.world.group.worker_info[0]? = some stolen_worker :=
  some_getD_of_isSome _ idle_worker (by decide!)

theorem stolen_worker_point : stolen_worker.thread.point = Program_Point.loop_test := by
  decide!

theorem stolen_worker_entry : stolen_worker.thread.entry = 3 := by
  decide!

/-- C29 on the run `stolen_run`: worker 0 stands at the loop test holding the entry at address
3 with the payload 9, stolen from worker 2, its completed list holding the payload 7; three
steps later its completed list holds 7 and 9, and the entry has `next` null and `thread_index`
1, the index of the thread of worker 0. -/
theorem fetched_entry_processed_and_completed_witness :
    (stolen_run.world.group.worker_info.map (worker_view stolen_run.world.memory)
        = [⟨Program_Point.loop_test, false, 0, [], [7]⟩,
          ⟨Program_Point.run_proc, false, 0, [], []⟩,
          ⟨Program_Point.suspended, false, 1, [], []⟩] ∧
      stolen_worker.thread.entry = 3 ∧ (stolen_run.world.memory 3).work = 9 ∧
      stolen_worker.thread.index = 1) ∧
    ((thread_steps 0 3 stolen_run.world).map (fun w =>
        (w.group.worker_info.map (worker_view w.memory), (w.memory 3).next,
          (w.memory 3).thread_index, (w.memory 3).work))
      = some ([⟨Program_Point.steal_test, false, 0, [], [7, 9]⟩,
          ⟨Program_Point.run_proc, false, 0, [], []⟩,
          ⟨Program_Point.suspended, false, 1, [], []⟩], 0, 1, 9)) ∧
    (run { temp := fresh_arena
           world := thread_group_init fresh_world 3 (some continue_proc) true }
        stolen_actions = some stolen_run ∧
      stolen_run.world.group.worker_info[0]? = some stolen_worker ∧
      stolen_worker.thread.point = Program_Point.loop_test ∧
      stolen_worker.thread.entry ≠ 0) ∧
    stolen_run.world.group.should_exit = false ∧
    ∃ (xs : List Nat) (w' : World) (wi' : Worker_Info),
      Holds stolen_run.world.memory stolen_worker.completed xs ∧
      stolen_worker.thread.entry ∉ xs ∧
      thread_steps 0
        (if stolen_worker.thread.point = Program_Point.run_proc then 2
          else if stolen_worker.thread.point = Program_Point.loop_test then 3 else 4)
        stolen_run.world = some w' ∧
      w'.group.worker_info[0]? = some wi' ∧
      (∀ k : Nat, k ≠ 0 →
        w'.group.worker_info[k]? = stolen_run.world.group.worker_info[k]?) ∧
      Holds w'.memory wi'.completed (xs ++ [stolen_worker.thread.entry]) ∧
      w'.memory stolen_worker.thread.entry =
        { stolen_run.world.memory stolen_worker.thread.entry with
          thread_index := stolen_worker.thread.index, next := 0 } ∧
      wi'.thread.temp =
        (if (call_proc stolen_run.world.group.proc stolen_worker.thread.index
            (stolen_run.world.memory stolen_worker.thread.entry).work
            stolen_worker.thread.temp).1
            = Thread_Continue_Status.STOP then fresh_arena
        else (call_proc stolen_run.world.group.proc stolen_worker.thread.index
          (stolen_run.world.memory stolen_worker.thread.entry).work
          stolen_worker.thread.temp).2) ∧
      wi'.thread.point =
        (if (call_proc stolen_run.world.group.proc stolen_worker.thread.index
            (stolen_run.world.memory stolen_worker.thread.entry).work
            stolen_worker.thread.temp).1
            = Thread_Continue_Status.STOP then Program_Point.finished
        else Program_Point.steal_test) :=
  ⟨⟨by decide!, stolen_worker_entry, by decide!, by decide!⟩, by decide!,
    ⟨stolen_run_eq, stolen_worker_eq, stolen_worker_point,
      by rw [stolen_worker_entry]; decide⟩,
    fetched_entry_processed_and_completed fresh_world 3 (some continue_proc) true fresh_arena
      stolen_actions stolen_run 0 stolen_worker stolen_worker.thread.temp fresh_arena
      (by decide) rfl rfl bump_new_address_fresh stolen_run_eq stolen_worker_eq
      (Or.inr (Or.inl stolen_worker_point))
      (fun h => absurd h (by rw [stolen_worker_point]; decide))
      (fun _ => rfl)
      (by rw [stolen_worker_entry]; decide)
      (fun h => absurd h (by decide!))⟩

/-! ## Theorems: what a shutdown returns, and when -/

end Utilities
